import Mathlib

set_option maxHeartbeats 1000000

/-!
Verification of a generic linked-list library offering four container
variants (singly linked, doubly linked, and their circular versions)
built from two node kinds.

The Go code is embedded shallowly: nodes live in an arena (`List` of
node records) addressed by natural-number indices, and a nullable Go
pointer becomes `Option Nat`.  Every traversal loop of the source that
has no structural termination measure is given explicit fuel; on
well-formed lists the fuel is always sufficient, which the chain lemmas
below establish.  The Go `int` fields (`size`, indices) are modelled by
`Int`.
-/

variable {T : Type}

/-- A node of a singly linked list: a value and a nullable next pointer. -/
structure SNode (T : Type) where
  value : T
  next  : Option Nat
deriving DecidableEq, Repr

/-- A node of a doubly linked list: a value and nullable next/prev pointers. -/
structure DNode (T : Type) where
  value : T
  next  : Option Nat
  prev  : Option Nat
deriving DecidableEq, Repr

/-- Arena of singly linked nodes; the address of a node is its index. -/
abbrev SHeap (T : Type) := List (SNode T)

/-- Arena of doubly linked nodes. -/
abbrev DHeap (T : Type) := List (DNode T)

/-- Read the next pointer of the node at address `i` (dangling reads give `none`). -/
def sNextF (h : SHeap T) (i : Nat) : Option Nat := (h.get? i).bind SNode.next

/-- Read the value of the node at address `i` (dangling reads give `default`). -/
def sValD [Inhabited T] (h : SHeap T) (i : Nat) : T := ((h.get? i).map SNode.value).getD default

/-- Overwrite the next pointer of the node at address `i`. -/
def sSetNext (h : SHeap T) (i : Nat) (p : Option Nat) : SHeap T :=
  match h.get? i with
  | some nd => h.set i ⟨nd.value, p⟩
  | none => h

/-- Overwrite the value of the node at address `i`. -/
def sSetVal (h : SHeap T) (i : Nat) (v : T) : SHeap T :=
  match h.get? i with
  | some nd => h.set i ⟨v, nd.next⟩
  | none => h

/-- Read the next pointer of a doubly linked node. -/
def dNextF (h : DHeap T) (i : Nat) : Option Nat := (h.get? i).bind DNode.next

/-- Read the prev pointer of a doubly linked node. -/
def dPrevF (h : DHeap T) (i : Nat) : Option Nat := (h.get? i).bind DNode.prev

/-- Read the value of a doubly linked node. -/
def dValD [Inhabited T] (h : DHeap T) (i : Nat) : T := ((h.get? i).map DNode.value).getD default

/-- Overwrite the next pointer of a doubly linked node. -/
def dSetNext (h : DHeap T) (i : Nat) (p : Option Nat) : DHeap T :=
  match h.get? i with
  | some nd => h.set i ⟨nd.value, p, nd.prev⟩
  | none => h

/-- Overwrite the prev pointer of a doubly linked node. -/
def dSetPrev (h : DHeap T) (i : Nat) (p : Option Nat) : DHeap T :=
  match h.get? i with
  | some nd => h.set i ⟨nd.value, nd.next, p⟩
  | none => h

/-- Overwrite the value of a doubly linked node. -/
def dSetVal (h : DHeap T) (i : Nat) (v : T) : DHeap T :=
  match h.get? i with
  | some nd => h.set i ⟨v, nd.next, nd.prev⟩
  | none => h

/-- Follow a nullable pointer one step through a next-pointer map `nf`. -/
def optNext (nf : Nat → Option Nat) (p : Option Nat) : Option Nat := p.bind nf

/-- Dereference a nullable pointer for its stored value (dangling gives `default`). -/
def optVal [Inhabited T] (vf : Nat → T) : Option Nat → T
  | some i => vf i
  | none => default

/-- Write the next pointer through a nullable pointer (nil pointer: no effect). -/
def pSetNextS (h : SHeap T) (p : Option Nat) (q : Option Nat) : SHeap T :=
  match p with
  | some i => sSetNext h i q
  | none => h

/-- Write the value through a nullable pointer (nil pointer: no effect). -/
def pSetValS (h : SHeap T) (p : Option Nat) (v : T) : SHeap T :=
  match p with
  | some i => sSetVal h i v
  | none => h

/-- Write the next pointer through a nullable doubly pointer. -/
def pSetNextD (h : DHeap T) (p : Option Nat) (q : Option Nat) : DHeap T :=
  match p with
  | some i => dSetNext h i q
  | none => h

/-- Write the prev pointer through a nullable doubly pointer. -/
def pSetPrevD (h : DHeap T) (p : Option Nat) (q : Option Nat) : DHeap T :=
  match p with
  | some i => dSetPrev h i q
  | none => h

/-- Write the value through a nullable doubly pointer. -/
def pSetValD (h : DHeap T) (p : Option Nat) (v : T) : DHeap T :=
  match p with
  | some i => dSetVal h i v
  | none => h

/-- Iterate `current = current.Next()` a fixed number of times
(the Go pattern `for range k`). -/
def iterN (nf : Nat → Option Nat) : Nat → Option Nat → Option Nat
  | 0, p => p
  | k + 1, p => iterN nf k (optNext nf p)

/-- The nil-terminated search loop of the linear lists:
`for current := head; current != nil; current = current.Next()`. -/
def findLoopL [DecidableEq T] (nf : Nat → Option Nat) (vf : Nat → T) (value : T) :
    Nat → Option Nat → Option Nat
  | 0, _ => none
  | fuel + 1, cur =>
    match cur with
    | none => none
    | some i => if vf i = value then some i else findLoopL nf vf value fuel (nf i)

/-- The sentinel search loop of the circular singly list: examine the current
node, advance, and stop upon returning to the head. -/
def findLoopC [Inhabited T] [DecidableEq T] (nf : Nat → Option Nat) (vf : Nat → T)
    (value : T) (hd : Option Nat) : Nat → Option Nat → Option Nat
  | 0, _ => none
  | fuel + 1, cur =>
    if optVal vf cur = value then cur
    else
      let nxt := optNext nf cur
      if nxt = hd then none else findLoopC nf vf value hd fuel nxt

/-- The counted search loop of the circular doubly list: examine exactly
`size` nodes starting at head. -/
def findLoopN [Inhabited T] [DecidableEq T] (nf : Nat → Option Nat) (vf : Nat → T)
    (value : T) : Nat → Option Nat → Option Nat
  | 0, _ => none
  | k + 1, cur =>
    if optVal vf cur = value then cur
    else findLoopN nf vf value k (optNext nf cur)

/-- The predecessor walk `for current.Next() != target { current = current.Next() }`. -/
def predWalk (nf : Nat → Option Nat) (target : Option Nat) : Nat → Option Nat → Option Nat
  | 0, p => p
  | fuel + 1, p => if optNext nf p = target then p else predWalk nf target fuel (optNext nf p)

/-- Collect the values seen by a nil-terminated traversal from `cur`. -/
def collectL [Inhabited T] (nf : Nat → Option Nat) (vf : Nat → T) :
    Nat → Option Nat → List T
  | 0, _ => []
  | fuel + 1, cur =>
    match cur with
    | none => []
    | some i => vf i :: collectL nf vf fuel (nf i)

/-- Collect the values seen by a counted traversal of exactly `k` steps from `cur`. -/
def collectC [Inhabited T] (nf : Nat → Option Nat) (vf : Nat → T) :
    Nat → Option Nat → List T
  | 0, _ => []
  | k + 1, cur => optVal vf cur :: collectC nf vf k (optNext nf cur)

/-- The string-building loop of the linear lists: print the current node,
stop if it has no next, otherwise print the separator and continue. -/
def stringLoopL [Inhabited T] [ToString T] (nf : Nat → Option Nat) (vf : Nat → T)
    (sep : String) : Nat → Option Nat → String
  | 0, _ => ""
  | fuel + 1, cur =>
    "[" ++ toString (optVal vf cur) ++ "]" ++
      match optNext nf cur with
      | none => ""
      | some j => sep ++ stringLoopL nf vf sep fuel (some j)

/-- The string-building loop of the circular lists: print exactly `size`
nodes, emitting the separator after every node except the last
(the Go test `i < size-1` becomes: at least two nodes remain). -/
def stringLoopC [Inhabited T] [ToString T] (nf : Nat → Option Nat) (vf : Nat → T)
    (sep : String) : Nat → Option Nat → String
  | 0, _ => ""
  | 1, cur => "[" ++ toString (optVal vf cur) ++ "]"
  | k + 2, cur =>
    "[" ++ toString (optVal vf cur) ++ "]" ++ sep ++ stringLoopC nf vf sep (k + 1) (optNext nf cur)

/-- The linear singly linked list: head/tail pointers into an arena plus a size counter. -/
structure SinglyLinkedList (T : Type) where
  heap : SHeap T
  head : Option Nat
  tail : Option Nat
  size : Int
deriving DecidableEq, Repr

/-- NewSinglyLinkedList: the empty list. -/
def SinglyLinkedList.New : SinglyLinkedList T := ⟨[], none, none, 0⟩

/-- Head accessor. -/
def SinglyLinkedList.Head (l : SinglyLinkedList T) : Option Nat := l.head

/-- Tail accessor. -/
def SinglyLinkedList.Tail (l : SinglyLinkedList T) : Option Nat := l.tail

/-- Size accessor. -/
def SinglyLinkedList.Size (l : SinglyLinkedList T) : Int := l.size

/-- IsEmpty: `l.Size() == 0`. -/
def SinglyLinkedList.IsEmpty (l : SinglyLinkedList T) : Bool := l.size == 0

/-- Clear: drop head/tail references and reset size (old nodes become garbage
in the arena, as under Go garbage collection). -/
def SinglyLinkedList.Clear (l : SinglyLinkedList T) : SinglyLinkedList T :=
  { l with head := none, tail := none, size := 0 }

/-- Prepend: allocate, link the new node to the old head, make it the head,
and set tail if the list was empty. -/
def SinglyLinkedList.Prepend (l : SinglyLinkedList T) (value : T) : SinglyLinkedList T :=
  let n := l.heap.length
  let h0 := l.heap ++ [⟨value, none⟩]
  let h1 := sSetNext h0 n l.head
  { heap := h1, head := some n,
    tail := if l.tail = none then some n else l.tail,
    size := l.size + 1 }

/-- Append: allocate, set head if the list was empty, link the old tail to the
new node if there is one, and make the new node the tail. -/
def SinglyLinkedList.Append (l : SinglyLinkedList T) (value : T) : SinglyLinkedList T :=
  let n := l.heap.length
  let h0 := l.heap ++ [⟨value, none⟩]
  let h1 := pSetNextS h0 l.tail (some n)
  { heap := h1,
    head := if l.head = none then some n else l.head,
    tail := some n, size := l.size + 1 }

/-- Find: nil-terminated scan from head for the first node holding `value`. -/
def SinglyLinkedList.Find [Inhabited T] [DecidableEq T] (l : SinglyLinkedList T) (value : T) :
    Option Nat :=
  findLoopL (sNextF l.heap) (sValD l.heap) value (l.heap.length + 1) l.head

/-- Contains: `l.Find(value) != nil`. -/
def SinglyLinkedList.Contains [Inhabited T] [DecidableEq T] (l : SinglyLinkedList T)
    (value : T) : Bool :=
  (l.Find value).isSome

/-- RemoveFirst: advance head; clear tail if the list became empty. -/
def SinglyLinkedList.RemoveFirst (l : SinglyLinkedList T) : SinglyLinkedList T :=
  if l.size = 0 then l
  else
    let newHead := optNext (sNextF l.heap) l.head
    { l with head := newHead,
             tail := if newHead = none then none else l.tail,
             size := l.size - 1 }

/-- RemoveLast: on a singleton drop both ends, otherwise walk to the
predecessor of the tail, cut its next link, and make it the tail. -/
def SinglyLinkedList.RemoveLast (l : SinglyLinkedList T) : SinglyLinkedList T :=
  if l.size = 0 then l
  else if l.size = 1 then { l with head := none, tail := none, size := l.size - 1 }
  else
    let pred := predWalk (sNextF l.heap) l.tail (l.heap.length + 1) l.head
    { heap := pSetNextS l.heap pred none,
      head := l.head, tail := pred, size := l.size - 1 }

/-- Remove: find the first node with the value; drop head via RemoveFirst,
otherwise walk to the node's predecessor and relink around it, updating
tail if the removed node was the tail. -/
def SinglyLinkedList.Remove [Inhabited T] [DecidableEq T] (l : SinglyLinkedList T) (value : T) :
    SinglyLinkedList T :=
  match l.Find value with
  | none => l
  | some m =>
    if some m = l.head then l.RemoveFirst
    else
      let prev := predWalk (sNextF l.heap) (some m) (l.heap.length + 1) l.head
      { heap := pSetNextS l.heap prev (sNextF l.heap m),
        head := l.head,
        tail := if some m = l.tail then prev else l.tail,
        size := l.size - 1 }

/-- InsertAt: index 0 prepends, index size appends, otherwise walk
`index-1` links and splice a new node after the stop position.
Out-of-range indices produce an error and leave the list untouched. -/
def SinglyLinkedList.InsertAt [Inhabited T] (l : SinglyLinkedList T) (index : Int) (value : T) :
    Option String × SinglyLinkedList T :=
  if index < 0 ∨ index > l.size then
    (some ("index " ++ toString index ++ " out of bounds"), l)
  else if index = 0 then (none, l.Prepend value)
  else if index = l.size then (none, l.Append value)
  else
    let current := iterN (sNextF l.heap) (index - 1).toNat l.head
    let n := l.heap.length
    let h0 := l.heap ++ [⟨value, none⟩]
    let h1 := sSetNext h0 n (optNext (sNextF h0) current)
    let h2 := pSetNextS h1 current (some n)
    (none, { heap := h2, head := l.head, tail := l.tail, size := l.size + 1 })

/-- Get: range check, then walk `index` links from head and return that node. -/
def SinglyLinkedList.Get (l : SinglyLinkedList T) (index : Int) :
    Option String × Option Nat :=
  if index < 0 ∨ index ≥ l.size then
    (some ("index " ++ toString index ++ " out of bounds"), none)
  else (none, iterN (sNextF l.heap) index.toNat l.head)

/-- Set: Get the node and overwrite its value; propagate the range error. -/
def SinglyLinkedList.Set [Inhabited T] (l : SinglyLinkedList T) (index : Int) (value : T) :
    Option String × SinglyLinkedList T :=
  match l.Get index with
  | (some _, _) => (some ("index " ++ toString index ++ " out of bounds"), l)
  | (none, p) => (none, { l with heap := pSetValS l.heap p value })

/-- The pointer-reversal loop of the linear lists: while current is non-nil,
remember next, point current at prev, and advance. -/
def sReverseLoop (h : SHeap T) (prev cur : Option Nat) : Nat → SHeap T × Option Nat
  | 0 => (h, prev)
  | fuel + 1 =>
    match cur with
    | none => (h, prev)
    | some i => sReverseLoop (sSetNext h i prev) (some i) (sNextF h i) fuel

/-- Reverse: run the pointer-reversal loop from head; the old head becomes
the tail and the last node processed becomes the head. -/
def SinglyLinkedList.Reverse (l : SinglyLinkedList T) : SinglyLinkedList T :=
  let r := sReverseLoop l.heap none l.head (l.heap.length + 1)
  { heap := r.1, head := r.2, tail := l.head, size := l.size }

/-- ForEach visit trace: the values passed to the action, in call order. -/
def SinglyLinkedList.ForEachSeq [Inhabited T] (l : SinglyLinkedList T) : List T :=
  collectL (sNextF l.heap) (sValD l.heap) (l.heap.length + 1) l.head

/-- The String() method of the linear singly list. -/
def sllString [Inhabited T] [ToString T] (l : SinglyLinkedList T) : String :=
  if l.size = 0 then "SinglyLinkedList: []"
  else "SinglyLinkedList: " ++
    stringLoopL (sNextF l.heap) (sValD l.heap) " -> " (l.heap.length + 1) l.head

/-- The circular singly linked list: only a tail pointer is stored;
the head is always `tail.Next()`. -/
structure CircularSinglyLinkedList (T : Type) where
  heap : SHeap T
  tail : Option Nat
  size : Int
deriving DecidableEq, Repr

/-- NewCircularSinglyLinkedList: the empty list. -/
def CircularSinglyLinkedList.New : CircularSinglyLinkedList T := ⟨[], none, 0⟩

/-- Tail accessor. -/
def CircularSinglyLinkedList.Tail (l : CircularSinglyLinkedList T) : Option Nat := l.tail

/-- Head: nil when the list is empty, otherwise `tail.Next()`. -/
def CircularSinglyLinkedList.Head (l : CircularSinglyLinkedList T) : Option Nat :=
  match l.tail with
  | none => none
  | some t => sNextF l.heap t

/-- Size accessor. -/
def CircularSinglyLinkedList.Size (l : CircularSinglyLinkedList T) : Int := l.size

/-- IsEmpty: `l.Size() == 0`. -/
def CircularSinglyLinkedList.IsEmpty (l : CircularSinglyLinkedList T) : Bool := l.size == 0

/-- Clear: drop the tail reference and reset size. -/
def CircularSinglyLinkedList.Clear (l : CircularSinglyLinkedList T) :
    CircularSinglyLinkedList T :=
  { l with tail := none, size := 0 }

/-- Prepend: on the empty list the new node links to itself and becomes the
tail; otherwise the new node is spliced between the tail and the current head. -/
def CircularSinglyLinkedList.Prepend (l : CircularSinglyLinkedList T) (value : T) :
    CircularSinglyLinkedList T :=
  let n := l.heap.length
  if l.size = 0 then
    { heap := l.heap ++ [⟨value, some n⟩], tail := some n, size := l.size + 1 }
  else
    let h0 := l.heap ++ [⟨value, none⟩]
    let h1 := sSetNext h0 n (optNext (sNextF h0) l.tail)
    let h2 := pSetNextS h1 l.tail (some n)
    { heap := h2, tail := l.tail, size := l.size + 1 }

/-- Append: prepend, then advance the tail to the newly inserted node. -/
def CircularSinglyLinkedList.Append (l : CircularSinglyLinkedList T) (value : T) :
    CircularSinglyLinkedList T :=
  let l1 := l.Prepend value
  { l1 with tail := optNext (sNextF l1.heap) l1.tail }

/-- Find: empty gives nil, otherwise the sentinel scan from head. -/
def CircularSinglyLinkedList.Find [Inhabited T] [DecidableEq T]
    (l : CircularSinglyLinkedList T) (value : T) : Option Nat :=
  if l.size = 0 then none
  else findLoopC (sNextF l.heap) (sValD l.heap) value l.Head (l.heap.length + 1) l.Head

/-- Contains: `l.Find(value) != nil`. -/
def CircularSinglyLinkedList.Contains [Inhabited T] [DecidableEq T]
    (l : CircularSinglyLinkedList T) (value : T) : Bool :=
  (l.Find value).isSome

/-- RemoveFirst: a singleton clears the list, otherwise the tail skips over
the old head. -/
def CircularSinglyLinkedList.RemoveFirst (l : CircularSinglyLinkedList T) :
    CircularSinglyLinkedList T :=
  if l.size = 0 then l
  else if l.size = 1 then l.Clear
  else
    { l with heap := pSetNextS l.heap l.tail (optNext (sNextF l.heap) (optNext (sNextF l.heap) l.tail)),
             size := l.size - 1 }

/-- RemoveLast: a singleton clears the list, otherwise walk to the
predecessor of the tail, wrap it to the head, and make it the tail. -/
def CircularSinglyLinkedList.RemoveLast (l : CircularSinglyLinkedList T) :
    CircularSinglyLinkedList T :=
  if l.size = 0 then l
  else if l.size = 1 then l.Clear
  else
    let pred := predWalk (sNextF l.heap) l.tail (l.heap.length + 1) l.Head
    { heap := pSetNextS l.heap pred (optNext (sNextF l.heap) l.tail),
      tail := pred, size := l.size - 1 }

/-- The counted removal scan of the circular singly list: carry the previous
node, compare values, and on the first match either clear a singleton or
relink the predecessor around the match (fixing tail when the match was
the tail). -/
def csRemoveLoop [Inhabited T] [DecidableEq T] (l : CircularSinglyLinkedList T) (value : T) :
    Nat → Option Nat → Option Nat → CircularSinglyLinkedList T
  | 0, _, _ => l
  | k + 1, prev, cur =>
    if optVal (sValD l.heap) cur = value then
      if l.size = 1 then l.Clear
      else
        { heap := pSetNextS l.heap prev (optNext (sNextF l.heap) cur),
          tail := if cur = l.tail then prev else l.tail,
          size := l.size - 1 }
    else csRemoveLoop l value k cur (optNext (sNextF l.heap) cur)

/-- Remove: scan at most `size` nodes starting at head with `prev`
initialised to the tail. -/
def CircularSinglyLinkedList.Remove [Inhabited T] [DecidableEq T]
    (l : CircularSinglyLinkedList T) (value : T) : CircularSinglyLinkedList T :=
  if l.size = 0 then l
  else csRemoveLoop l value l.size.toNat l.tail l.Head

/-- The String() method of the circular singly list. -/
def csllString [Inhabited T] [ToString T] (l : CircularSinglyLinkedList T) : String :=
  if l.size = 0 then "CircularSinglyLinkedList: []"
  else "CircularSinglyLinkedList: " ++
    stringLoopC (sNextF l.heap) (sValD l.heap) " -> " l.size.toNat l.Head

/-- InsertAt: index 0 prepends, index size appends, otherwise walk
`index-1` links from head and splice after the stop position. -/
def CircularSinglyLinkedList.InsertAt [Inhabited T] (l : CircularSinglyLinkedList T)
    (index : Int) (value : T) : Option String × CircularSinglyLinkedList T :=
  if index < 0 ∨ index > l.size then
    (some ("index " ++ toString index ++ " out of bounds"), l)
  else if index = 0 then (none, l.Prepend value)
  else if index = l.size then (none, l.Append value)
  else
    let current := iterN (sNextF l.heap) (index - 1).toNat l.Head
    let n := l.heap.length
    let h0 := l.heap ++ [⟨value, none⟩]
    let h1 := sSetNext h0 n (optNext (sNextF h0) current)
    let h2 := pSetNextS h1 current (some n)
    (none, { heap := h2, tail := l.tail, size := l.size + 1 })

/-- Get: range check, then walk `index` links from head. -/
def CircularSinglyLinkedList.Get (l : CircularSinglyLinkedList T) (index : Int) :
    Option String × Option Nat :=
  if index < 0 ∨ index ≥ l.size then
    (some ("index " ++ toString index ++ " out of bounds"), none)
  else (none, iterN (sNextF l.heap) index.toNat l.Head)

/-- Set: Get the node and overwrite its value; propagate the range error. -/
def CircularSinglyLinkedList.Set [Inhabited T] (l : CircularSinglyLinkedList T)
    (index : Int) (value : T) : Option String × CircularSinglyLinkedList T :=
  match l.Get index with
  | (some e, _) => (some e, l)
  | (none, p) => (none, { l with heap := pSetValS l.heap p value })

/-- The counted pointer-reversal loop of the circular singly list: exactly
`size` iterations of remember-next, point-at-prev, advance. -/
def csReverseLoop (h : SHeap T) (prev cur : Option Nat) : Nat → SHeap T × Option Nat
  | 0 => (h, prev)
  | k + 1 =>
    let nxt := optNext (sNextF h) cur
    csReverseLoop (pSetNextS h cur prev) cur nxt k

/-- Reverse: no-op for size 0 or 1; otherwise run the counted reversal loop
from head, close the ring by pointing the old head at the last processed
node, and make the old head the new tail. -/
def CircularSinglyLinkedList.Reverse (l : CircularSinglyLinkedList T) :
    CircularSinglyLinkedList T :=
  if l.size = 0 ∨ l.size = 1 then l
  else
    let hd := l.Head
    let r := csReverseLoop l.heap none hd l.size.toNat
    { heap := pSetNextS r.1 hd r.2, tail := hd, size := l.size }

/-- ForEach visit trace: empty visits nothing, otherwise exactly `size`
values starting at head. -/
def CircularSinglyLinkedList.ForEachSeq [Inhabited T] (l : CircularSinglyLinkedList T) :
    List T :=
  if l.size = 0 then []
  else collectC (sNextF l.heap) (sValD l.heap) l.size.toNat l.Head

/-- The linear doubly linked list: head/tail pointers into a doubly arena
plus a size counter. -/
structure DoublyLinkedList (T : Type) where
  heap : DHeap T
  head : Option Nat
  tail : Option Nat
  size : Int
deriving DecidableEq, Repr

/-- NewDoublyLinkedList: the empty list. -/
def DoublyLinkedList.New : DoublyLinkedList T := ⟨[], none, none, 0⟩

/-- Head accessor. -/
def DoublyLinkedList.Head (l : DoublyLinkedList T) : Option Nat := l.head

/-- Tail accessor. -/
def DoublyLinkedList.Tail (l : DoublyLinkedList T) : Option Nat := l.tail

/-- Size accessor. -/
def DoublyLinkedList.Size (l : DoublyLinkedList T) : Int := l.size

/-- IsEmpty: `l.Size() == 0`. -/
def DoublyLinkedList.IsEmpty (l : DoublyLinkedList T) : Bool := l.size == 0

/-- Clear: drop head/tail references and reset size. -/
def DoublyLinkedList.Clear (l : DoublyLinkedList T) : DoublyLinkedList T :=
  { l with head := none, tail := none, size := 0 }

/-- Prepend: allocate; an empty list also gains the new node as tail,
otherwise the new node links forward to the old head whose prev is fixed up;
the new node becomes the head. -/
def DoublyLinkedList.Prepend (l : DoublyLinkedList T) (value : T) : DoublyLinkedList T :=
  let n := l.heap.length
  let h0 := l.heap ++ [⟨value, none, none⟩]
  if l.size = 0 then
    { heap := h0, head := some n, tail := some n, size := l.size + 1 }
  else
    let h1 := dSetNext h0 n l.head
    let h2 := pSetPrevD h1 l.head (some n)
    { heap := h2, head := some n, tail := l.tail, size := l.size + 1 }

/-- Append: mirror image of Prepend at the tail end. -/
def DoublyLinkedList.Append (l : DoublyLinkedList T) (value : T) : DoublyLinkedList T :=
  let n := l.heap.length
  let h0 := l.heap ++ [⟨value, none, none⟩]
  if l.size = 0 then
    { heap := h0, head := some n, tail := some n, size := l.size + 1 }
  else
    let h1 := pSetNextD h0 l.tail (some n)
    let h2 := dSetPrev h1 n l.tail
    { heap := h2, head := l.head, tail := some n, size := l.size + 1 }

/-- Find: nil-terminated scan from head. -/
def DoublyLinkedList.Find [Inhabited T] [DecidableEq T] (l : DoublyLinkedList T) (value : T) :
    Option Nat :=
  findLoopL (dNextF l.heap) (dValD l.heap) value (l.heap.length + 1) l.head

/-- Contains is not in the Go doubly list API surface used by the claims,
but Find drives Remove, so keep the membership check for the value trace. -/
def DoublyLinkedList.Contains [Inhabited T] [DecidableEq T] (l : DoublyLinkedList T)
    (value : T) : Bool :=
  (l.Find value).isSome

/-- RemoveFirst: advance head and decrement; an emptied list also drops the
tail, otherwise the new head's prev becomes nil. -/
def DoublyLinkedList.RemoveFirst (l : DoublyLinkedList T) : DoublyLinkedList T :=
  if l.size = 0 then l
  else
    let newHead := optNext (dNextF l.heap) l.head
    if l.size - 1 = 0 then
      { l with head := newHead, tail := none, size := l.size - 1 }
    else
      { l with heap := pSetPrevD l.heap newHead none, head := newHead, size := l.size - 1 }

/-- RemoveLast: a singleton drops both ends; otherwise `tail.Prev()` becomes
the tail and its next link is cut. -/
def DoublyLinkedList.RemoveLast (l : DoublyLinkedList T) : DoublyLinkedList T :=
  if l.size = 0 then l
  else if l.size = 1 then { l with head := none, tail := none, size := 0 }
  else
    let newTail := optNext (dPrevF l.heap) l.tail
    { l with heap := pSetNextD l.heap newTail none, tail := newTail, size := l.size - 1 }

/-- Remove: find the node; head and tail cases delegate to
RemoveFirst/RemoveLast, the middle case splices via the node's own
prev/next pointers. -/
def DoublyLinkedList.Remove [Inhabited T] [DecidableEq T] (l : DoublyLinkedList T) (value : T) :
    DoublyLinkedList T :=
  match l.Find value with
  | none => l
  | some m =>
    if some m = l.head then l.RemoveFirst
    else if some m = l.tail then l.RemoveLast
    else
      let h1 := pSetNextD l.heap (dPrevF l.heap m) (dNextF l.heap m)
      let h2 := pSetPrevD h1 (dNextF h1 m) (dPrevF h1 m)
      { l with heap := h2, size := l.size - 1 }

/-- The String() method of the linear doubly list. -/
def dllString [Inhabited T] [ToString T] (l : DoublyLinkedList T) : String :=
  if l.size = 0 then "DoublyLinkedList: []"
  else "DoublyLinkedList: " ++
    stringLoopL (dNextF l.heap) (dValD l.heap) " ↔ " (l.heap.length + 1) l.head

/-- InsertAt: index 0 prepends, index size appends, otherwise walk `index`
links to the node currently at the index and splice the new node before it
using its prev pointer. -/
def DoublyLinkedList.InsertAt [Inhabited T] (l : DoublyLinkedList T) (index : Int) (value : T) :
    Option String × DoublyLinkedList T :=
  if index < 0 ∨ index > l.size then
    (some ("index " ++ toString index ++ " out of bounds"), l)
  else if index = 0 then (none, l.Prepend value)
  else if index = l.size then (none, l.Append value)
  else
    let n := l.heap.length
    let h0 := l.heap ++ [⟨value, none, none⟩]
    let current := iterN (dNextF h0) index.toNat l.head
    let prev := optNext (dPrevF h0) current
    let h1 := pSetNextD h0 prev (some n)
    let h2 := dSetPrev h1 n prev
    let h3 := dSetNext h2 n current
    let h4 := pSetPrevD h3 current (some n)
    (none, { heap := h4, head := l.head, tail := l.tail, size := l.size + 1 })

/-- Get: range check, then walk `index` links from head. -/
def DoublyLinkedList.Get (l : DoublyLinkedList T) (index : Int) :
    Option String × Option Nat :=
  if index < 0 ∨ index ≥ l.size then
    (some ("index " ++ toString index ++ " out of bounds"), none)
  else (none, iterN (dNextF l.heap) index.toNat l.head)

/-- Set: Get the node and overwrite its value; propagate the range error. -/
def DoublyLinkedList.Set [Inhabited T] (l : DoublyLinkedList T) (index : Int) (value : T) :
    Option String × DoublyLinkedList T :=
  match l.Get index with
  | (some e, _) => (some e, l)
  | (none, p) => (none, { l with heap := pSetValD l.heap p value })

/-- The pointer-swap loop of the linear doubly list: while current is
non-nil, remember next, point next at prev and prev at next, advance. -/
def dReverseLoop (h : DHeap T) (prev cur : Option Nat) : Nat → DHeap T × Option Nat
  | 0 => (h, prev)
  | fuel + 1 =>
    match cur with
    | none => (h, prev)
    | some i =>
      let nxt := dNextF h i
      dReverseLoop (dSetPrev (dSetNext h i prev) i nxt) (some i) nxt fuel

/-- Reverse: the old head becomes the tail up front, the loop swaps every
node's links, and the last node processed becomes the head. -/
def DoublyLinkedList.Reverse (l : DoublyLinkedList T) : DoublyLinkedList T :=
  let r := dReverseLoop l.heap none l.head (l.heap.length + 1)
  { heap := r.1, head := r.2, tail := l.head, size := l.size }

/-- ForEach visit trace. -/
def DoublyLinkedList.ForEachSeq [Inhabited T] (l : DoublyLinkedList T) : List T :=
  collectL (dNextF l.heap) (dValD l.heap) (l.heap.length + 1) l.head

/-- ToSlice: materialise all values head-to-tail. -/
def DoublyLinkedList.ToSlice [Inhabited T] (l : DoublyLinkedList T) : List T :=
  collectL (dNextF l.heap) (dValD l.heap) (l.heap.length + 1) l.head

/-- The circular doubly linked list: only a tail pointer is stored;
the head is always `tail.Next()`. -/
structure CircularDoublyLinkedList (T : Type) where
  heap : DHeap T
  tail : Option Nat
  size : Int
deriving DecidableEq, Repr

/-- NewCircularDoublyLinkedList: the empty list. -/
def CircularDoublyLinkedList.New : CircularDoublyLinkedList T := ⟨[], none, 0⟩

/-- Tail accessor. -/
def CircularDoublyLinkedList.Tail (l : CircularDoublyLinkedList T) : Option Nat := l.tail

/-- Head: nil when the list is empty, otherwise `tail.Next()`. -/
def CircularDoublyLinkedList.Head (l : CircularDoublyLinkedList T) : Option Nat :=
  match l.tail with
  | none => none
  | some t => dNextF l.heap t

/-- Size accessor. -/
def CircularDoublyLinkedList.Size (l : CircularDoublyLinkedList T) : Int := l.size

/-- IsEmpty: `l.Size() == 0`. -/
def CircularDoublyLinkedList.IsEmpty (l : CircularDoublyLinkedList T) : Bool := l.size == 0

/-- Clear: drop the tail reference and reset size. -/
def CircularDoublyLinkedList.Clear (l : CircularDoublyLinkedList T) :
    CircularDoublyLinkedList T :=
  { l with tail := none, size := 0 }

/-- Prepend: on the empty list the new node links to itself both ways and
becomes the tail; otherwise splice it between the tail and the current
head, fixing all four affected pointers. -/
def CircularDoublyLinkedList.Prepend (l : CircularDoublyLinkedList T) (value : T) :
    CircularDoublyLinkedList T :=
  let n := l.heap.length
  if l.size = 0 then
    { heap := l.heap ++ [⟨value, some n, some n⟩], tail := some n, size := l.size + 1 }
  else
    let hd := l.Head
    let h0 := l.heap ++ [⟨value, none, none⟩]
    let h1 := dSetNext h0 n hd
    let h2 := dSetPrev h1 n l.tail
    let h3 := pSetPrevD h2 hd (some n)
    let h4 := pSetNextD h3 l.tail (some n)
    { heap := h4, tail := l.tail, size := l.size + 1 }

/-- Append: prepend, then advance the tail to the newly inserted node. -/
def CircularDoublyLinkedList.Append (l : CircularDoublyLinkedList T) (value : T) :
    CircularDoublyLinkedList T :=
  let l1 := l.Prepend value
  { l1 with tail := optNext (dNextF l1.heap) l1.tail }

/-- Find: empty gives nil, otherwise the counted scan of `size` nodes from head. -/
def CircularDoublyLinkedList.Find [Inhabited T] [DecidableEq T]
    (l : CircularDoublyLinkedList T) (value : T) : Option Nat :=
  if l.size = 0 then none
  else findLoopN (dNextF l.heap) (dValD l.heap) value l.size.toNat l.Head

/-- Contains: `l.Find(value) != nil`. -/
def CircularDoublyLinkedList.Contains [Inhabited T] [DecidableEq T]
    (l : CircularDoublyLinkedList T) (value : T) : Bool :=
  (l.Find value).isSome

/-- RemoveFirst: a singleton clears the list, otherwise the tail links
forward to the second node whose prev is pointed back at the tail. -/
def CircularDoublyLinkedList.RemoveFirst (l : CircularDoublyLinkedList T) :
    CircularDoublyLinkedList T :=
  if l.size = 0 then l
  else if l.size = 1 then l.Clear
  else
    let hd := l.Head
    let newHead := optNext (dNextF l.heap) hd
    let h1 := pSetNextD l.heap l.tail newHead
    let h2 := pSetPrevD h1 newHead l.tail
    { l with heap := h2, size := l.size - 1 }

/-- RemoveLast: a singleton clears the list, otherwise `tail.Prev()` links
forward to the head, the head's prev is pointed back at it, and it becomes
the tail. -/
def CircularDoublyLinkedList.RemoveLast (l : CircularDoublyLinkedList T) :
    CircularDoublyLinkedList T :=
  if l.size = 0 then l
  else if l.size = 1 then l.Clear
  else
    let prev := optNext (dPrevF l.heap) l.tail
    let h1 := pSetNextD l.heap prev l.Head
    let hd1 := optNext (dNextF h1) l.tail
    let h2 := pSetPrevD h1 hd1 prev
    { heap := h2, tail := prev, size := l.size - 1 }

/-- The counted removal scan of the circular doubly list: on the first
match either clear a singleton or splice the node out via its own
prev/next pointers, fixing tail when the match was the tail. -/
def cdRemoveLoop [Inhabited T] [DecidableEq T] (l : CircularDoublyLinkedList T) (value : T) :
    Nat → Option Nat → CircularDoublyLinkedList T
  | 0, _ => l
  | k + 1, cur =>
    if optVal (dValD l.heap) cur = value then
      if l.size = 1 then l.Clear
      else
        let prev := optNext (dPrevF l.heap) cur
        let nxt := optNext (dNextF l.heap) cur
        let h1 := pSetNextD l.heap prev nxt
        let h2 := pSetPrevD h1 nxt prev
        { heap := h2,
          tail := if cur = l.tail then prev else l.tail,
          size := l.size - 1 }
    else cdRemoveLoop l value k (optNext (dNextF l.heap) cur)

/-- Remove: scan at most `size` nodes starting at head. -/
def CircularDoublyLinkedList.Remove [Inhabited T] [DecidableEq T]
    (l : CircularDoublyLinkedList T) (value : T) : CircularDoublyLinkedList T :=
  if l.size = 0 then l
  else cdRemoveLoop l value l.size.toNat l.Head

/-- The String() method of the circular doubly list. -/
def cdllString [Inhabited T] [ToString T] (l : CircularDoublyLinkedList T) : String :=
  if l.size = 0 then "CircularDoublyLinkedList: []"
  else "CircularDoublyLinkedList: " ++
    stringLoopC (dNextF l.heap) (dValD l.heap) " <-> " l.size.toNat l.Head

/-- InsertAt: index 0 prepends, index size appends, otherwise walk `index`
links to the node at the index and splice the new node before it using its
prev pointer. -/
def CircularDoublyLinkedList.InsertAt [Inhabited T] (l : CircularDoublyLinkedList T)
    (index : Int) (value : T) : Option String × CircularDoublyLinkedList T :=
  if index < 0 ∨ index > l.size then
    (some ("index " ++ toString index ++ " out of bounds"), l)
  else if index = 0 then (none, l.Prepend value)
  else if index = l.size then (none, l.Append value)
  else
    let current := iterN (dNextF l.heap) index.toNat l.Head
    let n := l.heap.length
    let h0 := l.heap ++ [⟨value, none, none⟩]
    let prev := optNext (dPrevF h0) current
    let h1 := pSetNextD h0 prev (some n)
    let h2 := dSetPrev h1 n prev
    let h3 := dSetNext h2 n current
    let h4 := pSetPrevD h3 current (some n)
    (none, { heap := h4, tail := l.tail, size := l.size + 1 })

/-- Get: range check, then walk `index` links from head. -/
def CircularDoublyLinkedList.Get (l : CircularDoublyLinkedList T) (index : Int) :
    Option String × Option Nat :=
  if index < 0 ∨ index ≥ l.size then
    (some ("index " ++ toString index ++ " out of bounds"), none)
  else (none, iterN (dNextF l.heap) index.toNat l.Head)

/-- Set: Get the node and overwrite its value; propagate the range error. -/
def CircularDoublyLinkedList.Set [Inhabited T] (l : CircularDoublyLinkedList T)
    (index : Int) (value : T) : Option String × CircularDoublyLinkedList T :=
  match l.Get index with
  | (some e, _) => (some e, l)
  | (none, p) => (none, { l with heap := pSetValD l.heap p value })

/-- The counted swap loop of the circular doubly reverse: at each of the
`size` nodes swap next and prev in one simultaneous assignment, then step
to the new prev (the old next). -/
def cdReverseLoop (h : DHeap T) (cur : Option Nat) : Nat → DHeap T × Option Nat
  | 0 => (h, cur)
  | k + 1 =>
    match cur with
    | none => cdReverseLoop h none k
    | some i =>
      let oldNext := dNextF h i
      let oldPrev := dPrevF h i
      let h1 := dSetPrev (dSetNext h i oldPrev) i oldNext
      cdReverseLoop h1 oldNext k

/-- Reverse: no-op for size 0 or 1; otherwise swap every node's links in
ring order and reassign the tail to the original head. -/
def CircularDoublyLinkedList.Reverse (l : CircularDoublyLinkedList T) :
    CircularDoublyLinkedList T :=
  if l.size = 0 ∨ l.size = 1 then l
  else
    let hd := l.Head
    let r := cdReverseLoop l.heap hd l.size.toNat
    { heap := r.1, tail := hd, size := l.size }

/-- ForEach visit trace: empty visits nothing, otherwise exactly `size`
values starting at head. -/
def CircularDoublyLinkedList.ForEachSeq [Inhabited T] (l : CircularDoublyLinkedList T) :
    List T :=
  if l.size = 0 then []
  else collectC (dNextF l.heap) (dValD l.heap) l.size.toNat l.Head

/-! ### Chains of heap addresses

`NChain nf c` says the addresses in `c` are linked in order by the
next-pointer map `nf`.  All traversal loops of the model are
characterised against such chains. -/

/-- The addresses of `c` are consecutively linked under `nf`. -/
def NChain (nf : Nat → Option Nat) (c : List Nat) : Prop :=
  List.Chain' (fun i j => nf i = some j) c

theorem nchain_nil (nf : Nat → Option Nat) : NChain nf [] := List.chain'_nil

theorem nchain_singleton (nf : Nat → Option Nat) (i : Nat) : NChain nf [i] :=
  List.chain'_singleton i

theorem nchain_cons_cons {nf : Nat → Option Nat} {i j : Nat} {c : List Nat} :
    NChain nf (i :: j :: c) ↔ nf i = some j ∧ NChain nf (j :: c) :=
  List.chain'_cons

theorem NChain.tail {nf : Nat → Option Nat} {c : List Nat} (h : NChain nf c) :
    NChain nf c.tail :=
  List.Chain'.tail h

/-- A duplicate-free list of naturals all below `n` has at most `n` elements. -/
theorem nodup_bounds_length {c : List Nat} {n : Nat} (hnd : c.Nodup)
    (hb : ∀ i ∈ c, i < n) : c.length ≤ n := by
  classical
  have h1 : c.toFinset.card = c.length := List.toFinset_card_of_nodup hnd
  have h2 : c.toFinset ⊆ Finset.range n := by
    intro i hi
    simp only [List.mem_toFinset] at hi
    simpa using hb i hi
  calc c.length = c.toFinset.card := h1.symm
    _ ≤ (Finset.range n).card := Finset.card_le_card h2
    _ = n := Finset.card_range n

/-- Chains agreeing pointwise on the members of `c` are interchangeable. -/
theorem nchain_congr {nf ng : Nat → Option Nat} {c : List Nat}
    (h : NChain nf c) (hag : ∀ i ∈ c, nf i = ng i) : NChain ng c := by
  induction c with
  | nil => exact nchain_nil ng
  | cons x c ih =>
    cases c with
    | nil => exact nchain_singleton ng x
    | cons y c2 =>
      rcases nchain_cons_cons.1 h with ⟨hxy, hrest⟩
      refine nchain_cons_cons.2 ⟨?_, ih hrest ?_⟩
      · rw [← hag x (by simp), hxy]
      · intro i hi; exact hag i (by simp [hi])

/-- Walking `k < |c|` steps from the head of a chain lands on `c.get? k`. -/
theorem nchain_iterN {nf : Nat → Option Nat} {c : List Nat} (hc : NChain nf c) :
    ∀ k, k < c.length → iterN nf k c.head? = c.get? k := by
  induction c with
  | nil => intro k hk; simp at hk
  | cons x c ih =>
    intro k hk
    cases k with
    | zero => simp [iterN]
    | succ k =>
      cases c with
      | nil => simp at hk
      | cons y c2 =>
        rcases nchain_cons_cons.1 hc with ⟨hxy, hrest⟩
        have : iterN nf (k + 1) (x :: y :: c2).head? = iterN nf k (y :: c2).head? := by
          simp [iterN, optNext, hxy]
        rw [this, ih hrest k (by simpa using hk)]
        simp [List.get?]

/-- Walking exactly `|c|` steps from the head of a nonempty chain follows the
last node's next pointer. -/
theorem nchain_iterN_last {nf : Nat → Option Nat} {c : List Nat} (hc : NChain nf c)
    (x : Option Nat) (hx : ∀ i, c.getLast? = some i → nf i = x) (hne : c ≠ []) :
    iterN nf c.length c.head? = x := by
  induction c with
  | nil => exact absurd rfl hne
  | cons a c ih =>
    cases c with
    | nil =>
      have := hx a (by simp)
      simp [iterN, optNext, this]
    | cons b c2 =>
      rcases nchain_cons_cons.1 hc with ⟨hab, hrest⟩
      have step : iterN nf (a :: b :: c2).length (a :: b :: c2).head? =
          iterN nf (b :: c2).length (b :: c2).head? := by
        simp [List.length_cons, iterN, optNext, hab]
      rw [step]
      refine ih hrest ?_ (by simp)
      intro i hi
      refine hx i ?_
      rw [List.getLast?_cons_cons] at *
      exact hi

/-- Reference search: the first address in `c` whose value equals `value`. -/
def firstMatch [DecidableEq T] (vf : Nat → T) (value : T) : List Nat → Option Nat
  | [] => none
  | i :: c => if vf i = value then some i else firstMatch vf value c

theorem firstMatch_eq_none_iff [DecidableEq T] {vf : Nat → T} {value : T} {c : List Nat} :
    firstMatch vf value c = none ↔ ∀ i ∈ c, vf i ≠ value := by
  induction c with
  | nil => simp [firstMatch]
  | cons x c ih =>
    by_cases hx : vf x = value <;> simp [firstMatch, hx, ih]

/-- A successful reference search splits the chain at the first match. -/
theorem firstMatch_eq_some [DecidableEq T] {vf : Nat → T} {value : T} {c : List Nat}
    {m : Nat} (h : firstMatch vf value c = some m) :
    ∃ c1 c2, c = c1 ++ m :: c2 ∧ (∀ i ∈ c1, vf i ≠ value) ∧ vf m = value := by
  induction c with
  | nil => simp [firstMatch] at h
  | cons x c ih =>
    by_cases hx : vf x = value
    · simp [firstMatch, hx] at h
      exact ⟨[], c, by simp [h], by simp, h ▸ hx⟩
    · simp [firstMatch, hx] at h
      rcases ih h with ⟨c1, c2, hsplit, hc1, hm⟩
      exact ⟨x :: c1, c2, by simp [hsplit], by simpa [hx] using hc1, hm⟩

theorem findLoopL_none [DecidableEq T] (nf : Nat → Option Nat) (vf : Nat → T) (value : T) :
    ∀ fuel, findLoopL nf vf value fuel none = none
  | 0 => rfl
  | _ + 1 => rfl

/-- The nil-terminated search loop computes the reference search, given
enough fuel and a nil-terminated chain. -/
theorem findLoopL_spec [DecidableEq T] {nf : Nat → Option Nat} {vf : Nat → T}
    {value : T} {c : List Nat} (hc : NChain nf c)
    (hlast : ∀ i, c.getLast? = some i → nf i = none) :
    ∀ fuel, c.length + 1 ≤ fuel →
      findLoopL nf vf value fuel c.head? = firstMatch vf value c := by
  induction c with
  | nil => intro fuel _; exact findLoopL_none nf vf value fuel
  | cons x c ih =>
    intro fuel hf
    match fuel, hf with
    | fuel + 1, hf =>
      have hstep : findLoopL nf vf value (fuel + 1) (x :: c).head? =
          if vf x = value then some x else findLoopL nf vf value fuel (nf x) := rfl
      have hfm : firstMatch vf value (x :: c) =
          if vf x = value then some x else firstMatch vf value c := rfl
      rw [hstep, hfm]
      by_cases hx : vf x = value
      · rw [if_pos hx, if_pos hx]
      · rw [if_neg hx, if_neg hx]
        cases c with
        | nil => rw [hlast x (by simp), findLoopL_none]; rfl
        | cons y c2 =>
          rcases nchain_cons_cons.1 hc with ⟨hxy, hrest⟩
          rw [hxy]
          exact ih hrest (fun i hi => hlast i (by rwa [List.getLast?_cons_cons])) fuel
            (by simp only [List.length_cons] at hf ⊢; omega)

/-- Every address in the front of a chain points at a member of the tail. -/
theorem nchain_next_mem_tail {nf : Nat → Option Nat} {c : List Nat} (hc : NChain nf c) :
    ∀ i ∈ c.dropLast, ∃ j ∈ c.tail, nf i = some j := by
  induction c with
  | nil => simp
  | cons x c ih =>
    cases c with
    | nil => simp
    | cons y c2 =>
      rcases nchain_cons_cons.1 hc with ⟨hxy, hrest⟩
      intro i hi
      rw [show (x :: y :: c2).dropLast = x :: (y :: c2).dropLast from rfl] at hi
      rcases List.mem_cons.1 hi with rfl | hi2
      · exact ⟨y, by simp, hxy⟩
      · rcases ih hrest i hi2 with ⟨j, hj, hnext⟩
        refine ⟨j, ?_, hnext⟩
        rw [show (y :: c2).tail = c2 from rfl] at hj
        simp [hj]

/-- The sentinel search loop of the circular scan computes the reference
search over the remaining window: the last window node wraps to `hd` and
no interior node points at `hd`. -/
theorem findLoopC_spec [Inhabited T] [DecidableEq T] {nf : Nat → Option Nat} {vf : Nat → T}
    {value : T} {hd : Option Nat} :
    ∀ (rest : List Nat), NChain nf rest → rest ≠ [] →
      (∀ i, rest.getLast? = some i → nf i = hd) →
      (∀ i ∈ rest.dropLast, nf i ≠ hd) →
      ∀ fuel, rest.length ≤ fuel →
      findLoopC nf vf value hd fuel rest.head? = firstMatch vf value rest := by
  intro rest
  induction rest with
  | nil => intro _ hne; exact absurd rfl hne
  | cons x c ih =>
    intro hc _ hlast hmid fuel hf
    match fuel, hf with
    | fuel + 1, hf =>
      have hstep : findLoopC nf vf value hd (fuel + 1) (x :: c).head? =
          if vf x = value then some x
          else if nf x = hd then none else findLoopC nf vf value hd fuel (nf x) := rfl
      have hfm : firstMatch vf value (x :: c) =
          if vf x = value then some x else firstMatch vf value c := rfl
      rw [hstep, hfm]
      by_cases hx : vf x = value
      · rw [if_pos hx, if_pos hx]
      · rw [if_neg hx, if_neg hx]
        cases c with
        | nil => rw [hlast x (by simp), if_pos rfl]; rfl
        | cons y c2 =>
          rcases nchain_cons_cons.1 hc with ⟨hxy, hrest⟩
          have hxd : nf x ≠ hd := hmid x
            (by rw [show (x :: y :: c2).dropLast = x :: (y :: c2).dropLast from rfl]
                exact List.mem_cons_self x _)
          rw [if_neg hxd, hxy]
          exact ih hrest (by simp)
            (fun i hi => hlast i (by rwa [List.getLast?_cons_cons]))
            (fun i hi => hmid i
              (by rw [show (x :: y :: c2).dropLast = x :: (y :: c2).dropLast from rfl]
                  exact List.mem_cons_of_mem x hi))
            fuel (by simp only [List.length_cons] at hf ⊢; omega)

/-- The counted search loop computes the reference search when run for
exactly the chain length. -/
theorem findLoopN_spec [Inhabited T] [DecidableEq T] {nf : Nat → Option Nat} {vf : Nat → T}
    {value : T} {c : List Nat} (hc : NChain nf c) :
    findLoopN nf vf value c.length c.head? = firstMatch vf value c := by
  induction c with
  | nil => rfl
  | cons x c ih =>
    have hstep : findLoopN nf vf value (x :: c).length (x :: c).head? =
        if vf x = value then some x else findLoopN nf vf value c.length (nf x) := rfl
    have hfm : firstMatch vf value (x :: c) =
        if vf x = value then some x else firstMatch vf value c := rfl
    rw [hstep, hfm]
    by_cases hx : vf x = value
    · rw [if_pos hx, if_pos hx]
    · rw [if_neg hx, if_neg hx]
      cases c with
      | nil => rfl
      | cons y c2 =>
        rcases nchain_cons_cons.1 hc with ⟨hxy, hrest⟩
        rw [hxy]
        exact ih hrest

theorem nchain_head_link {nf : Nat → Option Nat} {x y : Nat} {l : List Nat}
    (hc : NChain nf (x :: l)) (hy : l.head? = some y) : nf x = some y := by
  cases l with
  | nil => simp at hy
  | cons z l2 =>
    rw [show (z :: l2).head? = some z from rfl] at hy
    rcases Option.some.inj hy with rfl
    exact (nchain_cons_cons.1 hc).1

theorem nodup_head_notin_tail {l : List Nat} (h : l.Nodup) {y : Nat}
    (hy : l.head? = some y) : y ∉ l.tail := by
  cases l with
  | nil => simp at hy
  | cons z l2 =>
    rw [show (z :: l2).head? = some z from rfl] at hy
    rcases Option.some.inj hy with rfl
    exact (List.nodup_cons.1 h).1

/-- The predecessor walk started at the head of a duplicate-free chain
`c1 ++ a :: m :: c2` stops at `a`, the predecessor of the target `m`. -/
theorem predWalk_spec {nf : Nat → Option Nat} :
    ∀ (c1 : List Nat) (a m : Nat) (c2 : List Nat),
      NChain nf (c1 ++ a :: m :: c2) → (c1 ++ a :: m :: c2).Nodup →
      ∀ fuel, c1.length + 1 ≤ fuel →
      predWalk nf (some m) fuel (c1 ++ a :: m :: c2).head? = some a := by
  intro c1
  induction c1 with
  | nil =>
    intro a m c2 hc _ fuel hf
    match fuel, hf with
    | fuel + 1, _ =>
      have ham : nf a = some m := (nchain_cons_cons.1 hc).1
      have hstep : predWalk nf (some m) (fuel + 1) (([] : List Nat) ++ a :: m :: c2).head? =
          if nf a = some m then some a else predWalk nf (some m) fuel (nf a) := rfl
      rw [hstep, if_pos ham]
  | cons x c1 ih =>
    intro a m c2 hc hnd fuel hf
    match fuel, hf with
    | fuel + 1, hf =>
      have hne : c1 ++ a :: m :: c2 ≠ [] := by
        cases c1 <;> simp
      have hy : ∃ y, (c1 ++ a :: m :: c2).head? = some y := by
        cases c1 with
        | nil => exact ⟨a, rfl⟩
        | cons z c1b => exact ⟨z, rfl⟩
      rcases hy with ⟨y, hy⟩
      have hxy : nf x = some y := nchain_head_link hc hy
      have hmtail : m ∈ (c1 ++ a :: m :: c2).tail := by
        cases c1 with
        | nil => simp
        | cons z c1b => simp
      have hynm : y ≠ m := by
        intro he
        exact nodup_head_notin_tail (List.nodup_cons.1 hnd).2 hy (he ▸ hmtail)
      have hstep : predWalk nf (some m) (fuel + 1) ((x :: c1) ++ a :: m :: c2).head? =
          if nf x = some m then some x else predWalk nf (some m) fuel (nf x) := rfl
      rw [hstep, if_neg (by rw [hxy]; exact fun he => hynm (Option.some.inj he)), hxy, ← hy]
      exact ih a m c2 (NChain.tail hc) (List.nodup_cons.1 hnd).2 fuel
        (by simp only [List.length_cons] at hf; omega)

theorem collectL_none [Inhabited T] (nf : Nat → Option Nat) (vf : Nat → T) :
    ∀ fuel, collectL nf vf fuel none = ([] : List T)
  | 0 => rfl
  | _ + 1 => rfl

/-- The nil-terminated collection loop returns the chain's values in order. -/
theorem collectL_spec [Inhabited T] {nf : Nat → Option Nat} {vf : Nat → T}
    {c : List Nat} (hc : NChain nf c)
    (hlast : ∀ i, c.getLast? = some i → nf i = none) :
    ∀ fuel, c.length ≤ fuel → collectL nf vf fuel c.head? = c.map vf := by
  induction c with
  | nil => intro fuel _; exact collectL_none nf vf fuel
  | cons x c ih =>
    intro fuel hf
    match fuel, hf with
    | fuel + 1, hf =>
      have hstep : collectL nf vf (fuel + 1) (x :: c).head? =
          vf x :: collectL nf vf fuel (nf x) := rfl
      rw [hstep, List.map_cons]
      cases c with
      | nil => rw [hlast x (by simp), collectL_none]; rfl
      | cons y c2 =>
        rcases nchain_cons_cons.1 hc with ⟨hxy, hrest⟩
        rw [hxy]
        have hys := ih hrest (fun i hi => hlast i (by rwa [List.getLast?_cons_cons])) fuel
          (by simp only [List.length_cons] at hf ⊢; omega)
        rw [show ((y :: c2).head?) = some y from rfl] at hys
        rw [hys]

/-- The counted collection loop over exactly the chain length returns the
chain's values in order. -/
theorem collectC_spec [Inhabited T] {nf : Nat → Option Nat} {vf : Nat → T}
    {c : List Nat} (hc : NChain nf c) :
    collectC nf vf c.length c.head? = c.map vf := by
  induction c with
  | nil => rfl
  | cons x c ih =>
    have hstep : collectC nf vf (x :: c).length (x :: c).head? =
        vf x :: collectC nf vf c.length (nf x) := rfl
    rw [hstep, List.map_cons]
    cases c with
    | nil => rfl
    | cons y c2 =>
      rcases nchain_cons_cons.1 hc with ⟨hxy, hrest⟩
      have hys := ih hrest
      rw [show ((y :: c2).head?) = some y from rfl] at hys
      rw [hxy, hys]

/-- Reference rendering: each value in brackets, separated by `sep`. -/
def bracketJoin [ToString T] (sep : String) : List T → String
  | [] => ""
  | [v] => "[" ++ toString v ++ "]"
  | v :: vs => "[" ++ toString v ++ "]" ++ sep ++ bracketJoin sep vs

/-- The linear string loop renders the chain's values in order. -/
theorem stringLoopL_spec [Inhabited T] [ToString T] {nf : Nat → Option Nat} {vf : Nat → T}
    {sep : String} {c : List Nat} (hc : NChain nf c)
    (hlast : ∀ i, c.getLast? = some i → nf i = none) :
    ∀ fuel, c.length ≤ fuel → c ≠ [] →
      stringLoopL nf vf sep fuel c.head? = bracketJoin sep (c.map vf) := by
  induction c with
  | nil => intro _ _ hne; exact absurd rfl hne
  | cons x c ih =>
    intro fuel hf _
    match fuel, hf with
    | fuel + 1, hf =>
      have hstep : stringLoopL nf vf sep (fuel + 1) (x :: c).head? =
          "[" ++ toString (vf x) ++ "]" ++
            match nf x with
            | none => ""
            | some j => sep ++ stringLoopL nf vf sep fuel (some j) := rfl
      rw [hstep]
      cases c with
      | nil =>
        rw [hlast x (by simp)]
        show "[" ++ toString (vf x) ++ "]" ++ "" = bracketJoin sep [vf x]
        rw [String.append_empty]
        rfl
      | cons y c2 =>
        rcases nchain_cons_cons.1 hc with ⟨hxy, hrest⟩
        rw [hxy]
        have hys := ih hrest (fun i hi => hlast i (by rwa [List.getLast?_cons_cons])) fuel
          (by simp only [List.length_cons] at hf ⊢; omega) (by simp)
        rw [show ((y :: c2).head?) = some y from rfl] at hys
        show "[" ++ toString (vf x) ++ "]" ++ (sep ++ stringLoopL nf vf sep fuel (some y)) =
          bracketJoin sep (List.map vf (x :: y :: c2))
        rw [hys, ← String.append_assoc]
        rfl

/-- The counted string loop over exactly the chain length renders the
chain's values in order. -/
theorem stringLoopC_spec [Inhabited T] [ToString T] {nf : Nat → Option Nat} {vf : Nat → T}
    {sep : String} {c : List Nat} (hc : NChain nf c) :
    stringLoopC nf vf sep c.length c.head? = bracketJoin sep (c.map vf) := by
  induction c with
  | nil => rfl
  | cons x c ih =>
    cases c with
    | nil => rfl
    | cons y c2 =>
      rcases nchain_cons_cons.1 hc with ⟨hxy, hrest⟩
      have hstep : stringLoopC nf vf sep (x :: y :: c2).length (x :: y :: c2).head? =
          "[" ++ toString (vf x) ++ "]" ++ sep ++
            stringLoopC nf vf sep (y :: c2).length (nf x) := rfl
      rw [hstep, hxy]
      rw [show ((y :: c2).head?) = some y from rfl] at ih
      rw [ih hrest]
      rfl
/-! ### Heap access lemmas -/

theorem lt_of_get?_eq_some {α : Type} {l : List α} {n : Nat} {a : α}
    (h : l.get? n = some a) : n < l.length := by
  by_contra hn
  rw [List.get?_len_le (by omega)] at h
  exact Option.noConfusion h

theorem sSetNext_length (h : SHeap T) (i : Nat) (p : Option Nat) :
    (sSetNext h i p).length = h.length := by
  unfold sSetNext
  cases hg : h.get? i <;> simp

theorem sSetVal_length (h : SHeap T) (i : Nat) (v : T) :
    (sSetVal h i v).length = h.length := by
  unfold sSetVal
  cases hg : h.get? i <;> simp

theorem sNextF_sSetNext_self {h : SHeap T} {i : Nat} (hi : i < h.length) (p : Option Nat) :
    sNextF (sSetNext h i p) i = p := by
  have hg := List.get?_eq_get hi
  unfold sSetNext sNextF
  simp only [hg, List.get?_set_eq_of_lt _ hi]
  rfl

theorem sNextF_sSetNext_ne {h : SHeap T} {i j : Nat} (hne : i ≠ j) (p : Option Nat) :
    sNextF (sSetNext h j p) i = sNextF h i := by
  unfold sSetNext sNextF
  cases hg : h.get? j with
  | none => rfl
  | some nd => rw [List.get?_set_ne _ _ (fun he => hne he.symm)]

theorem sValD_sSetNext [Inhabited T] (h : SHeap T) (i j : Nat) (p : Option Nat) :
    sValD (sSetNext h j p) i = sValD h i := by
  unfold sSetNext sValD
  cases hg : h.get? j with
  | none => rfl
  | some nd =>
    by_cases hij : i = j
    · subst hij
      simp only [List.get?_set_eq_of_lt _ (lt_of_get?_eq_some hg), hg]
      rfl
    · rw [List.get?_set_ne _ _ (fun he => hij he.symm)]

theorem sNextF_sSetVal [Inhabited T] (h : SHeap T) (i j : Nat) (v : T) :
    sNextF (sSetVal h j v) i = sNextF h i := by
  unfold sSetVal sNextF
  cases hg : h.get? j with
  | none => rfl
  | some nd =>
    by_cases hij : i = j
    · subst hij
      simp only [List.get?_set_eq_of_lt _ (lt_of_get?_eq_some hg), hg]
      rfl
    · rw [List.get?_set_ne _ _ (fun he => hij he.symm)]

theorem sValD_sSetVal_self [Inhabited T] {h : SHeap T} {i : Nat} (hi : i < h.length) (v : T) :
    sValD (sSetVal h i v) i = v := by
  have hg := List.get?_eq_get hi
  unfold sSetVal sValD
  simp only [hg, List.get?_set_eq_of_lt _ hi]
  rfl

theorem sValD_sSetVal_ne [Inhabited T] {h : SHeap T} {i j : Nat} (hne : i ≠ j) (v : T) :
    sValD (sSetVal h j v) i = sValD h i := by
  unfold sSetVal sValD
  cases hg : h.get? j with
  | none => rfl
  | some nd => rw [List.get?_set_ne _ _ (fun he => hne he.symm)]

theorem sNextF_append_lt {h : SHeap T} {i : Nat} (hi : i < h.length) (h2 : SHeap T) :
    sNextF (h ++ h2) i = sNextF h i := by
  unfold sNextF
  rw [List.get?_append hi]

theorem sNextF_append_self (h : SHeap T) (nd : SNode T) :
    sNextF (h ++ [nd]) h.length = nd.next := by
  unfold sNextF
  rw [List.get?_concat_length]
  rfl

theorem sValD_append_lt [Inhabited T] {h : SHeap T} {i : Nat} (hi : i < h.length)
    (h2 : SHeap T) : sValD (h ++ h2) i = sValD h i := by
  unfold sValD
  rw [List.get?_append hi]

theorem sValD_append_self [Inhabited T] (h : SHeap T) (nd : SNode T) :
    sValD (h ++ [nd]) h.length = nd.value := by
  unfold sValD
  rw [List.get?_concat_length]
  rfl

theorem sNextF_oob {h : SHeap T} {i : Nat} (hi : h.length ≤ i) : sNextF h i = none := by
  unfold sNextF
  rw [List.get?_len_le hi]
  rfl

theorem dSetNext_length (h : DHeap T) (i : Nat) (p : Option Nat) :
    (dSetNext h i p).length = h.length := by
  unfold dSetNext
  cases hg : h.get? i <;> simp

theorem dSetPrev_length (h : DHeap T) (i : Nat) (p : Option Nat) :
    (dSetPrev h i p).length = h.length := by
  unfold dSetPrev
  cases hg : h.get? i <;> simp

theorem dSetVal_length (h : DHeap T) (i : Nat) (v : T) :
    (dSetVal h i v).length = h.length := by
  unfold dSetVal
  cases hg : h.get? i <;> simp

theorem dNextF_dSetNext_self {h : DHeap T} {i : Nat} (hi : i < h.length) (p : Option Nat) :
    dNextF (dSetNext h i p) i = p := by
  have hg := List.get?_eq_get hi
  unfold dSetNext dNextF
  simp only [hg, List.get?_set_eq_of_lt _ hi]
  rfl

theorem dNextF_dSetNext_ne {h : DHeap T} {i j : Nat} (hne : i ≠ j) (p : Option Nat) :
    dNextF (dSetNext h j p) i = dNextF h i := by
  unfold dSetNext dNextF
  cases hg : h.get? j with
  | none => rfl
  | some nd => rw [List.get?_set_ne _ _ (fun he => hne he.symm)]

theorem dPrevF_dSetNext (h : DHeap T) (i j : Nat) (p : Option Nat) :
    dPrevF (dSetNext h j p) i = dPrevF h i := by
  unfold dSetNext dPrevF
  cases hg : h.get? j with
  | none => rfl
  | some nd =>
    by_cases hij : i = j
    · subst hij
      simp only [List.get?_set_eq_of_lt _ (lt_of_get?_eq_some hg), hg]
      rfl
    · rw [List.get?_set_ne _ _ (fun he => hij he.symm)]

theorem dValD_dSetNext [Inhabited T] (h : DHeap T) (i j : Nat) (p : Option Nat) :
    dValD (dSetNext h j p) i = dValD h i := by
  unfold dSetNext dValD
  cases hg : h.get? j with
  | none => rfl
  | some nd =>
    by_cases hij : i = j
    · subst hij
      simp only [List.get?_set_eq_of_lt _ (lt_of_get?_eq_some hg), hg]
      rfl
    · rw [List.get?_set_ne _ _ (fun he => hij he.symm)]

theorem dPrevF_dSetPrev_self {h : DHeap T} {i : Nat} (hi : i < h.length) (p : Option Nat) :
    dPrevF (dSetPrev h i p) i = p := by
  have hg := List.get?_eq_get hi
  unfold dSetPrev dPrevF
  simp only [hg, List.get?_set_eq_of_lt _ hi]
  rfl

theorem dPrevF_dSetPrev_ne {h : DHeap T} {i j : Nat} (hne : i ≠ j) (p : Option Nat) :
    dPrevF (dSetPrev h j p) i = dPrevF h i := by
  unfold dSetPrev dPrevF
  cases hg : h.get? j with
  | none => rfl
  | some nd => rw [List.get?_set_ne _ _ (fun he => hne he.symm)]

theorem dNextF_dSetPrev (h : DHeap T) (i j : Nat) (p : Option Nat) :
    dNextF (dSetPrev h j p) i = dNextF h i := by
  unfold dSetPrev dNextF
  cases hg : h.get? j with
  | none => rfl
  | some nd =>
    by_cases hij : i = j
    · subst hij
      simp only [List.get?_set_eq_of_lt _ (lt_of_get?_eq_some hg), hg]
      rfl
    · rw [List.get?_set_ne _ _ (fun he => hij he.symm)]

theorem dValD_dSetPrev [Inhabited T] (h : DHeap T) (i j : Nat) (p : Option Nat) :
    dValD (dSetPrev h j p) i = dValD h i := by
  unfold dSetPrev dValD
  cases hg : h.get? j with
  | none => rfl
  | some nd =>
    by_cases hij : i = j
    · subst hij
      simp only [List.get?_set_eq_of_lt _ (lt_of_get?_eq_some hg), hg]
      rfl
    · rw [List.get?_set_ne _ _ (fun he => hij he.symm)]

theorem dNextF_dSetVal (h : DHeap T) (i j : Nat) (v : T) :
    dNextF (dSetVal h j v) i = dNextF h i := by
  unfold dSetVal dNextF
  cases hg : h.get? j with
  | none => rfl
  | some nd =>
    by_cases hij : i = j
    · subst hij
      simp only [List.get?_set_eq_of_lt _ (lt_of_get?_eq_some hg), hg]
      rfl
    · rw [List.get?_set_ne _ _ (fun he => hij he.symm)]

theorem dPrevF_dSetVal (h : DHeap T) (i j : Nat) (v : T) :
    dPrevF (dSetVal h j v) i = dPrevF h i := by
  unfold dSetVal dPrevF
  cases hg : h.get? j with
  | none => rfl
  | some nd =>
    by_cases hij : i = j
    · subst hij
      simp only [List.get?_set_eq_of_lt _ (lt_of_get?_eq_some hg), hg]
      rfl
    · rw [List.get?_set_ne _ _ (fun he => hij he.symm)]

theorem dValD_dSetVal_self [Inhabited T] {h : DHeap T} {i : Nat} (hi : i < h.length) (v : T) :
    dValD (dSetVal h i v) i = v := by
  have hg := List.get?_eq_get hi
  unfold dSetVal dValD
  simp only [hg, List.get?_set_eq_of_lt _ hi]
  rfl

theorem dValD_dSetVal_ne [Inhabited T] {h : DHeap T} {i j : Nat} (hne : i ≠ j) (v : T) :
    dValD (dSetVal h j v) i = dValD h i := by
  unfold dSetVal dValD
  cases hg : h.get? j with
  | none => rfl
  | some nd => rw [List.get?_set_ne _ _ (fun he => hne he.symm)]

theorem dNextF_append_lt {h : DHeap T} {i : Nat} (hi : i < h.length) (h2 : DHeap T) :
    dNextF (h ++ h2) i = dNextF h i := by
  unfold dNextF
  rw [List.get?_append hi]

theorem dNextF_append_self (h : DHeap T) (nd : DNode T) :
    dNextF (h ++ [nd]) h.length = nd.next := by
  unfold dNextF
  rw [List.get?_concat_length]
  rfl

theorem dPrevF_append_lt {h : DHeap T} {i : Nat} (hi : i < h.length) (h2 : DHeap T) :
    dPrevF (h ++ h2) i = dPrevF h i := by
  unfold dPrevF
  rw [List.get?_append hi]

theorem dPrevF_append_self (h : DHeap T) (nd : DNode T) :
    dPrevF (h ++ [nd]) h.length = nd.prev := by
  unfold dPrevF
  rw [List.get?_concat_length]
  rfl

theorem dValD_append_lt [Inhabited T] {h : DHeap T} {i : Nat} (hi : i < h.length)
    (h2 : DHeap T) : dValD (h ++ h2) i = dValD h i := by
  unfold dValD
  rw [List.get?_append hi]

theorem dValD_append_self [Inhabited T] (h : DHeap T) (nd : DNode T) :
    dValD (h ++ [nd]) h.length = nd.value := by
  unfold dValD
  rw [List.get?_concat_length]
  rfl

theorem dNextF_oob {h : DHeap T} {i : Nat} (hi : h.length ≤ i) : dNextF h i = none := by
  unfold dNextF
  rw [List.get?_len_le hi]
  rfl

/-! ### Representation invariant: linear singly list -/

/-- `SRepr l c` : the chain `c` lists the addresses of the nodes of `l` in
head-to-tail order; links, endpoint references, and the size counter all
agree with it. -/
structure SRepr (l : SinglyLinkedList T) (c : List Nat) : Prop where
  bounds : ∀ i ∈ c, i < l.heap.length
  nodup : c.Nodup
  head_eq : l.head = c.head?
  tail_eq : l.tail = c.getLast?
  size_eq : l.size = c.length
  links : NChain (sNextF l.heap) c
  last_none : ∀ i, c.getLast? = some i → sNextF l.heap i = none

theorem SRepr.sSizeToNat {l : SinglyLinkedList T} {c : List Nat} (h : SRepr l c) :
    l.size.toNat = c.length := by
  rw [h.size_eq]; simp

theorem SRepr.sLenLe {l : SinglyLinkedList T} {c : List Nat} (h : SRepr l c) :
    c.length ≤ l.heap.length :=
  nodup_bounds_length h.nodup h.bounds

theorem SRepr.sEmptyIff {l : SinglyLinkedList T} {c : List Nat} (h : SRepr l c) :
    l.size = 0 ↔ c = [] := by
  rw [h.size_eq]
  constructor
  · intro hz
    exact List.length_eq_zero.1 (by exact_mod_cast hz)
  · intro hc; subst hc; rfl

theorem SLL_New_repr : SRepr (SinglyLinkedList.New (T := T)) [] := by
  refine ⟨?_, ?_, ?_, ?_, ?_, ?_, ?_⟩ <;> simp [SinglyLinkedList.New, NChain]

theorem SLL_Clear_repr {l : SinglyLinkedList T} {c : List Nat} (_ : SRepr l c) :
    SRepr l.Clear [] := by
  refine ⟨?_, ?_, ?_, ?_, ?_, ?_, ?_⟩ <;> simp [SinglyLinkedList.Clear, NChain]

theorem mem_of_getLast?_eq {α : Type} {l : List α} {i : α} (h : l.getLast? = some i) :
    i ∈ l := by
  cases l with
  | nil => simp at h
  | cons x c2 =>
    rw [List.getLast?_eq_getLast _ (by simp)] at h
    rcases Option.some.inj h with rfl
    exact List.getLast_mem (by simp)

/-- Prepend puts the fresh address in front of the chain and contributes the
new value in front of the value sequence. -/
theorem SLL_Prepend_repr [Inhabited T] {l : SinglyLinkedList T} {c : List Nat}
    (h : SRepr l c) (v : T) :
    SRepr (l.Prepend v) (l.heap.length :: c) ∧
      (l.heap.length :: c).map (sValD (l.Prepend v).heap) = v :: c.map (sValD l.heap) := by
  have hbn : ∀ i ∈ c, i < l.heap.length := h.bounds
  have hnotc : l.heap.length ∉ c := fun hmem => lt_irrefl _ (hbn _ hmem)
  have hheap : (l.Prepend v).heap =
      sSetNext (l.heap ++ [(⟨v, none⟩ : SNode T)]) l.heap.length l.head := rfl
  have hlen : (l.Prepend v).heap.length = l.heap.length + 1 := by
    rw [hheap, sSetNext_length]
    simp
  have hnext_new : sNextF (l.Prepend v).heap l.heap.length = l.head := by
    rw [hheap]
    exact sNextF_sSetNext_self (by simp) l.head
  have hnext_old : ∀ i ∈ c, sNextF (l.Prepend v).heap i = sNextF l.heap i := by
    intro i hi
    rw [hheap, sNextF_sSetNext_ne (fun (he : i = l.heap.length) => hnotc (he ▸ hi)) l.head,
      sNextF_append_lt (hbn i hi)]
  have hval_new : sValD (l.Prepend v).heap l.heap.length = v := by
    rw [hheap, sValD_sSetNext, sValD_append_self]
  have hval_old : ∀ i ∈ c, sValD (l.Prepend v).heap i = sValD l.heap i := by
    intro i hi
    rw [hheap, sValD_sSetNext, sValD_append_lt (hbn i hi)]
  refine ⟨⟨?_, ?_, ?_, ?_, ?_, ?_, ?_⟩, ?_⟩
  · intro i hi
    rw [hlen]
    rcases List.mem_cons.1 hi with rfl | hi2
    · omega
    · have := hbn i hi2; omega
  · exact List.nodup_cons.2 ⟨hnotc, h.nodup⟩
  · rfl
  · show (if l.tail = none then some l.heap.length else l.tail) = (l.heap.length :: c).getLast?
    rcases hc : c with _ | ⟨x, c2⟩
    · have hte : l.tail = none := by rw [h.tail_eq, hc]; rfl
      rw [if_pos hte]
      rfl
    · have hlne : l.tail ≠ none := by
        rw [h.tail_eq, hc, List.getLast?_eq_getLast _ (by simp)]
        exact fun he => Option.noConfusion he
      rw [if_neg hlne, h.tail_eq, hc]
      exact List.getLast?_cons_cons.symm
  · show l.size + 1 = ((l.heap.length :: c).length : Int)
    rw [h.size_eq]
    simp
  · rcases hc : c with _ | ⟨x, c2⟩
    · exact nchain_singleton _ _
    · refine nchain_cons_cons.2 ⟨?_, ?_⟩
      · rw [hnext_new, h.head_eq, hc]; rfl
      · refine nchain_congr (hc ▸ h.links) ?_
        intro i hi
        exact (hnext_old i (hc ▸ hi)).symm
  · intro i hi
    rcases hc : c with _ | ⟨x, c2⟩
    · rw [hc] at hi
      have hin : i = l.heap.length := by simpa using hi.symm
      subst hin
      rw [hnext_new, h.head_eq, hc]
      rfl
    · rw [hc, List.getLast?_cons_cons] at hi
      have himem : i ∈ c := by
        rw [hc]
        exact mem_of_getLast?_eq hi
      rw [hnext_old i himem]
      exact h.last_none i (by rw [hc]; exact hi)
  · rw [List.map_cons, hval_new]
    congr 1
    exact List.map_congr_left hval_old

theorem nodup_dropLast_ne_last {α : Type} {c : List α} (hnd : c.Nodup) {lastv : α}
    (hl : c.getLast? = some lastv) : ∀ i ∈ c.dropLast, i ≠ lastv := by
  have hne : c ≠ [] := by intro hemp; subst hemp; simp at hl
  have hdc : c.dropLast ++ [c.getLast hne] = c := List.dropLast_concat_getLast hne
  have hlv : c.getLast hne = lastv := by
    rw [List.getLast?_eq_getLast _ hne] at hl
    exact Option.some.inj hl
  intro i hi he
  have hnd2 : (c.dropLast ++ [c.getLast hne]).Nodup := by rw [hdc]; exact hnd
  exact (List.disjoint_of_nodup_append hnd2) hi (by simp [hlv, he])

/-- Chains only read the next pointers of their non-final members. -/
theorem nchain_congr_dropLast {nf ng : Nat → Option Nat} {c : List Nat}
    (h : NChain nf c) (hag : ∀ i ∈ c.dropLast, nf i = ng i) : NChain ng c := by
  induction c with
  | nil => exact nchain_nil ng
  | cons x c ih =>
    cases c with
    | nil => exact nchain_singleton ng x
    | cons y c2 =>
      rcases nchain_cons_cons.1 h with ⟨hxy, hrest⟩
      refine nchain_cons_cons.2 ⟨?_, ih hrest ?_⟩
      · rw [← hag x (List.mem_cons_self x ((y :: c2).dropLast)), hxy]
      · intro i hi
        exact hag i (List.mem_cons_of_mem x hi)

/-- Append puts the fresh address at the end of the chain and contributes the
new value at the end of the value sequence. -/
theorem SLL_Append_repr [Inhabited T] {l : SinglyLinkedList T} {c : List Nat}
    (h : SRepr l c) (v : T) :
    SRepr (l.Append v) (c ++ [l.heap.length]) ∧
      (c ++ [l.heap.length]).map (sValD (l.Append v).heap) =
        c.map (sValD l.heap) ++ [v] := by
  have hbn : ∀ i ∈ c, i < l.heap.length := h.bounds
  have hnotc : l.heap.length ∉ c := fun hmem => lt_irrefl _ (hbn _ hmem)
  have hheap : (l.Append v).heap =
      pSetNextS (l.heap ++ [(⟨v, none⟩ : SNode T)]) l.tail (some l.heap.length) := rfl
  rcases hc : c with _ | ⟨x, c2⟩
  · -- empty list: tail is nil, so no pointer write happens
    subst hc
    have htail : l.tail = none := by rw [h.tail_eq]; rfl
    have hhead : l.head = none := by rw [h.head_eq]; rfl
    have hheap2 : (l.Append v).heap = l.heap ++ [(⟨v, none⟩ : SNode T)] := by
      rw [hheap, htail]
      rfl
    refine ⟨⟨?_, ?_, ?_, ?_, ?_, ?_, ?_⟩, ?_⟩
    · intro i hi
      rw [hheap2]
      simp at hi ⊢
      omega
    · simp
    · show (if l.head = none then some l.heap.length else l.head) = _
      rw [if_pos hhead]
      rfl
    · rfl
    · show l.size + 1 = _
      rw [h.size_eq]
      simp
    · exact nchain_singleton _ _
    · intro i hi
      have hin : i = l.heap.length := by simpa using hi.symm
      subst hin
      rw [hheap2, sNextF_append_self]
    · rw [hheap2]
      simp [sValD_append_self]
  · -- nonempty list: the old tail's next pointer is redirected to the new node
    have hcne : c ≠ [] := by rw [hc]; simp
    have hlast : ∃ lastv, c.getLast? = some lastv := by
      rw [hc, List.getLast?_eq_getLast _ (by simp)]
      exact ⟨_, rfl⟩
    rcases hlast with ⟨lastv, hlastv⟩
    have hlmem : lastv ∈ c := mem_of_getLast?_eq hlastv
    have hlbound : lastv < l.heap.length := hbn lastv hlmem
    have htail : l.tail = some lastv := by rw [h.tail_eq, hlastv]
    have hheap2 : (l.Append v).heap =
        sSetNext (l.heap ++ [(⟨v, none⟩ : SNode T)]) lastv (some l.heap.length) := by
      rw [hheap, htail]
      rfl
    have hlen : (l.Append v).heap.length = l.heap.length + 1 := by
      rw [hheap2, sSetNext_length]
      simp
    have hnext_last : sNextF (l.Append v).heap lastv = some l.heap.length := by
      rw [hheap2]
      exact sNextF_sSetNext_self (by simp; omega) _
    have hnext_mid : ∀ i ∈ c.dropLast, sNextF (l.Append v).heap i = sNextF l.heap i := by
      intro i hi
      rw [hheap2, sNextF_sSetNext_ne (nodup_dropLast_ne_last h.nodup hlastv i hi) _,
        sNextF_append_lt (hbn i (List.dropLast_subset c hi))]
    have hnext_new : sNextF (l.Append v).heap l.heap.length = none := by
      rw [hheap2, sNextF_sSetNext_ne (by omega) _, sNextF_append_self]
    have hval_old : ∀ i ∈ c, sValD (l.Append v).heap i = sValD l.heap i := by
      intro i hi
      rw [hheap2, sValD_sSetNext, sValD_append_lt (hbn i hi)]
    have hval_new : sValD (l.Append v).heap l.heap.length = v := by
      rw [hheap2, sValD_sSetNext, sValD_append_self]
    have hhead : l.head ≠ none := by
      rw [h.head_eq, hc]
      exact fun he => Option.noConfusion he
    rw [← hc]
    refine ⟨⟨?_, ?_, ?_, ?_, ?_, ?_, ?_⟩, ?_⟩
    · intro i hi
      rw [hlen]
      rcases List.mem_append.1 hi with hi2 | hi2
      · have := hbn i hi2; omega
      · have : i = l.heap.length := by simpa using hi2
        omega
    · rw [List.nodup_append]
      refine ⟨h.nodup, by simp, ?_⟩
      intro a ha hb
      have han : a = l.heap.length := by simpa using hb
      subst han
      exact hnotc ha
    · show (if l.head = none then some l.heap.length else l.head) = _
      rw [if_neg hhead, h.head_eq, List.head?_append_of_ne_nil _ hcne]
    · show some l.heap.length = _
      rw [List.getLast?_concat]
    · show l.size + 1 = _
      rw [h.size_eq]
      simp
    · refine List.chain'_append.2 ⟨?_, ?_, ?_⟩
      · exact nchain_congr_dropLast h.links (fun i hi => (hnext_mid i hi).symm)
      · exact nchain_singleton _ _
      · intro a ha b hb
        simp at hb
        subst hb
        rw [hlastv] at ha
        rcases Option.some.inj ha with rfl
        exact hnext_last
    · intro i hi
      rw [List.getLast?_concat] at hi
      rcases Option.some.inj hi with rfl
      exact hnext_new
    · rw [List.map_append]
      congr 1
      · exact List.map_congr_left hval_old
      · simp [hval_new]

/-- RemoveFirst drops the first chain entry; the heap is untouched. -/
theorem SLL_RemoveFirst_repr {l : SinglyLinkedList T} {c : List Nat} (h : SRepr l c) :
    SRepr l.RemoveFirst c.tail := by
  by_cases hz : l.size = 0
  · have hc : c = [] := h.sEmptyIff.1 hz
    subst hc
    unfold SinglyLinkedList.RemoveFirst
    rw [if_pos hz]
    exact h
  · have hcne : c ≠ [] := fun hc => hz (h.sEmptyIff.2 hc)
    rcases hc : c with _ | ⟨x, c2⟩
    · exact absurd hc hcne
    subst hc
    have hhead : l.head = some x := by rw [h.head_eq]; rfl
    have hnewHead : optNext (sNextF l.heap) l.head = c2.head? := by
      rw [hhead]
      show sNextF l.heap x = c2.head?
      cases c2 with
      | nil => exact h.last_none x (by simp)
      | cons y c3 => exact (nchain_cons_cons.1 h.links).1
    have hun : l.RemoveFirst =
        { l with head := optNext (sNextF l.heap) l.head,
                 tail := if optNext (sNextF l.heap) l.head = none then none else l.tail,
                 size := l.size - 1 } := by
      unfold SinglyLinkedList.RemoveFirst
      rw [if_neg hz]
    rw [hun]
    cases c2 with
    | nil =>
      refine ⟨?_, ?_, ?_, ?_, ?_, ?_, ?_⟩ <;>
        simp [hnewHead, NChain, h.size_eq]
    | cons y c3 =>
      have hnn : (y :: c3).head? ≠ none := fun he => Option.noConfusion he
      refine ⟨?_, ?_, ?_, ?_, ?_, ?_, ?_⟩
      · intro i hi
        exact h.bounds i (List.mem_cons_of_mem x hi)
      · exact (List.nodup_cons.1 h.nodup).2
      · show optNext (sNextF l.heap) l.head = _
        rw [hnewHead]
        rfl
      · show (if optNext (sNextF l.heap) l.head = none then none else l.tail) = _
        rw [hnewHead, if_neg hnn, h.tail_eq]
        exact List.getLast?_cons_cons
      · show l.size - 1 = _
        rw [h.size_eq]
        simp
      · exact NChain.tail h.links
      · intro i hi
        exact h.last_none i (by rw [List.getLast?_cons_cons]; exact hi)

/-- Find is the reference search over the chain. -/
theorem SLL_Find_spec [Inhabited T] [DecidableEq T] {l : SinglyLinkedList T} {c : List Nat}
    (h : SRepr l c) (value : T) :
    l.Find value = firstMatch (sValD l.heap) value c := by
  unfold SinglyLinkedList.Find
  rw [h.head_eq]
  exact findLoopL_spec h.links h.last_none (l.heap.length + 1) (by have := h.sLenLe; omega)

/-- The ForEach visit trace is the chain's value sequence. -/
theorem SLL_ForEachSeq_spec [Inhabited T] {l : SinglyLinkedList T} {c : List Nat}
    (h : SRepr l c) : l.ForEachSeq = c.map (sValD l.heap) := by
  unfold SinglyLinkedList.ForEachSeq
  rw [h.head_eq]
  exact collectL_spec h.links h.last_none (l.heap.length + 1) (by have := h.sLenLe; omega)

/-- In-bounds Get returns no error and the chain entry at the index. -/
theorem SLL_Get_inbounds {l : SinglyLinkedList T} {c : List Nat} (h : SRepr l c)
    {index : Int} (h0 : 0 ≤ index) (h1 : index < l.size) :
    l.Get index = (none, c.get? index.toNat) := by
  unfold SinglyLinkedList.Get
  rw [if_neg (by omega)]
  rw [h.head_eq, nchain_iterN h.links index.toNat (by have := h.size_eq; omega)]

/-- Set keeps the chain intact: only a value cell changes. -/
theorem SLL_Set_repr [Inhabited T] {l : SinglyLinkedList T} {c : List Nat} (h : SRepr l c)
    (index : Int) (v : T) : SRepr ((l.Set index v).2) c := by
  by_cases hoob : index < 0 ∨ index ≥ l.size
  · have hres : (l.Set index v).2 = l := by
      unfold SinglyLinkedList.Set SinglyLinkedList.Get
      rw [if_pos hoob]
    rw [hres]
    exact h
  · push_neg at hoob
    have hk : index.toNat < c.length := by
      have := h.size_eq
      omega
    have hget : l.Get index = (none, c.get? index.toNat) :=
      SLL_Get_inbounds h (by omega) (by omega)
    have hm := List.get?_eq_get hk
    have hmem : c.get ⟨index.toNat, hk⟩ ∈ c := List.get_mem c _ _
    have hres : (l.Set index v).2 =
        { l with heap := sSetVal l.heap (c.get ⟨index.toNat, hk⟩) v } := by
      unfold SinglyLinkedList.Set
      rw [hget, hm]
      rfl
    rw [hres]
    refine ⟨?_, h.nodup, h.head_eq, h.tail_eq, h.size_eq, ?_, ?_⟩
    · intro i hi
      show i < (sSetVal l.heap _ v).length
      rw [sSetVal_length]
      exact h.bounds i hi
    · refine nchain_congr h.links ?_
      intro i _
      exact (sNextF_sSetVal l.heap i _ v).symm
    · intro i hi
      show sNextF (sSetVal l.heap _ v) i = none
      rw [sNextF_sSetVal]
      exact h.last_none i hi

theorem exists_concat_two {α : Type} {c : List α} (h : 2 ≤ c.length) :
    ∃ c1 a b, c = c1 ++ [a, b] := by
  rcases List.eq_nil_or_concat' c with rfl | ⟨d, b, rfl⟩
  · simp at h
  rcases List.eq_nil_or_concat' d with rfl | ⟨c1, a, rfl⟩
  · simp at h
  exact ⟨c1, a, b, by simp⟩

theorem head?_append_pair {α : Type} (c1 : List α) (a b : α) :
    (c1 ++ [a, b]).head? = (c1 ++ [a]).head? := by
  cases c1 <;> rfl

/-- RemoveLast drops the last chain entry. -/
theorem SLL_RemoveLast_repr {l : SinglyLinkedList T} {c : List Nat} (h : SRepr l c) :
    SRepr l.RemoveLast c.dropLast := by
  by_cases hz : l.size = 0
  · have hc : c = [] := h.sEmptyIff.1 hz
    subst hc
    unfold SinglyLinkedList.RemoveLast
    rw [if_pos hz]
    exact h
  by_cases h1 : l.size = 1
  · have hlc : c.length = 1 := by have := h.size_eq; omega
    rcases hc : c with _ | ⟨x, c2⟩
    · rw [hc] at hlc; simp at hlc
    subst hc
    have hc2 : c2 = [] := by simpa using hlc
    subst hc2
    have hres : l.RemoveLast = { l with head := none, tail := none, size := l.size - 1 } := by
      unfold SinglyLinkedList.RemoveLast
      rw [if_neg hz, if_pos h1]
    rw [hres]
    refine ⟨?_, ?_, ?_, ?_, ?_, ?_, ?_⟩ <;> simp [NChain, h1]
  · -- at least two nodes: walk to the predecessor of the tail
    have hlen2 : 2 ≤ c.length := by have := h.size_eq; omega
    rcases exists_concat_two hlen2 with ⟨c1, a, b, rfl⟩
    have hsplit : c1 ++ [a, b] = (c1 ++ [a]) ++ [b] := by simp
    have htail : l.tail = some b := by
      rw [h.tail_eq, hsplit, List.getLast?_concat]
    have hbmem : b ∈ c1 ++ [a, b] := by simp
    have hamem : a ∈ c1 ++ [a, b] := by simp
    have habound : a < l.heap.length := h.bounds a hamem
    have hpred : predWalk (sNextF l.heap) l.tail (l.heap.length + 1) l.head = some a := by
      rw [htail, h.head_eq]
      exact predWalk_spec c1 a b [] h.links h.nodup (l.heap.length + 1)
        (by have := h.sLenLe; simp at this; omega)
    have hres : l.RemoveLast =
        { heap := sSetNext l.heap a none, head := l.head, tail := some a,
          size := l.size - 1 } := by
      unfold SinglyLinkedList.RemoveLast
      rw [if_neg hz, if_neg h1, hpred]
      rfl
    have hdrop : (c1 ++ [a, b]).dropLast = c1 ++ [a] := by
      rw [hsplit, List.dropLast_concat]
    rw [hres, hdrop]
    have hnd1 : (c1 ++ [a]).Nodup := by
      have hnd0 : ((c1 ++ [a]) ++ [b]).Nodup := by rw [← hsplit]; exact h.nodup
      exact (List.nodup_append.1 hnd0).1
    have hane : ∀ i ∈ c1, i ≠ a := fun i hi he =>
      (List.disjoint_of_nodup_append hnd1) hi (by simp [he])
    have hchain1 : NChain (sNextF l.heap) (c1 ++ [a]) := by
      have hc0 : NChain (sNextF l.heap) ((c1 ++ [a]) ++ [b]) := by
        rw [← hsplit]; exact h.links
      exact (List.chain'_append.1 hc0).1
    have hnext_keep : ∀ i ∈ c1, sNextF (sSetNext l.heap a none) i = sNextF l.heap i :=
      fun i hi => sNextF_sSetNext_ne (hane i hi) none
    refine ⟨?_, hnd1, ?_, ?_, ?_, ?_, ?_⟩
    · intro i hi
      show i < (sSetNext l.heap a none).length
      rw [sSetNext_length]
      refine h.bounds i ?_
      rw [hsplit]
      exact List.mem_append_left [b] hi
    · rw [h.head_eq, head?_append_pair]
    · rw [List.getLast?_concat]
    · have := h.size_eq
      simp at this ⊢
      omega
    · refine nchain_congr_dropLast hchain1 ?_
      rw [List.dropLast_concat]
      exact fun i hi => (hnext_keep i hi).symm
    · intro i hi
      rw [List.getLast?_concat] at hi
      rcases Option.some.inj hi with rfl
      exact sNextF_sSetNext_self habound none

theorem head?_append_cons {α : Type} (c1 : List α) (a : α) (xs ys : List α) :
    (c1 ++ a :: xs).head? = (c1 ++ a :: ys).head? := by
  cases c1 <;> rfl

theorem getLast?_cons_ne_nil {α : Type} (a : α) {ys : List α} (h : ys ≠ []) :
    (a :: ys).getLast? = ys.getLast? := by
  cases ys with
  | nil => exact absurd rfl h
  | cons z zs => exact List.getLast?_cons_cons

theorem getLast?_append_cons_ne_nil {α : Type} (c1 : List α) (a b : α) {ys : List α}
    (h : ys ≠ []) : (c1 ++ a :: b :: ys).getLast? = (c1 ++ a :: ys).getLast? := by
  rw [List.getLast?_append_of_ne_nil _ (by simp), List.getLast?_append_of_ne_nil _ (by simp),
    getLast?_cons_ne_nil a (by simp), getLast?_cons_ne_nil b h, getLast?_cons_ne_nil a h]

/-- Remove keeps the list well formed: the removed node is simply unlinked. -/
theorem SLL_Remove_repr [Inhabited T] [DecidableEq T] {l : SinglyLinkedList T} {c : List Nat}
    (h : SRepr l c) (value : T) : ∃ c', SRepr (l.Remove value) c' := by
  rcases hf : l.Find value with _ | m
  · refine ⟨c, ?_⟩
    unfold SinglyLinkedList.Remove
    rw [hf]
    exact h
  by_cases hhd : some m = l.head
  · refine ⟨c.tail, ?_⟩
    have hres : l.Remove value = l.RemoveFirst := by
      unfold SinglyLinkedList.Remove
      simp only [hf]
      rw [if_pos hhd]
    rw [hres]
    exact SLL_RemoveFirst_repr h
  · have hfm : firstMatch (sValD l.heap) value c = some m := by
      rw [← SLL_Find_spec h value]
      exact hf
    rcases firstMatch_eq_some hfm with ⟨d1, c2, hdecomp, _, _⟩
    rcases List.eq_nil_or_concat' d1 with rfl | ⟨c1, a, rfl⟩
    · exfalso
      apply hhd
      rw [h.head_eq, hdecomp]
      rfl
    rw [show c1 ++ [a] ++ m :: c2 = c1 ++ a :: m :: c2 by simp] at hdecomp
    subst hdecomp
    have hdisj := List.disjoint_of_nodup_append h.nodup
    have hanotc1 : a ∉ c1 := fun ha => hdisj ha (by simp)
    have hmnotc1 : m ∉ c1 := fun hm => hdisj hm (by simp)
    have hndtail : (a :: m :: c2).Nodup := (List.nodup_append.1 h.nodup).2.1
    have hanotmc2 : a ∉ m :: c2 := (List.nodup_cons.1 hndtail).1
    have hmnotc2 : m ∉ c2 := (List.nodup_cons.1 (List.nodup_cons.1 hndtail).2).1
    have hamem : a ∈ c1 ++ a :: m :: c2 := by simp
    have habound : a < l.heap.length := h.bounds a hamem
    have hpred : predWalk (sNextF l.heap) (some m) (l.heap.length + 1) l.head = some a := by
      rw [h.head_eq]
      exact predWalk_spec c1 a m c2 h.links h.nodup (l.heap.length + 1)
        (by have := h.sLenLe; simp at this; omega)
    have hres : l.Remove value =
        { heap := sSetNext l.heap a (sNextF l.heap m), head := l.head,
          tail := if some m = l.tail then some a else l.tail, size := l.size - 1 } := by
      unfold SinglyLinkedList.Remove
      simp only [hf]
      rw [if_neg hhd, hpred]
      rfl
    have hchains := List.chain'_append.1 h.links
    have hch2 : NChain (sNextF l.heap) (a :: m :: c2) := hchains.2.1
    have hmnext : sNextF l.heap m = c2.head? := by
      cases c2 with
      | nil =>
        refine h.last_none m ?_
        rw [show c1 ++ a :: m :: ([] : List Nat) = (c1 ++ [a]) ++ [m] by simp,
          List.getLast?_concat]
      | cons y c3 =>
        exact (nchain_cons_cons.1 (nchain_cons_cons.1 hch2).2).1
    have htail_iff : (some m = l.tail) ↔ c2 = [] := by
      constructor
      · intro ht
        by_contra hc2
        rw [h.tail_eq, List.getLast?_append_of_ne_nil _ (by simp),
          getLast?_cons_ne_nil a (by simp), getLast?_cons_ne_nil m hc2] at ht
        exact hmnotc2 (mem_of_getLast?_eq ht.symm)
      · intro hc2
        subst hc2
        rw [h.tail_eq, show c1 ++ a :: m :: ([] : List Nat) = (c1 ++ [a]) ++ [m] by simp,
          List.getLast?_concat]
    have hsub : List.Sublist (c1 ++ a :: c2) (c1 ++ a :: m :: c2) :=
      (List.append_sublist_append_left c1).2
        (List.Sublist.cons₂ a (List.sublist_cons_self m c2))
    have hnext_keep : ∀ i, i ≠ a →
        sNextF (sSetNext l.heap a (sNextF l.heap m)) i = sNextF l.heap i :=
      fun i hi => sNextF_sSetNext_ne hi _
    have hnext_a : sNextF (sSetNext l.heap a (sNextF l.heap m)) a = c2.head? := by
      rw [sNextF_sSetNext_self habound, hmnext]
    refine ⟨c1 ++ a :: c2, ?_⟩
    rw [hres]
    refine ⟨?_, List.Sublist.nodup hsub h.nodup, ?_, ?_, ?_, ?_, ?_⟩
    · intro i hi
      show i < (sSetNext l.heap a _).length
      rw [sSetNext_length]
      exact h.bounds i (hsub.subset hi)
    · rw [h.head_eq]
      exact head?_append_cons c1 a (m :: c2) c2
    · by_cases hc2 : c2 = []
      · subst hc2
        rw [if_pos (htail_iff.2 rfl)]
        rw [show c1 ++ a :: ([] : List Nat) = c1 ++ [a] by simp, List.getLast?_concat]
      · rw [if_neg (fun ht => hc2 (htail_iff.1 ht)), h.tail_eq,
          getLast?_append_cons_ne_nil c1 a m hc2]
    · have := h.size_eq
      simp at this ⊢
      omega
    · refine List.chain'_append.2 ⟨?_, ?_, ?_⟩
      · refine nchain_congr_dropLast hchains.1 ?_
        intro i hi
        exact (hnext_keep i (fun he => hanotc1 (he ▸ List.dropLast_subset c1 hi))).symm
      · have hchm : NChain (sNextF l.heap) (m :: c2) := (nchain_cons_cons.1 hch2).2
        cases hc2 : c2 with
        | nil => exact nchain_singleton _ a
        | cons y c3 =>
          rw [hc2] at hchm
          refine nchain_cons_cons.2 ⟨?_, ?_⟩
          · rw [hnext_a, hc2]
            rfl
          · refine nchain_congr_dropLast (nchain_cons_cons.1 hchm).2 ?_
            intro i hi
            refine (hnext_keep i ?_).symm
            intro he
            subst he
            refine hanotmc2 (List.mem_cons_of_mem m ?_)
            rw [hc2]
            exact List.dropLast_subset _ hi
      · intro x hx y hy
        have hxc1 : x ∈ c1 := mem_of_getLast?_eq hx
        have hya : y = a := by simp at hy; omega
        rw [hnext_keep x (fun he => hanotc1 (he ▸ hxc1)), hya]
        exact hchains.2.2 x hx a rfl
    · intro i hi
      by_cases hc2 : c2 = []
      · subst hc2
        rw [show c1 ++ a :: ([] : List Nat) = c1 ++ [a] by simp,
          List.getLast?_concat] at hi
        rcases Option.some.inj hi with rfl
        rw [hnext_a]
        rfl
      · rw [List.getLast?_append_of_ne_nil _ (by simp),
          getLast?_cons_ne_nil a hc2] at hi
        have himem : i ∈ c2 := mem_of_getLast?_eq hi
        rw [hnext_keep i (fun he => hanotmc2 (he ▸ List.mem_cons_of_mem m himem))]
        refine h.last_none i ?_
        rw [List.getLast?_append_of_ne_nil _ (by simp),
          getLast?_cons_ne_nil a (by simp), getLast?_cons_ne_nil m hc2]
        exact hi

theorem exists_split_at {α : Type} {c : List α} {k : Nat} (hk : k < c.length) :
    ∃ c1 a c2, c = c1 ++ a :: c2 ∧ c1.length = k := by
  refine ⟨c.take k, c.get ⟨k, hk⟩, c.drop (k + 1), ?_, ?_⟩
  · have hsplit := List.take_append_drop k c
    rw [List.drop_eq_get_cons hk] at hsplit
    exact hsplit.symm
  · simp
    omega

theorem get?_append_middle {α : Type} (c1 : List α) (a : α) (c2 : List α) :
    (c1 ++ a :: c2).get? c1.length = some a := by
  rw [List.get?_append_right (le_refl _)]
  simp

/-- InsertAt keeps the list well formed in every branch. -/
theorem SLL_InsertAt_repr [Inhabited T] {l : SinglyLinkedList T} {c : List Nat}
    (h : SRepr l c) (index : Int) (v : T) :
    ∃ c', SRepr ((l.InsertAt index v).2) c' := by
  by_cases hoob : index < 0 ∨ index > l.size
  · refine ⟨c, ?_⟩
    have hres : (l.InsertAt index v).2 = l := by
      unfold SinglyLinkedList.InsertAt
      rw [if_pos hoob]
    rw [hres]
    exact h
  by_cases h0 : index = 0
  · refine ⟨l.heap.length :: c, ?_⟩
    have hres : (l.InsertAt index v).2 = l.Prepend v := by
      unfold SinglyLinkedList.InsertAt
      rw [if_neg hoob, if_pos h0]
    rw [hres]
    exact (SLL_Prepend_repr h v).1
  by_cases hsz : index = l.size
  · refine ⟨c ++ [l.heap.length], ?_⟩
    have hres : (l.InsertAt index v).2 = l.Append v := by
      unfold SinglyLinkedList.InsertAt
      rw [if_neg hoob, if_neg h0, if_pos hsz]
    rw [hres]
    exact (SLL_Append_repr h v).1
  · -- interior splice
    push_neg at hoob
    have hik : (1 : Int) ≤ index := by omega
    have hkbound : (index - 1).toNat < c.length := by
      have := h.size_eq
      omega
    rcases exists_split_at hkbound with ⟨c1, a, c2, hdecomp, hc1len⟩
    have hc2ne : c2 ≠ [] := by
      intro hc2
      have hlen : c.length = c1.length + 1 := by rw [hdecomp, hc2]; simp
      have := h.size_eq
      omega
    have hcur : iterN (sNextF l.heap) (index - 1).toNat l.head = some a := by
      rw [h.head_eq, nchain_iterN h.links _ hkbound, hdecomp, ← hc1len,
        get?_append_middle]
    subst hdecomp
    have hdisj := List.disjoint_of_nodup_append h.nodup
    have hanotc1 : a ∉ c1 := fun ha => hdisj ha (by simp)
    have hndtail : (a :: c2).Nodup := (List.nodup_append.1 h.nodup).2.1
    have hanotc2 : a ∉ c2 := (List.nodup_cons.1 hndtail).1
    have hnotc : ∀ i ∈ c1 ++ a :: c2, i < l.heap.length := h.bounds
    have hamem : a ∈ c1 ++ a :: c2 := by simp
    have habound : a < l.heap.length := hnotc a hamem
    rcases hc2e : c2 with _ | ⟨y, c3⟩
    · exact absurd hc2e hc2ne
    subst hc2e
    have hay : sNextF l.heap a = some y :=
      (nchain_cons_cons.1 (List.chain'_append.1 h.links).2.1).1
    -- the two heap writes performed by the splice
    have hres : (l.InsertAt index v).2 =
        { heap := sSetNext (sSetNext (l.heap ++ [(⟨v, none⟩ : SNode T)]) l.heap.length
              (some y)) a (some l.heap.length),
          head := l.head, tail := l.tail, size := l.size + 1 } := by
      unfold SinglyLinkedList.InsertAt
      rw [if_neg (by omega), if_neg h0, if_neg hsz, hcur]
      dsimp only
      rw [show optNext (sNextF (l.heap ++ [(⟨v, none⟩ : SNode T)])) (some a) =
          sNextF (l.heap ++ [(⟨v, none⟩ : SNode T)]) a from rfl,
        sNextF_append_lt habound, hay]
      rfl
    rw [hres]
    set h2 := sSetNext (sSetNext (l.heap ++ [(⟨v, none⟩ : SNode T)]) l.heap.length
      (some y)) a (some l.heap.length) with hh2
    have hlen2 : h2.length = l.heap.length + 1 := by
      rw [hh2, sSetNext_length, sSetNext_length]
      simp
    have hnext_keep : ∀ i, i ≠ a → i ≠ l.heap.length → sNextF h2 i = sNextF l.heap i := by
      intro i hia hin
      rw [hh2, sNextF_sSetNext_ne hia, sNextF_sSetNext_ne hin]
      by_cases hlt : i < l.heap.length
      · exact sNextF_append_lt hlt _
      · rw [sNextF_oob (by simp; omega), sNextF_oob (by omega)]
    have hnext_a : sNextF h2 a = some l.heap.length := by
      rw [hh2]
      exact sNextF_sSetNext_self (by rw [sSetNext_length]; simp; omega) _
    have hnext_n : sNextF h2 l.heap.length = some y := by
      rw [hh2, sNextF_sSetNext_ne (by omega) _]
      exact sNextF_sSetNext_self (by simp) _
    have hybound : y < l.heap.length := hnotc y (by simp)
    have hanen : a ≠ l.heap.length := by omega
    have hndc1 : c1.Nodup := (List.nodup_append.1 h.nodup).1
    have hchains := List.chain'_append.1 h.links
    have hch2 : NChain (sNextF l.heap) (a :: y :: c3) := hchains.2.1
    have hnnotc : l.heap.length ∉ c1 ++ a :: y :: c3 := fun hmem =>
      lt_irrefl _ (hnotc _ hmem)
    refine ⟨c1 ++ a :: l.heap.length :: y :: c3, ?_⟩
    have hLc : (c1 ++ a :: y :: c3).getLast? = (y :: c3).getLast? := by
      rw [List.getLast?_append_of_ne_nil _ (by simp), getLast?_cons_ne_nil a (by simp)]
    have hLc2 : (c1 ++ a :: l.heap.length :: y :: c3).getLast? = (y :: c3).getLast? := by
      rw [List.getLast?_append_of_ne_nil _ (by simp), getLast?_cons_ne_nil a (by simp),
        getLast?_cons_ne_nil _ (by simp)]
    refine ⟨?_, ?_, ?_, ?_, ?_, ?_, ?_⟩
    · intro i hi
      rw [hlen2]
      simp only [List.mem_append, List.mem_cons] at hi
      rcases hi with hi | hi | hi | hi | hi
      · have := hnotc i (by simp [hi]); omega
      · subst hi; omega
      · omega
      · subst hi; omega
      · have := hnotc i (by simp [hi]); omega
    · rw [List.nodup_append]
      refine ⟨hndc1, ?_, ?_⟩
      · rw [List.nodup_cons]
        refine ⟨?_, ?_⟩
        · intro hmem
          rcases List.mem_cons.1 hmem with he | hmem2
          · exact hanen he
          · exact hanotc2 hmem2
        · rw [List.nodup_cons]
          refine ⟨fun hmem => hnnotc (by simp [hmem]), (List.nodup_cons.1 hndtail).2⟩
      · intro i hi1 hi2
        simp only [List.mem_cons] at hi2
        rcases hi2 with rfl | rfl | hi2
        · exact hdisj hi1 (by simp)
        · exact hnnotc (by simp [hi1])
        · exact hdisj hi1 (by simp [hi2])
    · rw [h.head_eq]
      exact head?_append_cons c1 a (y :: c3) (l.heap.length :: y :: c3)
    · rw [h.tail_eq, hLc, ← hLc2]
    · have := h.size_eq
      simp at this ⊢
      omega
    · refine List.chain'_append.2 ⟨?_, ?_, ?_⟩
      · refine nchain_congr_dropLast hchains.1 ?_
        intro i hi
        have himem : i ∈ c1 := List.dropLast_subset c1 hi
        exact (hnext_keep i (fun he => hdisj (he ▸ himem) (by simp))
          (fun he => hnnotc (by simp [he ▸ himem]))).symm
      · refine nchain_cons_cons.2 ⟨hnext_a, ?_⟩
        refine nchain_cons_cons.2 ⟨hnext_n, ?_⟩
        refine nchain_congr_dropLast (nchain_cons_cons.1 hch2).2 ?_
        intro i hi
        have himem : i ∈ y :: c3 := List.dropLast_subset _ hi
        exact (hnext_keep i (fun he => hanotc2 (he ▸ himem))
          (fun he => hnnotc (by simp [he ▸ himem]))).symm
      · intro x hx z hz
        have hxc1 : x ∈ c1 := mem_of_getLast?_eq hx
        have hza : z = a := by simp at hz; omega
        rw [hnext_keep x (fun he => hdisj (he ▸ hxc1) (by simp))
          (fun he => hnnotc (by simp [he ▸ hxc1])), hza]
        exact hchains.2.2 x hx a rfl
    · intro i hi
      rw [hLc2] at hi
      have himem : i ∈ y :: c3 := mem_of_getLast?_eq hi
      rw [hnext_keep i (fun he => hanotc2 (he ▸ himem))
        (fun he => hnnotc (by simp [he ▸ himem]))]
      refine h.last_none i ?_
      rw [hLc]
      exact hi

/-- Specification of the pointer-reversal loop on a nil-terminated chain:
it reverses exactly the chain's links, leaves values and all other nodes
untouched, points the old head at the loop's initial `prev`, and returns
the last chain node (the new head). -/
theorem sReverseLoop_spec [Inhabited T] :
    ∀ (c : List Nat) (h : SHeap T) (p : Option Nat),
      NChain (sNextF h) c → c.Nodup → (∀ i ∈ c, i < h.length) →
      (∀ i, c.getLast? = some i → sNextF h i = none) →
      ∀ fuel, c.length ≤ fuel →
      (sReverseLoop h p c.head? fuel).1.length = h.length ∧
      (∀ i, i ∉ c → sNextF (sReverseLoop h p c.head? fuel).1 i = sNextF h i) ∧
      (∀ i, sValD (sReverseLoop h p c.head? fuel).1 i = sValD h i) ∧
      NChain (sNextF (sReverseLoop h p c.head? fuel).1) c.reverse ∧
      (∀ i, c.head? = some i → sNextF (sReverseLoop h p c.head? fuel).1 i = p) ∧
      (sReverseLoop h p c.head? fuel).2 = (if c = [] then p else c.getLast?) := by
  intro c
  induction c with
  | nil =>
    intro h p _ _ _ _ fuel _
    have hval : sReverseLoop h p (([] : List Nat)).head? fuel = (h, p) := by
      cases fuel <;> rfl
    rw [hval]
    refine ⟨rfl, fun i _ => rfl, fun i => rfl, nchain_nil _, ?_, by rw [if_pos rfl]⟩
    intro i hi
    simp at hi
  | cons x c ih =>
    intro h p hch hnd hbd hlast fuel hf
    obtain ⟨fuel, rfl⟩ : ∃ f2, fuel = f2 + 1 := ⟨fuel - 1, by simp at hf; omega⟩
    have hxbound : x < h.length := hbd x (by simp)
    have hxnotc : x ∉ c := (List.nodup_cons.1 hnd).1
    have hxc : sNextF h x = c.head? := by
      cases c with
      | nil => exact hlast x (by simp)
      | cons y c2 => exact (nchain_cons_cons.1 hch).1
    have hstep : sReverseLoop h p (x :: c).head? (fuel + 1) =
        sReverseLoop (sSetNext h x p) (some x) (sNextF h x) fuel := rfl
    have hlen1 : (sSetNext h x p).length = h.length := sSetNext_length h x p
    have hch1 : NChain (sNextF (sSetNext h x p)) c :=
      nchain_congr (NChain.tail hch)
        (fun i hi => (sNextF_sSetNext_ne
          (fun he => hxnotc (by rw [← he]; exact hi)) p).symm)
    have hbd1 : ∀ i ∈ c, i < (sSetNext h x p).length := by
      intro i hi
      rw [hlen1]
      exact hbd i (List.mem_cons_of_mem x hi)
    have hlast1 : ∀ i, c.getLast? = some i → sNextF (sSetNext h x p) i = none := by
      intro i hi
      have himem : i ∈ c := mem_of_getLast?_eq hi
      rw [sNextF_sSetNext_ne (fun he => hxnotc (by rw [← he]; exact himem)) p]
      refine hlast i ?_
      rcases hc : c with _ | ⟨y, c2⟩
      · rw [hc] at hi; simp at hi
      · rw [getLast?_cons_ne_nil x (by simp), ← hc]
        exact hi
    have := ih (sSetNext h x p) (some x) hch1 (List.nodup_cons.1 hnd).2 hbd1 hlast1
      fuel (by simp at hf; omega)
    rw [hxc] at hstep
    rw [hstep]
    rcases this with ⟨ihlen, ihkeep, ihval, ihchain, ihhead, ihsnd⟩
    have hfinal_x : sNextF (sReverseLoop (sSetNext h x p) (some x) c.head? fuel).1 x = p := by
      rw [ihkeep x hxnotc]
      exact sNextF_sSetNext_self hxbound p
    refine ⟨?_, ?_, ?_, ?_, ?_, ?_⟩
    · rw [ihlen, hlen1]
    · intro i hi
      have hine : i ≠ x := fun he => hi (by simp [he])
      have hinc : i ∉ c := fun hm => hi (by simp [hm])
      rw [ihkeep i hinc, sNextF_sSetNext_ne hine]
    · intro i
      rw [ihval i, sValD_sSetNext]
    · rw [show (x :: c).reverse = c.reverse ++ [x] by simp]
      refine List.chain'_append.2 ⟨ihchain, nchain_singleton _ x, ?_⟩
      intro u hu w hw
      have hwx : w = x := by simp at hw; omega
      subst hwx
      rw [List.getLast?_reverse] at hu
      exact ihhead u hu
    · intro i hi
      have hix : i = x := by simp at hi; omega
      subst hix
      exact hfinal_x
    · rw [ihsnd]
      rcases hc : c with _ | ⟨y, c2⟩
      · rw [if_pos rfl, if_neg (by simp)]
        rfl
      · rw [if_neg (by simp), if_neg (by simp)]
        exact (getLast?_cons_ne_nil x (by simp)).symm

/-- Reverse keeps well-formedness with the reversed chain; node values are
untouched. -/
theorem SLL_Reverse_repr [Inhabited T] {l : SinglyLinkedList T} {c : List Nat}
    (h : SRepr l c) :
    SRepr l.Reverse c.reverse ∧ ∀ i, sValD l.Reverse.heap i = sValD l.heap i := by
  have hru : l.Reverse =
      { heap := (sReverseLoop l.heap none l.head (l.heap.length + 1)).1,
        head := (sReverseLoop l.heap none l.head (l.heap.length + 1)).2,
        tail := l.head, size := l.size } := rfl
  have hspec := sReverseLoop_spec c l.heap none h.links h.nodup h.bounds h.last_none
    (l.heap.length + 1) (by have := h.sLenLe; omega)
  rw [h.head_eq] at hru
  rcases hspec with ⟨hlen, hkeep, hval, hchain, hhead, hsnd⟩
  constructor
  · rw [hru]
    refine ⟨?_, by simpa using h.nodup, ?_, ?_, ?_, hchain, ?_⟩
    · intro i hi
      show i < (sReverseLoop l.heap none c.head? (l.heap.length + 1)).1.length
      rw [hlen]
      exact h.bounds i (by simpa using hi)
    · show (sReverseLoop l.heap none c.head? (l.heap.length + 1)).2 = c.reverse.head?
      rw [hsnd, List.head?_reverse]
      rcases hc : c with _ | ⟨y, c2⟩
      · rw [if_pos rfl]
        rfl
      · rw [if_neg (by simp)]
    · show c.head? = c.reverse.getLast?
      rw [List.getLast?_reverse]
    · show l.size = (c.reverse.length : Int)
      rw [h.size_eq]
      simp
    · intro i hi
      rw [List.getLast?_reverse] at hi
      exact hhead i hi
  · intro i
    rw [hru]
    exact hval i

/-- String() renders the empty marker or the bracketed joined values. -/
theorem sllString_spec [Inhabited T] [ToString T] {l : SinglyLinkedList T} {c : List Nat}
    (h : SRepr l c) :
    sllString l = if c = [] then "SinglyLinkedList: []"
      else "SinglyLinkedList: " ++ bracketJoin " -> " (c.map (sValD l.heap)) := by
  unfold sllString
  by_cases hz : l.size = 0
  · rw [if_pos hz, if_pos (h.sEmptyIff.1 hz)]
  · have hcne : c ≠ [] := fun hc => hz (h.sEmptyIff.2 hc)
    rw [if_neg hz, if_neg hcne, h.head_eq,
      stringLoopL_spec h.links h.last_none (l.heap.length + 1)
        (by have := h.sLenLe; omega) hcne]

/-- Lists reachable from the empty singly linked list by the public
mutating operations. -/
inductive SReach [Inhabited T] [DecidableEq T] : SinglyLinkedList T → Prop
  | new : SReach SinglyLinkedList.New
  | prepend {l : SinglyLinkedList T} (v : T) : SReach l → SReach (l.Prepend v)
  | append {l : SinglyLinkedList T} (v : T) : SReach l → SReach (l.Append v)
  | insertAt {l : SinglyLinkedList T} (index : Int) (v : T) :
      SReach l → SReach ((l.InsertAt index v).2)
  | remove {l : SinglyLinkedList T} (v : T) : SReach l → SReach (l.Remove v)
  | removeFirst {l : SinglyLinkedList T} : SReach l → SReach l.RemoveFirst
  | removeLast {l : SinglyLinkedList T} : SReach l → SReach l.RemoveLast
  | set {l : SinglyLinkedList T} (index : Int) (v : T) :
      SReach l → SReach ((l.Set index v).2)
  | reverse {l : SinglyLinkedList T} : SReach l → SReach l.Reverse
  | clear {l : SinglyLinkedList T} : SReach l → SReach l.Clear

/-- Every reachable singly linked list is well formed. -/
theorem SReach_wf [Inhabited T] [DecidableEq T] {l : SinglyLinkedList T} (h : SReach l) :
    ∃ c, SRepr l c := by
  induction h with
  | new => exact ⟨[], SLL_New_repr⟩
  | prepend v _ ih => rcases ih with ⟨c, hc⟩; exact ⟨_, (SLL_Prepend_repr hc v).1⟩
  | append v _ ih => rcases ih with ⟨c, hc⟩; exact ⟨_, (SLL_Append_repr hc v).1⟩
  | insertAt index v _ ih => rcases ih with ⟨c, hc⟩; exact SLL_InsertAt_repr hc index v
  | remove v _ ih => rcases ih with ⟨c, hc⟩; exact SLL_Remove_repr hc v
  | removeFirst _ ih => rcases ih with ⟨c, hc⟩; exact ⟨_, SLL_RemoveFirst_repr hc⟩
  | removeLast _ ih => rcases ih with ⟨c, hc⟩; exact ⟨_, SLL_RemoveLast_repr hc⟩
  | set index v _ ih => rcases ih with ⟨c, hc⟩; exact ⟨_, SLL_Set_repr hc index v⟩
  | reverse _ ih => rcases ih with ⟨c, hc⟩; exact ⟨_, (SLL_Reverse_repr hc).1⟩
  | clear _ ih => rcases ih with ⟨c, hc⟩; exact ⟨_, SLL_Clear_repr hc⟩

/-! ### Representation invariant: circular singly list -/

/-- `CSRepr l c` : the ring of `l` consists of the addresses of `c`, in
head-to-tail order; the stored tail is the last entry and the last entry
links back to the first. -/
structure CSRepr (l : CircularSinglyLinkedList T) (c : List Nat) : Prop where
  bounds : ∀ i ∈ c, i < l.heap.length
  nodup : c.Nodup
  tail_eq : l.tail = c.getLast?
  size_eq : l.size = c.length
  links : NChain (sNextF l.heap) c
  wrap : ∀ i j, c.getLast? = some i → c.head? = some j → sNextF l.heap i = some j

theorem CSRepr.csSizeToNat {l : CircularSinglyLinkedList T} {c : List Nat} (h : CSRepr l c) :
    l.size.toNat = c.length := by
  rw [h.size_eq]; simp

theorem CSRepr.csLenLe {l : CircularSinglyLinkedList T} {c : List Nat} (h : CSRepr l c) :
    c.length ≤ l.heap.length :=
  nodup_bounds_length h.nodup h.bounds

theorem CSRepr.csEmptyIff {l : CircularSinglyLinkedList T} {c : List Nat} (h : CSRepr l c) :
    l.size = 0 ↔ c = [] := by
  rw [h.size_eq]
  constructor
  · intro hz
    exact List.length_eq_zero.1 (by exact_mod_cast hz)
  · intro hc; subst hc; rfl

/-- The computed head of the ring is the first chain entry. -/
theorem CSRepr.csHeadEq {l : CircularSinglyLinkedList T} {c : List Nat} (h : CSRepr l c) :
    l.Head = c.head? := by
  unfold CircularSinglyLinkedList.Head
  rcases hc : c with _ | ⟨x, c2⟩
  · rw [show l.tail = none by rw [h.tail_eq, hc]; rfl]
    rfl
  · have hne : c ≠ [] := by rw [hc]; simp
    have hlastv : c.getLast? = some (c.getLast hne) := List.getLast?_eq_getLast _ _
    rw [show l.tail = some (c.getLast hne) by rw [h.tail_eq, hlastv]]
    show sNextF l.heap (c.getLast hne) = (x :: c2).head?
    refine h.wrap _ x hlastv ?_
    rw [hc]
    rfl

theorem CSLL_New_repr : CSRepr (CircularSinglyLinkedList.New (T := T)) [] := by
  refine ⟨?_, ?_, ?_, ?_, ?_, ?_⟩ <;> simp [CircularSinglyLinkedList.New, NChain]

theorem CSLL_Clear_repr {l : CircularSinglyLinkedList T} {c : List Nat} (_ : CSRepr l c) :
    CSRepr l.Clear [] := by
  refine ⟨?_, ?_, ?_, ?_, ?_, ?_⟩ <;> simp [CircularSinglyLinkedList.Clear, NChain]

/-- Prepend splices the fresh node in front of the head, keeping the tail. -/
theorem CSLL_Prepend_repr [Inhabited T] {l : CircularSinglyLinkedList T} {c : List Nat}
    (h : CSRepr l c) (v : T) :
    CSRepr (l.Prepend v) (l.heap.length :: c) ∧
      (l.heap.length :: c).map (sValD (l.Prepend v).heap) = v :: c.map (sValD l.heap) := by
  have hbn : ∀ i ∈ c, i < l.heap.length := h.bounds
  have hnotc : l.heap.length ∉ c := fun hmem => lt_irrefl _ (hbn _ hmem)
  by_cases hz : l.size = 0
  · have hc : c = [] := h.csEmptyIff.1 hz
    subst hc
    have hres : l.Prepend v =
        { heap := l.heap ++ [(⟨v, some l.heap.length⟩ : SNode T)],
          tail := some l.heap.length, size := l.size + 1 } := by
      unfold CircularSinglyLinkedList.Prepend
      rw [if_pos hz]
    rw [hres]
    refine ⟨⟨?_, ?_, ?_, ?_, ?_, ?_⟩, ?_⟩
    · intro i hi
      simp at hi
      subst hi
      simp
    · simp
    · rfl
    · show l.size + 1 = _
      rw [hz]
      simp
    · exact nchain_singleton _ _
    · intro i j hi hj
      have hin : i = l.heap.length := by simpa using hi.symm
      have hjn : j = l.heap.length := by simpa using hj.symm
      subst hin
      subst hjn
      rw [sNextF_append_self]
    · simp [sValD_append_self]
  · have hcne : c ≠ [] := fun hc => hz (h.csEmptyIff.2 hc)
    have hlast : ∃ lastv, c.getLast? = some lastv := by
      rcases hc : c with _ | ⟨x, c2⟩
      · exact absurd hc hcne
      rw [List.getLast?_eq_getLast _ (by simp)]
      exact ⟨_, rfl⟩
    rcases hlast with ⟨lastv, hlastv⟩
    have hlmem : lastv ∈ c := mem_of_getLast?_eq hlastv
    have hlbound : lastv < l.heap.length := hbn lastv hlmem
    have htail : l.tail = some lastv := by rw [h.tail_eq, hlastv]
    have hheadv : ∃ headv, c.head? = some headv := by
      rcases hc : c with _ | ⟨x, c2⟩
      · exact absurd hc hcne
      exact ⟨x, rfl⟩
    rcases hheadv with ⟨headv, hheadv⟩
    have hwrap := h.wrap lastv headv hlastv hheadv
    have hres : l.Prepend v =
        { heap := sSetNext (sSetNext (l.heap ++ [(⟨v, none⟩ : SNode T)]) l.heap.length
            (some headv)) lastv (some l.heap.length),
          tail := l.tail, size := l.size + 1 } := by
      unfold CircularSinglyLinkedList.Prepend
      rw [if_neg hz, htail]
      dsimp only
      rw [show optNext (sNextF (l.heap ++ [(⟨v, none⟩ : SNode T)])) (some lastv) =
          sNextF (l.heap ++ [(⟨v, none⟩ : SNode T)]) lastv from rfl,
        sNextF_append_lt hlbound, hwrap]
      rfl
    rw [hres]
    set h2 := sSetNext (sSetNext (l.heap ++ [(⟨v, none⟩ : SNode T)]) l.heap.length
      (some headv)) lastv (some l.heap.length) with hh2
    have hlen2 : h2.length = l.heap.length + 1 := by
      rw [hh2, sSetNext_length, sSetNext_length]
      simp
    have hnext_keep : ∀ i, i ≠ lastv → i ≠ l.heap.length → sNextF h2 i = sNextF l.heap i := by
      intro i hil hin
      rw [hh2, sNextF_sSetNext_ne hil, sNextF_sSetNext_ne hin]
      by_cases hlt : i < l.heap.length
      · exact sNextF_append_lt hlt _
      · rw [sNextF_oob (by simp; omega), sNextF_oob (by omega)]
    have hnext_last : sNextF h2 lastv = some l.heap.length := by
      rw [hh2]
      exact sNextF_sSetNext_self (by rw [sSetNext_length]; simp; omega) _
    have hnext_new : sNextF h2 l.heap.length = some headv := by
      rw [hh2, sNextF_sSetNext_ne (by omega) _]
      exact sNextF_sSetNext_self (by simp) _
    have hval2 : ∀ i, i < l.heap.length → sValD h2 i = sValD l.heap i := by
      intro i hlt
      rw [hh2, sValD_sSetNext, sValD_sSetNext, sValD_append_lt hlt]
    have hvaln : sValD h2 l.heap.length = v := by
      rw [hh2, sValD_sSetNext, sValD_sSetNext, sValD_append_self]
    refine ⟨⟨?_, ?_, ?_, ?_, ?_, ?_⟩, ?_⟩
    · intro i hi
      rw [hlen2]
      rcases List.mem_cons.1 hi with rfl | hi2
      · omega
      · have := hbn i hi2; omega
    · exact List.nodup_cons.2 ⟨hnotc, h.nodup⟩
    · show l.tail = _
      rw [htail, getLast?_cons_ne_nil _ hcne, hlastv]
    · show l.size + 1 = _
      rw [h.size_eq]
      simp
    · rcases hc : c with _ | ⟨x, c2⟩
      · exact absurd hc hcne
      refine nchain_cons_cons.2 ⟨?_, ?_⟩
      · rw [hnext_new]
        rw [hc] at hheadv
        rcases Option.some.inj hheadv with rfl
        rfl
      · rw [← hc]
        refine nchain_congr_dropLast h.links ?_
        intro i hi
        have himem : i ∈ c := List.dropLast_subset c hi
        refine (hnext_keep i ?_ (fun he => hnotc (by rw [← he]; exact himem))).symm
        exact nodup_dropLast_ne_last h.nodup hlastv i hi
    · intro i j hi hj
      rw [getLast?_cons_ne_nil _ hcne, hlastv] at hi
      rcases Option.some.inj hi with rfl
      have hjn : j = l.heap.length := by simpa using hj.symm
      subst hjn
      exact hnext_last
    · rw [List.map_cons, hvaln]
      congr 1
      exact List.map_congr_left (fun i hi => hval2 i (hbn i hi))

/-- Append is Prepend followed by advancing the tail to the new node, which
rotates the chain: the fresh address moves from the front to the back. -/
theorem CSLL_Append_repr [Inhabited T] {l : CircularSinglyLinkedList T} {c : List Nat}
    (h : CSRepr l c) (v : T) :
    CSRepr (l.Append v) (c ++ [l.heap.length]) ∧
      (c ++ [l.heap.length]).map (sValD (l.Append v).heap) =
        c.map (sValD l.heap) ++ [v] := by
  rcases CSLL_Prepend_repr h v with ⟨hp, hpv⟩
  have hnotc : l.heap.length ∉ c := fun hmem => lt_irrefl _ (h.bounds _ hmem)
  have hlast1 : (l.heap.length :: c).getLast? =
      some ((l.heap.length :: c).getLast (by simp)) := List.getLast?_eq_getLast _ _
  have htl1 : (l.Prepend v).tail = some ((l.heap.length :: c).getLast (by simp)) := by
    rw [hp.tail_eq, hlast1]
  have htl : (l.Append v).tail = some l.heap.length := by
    show optNext (sNextF (l.Prepend v).heap) (l.Prepend v).tail = some l.heap.length
    rw [htl1]
    exact hp.wrap _ l.heap.length hlast1 rfl
  have hheap : (l.Append v).heap = (l.Prepend v).heap := rfl
  have hsz : (l.Append v).size = (l.Prepend v).size := rfl
  have hvn : sValD (l.Prepend v).heap l.heap.length = v := by
    have := hpv
    rw [List.map_cons] at this
    exact (List.cons.injEq _ _ _ _ ▸ this).1
  have hvc : c.map (sValD (l.Prepend v).heap) = c.map (sValD l.heap) := by
    have := hpv
    rw [List.map_cons] at this
    exact (List.cons.injEq _ _ _ _ ▸ this).2
  refine ⟨⟨?_, ?_, ?_, ?_, ?_, ?_⟩, ?_⟩
  · intro i hi
    rw [hheap]
    refine hp.bounds i ?_
    rcases List.mem_append.1 hi with hi2 | hi2
    · exact List.mem_cons_of_mem _ hi2
    · simp at hi2
      simp [hi2]
  · rw [List.nodup_append]
    refine ⟨h.nodup, by simp, ?_⟩
    intro a ha hb
    have han : a = l.heap.length := by simpa using hb
    subst han
    exact hnotc ha
  · rw [htl, List.getLast?_concat]
  · rw [hsz, hp.size_eq]
    simp
  · rw [hheap]
    rcases hc : c with _ | ⟨x, c2⟩
    · exact nchain_singleton _ _
    · rw [← hc]
      refine List.chain'_append.2 ⟨NChain.tail hp.links, nchain_singleton _ _, ?_⟩
      intro u hu w hw
      have hwn : w = l.heap.length := by simp at hw; omega
      subst hwn
      refine hp.wrap u l.heap.length ?_ rfl
      rw [getLast?_cons_ne_nil _ (by rw [hc]; simp)]
      exact hu
  · intro i j hi hj
    rw [List.getLast?_concat] at hi
    rcases Option.some.inj hi with rfl
    rw [hheap]
    rcases hc : c with _ | ⟨x, c2⟩
    · rw [hc] at hj
      have hjn : j = l.heap.length := by simpa using hj.symm
      subst hjn
      refine hp.wrap _ _ ?_ rfl
      rw [hc]
      rfl
    · have hjx : j = x := by rw [hc] at hj; simpa using hj.symm
      rw [hjx]
      have hlk := hp.links
      rw [hc] at hlk
      exact (nchain_cons_cons.1 hlk).1
  · rw [hheap, List.map_append, hvc]
    simp [hvn]

/-- Find is the reference search over the ring's chain. -/
theorem CSLL_Find_spec [Inhabited T] [DecidableEq T] {l : CircularSinglyLinkedList T}
    {c : List Nat} (h : CSRepr l c) (value : T) :
    l.Find value = firstMatch (sValD l.heap) value c := by
  unfold CircularSinglyLinkedList.Find
  by_cases hz : l.size = 0
  · rw [if_pos hz, h.csEmptyIff.1 hz]
    rfl
  · have hcne : c ≠ [] := fun hc => hz (h.csEmptyIff.2 hc)
    rw [if_neg hz, h.csHeadEq]
    refine findLoopC_spec c h.links hcne ?_ ?_ (l.heap.length + 1)
      (by have := h.csLenLe; omega)
    · intro i hi
      rcases hc : c with _ | ⟨x, c2⟩
      · rw [hc] at hi
        simp at hi
      · exact h.wrap i x hi (by rw [hc]; rfl)
    · intro i hi he
      rcases nchain_next_mem_tail h.links i hi with ⟨j, hj, hnext⟩
      rw [hnext] at he
      rcases hc : c with _ | ⟨x, c2⟩
      · rw [hc] at hj
        simp at hj
      · rw [hc] at he hj
        have hjx : j = x := by simpa using he
        have hnd := h.nodup
        rw [hc] at hnd
        refine (List.nodup_cons.1 hnd).1 ?_
        rw [← hjx]
        exact hj

/-- The ForEach visit trace is the ring's value sequence. -/
theorem CSLL_ForEachSeq_spec [Inhabited T] {l : CircularSinglyLinkedList T} {c : List Nat}
    (h : CSRepr l c) : l.ForEachSeq = c.map (sValD l.heap) := by
  unfold CircularSinglyLinkedList.ForEachSeq
  by_cases hz : l.size = 0
  · rw [if_pos hz, h.csEmptyIff.1 hz]
    rfl
  · rw [if_neg hz, h.csHeadEq, h.csSizeToNat]
    exact collectC_spec h.links

/-- String() renders the empty marker or the bracketed joined ring values. -/
theorem csllString_spec [Inhabited T] [ToString T] {l : CircularSinglyLinkedList T}
    {c : List Nat} (h : CSRepr l c) :
    csllString l = if c = [] then "CircularSinglyLinkedList: []"
      else "CircularSinglyLinkedList: " ++ bracketJoin " -> " (c.map (sValD l.heap)) := by
  unfold csllString
  by_cases hz : l.size = 0
  · rw [if_pos hz, if_pos (h.csEmptyIff.1 hz)]
  · rw [if_neg hz, if_neg (fun hc => hz (h.csEmptyIff.2 hc)), h.csHeadEq, h.csSizeToNat,
      stringLoopC_spec h.links]

/-- In-bounds Get returns no error and the chain entry at the index. -/
theorem CSLL_Get_inbounds {l : CircularSinglyLinkedList T} {c : List Nat} (h : CSRepr l c)
    {index : Int} (h0 : 0 ≤ index) (h1 : index < l.size) :
    l.Get index = (none, c.get? index.toNat) := by
  unfold CircularSinglyLinkedList.Get
  rw [if_neg (by omega)]
  rw [h.csHeadEq, nchain_iterN h.links index.toNat (by have := h.size_eq; omega)]

/-- Set keeps the ring intact: only a value cell changes. -/
theorem CSLL_Set_repr [Inhabited T] {l : CircularSinglyLinkedList T} {c : List Nat}
    (h : CSRepr l c) (index : Int) (v : T) : CSRepr ((l.Set index v).2) c := by
  by_cases hoob : index < 0 ∨ index ≥ l.size
  · have hres : (l.Set index v).2 = l := by
      unfold CircularSinglyLinkedList.Set CircularSinglyLinkedList.Get
      rw [if_pos hoob]
    rw [hres]
    exact h
  · push_neg at hoob
    have hk : index.toNat < c.length := by
      have := h.size_eq
      omega
    have hget : l.Get index = (none, c.get? index.toNat) :=
      CSLL_Get_inbounds h (by omega) (by omega)
    have hm := List.get?_eq_get hk
    have hres : (l.Set index v).2 =
        { l with heap := sSetVal l.heap (c.get ⟨index.toNat, hk⟩) v } := by
      unfold CircularSinglyLinkedList.Set
      rw [hget, hm]
      rfl
    rw [hres]
    refine ⟨?_, h.nodup, h.tail_eq, h.size_eq, ?_, ?_⟩
    · intro i hi
      show i < (sSetVal l.heap _ v).length
      rw [sSetVal_length]
      exact h.bounds i hi
    · refine nchain_congr h.links ?_
      intro i _
      exact (sNextF_sSetVal l.heap i _ v).symm
    · intro i j hi hj
      show sNextF (sSetVal l.heap _ v) i = some j
      rw [sNextF_sSetVal]
      exact h.wrap i j hi hj

/-- RemoveFirst drops the head of the ring. -/
theorem CSLL_RemoveFirst_repr [Inhabited T] {l : CircularSinglyLinkedList T} {c : List Nat}
    (h : CSRepr l c) : CSRepr l.RemoveFirst c.tail := by
  by_cases hz : l.size = 0
  · have hc : c = [] := h.csEmptyIff.1 hz
    subst hc
    have hres : l.RemoveFirst = l := by
      unfold CircularSinglyLinkedList.RemoveFirst
      rw [if_pos hz]
    rw [hres]
    exact h
  by_cases h1 : l.size = 1
  · have hres : l.RemoveFirst = l.Clear := by
      unfold CircularSinglyLinkedList.RemoveFirst
      rw [if_neg hz, if_pos h1]
    rw [hres]
    have hc := CSLL_Clear_repr h
    rcases hcc : c with _ | ⟨x, c2⟩
    · exact hc
    have hlc : c.length = 1 := by have := h.size_eq; omega
    rw [hcc] at hlc
    simp at hlc
    subst hlc
    exact hc
  · -- at least two nodes
    have hlen2 : 2 ≤ c.length := by have := h.size_eq; omega
    rcases hcc : c with _ | ⟨x, c2⟩
    · rw [hcc] at hlen2; simp at hlen2
    rcases hcc2 : c2 with _ | ⟨y, c3⟩
    · rw [hcc, hcc2] at hlen2; simp at hlen2
    subst hcc2
    subst hcc
    have hne : (x :: y :: c3 : List Nat) ≠ [] := by simp
    have hlastv : (x :: y :: c3).getLast? = some ((x :: y :: c3).getLast hne) :=
      List.getLast?_eq_getLast _ _
    set lastv := (x :: y :: c3).getLast hne with hlv
    have htail : l.tail = some lastv := by rw [h.tail_eq, hlastv]
    have hlmem : lastv ∈ x :: y :: c3 := mem_of_getLast?_eq hlastv
    have hlbound : lastv < l.heap.length := h.bounds lastv hlmem
    have hwx : sNextF l.heap lastv = some x := h.wrap lastv x hlastv rfl
    have hxy : sNextF l.heap x = some y := (nchain_cons_cons.1 h.links).1
    have hres : l.RemoveFirst =
        { heap := sSetNext l.heap lastv (some y), tail := some lastv,
          size := l.size - 1 } := by
      unfold CircularSinglyLinkedList.RemoveFirst
      rw [if_neg hz, if_neg h1, htail]
      rw [show optNext (sNextF l.heap) (some lastv) = sNextF l.heap lastv from rfl, hwx,
        show optNext (sNextF l.heap) (some x) = sNextF l.heap x from rfl, hxy]
      rfl
    rw [hres]
    have hndtail : (y :: c3).Nodup := (List.nodup_cons.1 h.nodup).2
    have hxnotin : x ∉ y :: c3 := (List.nodup_cons.1 h.nodup).1
    have hlast_in_tail : (y :: c3).getLast? = some lastv := by
      rw [← List.getLast?_cons_cons (a := x), hlastv]
    have hlastne : ∀ i ∈ (y :: c3).dropLast, i ≠ lastv :=
      nodup_dropLast_ne_last hndtail hlast_in_tail
    refine ⟨?_, hndtail, ?_, ?_, ?_, ?_⟩
    · intro i hi
      show i < (sSetNext l.heap lastv (some y)).length
      rw [sSetNext_length]
      exact h.bounds i (List.mem_cons_of_mem x hi)
    · show (some lastv : Option Nat) = (y :: c3).getLast?
      rw [hlast_in_tail]
    · show l.size - 1 = _
      have := h.size_eq
      simp at this ⊢
      omega
    · refine nchain_congr_dropLast (NChain.tail h.links) ?_
      intro i hi
      exact (sNextF_sSetNext_ne (hlastne i hi) _).symm
    · intro i j hi hj
      rw [show (x :: y :: c3).tail = y :: c3 from rfl, hlast_in_tail] at hi
      rcases Option.some.inj hi with rfl
      have hjy : j = y := by simpa using hj.symm
      subst hjy
      exact sNextF_sSetNext_self hlbound _

/-- RemoveLast drops the last ring entry; its predecessor wraps to the head. -/
theorem CSLL_RemoveLast_repr [Inhabited T] {l : CircularSinglyLinkedList T} {c : List Nat}
    (h : CSRepr l c) : CSRepr l.RemoveLast c.dropLast := by
  by_cases hz : l.size = 0
  · have hc : c = [] := h.csEmptyIff.1 hz
    subst hc
    have hres : l.RemoveLast = l := by
      unfold CircularSinglyLinkedList.RemoveLast
      rw [if_pos hz]
    rw [hres]
    exact h
  by_cases h1 : l.size = 1
  · have hres : l.RemoveLast = l.Clear := by
      unfold CircularSinglyLinkedList.RemoveLast
      rw [if_neg hz, if_pos h1]
    rw [hres]
    have hc := CSLL_Clear_repr h
    have hlc : c.length = 1 := by have := h.size_eq; omega
    rcases hcc : c with _ | ⟨x, c2⟩
    · rw [hcc] at hlc; simp at hlc
    rw [hcc] at hlc
    simp at hlc
    subst hlc
    subst hcc
    exact hc
  · have hlen2 : 2 ≤ c.length := by have := h.size_eq; omega
    rcases exists_concat_two hlen2 with ⟨c1, a, b, rfl⟩
    have hsplit : c1 ++ [a, b] = (c1 ++ [a]) ++ [b] := by simp
    have htail : l.tail = some b := by
      rw [h.tail_eq, hsplit, List.getLast?_concat]
    have hamem : a ∈ c1 ++ [a, b] := by simp
    have habound : a < l.heap.length := h.bounds a hamem
    have hheadv : ∃ headv, (c1 ++ [a, b]).head? = some headv := by
      cases c1 with
      | nil => exact ⟨a, rfl⟩
      | cons z c1b => exact ⟨z, rfl⟩
    rcases hheadv with ⟨headv, hheadv⟩
    have hwb : sNextF l.heap b = some headv :=
      h.wrap b headv (by rw [hsplit, List.getLast?_concat]) hheadv
    have hpred : predWalk (sNextF l.heap) l.tail (l.heap.length + 1) l.Head = some a := by
      rw [htail, h.csHeadEq]
      exact predWalk_spec c1 a b [] h.links h.nodup (l.heap.length + 1)
        (by have := h.csLenLe; simp at this; omega)
    have hres : l.RemoveLast =
        { heap := sSetNext l.heap a (some headv), tail := some a,
          size := l.size - 1 } := by
      unfold CircularSinglyLinkedList.RemoveLast
      rw [if_neg hz, if_neg h1, hpred, htail]
      rw [show optNext (sNextF l.heap) (some b) = sNextF l.heap b from rfl, hwb]
      rfl
    have hdrop : (c1 ++ [a, b]).dropLast = c1 ++ [a] := by
      rw [hsplit, List.dropLast_concat]
    rw [hres, hdrop]
    have hnd1 : (c1 ++ [a]).Nodup := by
      have hnd0 : ((c1 ++ [a]) ++ [b]).Nodup := by rw [← hsplit]; exact h.nodup
      exact (List.nodup_append.1 hnd0).1
    have hane : ∀ i ∈ c1, i ≠ a := fun i hi he =>
      (List.disjoint_of_nodup_append hnd1) hi (by simp [he])
    have hchain1 : NChain (sNextF l.heap) (c1 ++ [a]) := by
      have hc0 : NChain (sNextF l.heap) ((c1 ++ [a]) ++ [b]) := by
        rw [← hsplit]; exact h.links
      exact (List.chain'_append.1 hc0).1
    refine ⟨?_, hnd1, ?_, ?_, ?_, ?_⟩
    · intro i hi
      show i < (sSetNext l.heap a _).length
      rw [sSetNext_length]
      refine h.bounds i ?_
      rw [hsplit]
      exact List.mem_append_left [b] hi
    · rw [List.getLast?_concat]
    · have := h.size_eq
      simp at this ⊢
      omega
    · refine nchain_congr_dropLast hchain1 ?_
      rw [List.dropLast_concat]
      exact fun i hi => (sNextF_sSetNext_ne (hane i hi) _).symm
    · intro i j hi hj
      rw [List.getLast?_concat] at hi
      rcases Option.some.inj hi with rfl
      have hjh : (c1 ++ [a]).head? = some headv := by
        rw [← head?_append_pair c1 a b]
        exact hheadv
      rw [hjh] at hj
      rcases Option.some.inj hj with rfl
      exact sNextF_sSetNext_self habound _

/-- The counted removal scan finds no match: the list is untouched. -/
theorem csRemoveLoop_nomatch [Inhabited T] [DecidableEq T] {l : CircularSinglyLinkedList T}
    {value : T} :
    ∀ (s : List Nat) (prev : Option Nat), NChain (sNextF l.heap) s →
      (∀ i ∈ s, sValD l.heap i ≠ value) →
      csRemoveLoop l value s.length prev s.head? = l := by
  intro s
  induction s with
  | nil => intro prev _ _; rfl
  | cons x s2 ih =>
    intro prev hch hval
    have hstep : csRemoveLoop l value (x :: s2).length prev (x :: s2).head? =
        if sValD l.heap x = value then
          (if l.size = 1 then l.Clear
           else { heap := pSetNextS l.heap prev (optNext (sNextF l.heap) (some x)),
                  tail := if (some x : Option Nat) = l.tail then prev else l.tail,
                  size := l.size - 1 })
        else csRemoveLoop l value s2.length x (optNext (sNextF l.heap) (some x)) := rfl
    rw [hstep, if_neg (hval x (by simp))]
    cases s2 with
    | nil => rfl
    | cons y s3 =>
      have hxy : sNextF l.heap x = some y := (nchain_cons_cons.1 hch).1
      rw [show optNext (sNextF l.heap) (some x) = sNextF l.heap x from rfl, hxy]
      exact ih x (NChain.tail hch) (fun i hi => hval i (List.mem_cons_of_mem x hi))

/-- The counted removal scan hits its first match at `m` after walking `s1`:
the predecessor carried at that moment is the last of `s1` (or the initial
`prev`), and the loop performs the unlink exactly there. -/
theorem csRemoveLoop_match [Inhabited T] [DecidableEq T] {l : CircularSinglyLinkedList T}
    {value : T} :
    ∀ (s1 : List Nat) (prev : Nat) (m : Nat),
      NChain (sNextF l.heap) (s1 ++ [m]) →
      (∀ i ∈ s1, sValD l.heap i ≠ value) → sValD l.heap m = value →
      ∀ k, csRemoveLoop l value (s1.length + 1 + k) (some prev) ((s1 ++ [m]).head?) =
        (if l.size = 1 then l.Clear
         else { heap := pSetNextS l.heap (some (s1.getLastD prev))
                  (optNext (sNextF l.heap) (some m)),
                tail := if (some m : Option Nat) = l.tail then some (s1.getLastD prev)
                  else l.tail,
                size := l.size - 1 }) := by
  intro s1
  induction s1 with
  | nil =>
    intro prev m _ _ hm k
    have hstep : csRemoveLoop l value (k + 1) (some prev) (some m) =
        if sValD l.heap m = value then
          (if l.size = 1 then l.Clear
           else { heap := pSetNextS l.heap (some prev) (optNext (sNextF l.heap) (some m)),
                  tail := if (some m : Option Nat) = l.tail then some prev else l.tail,
                  size := l.size - 1 })
        else csRemoveLoop l value k m (optNext (sNextF l.heap) (some m)) := rfl
    show csRemoveLoop l value (0 + 1 + k) (some prev) (some m) = _
    rw [show 0 + 1 + k = k + 1 by omega, hstep, if_pos hm]
    rfl
  | cons x s1b ih =>
    intro prev m hch hval hm k
    have hf : (x :: s1b).length + 1 + k = (s1b.length + 1 + k) + 1 := by
      simp
      omega
    rw [hf]
    have hstep : csRemoveLoop l value ((s1b.length + 1 + k) + 1) (some prev)
        (((x :: s1b) ++ [m]).head?) =
        if sValD l.heap x = value then
          (if l.size = 1 then l.Clear
           else { heap := pSetNextS l.heap (some prev) (optNext (sNextF l.heap) (some x)),
                  tail := if (some x : Option Nat) = l.tail then some prev else l.tail,
                  size := l.size - 1 })
        else csRemoveLoop l value (s1b.length + 1 + k) x
          (optNext (sNextF l.heap) (some x)) := rfl
    rw [hstep, if_neg (hval x (by simp))]
    have hhd : ∃ hd2, (s1b ++ [m]).head? = some hd2 := by
      cases s1b with
      | nil => exact ⟨m, rfl⟩
      | cons z zs => exact ⟨z, rfl⟩
    rcases hhd with ⟨hd2, hhd⟩
    have hxnext : sNextF l.heap x = some hd2 := nchain_head_link hch hhd
    rw [show optNext (sNextF l.heap) (some x) = sNextF l.heap x from rfl, hxnext, ← hhd]
    rw [ih x m (NChain.tail hch) (fun i hi => hval i (List.mem_cons_of_mem x hi)) hm k]
    rw [List.getLastD_cons]

/-- Unlinking the head of a ring of two or more nodes: the tail skips to the
second node. -/
theorem CSLL_unlink_head_core [Inhabited T] {l : CircularSinglyLinkedList T}
    {m y : Nat} {s2 : List Nat} (h : CSRepr l (m :: y :: s2)) {lastv : Nat}
    (hlastv : (m :: y :: s2).getLast? = some lastv) :
    CSRepr { heap := sSetNext l.heap lastv (some y), tail := some lastv,
             size := l.size - 1 } (y :: s2) := by
  have hlmem : lastv ∈ m :: y :: s2 := mem_of_getLast?_eq hlastv
  have hlbound : lastv < l.heap.length := h.bounds lastv hlmem
  have hndtail : (y :: s2).Nodup := (List.nodup_cons.1 h.nodup).2
  have hlast_in_tail : (y :: s2).getLast? = some lastv := by
    rw [← List.getLast?_cons_cons (a := m), hlastv]
  have hlastne : ∀ i ∈ (y :: s2).dropLast, i ≠ lastv :=
    nodup_dropLast_ne_last hndtail hlast_in_tail
  refine ⟨?_, hndtail, ?_, ?_, ?_, ?_⟩
  · intro i hi
    show i < (sSetNext l.heap lastv (some y)).length
    rw [sSetNext_length]
    exact h.bounds i (List.mem_cons_of_mem m hi)
  · show (some lastv : Option Nat) = (y :: s2).getLast?
    rw [hlast_in_tail]
  · show l.size - 1 = _
    have := h.size_eq
    simp at this ⊢
    omega
  · refine nchain_congr_dropLast (NChain.tail h.links) ?_
    intro i hi
    exact (sNextF_sSetNext_ne (hlastne i hi) _).symm
  · intro i j hi hj
    rw [hlast_in_tail] at hi
    rcases Option.some.inj hi with rfl
    have hjy : j = y := by simpa using hj.symm
    subst hjy
    exact sNextF_sSetNext_self hlbound _

/-- Unlinking the tail of a ring of two or more nodes: its predecessor wraps
to the head and becomes the tail. -/
theorem CSLL_unlink_last_core [Inhabited T] {l : CircularSinglyLinkedList T}
    {c1 : List Nat} {a b : Nat} (h : CSRepr l (c1 ++ [a, b])) {headv : Nat}
    (hheadv : (c1 ++ [a, b]).head? = some headv) :
    CSRepr { heap := sSetNext l.heap a (some headv), tail := some a,
             size := l.size - 1 } (c1 ++ [a]) := by
  have hsplit : c1 ++ [a, b] = (c1 ++ [a]) ++ [b] := by simp
  have hamem : a ∈ c1 ++ [a, b] := by simp
  have habound : a < l.heap.length := h.bounds a hamem
  have hnd1 : (c1 ++ [a]).Nodup := by
    have hnd0 : ((c1 ++ [a]) ++ [b]).Nodup := by rw [← hsplit]; exact h.nodup
    exact (List.nodup_append.1 hnd0).1
  have hane : ∀ i ∈ c1, i ≠ a := fun i hi he =>
    (List.disjoint_of_nodup_append hnd1) hi (by simp [he])
  have hchain1 : NChain (sNextF l.heap) (c1 ++ [a]) := by
    have hc0 : NChain (sNextF l.heap) ((c1 ++ [a]) ++ [b]) := by
      rw [← hsplit]; exact h.links
    exact (List.chain'_append.1 hc0).1
  refine ⟨?_, hnd1, ?_, ?_, ?_, ?_⟩
  · intro i hi
    show i < (sSetNext l.heap a _).length
    rw [sSetNext_length]
    refine h.bounds i ?_
    rw [hsplit]
    exact List.mem_append_left [b] hi
  · rw [List.getLast?_concat]
  · have := h.size_eq
    simp at this ⊢
    omega
  · refine nchain_congr_dropLast hchain1 ?_
    rw [List.dropLast_concat]
    exact fun i hi => (sNextF_sSetNext_ne (hane i hi) _).symm
  · intro i j hi hj
    rw [List.getLast?_concat] at hi
    rcases Option.some.inj hi with rfl
    have hjh : (c1 ++ [a]).head? = some headv := by
      rw [← head?_append_pair c1 a b]
      exact hheadv
    rw [hjh] at hj
    rcases Option.some.inj hj with rfl
    exact sNextF_sSetNext_self habound _

/-- Unlinking an interior node of a ring: its predecessor links past it and
the tail reference is untouched. -/
theorem CSLL_unlink_mid_core [Inhabited T] {l : CircularSinglyLinkedList T}
    {s1 : List Nat} {a m y : Nat} {s2 : List Nat}
    (h : CSRepr l (s1 ++ a :: m :: y :: s2)) :
    CSRepr { heap := sSetNext l.heap a (some y), tail := l.tail,
             size := l.size - 1 } (s1 ++ a :: y :: s2) := by
  have hdisj := List.disjoint_of_nodup_append h.nodup
  have hndtail : (a :: m :: y :: s2).Nodup := (List.nodup_append.1 h.nodup).2.1
  have hanotrest : a ∉ m :: y :: s2 := (List.nodup_cons.1 hndtail).1
  have hamem : a ∈ s1 ++ a :: m :: y :: s2 := by simp
  have habound : a < l.heap.length := h.bounds a hamem
  have hchains := List.chain'_append.1 h.links
  have hsub : List.Sublist (s1 ++ a :: y :: s2) (s1 ++ a :: m :: y :: s2) :=
    (List.append_sublist_append_left s1).2
      (List.Sublist.cons₂ a (List.sublist_cons_self m (y :: s2)))
  have hnext_keep : ∀ i, i ≠ a →
      sNextF (sSetNext l.heap a (some y)) i = sNextF l.heap i :=
    fun i hi => sNextF_sSetNext_ne hi _
  have hLc : (s1 ++ a :: m :: y :: s2).getLast? = (y :: s2).getLast? := by
    rw [List.getLast?_append_of_ne_nil _ (by simp), getLast?_cons_ne_nil a (by simp),
      getLast?_cons_ne_nil m (by simp)]
  have hLc2 : (s1 ++ a :: y :: s2).getLast? = (y :: s2).getLast? := by
    rw [List.getLast?_append_of_ne_nil _ (by simp), getLast?_cons_ne_nil a (by simp)]
  have hlastv : ∃ lastv, (y :: s2).getLast? = some lastv :=
    ⟨(y :: s2).getLast (by simp), List.getLast?_eq_getLast _ _⟩
  rcases hlastv with ⟨lastv, hlastv⟩
  have hlv_mem : lastv ∈ y :: s2 := mem_of_getLast?_eq hlastv
  have hlv_ne_a : lastv ≠ a := by
    intro he
    refine hanotrest ?_
    rw [← he]
    exact List.mem_cons_of_mem m hlv_mem
  refine ⟨?_, List.Sublist.nodup hsub h.nodup, ?_, ?_, ?_, ?_⟩
  · intro i hi
    show i < (sSetNext l.heap a _).length
    rw [sSetNext_length]
    exact h.bounds i (hsub.subset hi)
  · rw [h.tail_eq, hLc, hLc2]
  · have := h.size_eq
    simp at this ⊢
    omega
  · refine List.chain'_append.2 ⟨?_, ?_, ?_⟩
    · refine nchain_congr_dropLast hchains.1 ?_
      intro i hi
      refine (hnext_keep i ?_).symm
      intro he
      have hmem : a ∈ s1 := by rw [← he]; exact List.dropLast_subset s1 hi
      exact hdisj hmem (by simp)
    · refine nchain_cons_cons.2 ⟨?_, ?_⟩
      · exact sNextF_sSetNext_self habound _
      · refine nchain_congr_dropLast
          (nchain_cons_cons.1 (nchain_cons_cons.1 hchains.2.1).2).2 ?_
        intro i hi
        have himem : i ∈ y :: s2 := List.dropLast_subset _ hi
        refine (hnext_keep i ?_).symm
        intro he
        refine hanotrest ?_
        rw [← he]
        exact List.mem_cons_of_mem m himem
    · intro u hu w hw
      have huc1 : u ∈ s1 := mem_of_getLast?_eq hu
      have hwa : w = a := by simp at hw; omega
      have hune : u ≠ a := by
        intro he
        have hmem : a ∈ s1 := by rw [← he]; exact huc1
        exact hdisj hmem (by simp)
      rw [hnext_keep u hune, hwa]
      exact hchains.2.2 u hu a rfl
  · intro i j hi hj
    rw [hLc2, hlastv] at hi
    rcases Option.some.inj hi with rfl
    have hjh : (s1 ++ a :: m :: y :: s2).head? = some j := by
      rw [head?_append_cons s1 a (m :: y :: s2) (y :: s2)]
      exact hj
    rw [hnext_keep lastv hlv_ne_a]
    refine h.wrap lastv j ?_ hjh
    rw [hLc, hlastv]

/-- Remove of a value absent from the ring leaves the list untouched. -/
theorem CSLL_Remove_absent [Inhabited T] [DecidableEq T] {l : CircularSinglyLinkedList T}
    {c : List Nat} (h : CSRepr l c) {value : T}
    (hab : ∀ i ∈ c, sValD l.heap i ≠ value) : l.Remove value = l := by
  by_cases hz : l.size = 0
  · unfold CircularSinglyLinkedList.Remove
    rw [if_pos hz]
  · unfold CircularSinglyLinkedList.Remove
    rw [if_neg hz, h.csSizeToNat, h.csHeadEq]
    exact csRemoveLoop_nomatch c l.tail h.links hab

/-- Remove preserves representability: the result ring is the original with
the first matching address (if any) deleted. -/
theorem CSLL_Remove_repr [Inhabited T] [DecidableEq T] {l : CircularSinglyLinkedList T}
    {c : List Nat} (h : CSRepr l c) (value : T) :
    ∃ c', CSRepr (l.Remove value) c' := by
  by_cases hz : l.size = 0
  · refine ⟨c, ?_⟩
    rw [show l.Remove value = l by unfold CircularSinglyLinkedList.Remove; rw [if_pos hz]]
    exact h
  rcases hfm : firstMatch (sValD l.heap) value c with _ | m
  · refine ⟨c, ?_⟩
    rw [CSLL_Remove_absent h (firstMatch_eq_none_iff.1 hfm)]
    exact h
  rcases firstMatch_eq_some hfm with ⟨s1, s2, hdecomp, hs1, hmval⟩
  subst hdecomp
  have hcne : (s1 ++ m :: s2 : List Nat) ≠ [] := by simp
  obtain ⟨lastv, hlastv⟩ : ∃ lv, (s1 ++ m :: s2).getLast? = some lv :=
    ⟨(s1 ++ m :: s2).getLast hcne, List.getLast?_eq_getLast _ _⟩
  have htail : l.tail = some lastv := by rw [h.tail_eq, hlastv]
  have hchain1 : NChain (sNextF l.heap) (s1 ++ [m]) := by
    have hassoc : s1 ++ m :: s2 = (s1 ++ [m]) ++ s2 := by simp
    have hc0 : NChain (sNextF l.heap) ((s1 ++ [m]) ++ s2) := by
      rw [← hassoc]; exact h.links
    exact (List.chain'_append.1 hc0).1
  have hloop := csRemoveLoop_match s1 lastv m hchain1 hs1 hmval s2.length
  rw [htail] at hloop
  have hres : l.Remove value =
      (if l.size = 1 then l.Clear
       else { heap := pSetNextS l.heap (some (s1.getLastD lastv))
                (optNext (sNextF l.heap) (some m)),
              tail := if (some m : Option Nat) = some lastv then some (s1.getLastD lastv)
                else some lastv,
              size := l.size - 1 }) := by
    unfold CircularSinglyLinkedList.Remove
    rw [if_neg hz, h.csSizeToNat, htail, h.csHeadEq]
    rw [show (s1 ++ m :: s2).length = s1.length + 1 + s2.length by simp; omega]
    rw [head?_append_cons s1 m s2 []]
    exact hloop
  rw [hres]
  by_cases h1 : l.size = 1
  · rw [if_pos h1]
    exact ⟨[], CSLL_Clear_repr h⟩
  rw [if_neg h1]
  have hlen2 : 2 ≤ s1.length + 1 + s2.length := by
    have hse := h.size_eq
    simp at hse
    omega
  rcases List.eq_nil_or_concat' s1 with hs1nil | ⟨s1', a, hs1c⟩
  · -- the match is the head node
    subst hs1nil
    simp only [List.nil_append] at h hlastv
    rcases hs2c : s2 with _ | ⟨y, s2'⟩
    · rw [hs2c] at hlen2; simp at hlen2
    subst hs2c
    have hmy : sNextF l.heap m = some y := (nchain_cons_cons.1 h.links).1
    have hlast_tail : (y :: s2').getLast? = some lastv := by
      rw [← List.getLast?_cons_cons (a := m)]
      exact hlastv
    have hlvmem : lastv ∈ y :: s2' := mem_of_getLast?_eq hlast_tail
    have hmne : ¬((some m : Option Nat) = some lastv) := by
      intro he
      rcases Option.some.inj he with rfl
      exact (List.nodup_cons.1 h.nodup).1 hlvmem
    rw [if_neg hmne]
    rw [show optNext (sNextF l.heap) (some m) = sNextF l.heap m from rfl, hmy]
    rw [show ([] : List Nat).getLastD lastv = lastv from rfl]
    refine ⟨y :: s2', ?_⟩
    exact CSLL_unlink_head_core h hlastv
  · -- the match comes after at least one node; `a` is its predecessor
    subst hs1c
    rw [List.getLastD_concat]
    rcases hs2c : s2 with _ | ⟨y, s2'⟩
    · -- the match is the tail node
      subst hs2c
      have hceq : (s1' ++ [a]) ++ m :: [] = s1' ++ [a, m] := by simp
      rw [hceq] at h hlastv
      have hlastm : (s1' ++ [a, m] : List Nat).getLast? = some m := by
        rw [show (s1' ++ [a, m] : List Nat) = (s1' ++ [a]) ++ [m] by simp,
          List.getLast?_concat]
      have hlvm : lastv = m := by
        rw [hlastm] at hlastv
        exact (Option.some.inj hlastv).symm
      have hguard : (some m : Option Nat) = some lastv := by rw [hlvm]
      rw [if_pos hguard]
      have hhd : ∃ headv, (s1' ++ [a, m] : List Nat).head? = some headv := by
        rcases s1' with _ | ⟨z, zs⟩
        · exact ⟨a, rfl⟩
        · exact ⟨z, rfl⟩
      rcases hhd with ⟨headv, hheadv⟩
      have hmw : sNextF l.heap m = some headv := h.wrap m headv hlastm hheadv
      rw [show optNext (sNextF l.heap) (some m) = sNextF l.heap m from rfl, hmw]
      refine ⟨s1' ++ [a], ?_⟩
      exact CSLL_unlink_last_core h hheadv
    · -- the match is interior
      subst hs2c
      have hceq : (s1' ++ [a]) ++ m :: y :: s2' = s1' ++ a :: m :: y :: s2' := by simp
      rw [hceq] at h hlastv
      have hLc : (s1' ++ a :: m :: y :: s2' : List Nat).getLast? =
          (y :: s2').getLast? := by
        rw [List.getLast?_append_of_ne_nil _ (by simp),
          getLast?_cons_ne_nil a (by simp), getLast?_cons_ne_nil m (by simp)]
      have hlast_tail : (y :: s2').getLast? = some lastv := by
        rw [← hLc, hlastv]
      have hlvmem : lastv ∈ y :: s2' := mem_of_getLast?_eq hlast_tail
      have hndtail : (a :: m :: y :: s2' : List Nat).Nodup :=
        (List.nodup_append.1 h.nodup).2.1
      have hmnot : m ∉ y :: s2' := (List.nodup_cons.1 (List.nodup_cons.1 hndtail).2).1
      have hmne : ¬((some m : Option Nat) = some lastv) := by
        intro he
        rcases Option.some.inj he with rfl
        exact hmnot hlvmem
      rw [if_neg hmne]
      have hmy : sNextF l.heap m = some y := by
        have hch := List.chain'_append.1 h.links
        exact (nchain_cons_cons.1 (nchain_cons_cons.1 hch.2.1).2).1
      rw [show optNext (sNextF l.heap) (some m) = sNextF l.heap m from rfl, hmy]
      rw [← htail]
      refine ⟨s1' ++ a :: y :: s2', ?_⟩
      exact CSLL_unlink_mid_core h

/-- InsertAt keeps the ring well formed in every branch. -/
theorem CSLL_InsertAt_repr [Inhabited T] {l : CircularSinglyLinkedList T} {c : List Nat}
    (h : CSRepr l c) (index : Int) (v : T) :
    ∃ c', CSRepr ((l.InsertAt index v).2) c' := by
  by_cases hoob : index < 0 ∨ index > l.size
  · refine ⟨c, ?_⟩
    have hres : (l.InsertAt index v).2 = l := by
      unfold CircularSinglyLinkedList.InsertAt
      rw [if_pos hoob]
    rw [hres]
    exact h
  by_cases h0 : index = 0
  · refine ⟨l.heap.length :: c, ?_⟩
    have hres : (l.InsertAt index v).2 = l.Prepend v := by
      unfold CircularSinglyLinkedList.InsertAt
      rw [if_neg hoob, if_pos h0]
    rw [hres]
    exact (CSLL_Prepend_repr h v).1
  by_cases hsz : index = l.size
  · refine ⟨c ++ [l.heap.length], ?_⟩
    have hres : (l.InsertAt index v).2 = l.Append v := by
      unfold CircularSinglyLinkedList.InsertAt
      rw [if_neg hoob, if_neg h0, if_pos hsz]
    rw [hres]
    exact (CSLL_Append_repr h v).1
  · -- interior splice
    push_neg at hoob
    have hik : (1 : Int) ≤ index := by omega
    have hkbound : (index - 1).toNat < c.length := by
      have := h.size_eq
      omega
    rcases exists_split_at hkbound with ⟨c1, a, c2, hdecomp, hc1len⟩
    have hc2ne : c2 ≠ [] := by
      intro hc2
      have hlen : c.length = c1.length + 1 := by rw [hdecomp, hc2]; simp
      have := h.size_eq
      have hlt : index < l.size := lt_of_le_of_ne hoob.2 hsz
      omega
    have hcur : iterN (sNextF l.heap) (index - 1).toNat l.Head = some a := by
      rw [h.csHeadEq, nchain_iterN h.links _ hkbound, hdecomp, ← hc1len,
        get?_append_middle]
    subst hdecomp
    have hdisj := List.disjoint_of_nodup_append h.nodup
    have hanotc1 : a ∉ c1 := fun ha => hdisj ha (by simp)
    have hndtail : (a :: c2).Nodup := (List.nodup_append.1 h.nodup).2.1
    have hanotc2 : a ∉ c2 := (List.nodup_cons.1 hndtail).1
    have hnotc : ∀ i ∈ c1 ++ a :: c2, i < l.heap.length := h.bounds
    have hamem : a ∈ c1 ++ a :: c2 := by simp
    have habound : a < l.heap.length := hnotc a hamem
    rcases hc2e : c2 with _ | ⟨y, c3⟩
    · exact absurd hc2e hc2ne
    subst hc2e
    have hay : sNextF l.heap a = some y :=
      (nchain_cons_cons.1 (List.chain'_append.1 h.links).2.1).1
    -- the two heap writes performed by the splice
    have hres : (l.InsertAt index v).2 =
        { heap := sSetNext (sSetNext (l.heap ++ [(⟨v, none⟩ : SNode T)]) l.heap.length
              (some y)) a (some l.heap.length),
          tail := l.tail, size := l.size + 1 } := by
      unfold CircularSinglyLinkedList.InsertAt
      rw [if_neg (by omega), if_neg h0, if_neg hsz, hcur]
      dsimp only
      rw [show optNext (sNextF (l.heap ++ [(⟨v, none⟩ : SNode T)])) (some a) =
          sNextF (l.heap ++ [(⟨v, none⟩ : SNode T)]) a from rfl,
        sNextF_append_lt habound, hay]
      rfl
    rw [hres]
    set h2 := sSetNext (sSetNext (l.heap ++ [(⟨v, none⟩ : SNode T)]) l.heap.length
      (some y)) a (some l.heap.length) with hh2
    have hlen2 : h2.length = l.heap.length + 1 := by
      rw [hh2, sSetNext_length, sSetNext_length]
      simp
    have hnext_keep : ∀ i, i ≠ a → i ≠ l.heap.length → sNextF h2 i = sNextF l.heap i := by
      intro i hia hin
      rw [hh2, sNextF_sSetNext_ne hia, sNextF_sSetNext_ne hin]
      by_cases hlt : i < l.heap.length
      · exact sNextF_append_lt hlt _
      · rw [sNextF_oob (by simp; omega), sNextF_oob (by omega)]
    have hnext_a : sNextF h2 a = some l.heap.length := by
      rw [hh2]
      exact sNextF_sSetNext_self (by rw [sSetNext_length]; simp; omega) _
    have hnext_n : sNextF h2 l.heap.length = some y := by
      rw [hh2, sNextF_sSetNext_ne (by omega) _]
      exact sNextF_sSetNext_self (by simp) _
    have hybound : y < l.heap.length := hnotc y (by simp)
    have hanen : a ≠ l.heap.length := by omega
    have hndc1 : c1.Nodup := (List.nodup_append.1 h.nodup).1
    have hchains := List.chain'_append.1 h.links
    have hch2 : NChain (sNextF l.heap) (a :: y :: c3) := hchains.2.1
    have hnnotc : l.heap.length ∉ c1 ++ a :: y :: c3 := fun hmem =>
      lt_irrefl _ (hnotc _ hmem)
    refine ⟨c1 ++ a :: l.heap.length :: y :: c3, ?_⟩
    have hLc : (c1 ++ a :: y :: c3).getLast? = (y :: c3).getLast? := by
      rw [List.getLast?_append_of_ne_nil _ (by simp), getLast?_cons_ne_nil a (by simp)]
    have hLc2 : (c1 ++ a :: l.heap.length :: y :: c3).getLast? = (y :: c3).getLast? := by
      rw [List.getLast?_append_of_ne_nil _ (by simp), getLast?_cons_ne_nil a (by simp),
        getLast?_cons_ne_nil _ (by simp)]
    refine ⟨?_, ?_, ?_, ?_, ?_, ?_⟩
    · intro i hi
      rw [hlen2]
      simp only [List.mem_append, List.mem_cons] at hi
      rcases hi with hi | hi | hi | hi | hi
      · have := hnotc i (by simp [hi]); omega
      · subst hi; omega
      · omega
      · subst hi; omega
      · have := hnotc i (by simp [hi]); omega
    · rw [List.nodup_append]
      refine ⟨hndc1, ?_, ?_⟩
      · rw [List.nodup_cons]
        refine ⟨?_, ?_⟩
        · intro hmem
          rcases List.mem_cons.1 hmem with he | hmem2
          · exact hanen he
          · exact hanotc2 hmem2
        · rw [List.nodup_cons]
          refine ⟨fun hmem => hnnotc (by simp [hmem]), (List.nodup_cons.1 hndtail).2⟩
      · intro i hi1 hi2
        simp only [List.mem_cons] at hi2
        rcases hi2 with rfl | rfl | hi2
        · exact hdisj hi1 (by simp)
        · exact hnnotc (by simp [hi1])
        · exact hdisj hi1 (by simp [hi2])
    · show l.tail = _
      rw [h.tail_eq, hLc, ← hLc2]
    · have := h.size_eq
      simp at this ⊢
      omega
    · refine List.chain'_append.2 ⟨?_, ?_, ?_⟩
      · refine nchain_congr_dropLast hchains.1 ?_
        intro i hi
        have himem : i ∈ c1 := List.dropLast_subset c1 hi
        exact (hnext_keep i (fun he => hdisj (he ▸ himem) (by simp))
          (fun he => hnnotc (by simp [he ▸ himem]))).symm
      · refine nchain_cons_cons.2 ⟨hnext_a, ?_⟩
        refine nchain_cons_cons.2 ⟨hnext_n, ?_⟩
        refine nchain_congr_dropLast (nchain_cons_cons.1 hch2).2 ?_
        intro i hi
        have himem : i ∈ y :: c3 := List.dropLast_subset _ hi
        exact (hnext_keep i (fun he => hanotc2 (he ▸ himem))
          (fun he => hnnotc (by simp [he ▸ himem]))).symm
      · intro x hx z hz
        have hxc1 : x ∈ c1 := mem_of_getLast?_eq hx
        have hza : z = a := by simp at hz; omega
        rw [hnext_keep x (fun he => hdisj (he ▸ hxc1) (by simp))
          (fun he => hnnotc (by simp [he ▸ hxc1])), hza]
        exact hchains.2.2 x hx a rfl
    · intro i j hi hj
      rw [hLc2] at hi
      have himem : i ∈ y :: c3 := mem_of_getLast?_eq hi
      rw [hnext_keep i (fun he => hanotc2 (he ▸ himem))
        (fun he => hnnotc (by simp [he ▸ himem]))]
      refine h.wrap i j ?_ ?_
      · rw [hLc]
        exact hi
      · rw [head?_append_cons c1 a (y :: c3) (l.heap.length :: y :: c3)]
        exact hj

/-- Specification of the counted pointer-reversal loop on a ring chain: run
for exactly the chain's length, it reverses the chain's links, leaves values
and other nodes untouched, points the old head at the initial `prev`, and
returns the last chain node. -/
theorem csReverseLoop_spec [Inhabited T] :
    ∀ (c : List Nat) (h : SHeap T) (p : Option Nat),
      NChain (sNextF h) c → c.Nodup → (∀ i ∈ c, i < h.length) →
      (csReverseLoop h p c.head? c.length).1.length = h.length ∧
      (∀ i, i ∉ c → sNextF (csReverseLoop h p c.head? c.length).1 i = sNextF h i) ∧
      (∀ i, sValD (csReverseLoop h p c.head? c.length).1 i = sValD h i) ∧
      NChain (sNextF (csReverseLoop h p c.head? c.length).1) c.reverse ∧
      (∀ i, c.head? = some i → sNextF (csReverseLoop h p c.head? c.length).1 i = p) ∧
      (csReverseLoop h p c.head? c.length).2 = (if c = [] then p else c.getLast?) := by
  intro c
  induction c with
  | nil =>
    intro h p _ _ _
    refine ⟨rfl, fun i _ => rfl, fun i => rfl, nchain_nil _, ?_, ?_⟩
    · intro i hi
      simp at hi
    · rw [if_pos rfl]
      rfl
  | cons x c ih =>
    intro h p hch hnd hbd
    have hxbound : x < h.length := hbd x (by simp)
    have hxnotc : x ∉ c := (List.nodup_cons.1 hnd).1
    have hstep : csReverseLoop h p (x :: c).head? (x :: c).length =
        csReverseLoop (sSetNext h x p) x (sNextF h x) c.length := rfl
    cases c with
    | nil =>
      rw [hstep]
      have hval : csReverseLoop (sSetNext h x p) x (sNextF h x)
          ([] : List Nat).length = (sSetNext h x p, some x) := rfl
      rw [hval]
      refine ⟨sSetNext_length h x p, ?_, fun i => sValD_sSetNext h i x p, ?_, ?_, ?_⟩
      · intro i hi
        exact sNextF_sSetNext_ne (fun he => hi (by simp [he])) p
      · exact nchain_singleton _ x
      · intro i hi
        have hix : i = x := by simp at hi; omega
        subst hix
        exact sNextF_sSetNext_self hxbound p
      · rw [if_neg (by simp)]
        rfl
    | cons y c2 =>
      have hxc : sNextF h x = (y :: c2).head? := by
        rw [show (y :: c2).head? = some y from rfl]
        exact (nchain_cons_cons.1 hch).1
      rw [hxc] at hstep
      have hlen1 : (sSetNext h x p).length = h.length := sSetNext_length h x p
      have hch1 : NChain (sNextF (sSetNext h x p)) (y :: c2) :=
        nchain_congr (NChain.tail hch)
          (fun i hi => (sNextF_sSetNext_ne
            (fun he => hxnotc (by rw [← he]; exact hi)) p).symm)
      have hbd1 : ∀ i ∈ y :: c2, i < (sSetNext h x p).length := by
        intro i hi
        rw [hlen1]
        exact hbd i (List.mem_cons_of_mem x hi)
      have := ih (sSetNext h x p) (some x) hch1 (List.nodup_cons.1 hnd).2 hbd1
      rw [hstep]
      rcases this with ⟨ihlen, ihkeep, ihval, ihchain, ihhead, ihsnd⟩
      have hfinal_x : sNextF (csReverseLoop (sSetNext h x p) (some x)
          (y :: c2).head? (y :: c2).length).1 x = p := by
        rw [ihkeep x hxnotc]
        exact sNextF_sSetNext_self hxbound p
      refine ⟨?_, ?_, ?_, ?_, ?_, ?_⟩
      · rw [ihlen, hlen1]
      · intro i hi
        have hine : i ≠ x := fun he => hi (by simp [he])
        have hinc : i ∉ y :: c2 := fun hm => hi (by simp [hm])
        rw [ihkeep i hinc, sNextF_sSetNext_ne hine]
      · intro i
        rw [ihval i, sValD_sSetNext]
      · rw [show (x :: y :: c2).reverse = (y :: c2).reverse ++ [x] by simp]
        refine List.chain'_append.2 ⟨ihchain, nchain_singleton _ x, ?_⟩
        intro u hu w hw
        have hwx : w = x := by simp at hw; omega
        subst hwx
        rw [List.getLast?_reverse] at hu
        exact ihhead u hu
      · intro i hi
        have hix : i = x := by simp at hi; omega
        subst hix
        exact hfinal_x
      · rw [ihsnd]
        rw [if_neg (by simp), if_neg (by simp)]
        exact (getLast?_cons_ne_nil x (by simp)).symm

/-- Reverse keeps the ring well formed with the reversed chain; node values
are untouched. -/
theorem CSLL_Reverse_repr [Inhabited T] {l : CircularSinglyLinkedList T} {c : List Nat}
    (h : CSRepr l c) :
    CSRepr l.Reverse c.reverse ∧ ∀ i, sValD l.Reverse.heap i = sValD l.heap i := by
  by_cases hz : l.size = 0 ∨ l.size = 1
  · have hres : l.Reverse = l := by
      unfold CircularSinglyLinkedList.Reverse
      rw [if_pos hz]
    rw [hres]
    have hcrev : c.reverse = c := by
      rcases hz with hz | hz
      · rw [h.csEmptyIff.1 hz]
        rfl
      · have hlen : c.length = 1 := by
          have := h.size_eq
          omega
        rcases List.length_eq_one.1 hlen with ⟨a, rfl⟩
        rfl
    rw [hcrev]
    exact ⟨h, fun i => rfl⟩
  · have hz1 : ¬l.size = 0 := fun he => hz (Or.inl he)
    have hcne : c ≠ [] := fun hc => hz1 (h.csEmptyIff.2 hc)
    obtain ⟨x0, hx0⟩ : ∃ x0, c.head? = some x0 := by
      cases c with
      | nil => exact absurd rfl hcne
      | cons a as => exact ⟨a, rfl⟩
    obtain ⟨lastv, hlastv⟩ : ∃ lv, c.getLast? = some lv :=
      ⟨c.getLast hcne, List.getLast?_eq_getLast _ _⟩
    have hspec := csReverseLoop_spec c l.heap none h.links h.nodup h.bounds
    rcases hspec with ⟨hlen, hkeep, hval, hchain, hhead, hsnd⟩
    have hres : l.Reverse =
        { heap := pSetNextS (csReverseLoop l.heap none c.head? c.length).1 c.head?
            (csReverseLoop l.heap none c.head? c.length).2,
          tail := c.head?, size := l.size } := by
      unfold CircularSinglyLinkedList.Reverse
      rw [if_neg hz, h.csHeadEq, h.csSizeToNat]
    have hr2 : (csReverseLoop l.heap none c.head? c.length).2 = some lastv := by
      rw [hsnd, if_neg hcne, hlastv]
    rw [hx0] at hlen hkeep hval hchain hhead hr2
    rw [hres, hx0, hr2]
    have hps : pSetNextS (csReverseLoop l.heap none (some x0) c.length).1 (some x0)
        (some lastv) =
        sSetNext (csReverseLoop l.heap none (some x0) c.length).1 x0 (some lastv) := rfl
    rw [hps]
    have hx0mem : x0 ∈ c := by
      cases c with
      | nil => exact absurd rfl hcne
      | cons a as =>
        rcases Option.some.inj hx0 with rfl
        exact List.mem_cons_self _ _
    have hx0bound : x0 < l.heap.length := h.bounds x0 hx0mem
    have hx0b2 : x0 < (csReverseLoop l.heap none (some x0) c.length).1.length := by
      rw [hlen]
      exact hx0bound
    have hx0last : c.reverse.getLast? = some x0 := by
      rw [List.getLast?_reverse, hx0]
    have hndrev : c.reverse.Nodup := by simpa using h.nodup
    have hne_last := nodup_dropLast_ne_last hndrev hx0last
    constructor
    · refine ⟨?_, hndrev, ?_, ?_, ?_, ?_⟩
      · intro i hi
        show i < (sSetNext _ x0 _).length
        rw [sSetNext_length, hlen]
        exact h.bounds i (by simpa using hi)
      · show (some x0 : Option Nat) = c.reverse.getLast?
        rw [hx0last]
      · show l.size = (c.reverse.length : Int)
        rw [h.size_eq]
        simp
      · refine nchain_congr_dropLast hchain ?_
        intro i hi
        exact (sNextF_sSetNext_ne (hne_last i hi) _).symm
      · intro i j hi hj
        rw [hx0last] at hi
        rcases Option.some.inj hi with rfl
        rw [List.head?_reverse, hlastv] at hj
        rcases Option.some.inj hj with rfl
        exact sNextF_sSetNext_self hx0b2 _
    · intro i
      show sValD (sSetNext _ x0 _) i = _
      rw [sValD_sSetNext, hval i]

/-- Lists reachable from the empty circular singly linked list by the public
mutating operations. -/
inductive CSReach [Inhabited T] [DecidableEq T] : CircularSinglyLinkedList T → Prop
  | new : CSReach CircularSinglyLinkedList.New
  | prepend {l : CircularSinglyLinkedList T} (v : T) : CSReach l → CSReach (l.Prepend v)
  | append {l : CircularSinglyLinkedList T} (v : T) : CSReach l → CSReach (l.Append v)
  | insertAt {l : CircularSinglyLinkedList T} (index : Int) (v : T) :
      CSReach l → CSReach ((l.InsertAt index v).2)
  | remove {l : CircularSinglyLinkedList T} (v : T) : CSReach l → CSReach (l.Remove v)
  | removeFirst {l : CircularSinglyLinkedList T} : CSReach l → CSReach l.RemoveFirst
  | removeLast {l : CircularSinglyLinkedList T} : CSReach l → CSReach l.RemoveLast
  | set {l : CircularSinglyLinkedList T} (index : Int) (v : T) :
      CSReach l → CSReach ((l.Set index v).2)
  | reverse {l : CircularSinglyLinkedList T} : CSReach l → CSReach l.Reverse
  | clear {l : CircularSinglyLinkedList T} : CSReach l → CSReach l.Clear

/-- Every reachable circular singly linked list is well formed. -/
theorem CSReach_wf [Inhabited T] [DecidableEq T] {l : CircularSinglyLinkedList T}
    (h : CSReach l) : ∃ c, CSRepr l c := by
  induction h with
  | new => exact ⟨[], CSLL_New_repr⟩
  | prepend v _ ih => rcases ih with ⟨c, hc⟩; exact ⟨_, (CSLL_Prepend_repr hc v).1⟩
  | append v _ ih => rcases ih with ⟨c, hc⟩; exact ⟨_, (CSLL_Append_repr hc v).1⟩
  | insertAt index v _ ih => rcases ih with ⟨c, hc⟩; exact CSLL_InsertAt_repr hc index v
  | remove v _ ih => rcases ih with ⟨c, hc⟩; exact CSLL_Remove_repr hc v
  | removeFirst _ ih => rcases ih with ⟨c, hc⟩; exact ⟨_, CSLL_RemoveFirst_repr hc⟩
  | removeLast _ ih => rcases ih with ⟨c, hc⟩; exact ⟨_, CSLL_RemoveLast_repr hc⟩
  | set index v _ ih => rcases ih with ⟨c, hc⟩; exact ⟨_, CSLL_Set_repr hc index v⟩
  | reverse _ ih => rcases ih with ⟨c, hc⟩; exact ⟨_, (CSLL_Reverse_repr hc).1⟩
  | clear _ ih => rcases ih with ⟨c, hc⟩; exact ⟨_, CSLL_Clear_repr hc⟩

theorem dPrevF_oob {h : DHeap T} {i : Nat} (hi : h.length ≤ i) : dPrevF h i = none := by
  unfold dPrevF
  rw [List.get?_len_le hi]
  rfl

/-! ### Representation invariant: linear doubly list -/

/-- `DRepr l c` : the chain `c` lists the addresses of the nodes of `l` in
head-to-tail order; forward links follow `c`, backward links follow
`c.reverse`, the endpoints' outward pointers are nil, and the endpoint
references and the size counter agree. -/
structure DRepr (l : DoublyLinkedList T) (c : List Nat) : Prop where
  bounds : ∀ i ∈ c, i < l.heap.length
  nodup : c.Nodup
  head_eq : l.head = c.head?
  tail_eq : l.tail = c.getLast?
  size_eq : l.size = c.length
  links : NChain (dNextF l.heap) c
  last_none : ∀ i, c.getLast? = some i → dNextF l.heap i = none
  plinks : NChain (dPrevF l.heap) c.reverse
  phead_none : ∀ i, c.head? = some i → dPrevF l.heap i = none

theorem DRepr.dSizeToNat {l : DoublyLinkedList T} {c : List Nat} (h : DRepr l c) :
    l.size.toNat = c.length := by
  rw [h.size_eq]; simp

theorem DRepr.dLenLe {l : DoublyLinkedList T} {c : List Nat} (h : DRepr l c) :
    c.length ≤ l.heap.length :=
  nodup_bounds_length h.nodup h.bounds

theorem DRepr.dEmptyIff {l : DoublyLinkedList T} {c : List Nat} (h : DRepr l c) :
    l.size = 0 ↔ c = [] := by
  rw [h.size_eq]
  constructor
  · intro hz
    exact List.length_eq_zero.1 (by exact_mod_cast hz)
  · intro hc; subst hc; rfl

theorem DLL_New_repr : DRepr (DoublyLinkedList.New (T := T)) [] := by
  refine ⟨?_, ?_, ?_, ?_, ?_, ?_, ?_, ?_, ?_⟩ <;> simp [DoublyLinkedList.New, NChain]

theorem DLL_Clear_repr {l : DoublyLinkedList T} {c : List Nat} (_ : DRepr l c) :
    DRepr l.Clear [] := by
  refine ⟨?_, ?_, ?_, ?_, ?_, ?_, ?_, ?_, ?_⟩ <;> simp [DoublyLinkedList.Clear, NChain]

/-- Prepend allocates a fresh node in front of the head and fixes the old
head's prev pointer; values are preserved. -/
theorem DLL_Prepend_repr [Inhabited T] {l : DoublyLinkedList T} {c : List Nat}
    (h : DRepr l c) (v : T) :
    DRepr (l.Prepend v) (l.heap.length :: c) ∧
      (l.heap.length :: c).map (dValD (l.Prepend v).heap) = v :: c.map (dValD l.heap) := by
  have hbn : ∀ i ∈ c, i < l.heap.length := h.bounds
  have hnotc : l.heap.length ∉ c := fun hmem => lt_irrefl _ (hbn _ hmem)
  by_cases hz : l.size = 0
  · have hc : c = [] := h.dEmptyIff.1 hz
    subst hc
    have hres : l.Prepend v =
        { heap := l.heap ++ [(⟨v, none, none⟩ : DNode T)],
          head := some l.heap.length, tail := some l.heap.length,
          size := l.size + 1 } := by
      unfold DoublyLinkedList.Prepend
      rw [if_pos hz]
    rw [hres]
    refine ⟨⟨?_, ?_, ?_, ?_, ?_, ?_, ?_, ?_, ?_⟩, ?_⟩
    · intro i hi
      simp at hi
      subst hi
      simp
    · simp
    · rfl
    · rfl
    · show l.size + 1 = _
      rw [hz]
      simp
    · exact nchain_singleton _ _
    · intro i hi
      have hin : i = l.heap.length := by simpa using hi.symm
      subst hin
      rw [dNextF_append_self]
    · exact nchain_singleton _ _
    · intro i hi
      have hin : i = l.heap.length := by simpa using hi.symm
      subst hin
      rw [dPrevF_append_self]
    · simp [dValD_append_self]
  · have hcne : c ≠ [] := fun hc => hz (h.dEmptyIff.2 hc)
    obtain ⟨headv, hheadv⟩ : ∃ hv, c.head? = some hv := by
      rcases hc : c with _ | ⟨x, c2⟩
      · exact absurd hc hcne
      · exact ⟨x, rfl⟩
    have hhmem : headv ∈ c := by
      rcases hc : c with _ | ⟨x, c2⟩
      · exact absurd hc hcne
      · rw [hc] at hheadv
        rcases Option.some.inj hheadv with rfl
        exact List.mem_cons_self _ _
    have hhbound : headv < l.heap.length := hbn headv hhmem
    have hhead : l.head = some headv := by rw [h.head_eq, hheadv]
    have hres : l.Prepend v =
        { heap := dSetPrev (dSetNext (l.heap ++ [(⟨v, none, none⟩ : DNode T)])
            l.heap.length (some headv)) headv (some l.heap.length),
          head := some l.heap.length, tail := l.tail, size := l.size + 1 } := by
      unfold DoublyLinkedList.Prepend
      rw [if_neg hz, hhead]
      rfl
    rw [hres]
    set h2 := dSetPrev (dSetNext (l.heap ++ [(⟨v, none, none⟩ : DNode T)])
      l.heap.length (some headv)) headv (some l.heap.length) with hh2
    have hlen2 : h2.length = l.heap.length + 1 := by
      rw [hh2, dSetPrev_length, dSetNext_length]
      simp
    have hnext_keep : ∀ i, i ≠ l.heap.length → i ∈ c → dNextF h2 i = dNextF l.heap i := by
      intro i hin himem
      rw [hh2, dNextF_dSetPrev, dNextF_dSetNext_ne hin]
      exact dNextF_append_lt (hbn i himem) _
    have hnext_new : dNextF h2 l.heap.length = some headv := by
      rw [hh2, dNextF_dSetPrev]
      exact dNextF_dSetNext_self (by simp) _
    have hprev_keep : ∀ i, i ≠ headv → i ∈ c → dPrevF h2 i = dPrevF l.heap i := by
      intro i hih himem
      rw [hh2, dPrevF_dSetPrev_ne hih, dPrevF_dSetNext]
      exact dPrevF_append_lt (hbn i himem) _
    have hprev_head : dPrevF h2 headv = some l.heap.length := by
      rw [hh2]
      exact dPrevF_dSetPrev_self (by rw [dSetNext_length]; simp; omega) _
    have hprev_new : dPrevF h2 l.heap.length = none := by
      rw [hh2, dPrevF_dSetPrev_ne (by omega), dPrevF_dSetNext]
      rw [dPrevF_append_self]
    have hval2 : ∀ i, i < l.heap.length → dValD h2 i = dValD l.heap i := by
      intro i hlt
      rw [hh2, dValD_dSetPrev, dValD_dSetNext, dValD_append_lt hlt]
    have hvaln : dValD h2 l.heap.length = v := by
      rw [hh2, dValD_dSetPrev, dValD_dSetNext, dValD_append_self]
    have hrevlast : c.reverse.getLast? = some headv := by
      rw [List.getLast?_reverse, hheadv]
    refine ⟨⟨?_, ?_, ?_, ?_, ?_, ?_, ?_, ?_, ?_⟩, ?_⟩
    · intro i hi
      rw [hlen2]
      rcases List.mem_cons.1 hi with rfl | hi2
      · omega
      · have := hbn i hi2; omega
    · exact List.nodup_cons.2 ⟨hnotc, h.nodup⟩
    · rfl
    · show l.tail = _
      rw [h.tail_eq, getLast?_cons_ne_nil _ hcne]
    · show l.size + 1 = _
      rw [h.size_eq]
      simp
    · rcases hc : c with _ | ⟨x, c2⟩
      · exact absurd hc hcne
      refine nchain_cons_cons.2 ⟨?_, ?_⟩
      · rw [hnext_new]
        rw [hc] at hheadv
        rcases Option.some.inj hheadv with rfl
        rfl
      · rw [← hc]
        refine nchain_congr h.links ?_
        intro i hi
        exact (hnext_keep i (fun he => hnotc (by rw [← he]; exact hi)) hi).symm
    · intro i hi
      rw [getLast?_cons_ne_nil _ hcne] at hi
      have himem : i ∈ c := mem_of_getLast?_eq hi
      rw [hnext_keep i (fun he => hnotc (by rw [← he]; exact himem)) himem]
      exact h.last_none i hi
    · show NChain (dPrevF h2) (l.heap.length :: c).reverse
      rw [show (l.heap.length :: c).reverse = c.reverse ++ [l.heap.length] by simp]
      refine List.chain'_append.2 ⟨?_, nchain_singleton _ _, ?_⟩
      · refine nchain_congr_dropLast h.plinks ?_
        intro i hi
        have hine := nodup_dropLast_ne_last (by simpa using h.nodup) hrevlast i hi
        have himem : i ∈ c := by
          have := List.dropLast_subset c.reverse hi
          simpa using this
        exact (hprev_keep i hine himem).symm
      · intro u hu w hw
        rw [hrevlast] at hu
        rcases Option.some.inj hu with rfl
        have hwn : w = l.heap.length := by simp at hw; omega
        subst hwn
        exact hprev_head
    · intro i hi
      have hin : i = l.heap.length := by simpa using hi.symm
      subst hin
      exact hprev_new
    · rw [List.map_cons, hvaln]
      congr 1
      exact List.map_congr_left (fun i hi => hval2 i (hbn i hi))

/-- Append allocates a fresh node after the tail and fixes its prev pointer;
values are preserved. -/
theorem DLL_Append_repr [Inhabited T] {l : DoublyLinkedList T} {c : List Nat}
    (h : DRepr l c) (v : T) :
    DRepr (l.Append v) (c ++ [l.heap.length]) ∧
      (c ++ [l.heap.length]).map (dValD (l.Append v).heap) =
        c.map (dValD l.heap) ++ [v] := by
  have hbn : ∀ i ∈ c, i < l.heap.length := h.bounds
  have hnotc : l.heap.length ∉ c := fun hmem => lt_irrefl _ (hbn _ hmem)
  by_cases hz : l.size = 0
  · have hc : c = [] := h.dEmptyIff.1 hz
    subst hc
    have hres : l.Append v =
        { heap := l.heap ++ [(⟨v, none, none⟩ : DNode T)],
          head := some l.heap.length, tail := some l.heap.length,
          size := l.size + 1 } := by
      unfold DoublyLinkedList.Append
      rw [if_pos hz]
    rw [hres]
    refine ⟨⟨?_, ?_, ?_, ?_, ?_, ?_, ?_, ?_, ?_⟩, ?_⟩
    · intro i hi
      simp at hi
      subst hi
      simp
    · simp
    · rfl
    · rfl
    · show l.size + 1 = _
      rw [hz]
      simp
    · exact nchain_singleton _ _
    · intro i hi
      have hin : i = l.heap.length := by simpa using hi.symm
      subst hin
      rw [dNextF_append_self]
    · exact nchain_singleton _ _
    · intro i hi
      have hin : i = l.heap.length := by simpa using hi.symm
      subst hin
      rw [dPrevF_append_self]
    · simp [dValD_append_self]
  · have hcne : c ≠ [] := fun hc => hz (h.dEmptyIff.2 hc)
    obtain ⟨lastv, hlastv⟩ : ∃ lv, c.getLast? = some lv :=
      ⟨c.getLast hcne, List.getLast?_eq_getLast _ _⟩
    have hlmem : lastv ∈ c := mem_of_getLast?_eq hlastv
    have hlbound : lastv < l.heap.length := hbn lastv hlmem
    have htail : l.tail = some lastv := by rw [h.tail_eq, hlastv]
    have hres : l.Append v =
        { heap := dSetPrev (dSetNext (l.heap ++ [(⟨v, none, none⟩ : DNode T)])
            lastv (some l.heap.length)) l.heap.length (some lastv),
          head := l.head, tail := some l.heap.length, size := l.size + 1 } := by
      unfold DoublyLinkedList.Append
      rw [if_neg hz, htail]
      rfl
    rw [hres]
    set h2 := dSetPrev (dSetNext (l.heap ++ [(⟨v, none, none⟩ : DNode T)])
      lastv (some l.heap.length)) l.heap.length (some lastv) with hh2
    have hlen2 : h2.length = l.heap.length + 1 := by
      rw [hh2, dSetPrev_length, dSetNext_length]
      simp
    have hnext_keep : ∀ i, i ≠ lastv → i ∈ c → dNextF h2 i = dNextF l.heap i := by
      intro i hil himem
      rw [hh2, dNextF_dSetPrev, dNextF_dSetNext_ne hil]
      exact dNextF_append_lt (hbn i himem) _
    have hnext_last : dNextF h2 lastv = some l.heap.length := by
      rw [hh2, dNextF_dSetPrev]
      exact dNextF_dSetNext_self (by simp; omega) _
    have hnext_new : dNextF h2 l.heap.length = none := by
      rw [hh2, dNextF_dSetPrev, dNextF_dSetNext_ne (by omega)]
      rw [dNextF_append_self]
    have hprev_keep : ∀ i, i ∈ c → dPrevF h2 i = dPrevF l.heap i := by
      intro i himem
      have hin : i ≠ l.heap.length := fun he => hnotc (by rw [← he]; exact himem)
      rw [hh2, dPrevF_dSetPrev_ne hin, dPrevF_dSetNext]
      exact dPrevF_append_lt (hbn i himem) _
    have hprev_new : dPrevF h2 l.heap.length = some lastv := by
      rw [hh2]
      exact dPrevF_dSetPrev_self (by rw [dSetNext_length]; simp) _
    have hval2 : ∀ i, i < l.heap.length → dValD h2 i = dValD l.heap i := by
      intro i hlt
      rw [hh2, dValD_dSetPrev, dValD_dSetNext, dValD_append_lt hlt]
    have hvaln : dValD h2 l.heap.length = v := by
      rw [hh2, dValD_dSetPrev, dValD_dSetNext, dValD_append_self]
    refine ⟨⟨?_, ?_, ?_, ?_, ?_, ?_, ?_, ?_, ?_⟩, ?_⟩
    · intro i hi
      rw [hlen2]
      rcases List.mem_append.1 hi with hi2 | hi2
      · have := hbn i hi2; omega
      · simp at hi2; omega
    · rw [List.nodup_append]
      exact ⟨h.nodup, List.nodup_singleton _,
        fun i hi1 hi2 => hnotc (by simp at hi2; rw [← hi2]; exact hi1)⟩
    · show l.head = _
      rw [h.head_eq]
      rcases hc : c with _ | ⟨x, c2⟩
      · exact absurd hc hcne
      · rfl
    · show (some l.heap.length : Option Nat) = _
      rw [List.getLast?_concat]
    · show l.size + 1 = _
      rw [h.size_eq]
      simp
    · refine List.chain'_append.2 ⟨?_, nchain_singleton _ _, ?_⟩
      · refine nchain_congr_dropLast h.links ?_
        intro i hi
        have hine := nodup_dropLast_ne_last h.nodup hlastv i hi
        exact (hnext_keep i hine (List.dropLast_subset c hi)).symm
      · intro u hu w hw
        rw [hlastv] at hu
        rcases Option.some.inj hu with rfl
        have hwn : w = l.heap.length := by simp at hw; omega
        subst hwn
        exact hnext_last
    · intro i hi
      rw [List.getLast?_concat] at hi
      rcases Option.some.inj hi with rfl
      exact hnext_new
    · show NChain (dPrevF h2) (c ++ [l.heap.length]).reverse
      rw [show (c ++ [l.heap.length]).reverse = l.heap.length :: c.reverse by simp]
      rcases hcr : c.reverse with _ | ⟨x, r2⟩
      · exact nchain_singleton _ _
      have hxlast : x = lastv := by
        have : c.reverse.head? = some lastv := by
          rw [List.head?_reverse, hlastv]
        rw [hcr] at this
        exact Option.some.inj this
      subst hxlast
      refine nchain_cons_cons.2 ⟨hprev_new, ?_⟩
      rw [← hcr]
      refine nchain_congr h.plinks ?_
      intro i hi
      have himem : i ∈ c := by simpa using hi
      exact (hprev_keep i himem).symm
    · intro i hi
      have hhead : c.head? = some i := by
        rcases hc : c with _ | ⟨x, c2⟩
        · exact absurd hc hcne
        · rw [hc] at hi
          exact hi
      have himem : i ∈ c := by
        rcases hc2 : c with _ | ⟨x, c2⟩
        · exact absurd hc2 hcne
        · rw [hc2] at hhead
          rcases Option.some.inj hhead with rfl
          exact List.mem_cons_self _ _
      rw [hprev_keep i himem]
      exact h.phead_none i hhead
    · rw [List.map_append]
      congr 1
      · exact List.map_congr_left (fun i hi => hval2 i (hbn i hi))
      · simp [hvaln]

/-- Find is the reference search over the chain. -/
theorem DLL_Find_spec [Inhabited T] [DecidableEq T] {l : DoublyLinkedList T} {c : List Nat}
    (h : DRepr l c) (value : T) :
    l.Find value = firstMatch (dValD l.heap) value c := by
  unfold DoublyLinkedList.Find
  rw [h.head_eq]
  exact findLoopL_spec h.links h.last_none (l.heap.length + 1) (by have := h.dLenLe; omega)

/-- The ForEach visit trace is the chain's value sequence. -/
theorem DLL_ForEachSeq_spec [Inhabited T] {l : DoublyLinkedList T} {c : List Nat}
    (h : DRepr l c) : l.ForEachSeq = c.map (dValD l.heap) := by
  unfold DoublyLinkedList.ForEachSeq
  rw [h.head_eq]
  exact collectL_spec h.links h.last_none (l.heap.length + 1) (by have := h.dLenLe; omega)

/-- ToSlice materialises the chain's value sequence. -/
theorem DLL_ToSlice_spec [Inhabited T] {l : DoublyLinkedList T} {c : List Nat}
    (h : DRepr l c) : l.ToSlice = c.map (dValD l.heap) := by
  unfold DoublyLinkedList.ToSlice
  rw [h.head_eq]
  exact collectL_spec h.links h.last_none (l.heap.length + 1) (by have := h.dLenLe; omega)

/-- String() renders the empty marker or the bracketed joined values. -/
theorem dllString_spec [Inhabited T] [ToString T] {l : DoublyLinkedList T} {c : List Nat}
    (h : DRepr l c) :
    dllString l = if c = [] then "DoublyLinkedList: []"
      else "DoublyLinkedList: " ++ bracketJoin " ↔ " (c.map (dValD l.heap)) := by
  unfold dllString
  by_cases hz : l.size = 0
  · rw [if_pos hz, if_pos (h.dEmptyIff.1 hz)]
  · have hcne : c ≠ [] := fun hc => hz (h.dEmptyIff.2 hc)
    rw [if_neg hz, if_neg hcne, h.head_eq,
      stringLoopL_spec h.links h.last_none (l.heap.length + 1)
        (by have := h.dLenLe; omega) hcne]

/-- In-bounds Get returns no error and the chain entry at the index. -/
theorem DLL_Get_inbounds {l : DoublyLinkedList T} {c : List Nat} (h : DRepr l c)
    {index : Int} (h0 : 0 ≤ index) (h1 : index < l.size) :
    l.Get index = (none, c.get? index.toNat) := by
  unfold DoublyLinkedList.Get
  rw [if_neg (by omega)]
  rw [h.head_eq, nchain_iterN h.links index.toNat (by have := h.size_eq; omega)]

/-- Set keeps the chain intact: only a value cell changes. -/
theorem DLL_Set_repr [Inhabited T] {l : DoublyLinkedList T} {c : List Nat} (h : DRepr l c)
    (index : Int) (v : T) : DRepr ((l.Set index v).2) c := by
  by_cases hoob : index < 0 ∨ index ≥ l.size
  · have hres : (l.Set index v).2 = l := by
      unfold DoublyLinkedList.Set DoublyLinkedList.Get
      rw [if_pos hoob]
    rw [hres]
    exact h
  · push_neg at hoob
    have hk : index.toNat < c.length := by
      have := h.size_eq
      omega
    have hget : l.Get index = (none, c.get? index.toNat) :=
      DLL_Get_inbounds h (by omega) (by omega)
    have hm := List.get?_eq_get hk
    have hres : (l.Set index v).2 =
        { l with heap := dSetVal l.heap (c.get ⟨index.toNat, hk⟩) v } := by
      unfold DoublyLinkedList.Set
      rw [hget, hm]
      rfl
    rw [hres]
    refine ⟨?_, h.nodup, h.head_eq, h.tail_eq, h.size_eq, ?_, ?_, ?_, ?_⟩
    · intro i hi
      show i < (dSetVal l.heap _ v).length
      rw [dSetVal_length]
      exact h.bounds i hi
    · refine nchain_congr h.links ?_
      intro i _
      exact (dNextF_dSetVal l.heap i _ v).symm
    · intro i hi
      show dNextF (dSetVal l.heap _ v) i = none
      rw [dNextF_dSetVal]
      exact h.last_none i hi
    · refine nchain_congr h.plinks ?_
      intro i _
      exact (dPrevF_dSetVal l.heap i _ v).symm
    · intro i hi
      show dPrevF (dSetVal l.heap _ v) i = none
      rw [dPrevF_dSetVal]
      exact h.phead_none i hi

/-- RemoveFirst drops the head of the chain and clears the new head's prev. -/
theorem DLL_RemoveFirst_repr [Inhabited T] {l : DoublyLinkedList T} {c : List Nat}
    (h : DRepr l c) : DRepr l.RemoveFirst c.tail := by
  by_cases hz : l.size = 0
  · have hc : c = [] := h.dEmptyIff.1 hz
    subst hc
    have hres : l.RemoveFirst = l := by
      unfold DoublyLinkedList.RemoveFirst
      rw [if_pos hz]
    rw [hres]
    exact h
  have hcne : c ≠ [] := fun hc => hz (h.dEmptyIff.2 hc)
  rcases hcc : c with _ | ⟨x, c2⟩
  · exact absurd hcc hcne
  subst hcc
  have hhead : l.head = some x := by rw [h.head_eq]; rfl
  rcases hc2 : c2 with _ | ⟨y, c3⟩
  · -- singleton: the list empties
    subst hc2
    have h1 : l.size = 1 := by rw [h.size_eq]; rfl
    have hnx : dNextF l.heap x = none := h.last_none x rfl
    have hres : l.RemoveFirst =
        { l with head := none, tail := none, size := l.size - 1 } := by
      unfold DoublyLinkedList.RemoveFirst
      rw [if_neg hz, hhead]
      rw [show optNext (dNextF l.heap) (some x) = dNextF l.heap x from rfl, hnx]
      rw [if_pos (by omega)]
    rw [hres]
    refine ⟨?_, ?_, rfl, rfl, ?_, nchain_nil _, ?_, nchain_nil _, ?_⟩
    · intro i hi
      simp at hi
    · simp
    · show l.size - 1 = _
      simp
      omega
    · intro i hi
      simp at hi
    · intro i hi
      simp at hi
  · -- at least two nodes
    subst hc2
    have hxy : dNextF l.heap x = some y := (nchain_cons_cons.1 h.links).1
    have hybound : y < l.heap.length := h.bounds y (by simp)
    have hs2 : ¬(l.size - 1 = 0) := by
      have := h.size_eq
      simp at this
      omega
    have hres : l.RemoveFirst =
        { heap := dSetPrev l.heap y none, head := some y, tail := l.tail,
          size := l.size - 1 } := by
      unfold DoublyLinkedList.RemoveFirst
      rw [if_neg hz, hhead]
      rw [show optNext (dNextF l.heap) (some x) = dNextF l.heap x from rfl, hxy]
      rw [if_neg hs2]
      rfl
    rw [hres]
    have hndtail : (y :: c3).Nodup := (List.nodup_cons.1 h.nodup).2
    have hrevlast : (y :: c3).reverse.getLast? = some y := by
      rw [List.getLast?_reverse]
      rfl
    have hprev_keep : ∀ i, i ≠ y → dPrevF (dSetPrev l.heap y none) i = dPrevF l.heap i :=
      fun i hi => dPrevF_dSetPrev_ne hi _
    refine ⟨?_, hndtail, rfl, ?_, ?_, ?_, ?_, ?_, ?_⟩
    · intro i hi
      show i < (dSetPrev l.heap y none).length
      rw [dSetPrev_length]
      exact h.bounds i (List.mem_cons_of_mem x hi)
    · show l.tail = ((x :: y :: c3).tail).getLast?
      rw [show (x :: y :: c3).tail = y :: c3 from rfl, h.tail_eq,
        List.getLast?_cons_cons]
    · show l.size - 1 = _
      have := h.size_eq
      simp at this ⊢
      omega
    · refine nchain_congr (NChain.tail h.links) ?_
      intro i _
      exact (dNextF_dSetPrev _ _ _ _).symm
    · intro i hi
      show dNextF (dSetPrev l.heap y none) i = none
      rw [dNextF_dSetPrev]
      refine h.last_none i ?_
      rw [List.getLast?_cons_cons]
      exact hi
    · have hpl : NChain (dPrevF l.heap) ((y :: c3).reverse ++ [x]) := by
        have : (x :: y :: c3).reverse = (y :: c3).reverse ++ [x] := by simp
        rw [← this]
        exact h.plinks
      refine nchain_congr_dropLast (List.chain'_append.1 hpl).1 ?_
      intro i hi
      exact (hprev_keep i
        (nodup_dropLast_ne_last (List.nodup_reverse.2 hndtail) hrevlast i hi)).symm
    · intro i hi
      have hiy : i = y := by simpa using hi.symm
      subst hiy
      exact dPrevF_dSetPrev_self hybound _

/-- RemoveLast drops the last chain entry; its predecessor's next is cut. -/
theorem DLL_RemoveLast_repr [Inhabited T] {l : DoublyLinkedList T} {c : List Nat}
    (h : DRepr l c) : DRepr l.RemoveLast c.dropLast := by
  by_cases hz : l.size = 0
  · have hc : c = [] := h.dEmptyIff.1 hz
    subst hc
    have hres : l.RemoveLast = l := by
      unfold DoublyLinkedList.RemoveLast
      rw [if_pos hz]
    rw [hres]
    exact h
  by_cases h1 : l.size = 1
  · have hres : l.RemoveLast = { l with head := none, tail := none, size := 0 } := by
      unfold DoublyLinkedList.RemoveLast
      rw [if_neg hz, if_pos h1]
    rw [hres]
    have hlc : c.length = 1 := by
      have := h.size_eq
      omega
    rcases List.length_eq_one.1 hlc with ⟨a, rfl⟩
    refine ⟨?_, ?_, rfl, rfl, rfl, nchain_nil _, ?_, nchain_nil _, ?_⟩
    · intro i hi
      simp at hi
    · simp
    · intro i hi
      simp at hi
    · intro i hi
      simp at hi
  · -- at least two nodes
    have hlen2 : 2 ≤ c.length := by
      have := h.size_eq
      omega
    rcases exists_concat_two hlen2 with ⟨c1, a, b, rfl⟩
    have hdrop : (c1 ++ [a, b]).dropLast = c1 ++ [a] := by
      rw [show c1 ++ [a, b] = (c1 ++ [a]) ++ [b] by simp, List.dropLast_concat]
    have htail : l.tail = some b := by
      rw [h.tail_eq, show c1 ++ [a, b] = (c1 ++ [a]) ++ [b] by simp,
        List.getLast?_concat]
    have hrev : (c1 ++ [a, b]).reverse = b :: a :: c1.reverse := by simp
    have hpl : NChain (dPrevF l.heap) (b :: a :: c1.reverse) := by
      rw [← hrev]
      exact h.plinks
    have hba : dPrevF l.heap b = some a := (nchain_cons_cons.1 hpl).1
    have habound : a < l.heap.length := h.bounds a (by simp)
    have hres : l.RemoveLast =
        { heap := dSetNext l.heap a none, head := l.head, tail := some a,
          size := l.size - 1 } := by
      unfold DoublyLinkedList.RemoveLast
      rw [if_neg hz, if_neg h1, htail]
      rw [show optNext (dPrevF l.heap) (some b) = dPrevF l.heap b from rfl, hba]
      rfl
    rw [hres, hdrop]
    have hnd1 : (c1 ++ [a]).Nodup := by
      have hnd0 : ((c1 ++ [a]) ++ [b]).Nodup := by
        rw [show (c1 ++ [a]) ++ [b] = c1 ++ [a, b] by simp]
        exact h.nodup
      exact (List.nodup_append.1 hnd0).1
    have hane : ∀ i ∈ c1, i ≠ a := fun i hi he =>
      (List.disjoint_of_nodup_append hnd1) hi (by simp [he])
    have hchain1 : NChain (dNextF l.heap) (c1 ++ [a]) := by
      have hc0 : NChain (dNextF l.heap) ((c1 ++ [a]) ++ [b]) := by
        rw [show (c1 ++ [a]) ++ [b] = c1 ++ [a, b] by simp]
        exact h.links
      exact (List.chain'_append.1 hc0).1
    refine ⟨?_, hnd1, ?_, ?_, ?_, ?_, ?_, ?_, ?_⟩
    · intro i hi
      show i < (dSetNext l.heap a none).length
      rw [dSetNext_length]
      refine h.bounds i ?_
      rw [show c1 ++ [a, b] = (c1 ++ [a]) ++ [b] by simp]
      exact List.mem_append_left [b] hi
    · show l.head = _
      rw [h.head_eq]
      exact head?_append_pair c1 a b
    · rw [List.getLast?_concat]
    · show l.size - 1 = _
      have := h.size_eq
      simp at this ⊢
      omega
    · refine nchain_congr_dropLast hchain1 ?_
      rw [List.dropLast_concat]
      exact fun i hi => (dNextF_dSetNext_ne (hane i hi) _).symm
    · intro i hi
      rw [List.getLast?_concat] at hi
      rcases Option.some.inj hi with rfl
      exact dNextF_dSetNext_self habound _
    · show NChain (dPrevF (dSetNext l.heap a none)) (c1 ++ [a]).reverse
      rw [show (c1 ++ [a]).reverse = a :: c1.reverse by simp]
      refine nchain_congr (NChain.tail hpl) ?_
      intro i _
      exact (dPrevF_dSetNext _ _ _ _).symm
    · intro i hi
      have hih : (c1 ++ [a, b]).head? = some i := by
        rw [head?_append_pair c1 a b]
        exact hi
      show dPrevF (dSetNext l.heap a none) i = none
      rw [dPrevF_dSetNext]
      exact h.phead_none i hih

/-- Remove keeps the doubly list well formed: the removed node is unlinked
through its own prev/next pointers. -/
theorem DLL_Remove_repr [Inhabited T] [DecidableEq T] {l : DoublyLinkedList T} {c : List Nat}
    (h : DRepr l c) (value : T) : ∃ c', DRepr (l.Remove value) c' := by
  rcases hf : l.Find value with _ | m
  · refine ⟨c, ?_⟩
    unfold DoublyLinkedList.Remove
    rw [hf]
    exact h
  by_cases hhd : some m = l.head
  · refine ⟨c.tail, ?_⟩
    have hres : l.Remove value = l.RemoveFirst := by
      unfold DoublyLinkedList.Remove
      simp only [hf]
      rw [if_pos hhd]
    rw [hres]
    exact DLL_RemoveFirst_repr h
  by_cases htl : some m = l.tail
  · refine ⟨c.dropLast, ?_⟩
    have hres : l.Remove value = l.RemoveLast := by
      unfold DoublyLinkedList.Remove
      simp only [hf]
      rw [if_neg hhd, if_pos htl]
    rw [hres]
    exact DLL_RemoveLast_repr h
  · -- interior node
    have hfm : firstMatch (dValD l.heap) value c = some m := by
      rw [← DLL_Find_spec h value]
      exact hf
    rcases firstMatch_eq_some hfm with ⟨d1, c2, hdecomp, _, _⟩
    rcases List.eq_nil_or_concat' d1 with rfl | ⟨c1, a, rfl⟩
    · exfalso
      apply hhd
      rw [h.head_eq, hdecomp]
      rfl
    rcases hc2e : c2 with _ | ⟨y, c2'⟩
    · exfalso
      apply htl
      rw [hc2e] at hdecomp
      rw [h.tail_eq, hdecomp,
        show c1 ++ [a] ++ m :: ([] : List Nat) = (c1 ++ [a]) ++ [m] by simp,
        List.getLast?_concat]
    rw [hc2e] at hdecomp
    rw [show c1 ++ [a] ++ m :: y :: c2' = c1 ++ a :: m :: y :: c2' by simp] at hdecomp
    subst hdecomp
    have hdisj := List.disjoint_of_nodup_append h.nodup
    have hndtail : (a :: m :: y :: c2').Nodup := (List.nodup_append.1 h.nodup).2.1
    have hanot : a ∉ m :: y :: c2' := (List.nodup_cons.1 hndtail).1
    have hndm : (m :: y :: c2').Nodup := (List.nodup_cons.1 hndtail).2
    have hmnot : m ∉ y :: c2' := (List.nodup_cons.1 hndm).1
    have habound : a < l.heap.length := h.bounds a (by simp)
    have hybound : y < l.heap.length := h.bounds y (by simp)
    have haney : a ≠ y := fun he => hanot (by rw [he]; simp)
    have hchains := List.chain'_append.1 h.links
    have hcham : NChain (dNextF l.heap) (a :: m :: y :: c2') := hchains.2.1
    have hmy : dNextF l.heap m = some y :=
      (nchain_cons_cons.1 (nchain_cons_cons.1 hcham).2).1
    have hrevc : (c1 ++ a :: m :: y :: c2').reverse =
        (y :: c2').reverse ++ m :: a :: c1.reverse := by simp
    have hplc : NChain (dPrevF l.heap) ((y :: c2').reverse ++ m :: a :: c1.reverse) := by
      rw [← hrevc]
      exact h.plinks
    have hpchains := List.chain'_append.1 hplc
    have hpma : dPrevF l.heap m = some a := (nchain_cons_cons.1 hpchains.2.1).1
    have hmnea : m ≠ a := fun he => hanot (by rw [← he]; simp)
    -- the two heap writes
    have hres : l.Remove value =
        { heap := dSetPrev (dSetNext l.heap a (some y)) y (some a), head := l.head,
          tail := l.tail, size := l.size - 1 } := by
      unfold DoublyLinkedList.Remove
      simp only [hf]
      rw [if_neg hhd, if_neg htl, hpma, hmy]
      rw [show pSetNextD l.heap (some a) (some y) = dSetNext l.heap a (some y) from rfl]
      rw [dNextF_dSetNext_ne hmnea, hmy, dPrevF_dSetNext, hpma]
      rfl
    rw [hres]
    set h2 := dSetPrev (dSetNext l.heap a (some y)) y (some a) with hh2
    have hlen2 : h2.length = l.heap.length := by
      rw [hh2, dSetPrev_length, dSetNext_length]
    have hnext_keep : ∀ i, i ≠ a → dNextF h2 i = dNextF l.heap i := by
      intro i hia
      rw [hh2, dNextF_dSetPrev, dNextF_dSetNext_ne hia]
    have hnext_a : dNextF h2 a = some y := by
      rw [hh2, dNextF_dSetPrev]
      exact dNextF_dSetNext_self habound _
    have hprev_keep : ∀ i, i ≠ y → dPrevF h2 i = dPrevF l.heap i := by
      intro i hiy
      rw [hh2, dPrevF_dSetPrev_ne hiy, dPrevF_dSetNext]
    have hprev_y : dPrevF h2 y = some a := by
      rw [hh2]
      exact dPrevF_dSetPrev_self (by rw [dSetNext_length]; exact hybound) _
    have hsub : List.Sublist (c1 ++ a :: y :: c2') (c1 ++ a :: m :: y :: c2') :=
      (List.append_sublist_append_left c1).2
        (List.Sublist.cons₂ a (List.sublist_cons_self m (y :: c2')))
    have hLc : (c1 ++ a :: m :: y :: c2').getLast? = (y :: c2').getLast? := by
      rw [List.getLast?_append_of_ne_nil _ (by simp), getLast?_cons_ne_nil a (by simp),
        getLast?_cons_ne_nil m (by simp)]
    have hLc2 : (c1 ++ a :: y :: c2').getLast? = (y :: c2').getLast? := by
      rw [List.getLast?_append_of_ne_nil _ (by simp), getLast?_cons_ne_nil a (by simp)]
    refine ⟨c1 ++ a :: y :: c2', ?_, List.Sublist.nodup hsub h.nodup, ?_, ?_, ?_, ?_,
      ?_, ?_, ?_⟩
    · intro i hi
      rw [hlen2]
      exact h.bounds i (hsub.subset hi)
    · rw [h.head_eq]
      exact head?_append_cons c1 a (m :: y :: c2') (y :: c2')
    · rw [h.tail_eq, hLc, hLc2]
    · have := h.size_eq
      simp at this ⊢
      omega
    · refine List.chain'_append.2 ⟨?_, ?_, ?_⟩
      · refine nchain_congr_dropLast hchains.1 ?_
        intro i hi
        refine (hnext_keep i ?_).symm
        intro he
        have hmem : a ∈ c1 := by rw [← he]; exact List.dropLast_subset c1 hi
        exact hdisj hmem (by simp)
      · refine nchain_cons_cons.2 ⟨hnext_a, ?_⟩
        refine nchain_congr_dropLast
          (nchain_cons_cons.1 (nchain_cons_cons.1 hcham).2).2 ?_
        intro i hi
        have himem : i ∈ y :: c2' := List.dropLast_subset _ hi
        refine (hnext_keep i ?_).symm
        intro he
        refine hanot ?_
        rw [← he]
        exact List.mem_cons_of_mem m himem
      · intro u hu w hw
        have huc1 : u ∈ c1 := mem_of_getLast?_eq hu
        have hwa : w = a := by simp at hw; omega
        have hune : u ≠ a := by
          intro he
          have hmem : a ∈ c1 := by rw [← he]; exact huc1
          exact hdisj hmem (by simp)
        rw [hnext_keep u hune, hwa]
        exact hchains.2.2 u hu a rfl
    · intro i hi
      rw [hLc2] at hi
      have himem : i ∈ y :: c2' := mem_of_getLast?_eq hi
      have hine : i ≠ a := by
        intro he
        refine hanot ?_
        rw [← he]
        exact List.mem_cons_of_mem m himem
      rw [hnext_keep i hine]
      refine h.last_none i ?_
      rw [hLc]
      exact hi
    · show NChain (dPrevF h2) (c1 ++ a :: y :: c2').reverse
      rw [show (c1 ++ a :: y :: c2').reverse =
        (y :: c2').reverse ++ a :: c1.reverse by simp]
      refine List.chain'_append.2 ⟨?_, ?_, ?_⟩
      · refine nchain_congr_dropLast hpchains.1 ?_
        intro i hi
        have hiney : i ≠ y := by
          have hrl : (y :: c2').reverse.getLast? = some y := by
            rw [List.getLast?_reverse]
            rfl
          exact nodup_dropLast_ne_last (List.nodup_reverse.2
            (List.nodup_cons.1 hndm).2) hrl i hi
        exact (hprev_keep i hiney).symm
      · refine nchain_congr (nchain_cons_cons.1 hpchains.2.1).2 ?_
        intro i hi
        have hiney : i ≠ y := by
          rcases List.mem_cons.1 hi with rfl | hic1
          · exact haney
          · intro he
            refine hdisj (show y ∈ c1 from ?_) (by simp)
            rw [← he]
            simpa using hic1
        exact (hprev_keep i hiney).symm
      · intro u hu w hw
        have hul : u = y := by
          rw [List.getLast?_reverse] at hu
          simp at hu
          omega
        subst hul
        have hwa : w = a := by simp at hw; omega
        subst hwa
        exact hprev_y
    · intro i hi
      have hih : (c1 ++ a :: m :: y :: c2').head? = some i := by
        rw [head?_append_cons c1 a (m :: y :: c2') (y :: c2')]
        exact hi
      have hiney : i ≠ y := by
        rcases hc1 : c1 with _ | ⟨z, zs⟩
        · rw [hc1] at hih
          rcases Option.some.inj hih with rfl
          exact haney
        · rw [hc1] at hih
          rcases Option.some.inj hih with rfl
          intro he
          refine hdisj (show y ∈ c1 from ?_) (by simp)
          rw [hc1, ← he]
          simp
      rw [hprev_keep i hiney]
      exact h.phead_none i hih

/-- InsertAt keeps the doubly list well formed in every branch. -/
theorem DLL_InsertAt_repr [Inhabited T] {l : DoublyLinkedList T} {c : List Nat}
    (h : DRepr l c) (index : Int) (v : T) :
    ∃ c', DRepr ((l.InsertAt index v).2) c' := by
  by_cases hoob : index < 0 ∨ index > l.size
  · refine ⟨c, ?_⟩
    have hres : (l.InsertAt index v).2 = l := by
      unfold DoublyLinkedList.InsertAt
      rw [if_pos hoob]
    rw [hres]
    exact h
  by_cases h0 : index = 0
  · refine ⟨l.heap.length :: c, ?_⟩
    have hres : (l.InsertAt index v).2 = l.Prepend v := by
      unfold DoublyLinkedList.InsertAt
      rw [if_neg hoob, if_pos h0]
    rw [hres]
    exact (DLL_Prepend_repr h v).1
  by_cases hsz : index = l.size
  · refine ⟨c ++ [l.heap.length], ?_⟩
    have hres : (l.InsertAt index v).2 = l.Append v := by
      unfold DoublyLinkedList.InsertAt
      rw [if_neg hoob, if_neg h0, if_pos hsz]
    rw [hres]
    exact (DLL_Append_repr h v).1
  · -- interior splice
    push_neg at hoob
    have hik : (1 : Int) ≤ index := by omega
    have hilt : index < l.size := lt_of_le_of_ne hoob.2 hsz
    have hkbound : index.toNat < c.length := by
      have := h.size_eq
      omega
    have hkpos : 1 ≤ index.toNat := by omega
    -- split the chain at the insertion point
    rcases exists_split_at (show index.toNat - 1 < c.length by omega)
      with ⟨c1, a, c2', hdecomp, hc1len⟩
    have hc2ne : c2' ≠ [] := by
      intro hc2
      have hlen : c.length = c1.length + 1 := by rw [hdecomp, hc2]; simp
      have := h.size_eq
      omega
    rcases hc2e : c2' with _ | ⟨m, c2⟩
    · exact absurd hc2e hc2ne
    rw [hc2e] at hdecomp
    subst hdecomp
    set n := l.heap.length with hn
    have hbn : ∀ i ∈ c1 ++ a :: m :: c2, i < n := h.bounds
    have hnnotc : n ∉ c1 ++ a :: m :: c2 := fun hmem => lt_irrefl _ (hbn _ hmem)
    have hdisj := List.disjoint_of_nodup_append h.nodup
    have hndtail : (a :: m :: c2).Nodup := (List.nodup_append.1 h.nodup).2.1
    have hanot : a ∉ m :: c2 := (List.nodup_cons.1 hndtail).1
    have hmnotc2 : m ∉ c2 := (List.nodup_cons.1 (List.nodup_cons.1 hndtail).2).1
    have habound : a < n := hbn a (by simp)
    have hmbound : m < n := hbn m (by simp)
    have hanem : a ≠ m := fun he => hanot (by rw [he]; simp)
    set hp0 := l.heap ++ [(⟨v, none, none⟩ : DNode T)] with hh0
    have hch0 : NChain (dNextF hp0) (c1 ++ a :: m :: c2) := by
      refine nchain_congr h.links ?_
      intro i hi
      exact (dNextF_append_lt (hbn i hi) _).symm
    have hcur : iterN (dNextF hp0) index.toNat l.head = some m := by
      rw [h.head_eq]
      have hsplit2 : c1 ++ a :: m :: c2 = (c1 ++ [a]) ++ m :: c2 := by simp
      have hlen1 : (c1 ++ [a]).length = index.toNat := by
        simp
        omega
      rw [nchain_iterN hch0 _ hkbound, hsplit2, ← hlen1, get?_append_middle]
    have hrevc : (c1 ++ a :: m :: c2).reverse =
        (m :: c2).reverse ++ a :: c1.reverse := by simp
    have hplc : NChain (dPrevF l.heap) ((m :: c2).reverse ++ a :: c1.reverse) := by
      rw [← hrevc]
      exact h.plinks
    have hpchains := List.chain'_append.1 hplc
    have hpma : dPrevF l.heap m = some a := by
      refine hpchains.2.2 m ?_ a rfl
      rw [List.getLast?_reverse]
      rfl
    have hpma0 : dPrevF hp0 m = some a := by
      rw [hh0, dPrevF_append_lt hmbound, hpma]
    have hres : (l.InsertAt index v).2 =
        { heap := dSetPrev (dSetNext (dSetPrev (dSetNext hp0 a (some n)) n (some a))
            n (some m)) m (some n),
          head := l.head, tail := l.tail, size := l.size + 1 } := by
      unfold DoublyLinkedList.InsertAt
      rw [if_neg (by omega), if_neg h0, if_neg hsz]
      dsimp only
      rw [← hh0, ← hn, hcur]
      rw [show optNext (dPrevF hp0) (some m) = dPrevF hp0 m from rfl, hpma0]
      rfl
    rw [hres]
    set H := dSetPrev (dSetNext (dSetPrev (dSetNext hp0 a (some n)) n (some a))
      n (some m)) m (some n) with hH
    have hlenH : H.length = n + 1 := by
      rw [hH, dSetPrev_length, dSetNext_length, dSetPrev_length, dSetNext_length,
        hh0]
      simp
    have hnext_keep : ∀ i, i ≠ a → i ≠ n → i ∈ c1 ++ a :: m :: c2 →
        dNextF H i = dNextF l.heap i := by
      intro i hia hin himem
      rw [hH, dNextF_dSetPrev, dNextF_dSetNext_ne hin, dNextF_dSetPrev,
        dNextF_dSetNext_ne hia, hh0]
      exact dNextF_append_lt (hbn i himem) _
    have hnext_a : dNextF H a = some n := by
      rw [hH, dNextF_dSetPrev, dNextF_dSetNext_ne (by omega), dNextF_dSetPrev]
      exact dNextF_dSetNext_self (by rw [hh0]; simp; omega) _
    have hnext_n : dNextF H n = some m := by
      rw [hH, dNextF_dSetPrev]
      refine dNextF_dSetNext_self ?_ _
      rw [dSetPrev_length, dSetNext_length, hh0]
      simp
    have hprev_keep : ∀ i, i ≠ n → i ≠ m → i ∈ c1 ++ a :: m :: c2 →
        dPrevF H i = dPrevF l.heap i := by
      intro i hin him himem
      rw [hH, dPrevF_dSetPrev_ne him, dPrevF_dSetNext, dPrevF_dSetPrev_ne hin,
        dPrevF_dSetNext, hh0]
      exact dPrevF_append_lt (hbn i himem) _
    have hprev_m : dPrevF H m = some n := by
      rw [hH]
      refine dPrevF_dSetPrev_self ?_ _
      rw [dSetNext_length, dSetPrev_length, dSetNext_length, hh0]
      simp
      omega
    have hprev_n : dPrevF H n = some a := by
      rw [hH, dPrevF_dSetPrev_ne (by omega), dPrevF_dSetNext]
      refine dPrevF_dSetPrev_self ?_ _
      rw [dSetNext_length, hh0]
      simp
    have hchains := List.chain'_append.1 h.links
    have hcham : NChain (dNextF l.heap) (a :: m :: c2) := hchains.2.1
    have hLc : (c1 ++ a :: m :: c2).getLast? = (m :: c2).getLast? := by
      rw [List.getLast?_append_of_ne_nil _ (by simp), getLast?_cons_ne_nil a (by simp)]
    have hLc2 : (c1 ++ a :: n :: m :: c2).getLast? = (m :: c2).getLast? := by
      rw [List.getLast?_append_of_ne_nil _ (by simp), getLast?_cons_ne_nil a (by simp),
        getLast?_cons_ne_nil _ (by simp)]
    refine ⟨c1 ++ a :: n :: m :: c2, ?_, ?_, ?_, ?_, ?_, ?_, ?_, ?_, ?_⟩
    · intro i hi
      rw [hlenH]
      simp only [List.mem_append, List.mem_cons] at hi
      rcases hi with hi | hi | hi | hi
      · have := hbn i (by simp [hi]); omega
      · subst hi; omega
      · omega
      · have := hbn i (by simp [hi]); omega
    · rw [List.nodup_append]
      refine ⟨(List.nodup_append.1 h.nodup).1, ?_, ?_⟩
      · rw [List.nodup_cons]
        refine ⟨?_, ?_⟩
        · intro hmem
          rcases List.mem_cons.1 hmem with he | hmem2
          · omega
          · exact hanot hmem2
        · rw [List.nodup_cons]
          exact ⟨fun hmem => hnnotc (by simp [hmem]),
            (List.nodup_cons.1 hndtail).2⟩
      · intro i hi1 hi2
        simp only [List.mem_cons] at hi2
        rcases hi2 with rfl | rfl | hi2
        · exact hdisj hi1 (by simp)
        · exact hnnotc (by simp [hi1])
        · exact hdisj hi1 (by simp [hi2])
    · rw [h.head_eq]
      exact head?_append_cons c1 a (m :: c2) (n :: m :: c2)
    · rw [h.tail_eq, hLc, ← hLc2]
    · have := h.size_eq
      simp at this ⊢
      omega
    · refine List.chain'_append.2 ⟨?_, ?_, ?_⟩
      · refine nchain_congr_dropLast hchains.1 ?_
        intro i hi
        have himem : i ∈ c1 := List.dropLast_subset c1 hi
        refine (hnext_keep i ?_ ?_ (by simp [himem])).symm
        · intro he
          have hmem2 : a ∈ c1 := by rw [← he]; exact himem
          exact hdisj hmem2 (by simp)
        · intro he
          refine hnnotc ?_
          rw [← he]
          simp [himem]
      · refine nchain_cons_cons.2 ⟨hnext_a, ?_⟩
        refine nchain_cons_cons.2 ⟨hnext_n, ?_⟩
        refine nchain_congr_dropLast (nchain_cons_cons.1 hcham).2 ?_
        intro i hi
        have himem : i ∈ m :: c2 := List.dropLast_subset _ hi
        refine (hnext_keep i ?_ ?_ (by simp [himem])).symm
        · intro he
          refine hanot ?_
          rw [← he]
          exact himem
        · intro he
          refine hnnotc ?_
          rw [← he]
          simp [himem]
      · intro u hu w hw
        have huc1 : u ∈ c1 := mem_of_getLast?_eq hu
        have hwa : w = a := by simp at hw; omega
        have hune : u ≠ a := by
          intro he
          have hmem2 : a ∈ c1 := by rw [← he]; exact huc1
          exact hdisj hmem2 (by simp)
        have hunn : u ≠ n := by
          intro he
          refine hnnotc ?_
          rw [← he]
          simp [huc1]
        rw [hnext_keep u hune hunn (by simp [huc1]), hwa]
        exact hchains.2.2 u hu a rfl
    · intro i hi
      rw [hLc2] at hi
      have himem : i ∈ m :: c2 := mem_of_getLast?_eq hi
      have hine : i ≠ a := by
        intro he
        refine hanot ?_
        rw [← he]
        exact himem
      have hinn : i ≠ n := by
        intro he
        refine hnnotc ?_
        rw [← he]
        simp [himem]
      rw [hnext_keep i hine hinn (by simp [himem])]
      refine h.last_none i ?_
      rw [hLc]
      exact hi
    · show NChain (dPrevF H) (c1 ++ a :: n :: m :: c2).reverse
      rw [show (c1 ++ a :: n :: m :: c2).reverse =
        (m :: c2).reverse ++ n :: a :: c1.reverse by simp]
      refine List.chain'_append.2 ⟨?_, ?_, ?_⟩
      · refine nchain_congr_dropLast hpchains.1 ?_
        intro i hi
        have himem : i ∈ m :: c2 := by
          have hmem := List.dropLast_subset _ hi
          rw [List.mem_reverse] at hmem
          exact hmem
        have hinm : i ≠ m := by
          have hrl : (m :: c2).reverse.getLast? = some m := by
            rw [List.getLast?_reverse]
            rfl
          exact nodup_dropLast_ne_last (List.nodup_reverse.2
            (List.nodup_cons.1 hndtail).2) hrl i hi
        have hinn : i ≠ n := by
          intro he
          refine hnnotc ?_
          rw [← he]
          simp [himem]
        exact (hprev_keep i hinn hinm (by simp [himem])).symm
      · refine nchain_cons_cons.2 ⟨hprev_n, ?_⟩
        refine nchain_congr hpchains.2.1 ?_
        intro i hi
        have himem : i ∈ a :: c1.reverse := hi
        have hinn : i ≠ n := by
          intro he
          rcases List.mem_cons.1 himem with rfl | hic1
          · refine hnnotc ?_
            rw [← he]
            simp
          · refine hnnotc ?_
            rw [← he]
            simp [List.mem_reverse.1 hic1]
        have hinm : i ≠ m := by
          intro he
          rcases List.mem_cons.1 himem with rfl | hic1
          · exact hanem he
          · exact hdisj (List.mem_reverse.1 hic1) (by rw [he]; simp)
        have himem2 : i ∈ c1 ++ a :: m :: c2 := by
          rcases List.mem_cons.1 himem with rfl | hic1
          · simp
          · simp [List.mem_reverse.1 hic1]
        exact (hprev_keep i hinn hinm himem2).symm
      · intro u hu w hw
        have hul : u = m := by
          rw [List.getLast?_reverse] at hu
          simp at hu
          omega
        subst hul
        have hwn : w = n := by simp at hw; omega
        subst hwn
        exact hprev_m
    · intro i hi
      have hih : (c1 ++ a :: m :: c2).head? = some i := by
        rw [head?_append_cons c1 a (m :: c2) (n :: m :: c2)]
        exact hi
      have himem : i ∈ c1 ++ [a] := by
        rcases hc1 : c1 with _ | ⟨z, zs⟩
        · rw [hc1] at hih
          rcases Option.some.inj hih with rfl
          simp
        · rw [hc1] at hih
          rcases Option.some.inj hih with rfl
          simp
      have hinn : i ≠ n := by
        intro he
        rcases List.mem_append.1 himem with hic1 | hia
        · exact hnnotc (by rw [← he]; simp [hic1])
        · simp at hia
          omega
      have hinm : i ≠ m := by
        intro he
        rcases List.mem_append.1 himem with hic1 | hia
        · exact hdisj hic1 (by rw [he]; simp)
        · simp at hia
          rw [hia] at he
          exact hanem he
      have himem2 : i ∈ c1 ++ a :: m :: c2 := by
        rcases List.mem_append.1 himem with hic1 | hia
        · simp [hic1]
        · simp at hia
          simp [hia]
      rw [hprev_keep i hinn hinm himem2]
      exact h.phead_none i hih

/-- Specification of the doubly pointer-swap loop on a nil-terminated chain:
it reverses the next-links along the chain, makes the prev-links follow the
original chain order, leaves values and other nodes untouched, points the old
head's next at the initial `prev`, nils the old last's prev, and returns the
last chain node. -/
theorem dReverseLoop_spec [Inhabited T] :
    ∀ (c : List Nat) (h : DHeap T) (p : Option Nat),
      NChain (dNextF h) c → c.Nodup → (∀ i ∈ c, i < h.length) →
      (∀ i, c.getLast? = some i → dNextF h i = none) →
      ∀ fuel, c.length ≤ fuel →
      (dReverseLoop h p c.head? fuel).1.length = h.length ∧
      (∀ i, i ∉ c → dNextF (dReverseLoop h p c.head? fuel).1 i = dNextF h i) ∧
      (∀ i, i ∉ c → dPrevF (dReverseLoop h p c.head? fuel).1 i = dPrevF h i) ∧
      (∀ i, dValD (dReverseLoop h p c.head? fuel).1 i = dValD h i) ∧
      NChain (dNextF (dReverseLoop h p c.head? fuel).1) c.reverse ∧
      (∀ i, c.head? = some i → dNextF (dReverseLoop h p c.head? fuel).1 i = p) ∧
      NChain (dPrevF (dReverseLoop h p c.head? fuel).1) c ∧
      (∀ i, c.getLast? = some i → dPrevF (dReverseLoop h p c.head? fuel).1 i = none) ∧
      (dReverseLoop h p c.head? fuel).2 = (if c = [] then p else c.getLast?) := by
  intro c
  induction c with
  | nil =>
    intro h p _ _ _ _ fuel _
    have hval : dReverseLoop h p (([] : List Nat)).head? fuel = (h, p) := by
      cases fuel <;> rfl
    rw [hval]
    refine ⟨rfl, fun i _ => rfl, fun i _ => rfl, fun i => rfl, nchain_nil _, ?_,
      nchain_nil _, ?_, by rw [if_pos rfl]⟩
    · intro i hi
      simp at hi
    · intro i hi
      simp at hi
  | cons x c ih =>
    intro h p hch hnd hbd hlast fuel hf
    obtain ⟨fuel, rfl⟩ : ∃ f2, fuel = f2 + 1 := ⟨fuel - 1, by simp at hf; omega⟩
    have hxbound : x < h.length := hbd x (by simp)
    have hxnotc : x ∉ c := (List.nodup_cons.1 hnd).1
    have hxc : dNextF h x = c.head? := by
      cases c with
      | nil => exact hlast x (by simp)
      | cons y c2 => exact (nchain_cons_cons.1 hch).1
    have hstep : dReverseLoop h p (x :: c).head? (fuel + 1) =
        dReverseLoop (dSetPrev (dSetNext h x p) x (dNextF h x)) (some x)
          (dNextF h x) fuel := rfl
    set h1 := dSetPrev (dSetNext h x p) x (dNextF h x) with hh1
    have hlen1 : h1.length = h.length := by
      rw [hh1, dSetPrev_length, dSetNext_length]
    have hnext1_keep : ∀ i, i ≠ x → dNextF h1 i = dNextF h i := by
      intro i hix
      rw [hh1, dNextF_dSetPrev, dNextF_dSetNext_ne hix]
    have hprev1_keep : ∀ i, i ≠ x → dPrevF h1 i = dPrevF h i := by
      intro i hix
      rw [hh1, dPrevF_dSetPrev_ne hix, dPrevF_dSetNext]
    have hnext1_x : dNextF h1 x = p := by
      rw [hh1, dNextF_dSetPrev]
      exact dNextF_dSetNext_self hxbound _
    have hprev1_x : dPrevF h1 x = dNextF h x := by
      rw [hh1]
      exact dPrevF_dSetPrev_self (by rw [dSetNext_length]; exact hxbound) _
    have hval1 : ∀ i, dValD h1 i = dValD h i := by
      intro i
      rw [hh1, dValD_dSetPrev, dValD_dSetNext]
    have hch1 : NChain (dNextF h1) c :=
      nchain_congr (NChain.tail hch)
        (fun i hi => (hnext1_keep i
          (fun he => hxnotc (by rw [← he]; exact hi))).symm)
    have hbd1 : ∀ i ∈ c, i < h1.length := by
      intro i hi
      rw [hlen1]
      exact hbd i (List.mem_cons_of_mem x hi)
    have hlast1 : ∀ i, c.getLast? = some i → dNextF h1 i = none := by
      intro i hi
      have himem : i ∈ c := mem_of_getLast?_eq hi
      rw [hnext1_keep i (fun he => hxnotc (by rw [← he]; exact himem))]
      refine hlast i ?_
      rcases hc : c with _ | ⟨y, c2⟩
      · rw [hc] at hi; simp at hi
      · rw [getLast?_cons_ne_nil x (by simp), ← hc]
        exact hi
    have := ih h1 (some x) hch1 (List.nodup_cons.1 hnd).2 hbd1 hlast1
      fuel (by simp at hf; omega)
    rw [hxc] at hstep
    rw [hstep]
    rcases this with ⟨ihlen, ihkeep, ihpkeep, ihval, ihchain, ihhead, ihpchain,
      ihplast, ihsnd⟩
    have hfinal_x : dNextF (dReverseLoop h1 (some x) c.head? fuel).1 x = p := by
      rw [ihkeep x hxnotc, hnext1_x]
    have hfinal_px : dPrevF (dReverseLoop h1 (some x) c.head? fuel).1 x = c.head? := by
      rw [ihpkeep x hxnotc, hprev1_x, hxc]
    refine ⟨?_, ?_, ?_, ?_, ?_, ?_, ?_, ?_, ?_⟩
    · rw [ihlen, hlen1]
    · intro i hi
      have hine : i ≠ x := fun he => hi (by simp [he])
      have hinc : i ∉ c := fun hm => hi (by simp [hm])
      rw [ihkeep i hinc, hnext1_keep i hine]
    · intro i hi
      have hine : i ≠ x := fun he => hi (by simp [he])
      have hinc : i ∉ c := fun hm => hi (by simp [hm])
      rw [ihpkeep i hinc, hprev1_keep i hine]
    · intro i
      rw [ihval i, hval1 i]
    · rw [show (x :: c).reverse = c.reverse ++ [x] by simp]
      refine List.chain'_append.2 ⟨ihchain, nchain_singleton _ x, ?_⟩
      intro u hu w hw
      have hwx : w = x := by simp at hw; omega
      subst hwx
      rw [List.getLast?_reverse] at hu
      exact ihhead u hu
    · intro i hi
      have hix : i = x := by simp at hi; omega
      subst hix
      exact hfinal_x
    · cases c with
      | nil => exact nchain_singleton _ x
      | cons y c2 =>
        refine nchain_cons_cons.2 ⟨?_, ihpchain⟩
        rw [hfinal_px]
        rfl
    · intro i hi
      cases c with
      | nil =>
        have hix : i = x := by simpa using hi.symm
        subst hix
        rw [ihpkeep i (by simp), hprev1_x, hxc]
        rfl
      | cons y c2 =>
        refine ihplast i ?_
        rw [getLast?_cons_ne_nil x (by simp)] at hi
        exact hi
    · rw [ihsnd]
      rcases hc : c with _ | ⟨y, c2⟩
      · rw [if_pos rfl, if_neg (by simp)]
        rfl
      · rw [if_neg (by simp), if_neg (by simp)]
        exact (getLast?_cons_ne_nil x (by simp)).symm

/-- Reverse keeps the doubly list well formed with the reversed chain; node
values are untouched. -/
theorem DLL_Reverse_repr [Inhabited T] {l : DoublyLinkedList T} {c : List Nat}
    (h : DRepr l c) :
    DRepr l.Reverse c.reverse ∧ ∀ i, dValD l.Reverse.heap i = dValD l.heap i := by
  have hru : l.Reverse =
      { heap := (dReverseLoop l.heap none l.head (l.heap.length + 1)).1,
        head := (dReverseLoop l.heap none l.head (l.heap.length + 1)).2,
        tail := l.head, size := l.size } := rfl
  have hspec := dReverseLoop_spec c l.heap none h.links h.nodup h.bounds h.last_none
    (l.heap.length + 1) (by have := h.dLenLe; omega)
  rw [h.head_eq] at hru
  rcases hspec with ⟨hlen, hkeep, hpkeep, hval, hchain, hhead, hpchain, hplast, hsnd⟩
  constructor
  · rw [hru]
    refine ⟨?_, by simpa using h.nodup, ?_, ?_, ?_, hchain, ?_, ?_, ?_⟩
    · intro i hi
      show i < (dReverseLoop l.heap none c.head? (l.heap.length + 1)).1.length
      rw [hlen]
      exact h.bounds i (by simpa using hi)
    · show (dReverseLoop l.heap none c.head? (l.heap.length + 1)).2 = c.reverse.head?
      rw [hsnd, List.head?_reverse]
      rcases hc : c with _ | ⟨y, c2⟩
      · rw [if_pos rfl]
        rfl
      · rw [if_neg (by simp)]
    · show c.head? = c.reverse.getLast?
      rw [List.getLast?_reverse]
    · show l.size = (c.reverse.length : Int)
      rw [h.size_eq]
      simp
    · intro i hi
      rw [List.getLast?_reverse] at hi
      exact hhead i hi
    · show NChain _ c.reverse.reverse
      rw [List.reverse_reverse]
      exact hpchain
    · intro i hi
      rw [List.head?_reverse] at hi
      exact hplast i hi
  · intro i
    rw [hru]
    exact hval i

/-- Lists reachable from the empty doubly linked list by the public mutating
operations. -/
inductive DReach [Inhabited T] [DecidableEq T] : DoublyLinkedList T → Prop
  | new : DReach DoublyLinkedList.New
  | prepend {l : DoublyLinkedList T} (v : T) : DReach l → DReach (l.Prepend v)
  | append {l : DoublyLinkedList T} (v : T) : DReach l → DReach (l.Append v)
  | insertAt {l : DoublyLinkedList T} (index : Int) (v : T) :
      DReach l → DReach ((l.InsertAt index v).2)
  | remove {l : DoublyLinkedList T} (v : T) : DReach l → DReach (l.Remove v)
  | removeFirst {l : DoublyLinkedList T} : DReach l → DReach l.RemoveFirst
  | removeLast {l : DoublyLinkedList T} : DReach l → DReach l.RemoveLast
  | set {l : DoublyLinkedList T} (index : Int) (v : T) :
      DReach l → DReach ((l.Set index v).2)
  | reverse {l : DoublyLinkedList T} : DReach l → DReach l.Reverse
  | clear {l : DoublyLinkedList T} : DReach l → DReach l.Clear

/-- Every reachable doubly linked list is well formed. -/
theorem DReach_wf [Inhabited T] [DecidableEq T] {l : DoublyLinkedList T} (h : DReach l) :
    ∃ c, DRepr l c := by
  induction h with
  | new => exact ⟨[], DLL_New_repr⟩
  | prepend v _ ih => rcases ih with ⟨c, hc⟩; exact ⟨_, (DLL_Prepend_repr hc v).1⟩
  | append v _ ih => rcases ih with ⟨c, hc⟩; exact ⟨_, (DLL_Append_repr hc v).1⟩
  | insertAt index v _ ih => rcases ih with ⟨c, hc⟩; exact DLL_InsertAt_repr hc index v
  | remove v _ ih => rcases ih with ⟨c, hc⟩; exact DLL_Remove_repr hc v
  | removeFirst _ ih => rcases ih with ⟨c, hc⟩; exact ⟨_, DLL_RemoveFirst_repr hc⟩
  | removeLast _ ih => rcases ih with ⟨c, hc⟩; exact ⟨_, DLL_RemoveLast_repr hc⟩
  | set index v _ ih => rcases ih with ⟨c, hc⟩; exact ⟨_, DLL_Set_repr hc index v⟩
  | reverse _ ih => rcases ih with ⟨c, hc⟩; exact ⟨_, (DLL_Reverse_repr hc).1⟩
  | clear _ ih => rcases ih with ⟨c, hc⟩; exact ⟨_, DLL_Clear_repr hc⟩

/-! ### Representation invariant: circular doubly list -/

/-- `CDRepr l c` : the ring of `l` consists of the addresses of `c` in
head-to-tail order; next-links follow `c` and wrap from last to first,
prev-links follow `c.reverse` and wrap from first to last, the stored tail
is the last entry, and the size counter agrees. -/
structure CDRepr (l : CircularDoublyLinkedList T) (c : List Nat) : Prop where
  bounds : ∀ i ∈ c, i < l.heap.length
  nodup : c.Nodup
  tail_eq : l.tail = c.getLast?
  size_eq : l.size = c.length
  links : NChain (dNextF l.heap) c
  wrap : ∀ i j, c.getLast? = some i → c.head? = some j → dNextF l.heap i = some j
  plinks : NChain (dPrevF l.heap) c.reverse
  pwrap : ∀ i j, c.head? = some i → c.getLast? = some j → dPrevF l.heap i = some j

theorem CDRepr.cdSizeToNat {l : CircularDoublyLinkedList T} {c : List Nat} (h : CDRepr l c) :
    l.size.toNat = c.length := by
  rw [h.size_eq]; simp

theorem CDRepr.cdLenLe {l : CircularDoublyLinkedList T} {c : List Nat} (h : CDRepr l c) :
    c.length ≤ l.heap.length :=
  nodup_bounds_length h.nodup h.bounds

theorem CDRepr.cdEmptyIff {l : CircularDoublyLinkedList T} {c : List Nat} (h : CDRepr l c) :
    l.size = 0 ↔ c = [] := by
  rw [h.size_eq]
  constructor
  · intro hz
    exact List.length_eq_zero.1 (by exact_mod_cast hz)
  · intro hc; subst hc; rfl

/-- The computed head of the ring is the first chain entry. -/
theorem CDRepr.cdHeadEq {l : CircularDoublyLinkedList T} {c : List Nat} (h : CDRepr l c) :
    l.Head = c.head? := by
  unfold CircularDoublyLinkedList.Head
  rcases hc : c with _ | ⟨x, c2⟩
  · rw [show l.tail = none by rw [h.tail_eq, hc]; rfl]
    rfl
  · have hne : c ≠ [] := by rw [hc]; simp
    have hlastv : c.getLast? = some (c.getLast hne) := List.getLast?_eq_getLast _ _
    rw [show l.tail = some (c.getLast hne) by rw [h.tail_eq, hlastv]]
    show dNextF l.heap (c.getLast hne) = (x :: c2).head?
    refine h.wrap _ x hlastv ?_
    rw [hc]
    rfl

theorem CDLL_New_repr : CDRepr (CircularDoublyLinkedList.New (T := T)) [] := by
  refine ⟨?_, ?_, ?_, ?_, ?_, ?_, ?_, ?_⟩ <;>
    simp [CircularDoublyLinkedList.New, NChain]

theorem CDLL_Clear_repr {l : CircularDoublyLinkedList T} {c : List Nat}
    (_ : CDRepr l c) : CDRepr l.Clear [] := by
  refine ⟨?_, ?_, ?_, ?_, ?_, ?_, ?_, ?_⟩ <;>
    simp [CircularDoublyLinkedList.Clear, NChain]

/-- Prepend splices the fresh node between the tail and the head; values are
preserved. -/
theorem CDLL_Prepend_repr [Inhabited T] {l : CircularDoublyLinkedList T} {c : List Nat}
    (h : CDRepr l c) (v : T) :
    CDRepr (l.Prepend v) (l.heap.length :: c) ∧
      (l.heap.length :: c).map (dValD (l.Prepend v).heap) = v :: c.map (dValD l.heap) := by
  have hbn : ∀ i ∈ c, i < l.heap.length := h.bounds
  have hnotc : l.heap.length ∉ c := fun hmem => lt_irrefl _ (hbn _ hmem)
  by_cases hz : l.size = 0
  · have hc : c = [] := h.cdEmptyIff.1 hz
    subst hc
    have hres : l.Prepend v =
        { heap := l.heap ++ [(⟨v, some l.heap.length, some l.heap.length⟩ : DNode T)],
          tail := some l.heap.length, size := l.size + 1 } := by
      unfold CircularDoublyLinkedList.Prepend
      rw [if_pos hz]
    rw [hres]
    refine ⟨⟨?_, ?_, ?_, ?_, ?_, ?_, ?_, ?_⟩, ?_⟩
    · intro i hi
      simp at hi
      subst hi
      simp
    · simp
    · rfl
    · show l.size + 1 = _
      rw [hz]
      simp
    · exact nchain_singleton _ _
    · intro i j hi hj
      have hin : i = l.heap.length := by simpa using hi.symm
      have hjn : j = l.heap.length := by simpa using hj.symm
      subst hin
      subst hjn
      rw [dNextF_append_self]
    · exact nchain_singleton _ _
    · intro i j hi hj
      have hin : i = l.heap.length := by simpa using hi.symm
      have hjn : j = l.heap.length := by simpa using hj.symm
      subst hin
      subst hjn
      rw [dPrevF_append_self]
    · simp [dValD_append_self]
  · have hcne : c ≠ [] := fun hc => hz (h.cdEmptyIff.2 hc)
    obtain ⟨headv, hheadv⟩ : ∃ hv, c.head? = some hv := by
      rcases hc : c with _ | ⟨x, c2⟩
      · exact absurd hc hcne
      · exact ⟨x, rfl⟩
    obtain ⟨lastv, hlastv⟩ : ∃ lv, c.getLast? = some lv :=
      ⟨c.getLast hcne, List.getLast?_eq_getLast _ _⟩
    have hhmem : headv ∈ c := by
      rcases hc : c with _ | ⟨x, c2⟩
      · exact absurd hc hcne
      · rw [hc] at hheadv
        rcases Option.some.inj hheadv with rfl
        exact List.mem_cons_self _ _
    have hlmem : lastv ∈ c := mem_of_getLast?_eq hlastv
    have hhbound : headv < l.heap.length := hbn headv hhmem
    have hlbound : lastv < l.heap.length := hbn lastv hlmem
    have hhd : l.Head = some headv := by rw [h.cdHeadEq, hheadv]
    have htail : l.tail = some lastv := by rw [h.tail_eq, hlastv]
    set n := l.heap.length with hn
    have hres : l.Prepend v =
        { heap := dSetNext (dSetPrev (dSetPrev (dSetNext
            (l.heap ++ [(⟨v, none, none⟩ : DNode T)]) n (some headv)) n (some lastv))
            headv (some n)) lastv (some n),
          tail := l.tail, size := l.size + 1 } := by
      unfold CircularDoublyLinkedList.Prepend
      rw [if_neg hz, hhd, htail]
      rfl
    rw [hres]
    set H := dSetNext (dSetPrev (dSetPrev (dSetNext
      (l.heap ++ [(⟨v, none, none⟩ : DNode T)]) n (some headv)) n (some lastv))
      headv (some n)) lastv (some n) with hH
    have hlenH : H.length = n + 1 := by
      rw [hH, dSetNext_length, dSetPrev_length, dSetPrev_length, dSetNext_length, hn]
      simp
    have hnext_keep : ∀ i, i ≠ lastv → i ≠ n → i ∈ c → dNextF H i = dNextF l.heap i := by
      intro i hil hin himem
      rw [hH, dNextF_dSetNext_ne hil, dNextF_dSetPrev, dNextF_dSetPrev,
        dNextF_dSetNext_ne hin]
      exact dNextF_append_lt (hbn i himem) _
    have hnext_n : dNextF H n = some headv := by
      rw [hH, dNextF_dSetNext_ne (by omega), dNextF_dSetPrev, dNextF_dSetPrev]
      exact dNextF_dSetNext_self (by rw [hn]; simp) _
    have hnext_last : dNextF H lastv = some n := by
      rw [hH]
      refine dNextF_dSetNext_self ?_ _
      rw [dSetPrev_length, dSetPrev_length, dSetNext_length]
      have hlb2 : lastv < List.length l.heap := by rw [← hn]; exact hlbound
      simp
      omega
    have hprev_keep : ∀ i, i ≠ headv → i ≠ n → i ∈ c → dPrevF H i = dPrevF l.heap i := by
      intro i hih hin himem
      rw [hH, dPrevF_dSetNext, dPrevF_dSetPrev_ne hih, dPrevF_dSetPrev_ne hin,
        dPrevF_dSetNext]
      exact dPrevF_append_lt (hbn i himem) _
    have hprev_head : dPrevF H headv = some n := by
      rw [hH, dPrevF_dSetNext]
      refine dPrevF_dSetPrev_self ?_ _
      rw [dSetPrev_length, dSetNext_length]
      have hhb2 : headv < List.length l.heap := by rw [← hn]; exact hhbound
      simp
      omega
    have hprev_n : dPrevF H n = some lastv := by
      rw [hH, dPrevF_dSetNext, dPrevF_dSetPrev_ne (by omega)]
      refine dPrevF_dSetPrev_self ?_ _
      rw [dSetNext_length, hn]
      simp
    have hval2 : ∀ i, i < n → dValD H i = dValD l.heap i := by
      intro i hlt
      rw [hH, dValD_dSetNext, dValD_dSetPrev, dValD_dSetPrev, dValD_dSetNext,
        dValD_append_lt hlt]
    have hvaln : dValD H n = v := by
      rw [hH, dValD_dSetNext, dValD_dSetPrev, dValD_dSetPrev, dValD_dSetNext, hn,
        dValD_append_self]
    have hrevlast : c.reverse.getLast? = some headv := by
      rw [List.getLast?_reverse, hheadv]
    refine ⟨⟨?_, ?_, ?_, ?_, ?_, ?_, ?_, ?_⟩, ?_⟩
    · intro i hi
      rw [hlenH]
      rcases List.mem_cons.1 hi with rfl | hi2
      · omega
      · have := hbn i hi2; omega
    · exact List.nodup_cons.2 ⟨hnotc, h.nodup⟩
    · show l.tail = _
      rw [htail, getLast?_cons_ne_nil _ hcne, hlastv]
    · show l.size + 1 = _
      rw [h.size_eq]
      simp
    · rcases hc : c with _ | ⟨x, c2⟩
      · exact absurd hc hcne
      refine nchain_cons_cons.2 ⟨?_, ?_⟩
      · rw [hnext_n]
        rw [hc] at hheadv
        rcases Option.some.inj hheadv with rfl
        rfl
      · rw [← hc]
        refine nchain_congr_dropLast h.links ?_
        intro i hi
        have himem : i ∈ c := List.dropLast_subset c hi
        have hil : i ≠ lastv := nodup_dropLast_ne_last h.nodup hlastv i hi
        refine (hnext_keep i hil ?_ himem).symm
        intro he
        exact hnotc (by rw [← he]; exact himem)
    · intro i j hi hj
      rw [getLast?_cons_ne_nil _ hcne, hlastv] at hi
      rcases Option.some.inj hi with rfl
      have hjn : j = n := by simpa using hj.symm
      subst hjn
      exact hnext_last
    · show NChain (dPrevF H) (n :: c).reverse
      rw [show (n :: c).reverse = c.reverse ++ [n] by simp]
      refine List.chain'_append.2 ⟨?_, nchain_singleton _ _, ?_⟩
      · refine nchain_congr_dropLast h.plinks ?_
        intro i hi
        have hine := nodup_dropLast_ne_last (List.nodup_reverse.2 h.nodup) hrevlast i hi
        have himem : i ∈ c := by
          have := List.dropLast_subset c.reverse hi
          rw [List.mem_reverse] at this
          exact this
        refine (hprev_keep i hine ?_ himem).symm
        intro he
        exact hnotc (by rw [← he]; exact himem)
      · intro u hu w hw
        rw [hrevlast] at hu
        rcases Option.some.inj hu with rfl
        have hwn : w = n := by simp at hw; omega
        subst hwn
        exact hprev_head
    · intro i j hi hj
      have hin : i = n := by simpa using hi.symm
      subst hin
      rw [getLast?_cons_ne_nil _ hcne, hlastv] at hj
      rcases Option.some.inj hj with rfl
      exact hprev_n
    · rw [List.map_cons, hvaln]
      congr 1
      exact List.map_congr_left (fun i hi => hval2 i (hbn i hi))

/-- Append is Prepend followed by advancing the tail to the new node, which
rotates the chain: the fresh address moves from the front to the back. -/
theorem CDLL_Append_repr [Inhabited T] {l : CircularDoublyLinkedList T} {c : List Nat}
    (h : CDRepr l c) (v : T) :
    CDRepr (l.Append v) (c ++ [l.heap.length]) ∧
      (c ++ [l.heap.length]).map (dValD (l.Append v).heap) =
        c.map (dValD l.heap) ++ [v] := by
  rcases CDLL_Prepend_repr h v with ⟨hp, hpv⟩
  have hnotc : l.heap.length ∉ c := fun hmem => lt_irrefl _ (h.bounds _ hmem)
  have hlast1 : (l.heap.length :: c).getLast? =
      some ((l.heap.length :: c).getLast (by simp)) := List.getLast?_eq_getLast _ _
  have htl1 : (l.Prepend v).tail = some ((l.heap.length :: c).getLast (by simp)) := by
    rw [hp.tail_eq, hlast1]
  have htl : (l.Append v).tail = some l.heap.length := by
    show optNext (dNextF (l.Prepend v).heap) (l.Prepend v).tail = some l.heap.length
    rw [htl1]
    exact hp.wrap _ l.heap.length hlast1 rfl
  have hheap : (l.Append v).heap = (l.Prepend v).heap := rfl
  have hsz : (l.Append v).size = (l.Prepend v).size := rfl
  have hvn : dValD (l.Prepend v).heap l.heap.length = v := by
    have := hpv
    rw [List.map_cons] at this
    exact (List.cons.injEq _ _ _ _ ▸ this).1
  have hvc : c.map (dValD (l.Prepend v).heap) = c.map (dValD l.heap) := by
    have := hpv
    rw [List.map_cons] at this
    exact (List.cons.injEq _ _ _ _ ▸ this).2
  have hplrev : NChain (dPrevF (l.Prepend v).heap) (c.reverse ++ [l.heap.length]) := by
    have := hp.plinks
    rw [show (l.heap.length :: c).reverse = c.reverse ++ [l.heap.length] by simp] at this
    exact this
  have hplsplit := List.chain'_append.1 hplrev
  refine ⟨⟨?_, ?_, ?_, ?_, ?_, ?_, ?_, ?_⟩, ?_⟩
  · intro i hi
    rw [hheap]
    refine hp.bounds i ?_
    rcases List.mem_append.1 hi with hi2 | hi2
    · exact List.mem_cons_of_mem _ hi2
    · simp at hi2
      simp [hi2]
  · rw [List.nodup_append]
    refine ⟨h.nodup, by simp, ?_⟩
    intro a ha hb
    have han : a = l.heap.length := by simpa using hb
    subst han
    exact hnotc ha
  · rw [htl, List.getLast?_concat]
  · rw [hsz, hp.size_eq]
    simp
  · rw [hheap]
    rcases hc : c with _ | ⟨x, c2⟩
    · exact nchain_singleton _ _
    · rw [← hc]
      refine List.chain'_append.2 ⟨NChain.tail hp.links, nchain_singleton _ _, ?_⟩
      intro u hu w hw
      have hwn : w = l.heap.length := by simp at hw; omega
      subst hwn
      refine hp.wrap u l.heap.length ?_ rfl
      rw [getLast?_cons_ne_nil _ (by rw [hc]; simp)]
      exact hu
  · intro i j hi hj
    rw [List.getLast?_concat] at hi
    rcases Option.some.inj hi with rfl
    rw [hheap]
    rcases hc : c with _ | ⟨x, c2⟩
    · rw [hc] at hj
      have hjn : j = l.heap.length := by simpa using hj.symm
      subst hjn
      refine hp.wrap _ _ ?_ rfl
      rw [hc]
      rfl
    · have hjx : j = x := by rw [hc] at hj; simpa using hj.symm
      rw [hjx]
      have hlk := hp.links
      rw [hc] at hlk
      exact (nchain_cons_cons.1 hlk).1
  · show NChain (dPrevF (l.Append v).heap) (c ++ [l.heap.length]).reverse
    rw [hheap, show (c ++ [l.heap.length]).reverse = l.heap.length :: c.reverse by simp]
    rcases hcr : c.reverse with _ | ⟨x, r2⟩
    · exact nchain_singleton _ _
    refine nchain_cons_cons.2 ⟨?_, ?_⟩
    · have hxlast : c.getLast? = some x := by
        rw [← List.head?_reverse]
        rw [hcr]
        rfl
      refine hp.pwrap l.heap.length x rfl ?_
      rw [getLast?_cons_ne_nil _ (fun hc => by rw [hc] at hcr; simp at hcr), hxlast]
    · rw [← hcr]
      exact hplsplit.1
  · intro i j hi hj
    rw [List.getLast?_concat] at hj
    rcases Option.some.inj hj with rfl
    rw [hheap]
    rcases hc : c with _ | ⟨x, c2⟩
    · rw [hc] at hi
      have hin : i = l.heap.length := by simpa using hi.symm
      subst hin
      refine hp.pwrap _ _ rfl ?_
      rw [hc]
      rfl
    · have hix : i = x := by rw [hc] at hi; simpa using hi.symm
      subst hix
      refine hplsplit.2.2 i ?_ l.heap.length rfl
      rw [List.getLast?_reverse, hc]
      rfl
  · rw [hheap, List.map_append, hvc]
    simp [hvn]

/-- Find is the reference search over the ring's chain. -/
theorem CDLL_Find_spec [Inhabited T] [DecidableEq T] {l : CircularDoublyLinkedList T}
    {c : List Nat} (h : CDRepr l c) (value : T) :
    l.Find value = firstMatch (dValD l.heap) value c := by
  unfold CircularDoublyLinkedList.Find
  by_cases hz : l.size = 0
  · rw [if_pos hz, h.cdEmptyIff.1 hz]
    rfl
  · rw [if_neg hz, h.cdHeadEq, h.cdSizeToNat]
    exact findLoopN_spec h.links

/-- The ForEach visit trace is the ring's value sequence. -/
theorem CDLL_ForEachSeq_spec [Inhabited T] {l : CircularDoublyLinkedList T} {c : List Nat}
    (h : CDRepr l c) : l.ForEachSeq = c.map (dValD l.heap) := by
  unfold CircularDoublyLinkedList.ForEachSeq
  by_cases hz : l.size = 0
  · rw [if_pos hz, h.cdEmptyIff.1 hz]
    rfl
  · rw [if_neg hz, h.cdHeadEq, h.cdSizeToNat]
    exact collectC_spec h.links

/-- String() renders the empty marker or the bracketed joined ring values. -/
theorem cdllString_spec [Inhabited T] [ToString T] {l : CircularDoublyLinkedList T}
    {c : List Nat} (h : CDRepr l c) :
    cdllString l = if c = [] then "CircularDoublyLinkedList: []"
      else "CircularDoublyLinkedList: " ++ bracketJoin " <-> " (c.map (dValD l.heap)) := by
  unfold cdllString
  by_cases hz : l.size = 0
  · rw [if_pos hz, if_pos (h.cdEmptyIff.1 hz)]
  · rw [if_neg hz, if_neg (fun hc => hz (h.cdEmptyIff.2 hc)), h.cdHeadEq, h.cdSizeToNat,
      stringLoopC_spec h.links]

/-- In-bounds Get returns no error and the chain entry at the index. -/
theorem CDLL_Get_inbounds {l : CircularDoublyLinkedList T} {c : List Nat} (h : CDRepr l c)
    {index : Int} (h0 : 0 ≤ index) (h1 : index < l.size) :
    l.Get index = (none, c.get? index.toNat) := by
  unfold CircularDoublyLinkedList.Get
  rw [if_neg (by omega)]
  rw [h.cdHeadEq, nchain_iterN h.links index.toNat (by have := h.size_eq; omega)]

/-- Set keeps the ring intact: only a value cell changes. -/
theorem CDLL_Set_repr [Inhabited T] {l : CircularDoublyLinkedList T} {c : List Nat}
    (h : CDRepr l c) (index : Int) (v : T) : CDRepr ((l.Set index v).2) c := by
  by_cases hoob : index < 0 ∨ index ≥ l.size
  · have hres : (l.Set index v).2 = l := by
      unfold CircularDoublyLinkedList.Set CircularDoublyLinkedList.Get
      rw [if_pos hoob]
    rw [hres]
    exact h
  · push_neg at hoob
    have hk : index.toNat < c.length := by
      have := h.size_eq
      omega
    have hget : l.Get index = (none, c.get? index.toNat) :=
      CDLL_Get_inbounds h (by omega) (by omega)
    have hm := List.get?_eq_get hk
    have hres : (l.Set index v).2 =
        { l with heap := dSetVal l.heap (c.get ⟨index.toNat, hk⟩) v } := by
      unfold CircularDoublyLinkedList.Set
      rw [hget, hm]
      rfl
    rw [hres]
    refine ⟨?_, h.nodup, h.tail_eq, h.size_eq, ?_, ?_, ?_, ?_⟩
    · intro i hi
      show i < (dSetVal l.heap _ v).length
      rw [dSetVal_length]
      exact h.bounds i hi
    · refine nchain_congr h.links ?_
      intro i _
      exact (dNextF_dSetVal l.heap i _ v).symm
    · intro i j hi hj
      show dNextF (dSetVal l.heap _ v) i = some j
      rw [dNextF_dSetVal]
      exact h.wrap i j hi hj
    · refine nchain_congr h.plinks ?_
      intro i _
      exact (dPrevF_dSetVal l.heap i _ v).symm
    · intro i j hi hj
      show dPrevF (dSetVal l.heap _ v) i = some j
      rw [dPrevF_dSetVal]
      exact h.pwrap i j hi hj

/-- RemoveFirst drops the head of the ring: the tail links forward to the
second node, whose prev points back at the tail. -/
theorem CDLL_RemoveFirst_repr [Inhabited T] {l : CircularDoublyLinkedList T} {c : List Nat}
    (h : CDRepr l c) : CDRepr l.RemoveFirst c.tail := by
  by_cases hz : l.size = 0
  · have hc : c = [] := h.cdEmptyIff.1 hz
    subst hc
    have hres : l.RemoveFirst = l := by
      unfold CircularDoublyLinkedList.RemoveFirst
      rw [if_pos hz]
    rw [hres]
    exact h
  by_cases h1 : l.size = 1
  · have hres : l.RemoveFirst = l.Clear := by
      unfold CircularDoublyLinkedList.RemoveFirst
      rw [if_neg hz, if_pos h1]
    rw [hres]
    have hc := CDLL_Clear_repr h
    have hlc : c.length = 1 := by have := h.size_eq; omega
    rcases List.length_eq_one.1 hlc with ⟨a, rfl⟩
    exact hc
  · -- at least two nodes
    have hlen2 : 2 ≤ c.length := by have := h.size_eq; omega
    rcases hcc : c with _ | ⟨x, c2⟩
    · rw [hcc] at hlen2; simp at hlen2
    rcases hcc2 : c2 with _ | ⟨y, c3⟩
    · rw [hcc, hcc2] at hlen2; simp at hlen2
    subst hcc2
    subst hcc
    have hne : (x :: y :: c3 : List Nat) ≠ [] := by simp
    obtain ⟨lastv, hlastv⟩ : ∃ lv, (x :: y :: c3).getLast? = some lv :=
      ⟨(x :: y :: c3).getLast hne, List.getLast?_eq_getLast _ _⟩
    have htail : l.tail = some lastv := by rw [h.tail_eq, hlastv]
    have hlmem : lastv ∈ x :: y :: c3 := mem_of_getLast?_eq hlastv
    have hlbound : lastv < l.heap.length := h.bounds lastv hlmem
    have hybound : y < l.heap.length := h.bounds y (by simp)
    have hhd : l.Head = some x := by rw [h.cdHeadEq]; rfl
    have hxy : dNextF l.heap x = some y := (nchain_cons_cons.1 h.links).1
    have hres : l.RemoveFirst =
        { heap := dSetPrev (dSetNext l.heap lastv (some y)) y (some lastv),
          tail := l.tail, size := l.size - 1 } := by
      unfold CircularDoublyLinkedList.RemoveFirst
      rw [if_neg hz, if_neg h1]
      dsimp only
      rw [hhd, show optNext (dNextF l.heap) (some x) = dNextF l.heap x from rfl, hxy,
        htail]
      rfl
    rw [hres]
    set h2 := dSetPrev (dSetNext l.heap lastv (some y)) y (some lastv) with hh2
    have hlen2' : h2.length = l.heap.length := by
      rw [hh2, dSetPrev_length, dSetNext_length]
    have hnext_keep : ∀ i, i ≠ lastv → dNextF h2 i = dNextF l.heap i := by
      intro i hil
      rw [hh2, dNextF_dSetPrev, dNextF_dSetNext_ne hil]
    have hnext_last : dNextF h2 lastv = some y := by
      rw [hh2, dNextF_dSetPrev]
      exact dNextF_dSetNext_self hlbound _
    have hprev_keep : ∀ i, i ≠ y → dPrevF h2 i = dPrevF l.heap i := by
      intro i hiy
      rw [hh2, dPrevF_dSetPrev_ne hiy, dPrevF_dSetNext]
    have hprev_y : dPrevF h2 y = some lastv := by
      rw [hh2]
      exact dPrevF_dSetPrev_self (by rw [dSetNext_length]; exact hybound) _
    have hndtail : (y :: c3).Nodup := (List.nodup_cons.1 h.nodup).2
    have hlast_tail : (y :: c3).getLast? = some lastv := by
      rw [← List.getLast?_cons_cons (a := x), hlastv]
    refine ⟨?_, hndtail, ?_, ?_, ?_, ?_, ?_, ?_⟩
    · intro i hi
      rw [hlen2']
      exact h.bounds i (List.mem_cons_of_mem x hi)
    · show l.tail = ((x :: y :: c3).tail).getLast?
      rw [show (x :: y :: c3).tail = y :: c3 from rfl, htail, hlast_tail]
    · show l.size - 1 = _
      have := h.size_eq
      simp at this ⊢
      omega
    · refine nchain_congr_dropLast (NChain.tail h.links) ?_
      intro i hi
      exact (hnext_keep i (nodup_dropLast_ne_last hndtail hlast_tail i hi)).symm
    · intro i j hi hj
      rw [show (x :: y :: c3).tail = y :: c3 from rfl, hlast_tail] at hi
      rcases Option.some.inj hi with rfl
      have hjy : j = y := by simpa using hj.symm
      subst hjy
      exact hnext_last
    · show NChain (dPrevF h2) (y :: c3).reverse
      have hplrev : NChain (dPrevF l.heap) ((y :: c3).reverse ++ [x]) := by
        have := h.plinks
        rw [show (x :: y :: c3).reverse = (y :: c3).reverse ++ [x] by simp] at this
        exact this
      have hrl : (y :: c3).reverse.getLast? = some y := by
        rw [List.getLast?_reverse]
        rfl
      refine nchain_congr_dropLast (List.chain'_append.1 hplrev).1 ?_
      intro i hi
      exact (hprev_keep i
        (nodup_dropLast_ne_last (List.nodup_reverse.2 hndtail) hrl i hi)).symm
    · intro i j hi hj
      have hiy : i = y := by simpa using hi.symm
      rw [show (x :: y :: c3).tail = y :: c3 from rfl, hlast_tail] at hj
      rcases Option.some.inj hj with rfl
      rw [hiy]
      exact hprev_y

/-- RemoveLast drops the last ring entry: its predecessor links forward to
the head, whose prev points back at it, and it becomes the tail. -/
theorem CDLL_RemoveLast_repr [Inhabited T] {l : CircularDoublyLinkedList T} {c : List Nat}
    (h : CDRepr l c) : CDRepr l.RemoveLast c.dropLast := by
  by_cases hz : l.size = 0
  · have hc : c = [] := h.cdEmptyIff.1 hz
    subst hc
    have hres : l.RemoveLast = l := by
      unfold CircularDoublyLinkedList.RemoveLast
      rw [if_pos hz]
    rw [hres]
    exact h
  by_cases h1 : l.size = 1
  · have hres : l.RemoveLast = l.Clear := by
      unfold CircularDoublyLinkedList.RemoveLast
      rw [if_neg hz, if_pos h1]
    rw [hres]
    have hc := CDLL_Clear_repr h
    have hlc : c.length = 1 := by have := h.size_eq; omega
    rcases List.length_eq_one.1 hlc with ⟨a, rfl⟩
    exact hc
  · -- at least two nodes
    have hlen2 : 2 ≤ c.length := by have := h.size_eq; omega
    rcases exists_concat_two hlen2 with ⟨c1, a, b, rfl⟩
    have hdrop : (c1 ++ [a, b]).dropLast = c1 ++ [a] := by
      rw [show c1 ++ [a, b] = (c1 ++ [a]) ++ [b] by simp, List.dropLast_concat]
    have hlastb : (c1 ++ [a, b] : List Nat).getLast? = some b := by
      rw [show c1 ++ [a, b] = (c1 ++ [a]) ++ [b] by simp, List.getLast?_concat]
    have htail : l.tail = some b := by rw [h.tail_eq, hlastb]
    obtain ⟨headv, hheadv⟩ : ∃ hv, (c1 ++ [a, b] : List Nat).head? = some hv := by
      rcases c1 with _ | ⟨z, zs⟩
      · exact ⟨a, rfl⟩
      · exact ⟨z, rfl⟩
    have hhd : l.Head = some headv := by rw [h.cdHeadEq, hheadv]
    have hhmem : headv ∈ c1 ++ [a, b] := by
      rcases hc1 : c1 with _ | ⟨z, zs⟩
      · rw [hc1] at hheadv
        rcases Option.some.inj hheadv with rfl
        simp
      · rw [hc1] at hheadv
        rcases Option.some.inj hheadv with rfl
        simp
    have hhbound : headv < l.heap.length := h.bounds headv hhmem
    have habound : a < l.heap.length := h.bounds a (by simp)
    have hrev : (c1 ++ [a, b]).reverse = b :: a :: c1.reverse := by simp
    have hpl : NChain (dPrevF l.heap) (b :: a :: c1.reverse) := by
      rw [← hrev]
      exact h.plinks
    have hba : dPrevF l.heap b = some a := (nchain_cons_cons.1 hpl).1
    have hnd1 : (c1 ++ [a]).Nodup := by
      have hnd0 : ((c1 ++ [a]) ++ [b]).Nodup := by
        rw [show (c1 ++ [a]) ++ [b] = c1 ++ [a, b] by simp]
        exact h.nodup
      exact (List.nodup_append.1 hnd0).1
    have hbne : b ≠ a := by
      have hndt : (a :: [b] : List Nat).Nodup := (List.nodup_append.1 h.nodup).2.1
      intro he
      exact (List.nodup_cons.1 hndt).1 (by rw [← he]; simp)
    have hbwrap : dNextF l.heap b = some headv := h.wrap b headv hlastb hheadv
    have hres : l.RemoveLast =
        { heap := dSetPrev (dSetNext l.heap a (some headv)) headv (some a),
          tail := some a, size := l.size - 1 } := by
      unfold CircularDoublyLinkedList.RemoveLast
      rw [if_neg hz, if_neg h1]
      dsimp only
      rw [htail, show optNext (dPrevF l.heap) (some b) = dPrevF l.heap b from rfl, hba,
        hhd]
      rw [show pSetNextD l.heap (some a) (some headv) =
        dSetNext l.heap a (some headv) from rfl]
      rw [show optNext (dNextF (dSetNext l.heap a (some headv))) (some b) =
        dNextF (dSetNext l.heap a (some headv)) b from rfl]
      rw [dNextF_dSetNext_ne hbne, hbwrap]
      rfl
    rw [hres, hdrop]
    set h2 := dSetPrev (dSetNext l.heap a (some headv)) headv (some a) with hh2
    have hlen2' : h2.length = l.heap.length := by
      rw [hh2, dSetPrev_length, dSetNext_length]
    have hnext_keep : ∀ i, i ≠ a → dNextF h2 i = dNextF l.heap i := by
      intro i hia
      rw [hh2, dNextF_dSetPrev, dNextF_dSetNext_ne hia]
    have hnext_a : dNextF h2 a = some headv := by
      rw [hh2, dNextF_dSetPrev]
      exact dNextF_dSetNext_self habound _
    have hprev_keep : ∀ i, i ≠ headv → dPrevF h2 i = dPrevF l.heap i := by
      intro i hih
      rw [hh2, dPrevF_dSetPrev_ne hih, dPrevF_dSetNext]
    have hprev_h : dPrevF h2 headv = some a := by
      rw [hh2]
      exact dPrevF_dSetPrev_self (by rw [dSetNext_length]; exact hhbound) _
    have hane : ∀ i ∈ c1, i ≠ a := fun i hi he =>
      (List.disjoint_of_nodup_append hnd1) hi (by simp [he])
    have hchain1 : NChain (dNextF l.heap) (c1 ++ [a]) := by
      have hc0 : NChain (dNextF l.heap) ((c1 ++ [a]) ++ [b]) := by
        rw [show (c1 ++ [a]) ++ [b] = c1 ++ [a, b] by simp]
        exact h.links
      exact (List.chain'_append.1 hc0).1
    have hhead1 : (c1 ++ [a] : List Nat).head? = some headv := by
      rw [← head?_append_pair c1 a b]
      exact hheadv
    have hlast_rev : (a :: c1.reverse : List Nat).getLast? = some headv := by
      rw [show (a :: c1.reverse : List Nat) = (c1 ++ [a]).reverse by simp,
        List.getLast?_reverse, hhead1]
    refine ⟨?_, hnd1, ?_, ?_, ?_, ?_, ?_, ?_⟩
    · intro i hi
      rw [hlen2']
      refine h.bounds i ?_
      rw [show c1 ++ [a, b] = (c1 ++ [a]) ++ [b] by simp]
      exact List.mem_append_left [b] hi
    · rw [List.getLast?_concat]
    · show l.size - 1 = _
      have := h.size_eq
      simp at this ⊢
      omega
    · refine nchain_congr_dropLast hchain1 ?_
      rw [List.dropLast_concat]
      exact fun i hi => (hnext_keep i (hane i hi)).symm
    · intro i j hi hj
      rw [List.getLast?_concat] at hi
      rcases Option.some.inj hi with rfl
      rw [hhead1] at hj
      rcases Option.some.inj hj with rfl
      exact hnext_a
    · show NChain (dPrevF h2) (c1 ++ [a]).reverse
      rw [show (c1 ++ [a]).reverse = a :: c1.reverse by simp]
      refine nchain_congr_dropLast (NChain.tail hpl) ?_
      intro i hi
      have hine := nodup_dropLast_ne_last
        (show (a :: c1.reverse : List Nat).Nodup from by
          rw [show (a :: c1.reverse : List Nat) = (c1 ++ [a]).reverse by simp]
          exact List.nodup_reverse.2 hnd1) hlast_rev i hi
      exact (hprev_keep i hine).symm
    · intro i j hi hj
      rw [hhead1] at hi
      rcases Option.some.inj hi with rfl
      rw [List.getLast?_concat] at hj
      rcases Option.some.inj hj with rfl
      exact hprev_h

/-- Unlinking the head of a doubly ring of two or more nodes. -/
theorem CDLL_unlink_head_core [Inhabited T] {l : CircularDoublyLinkedList T}
    {m y : Nat} {s2 : List Nat} (h : CDRepr l (m :: y :: s2)) {lastv : Nat}
    (hlastv : (m :: y :: s2).getLast? = some lastv) :
    CDRepr { heap := dSetPrev (dSetNext l.heap lastv (some y)) y (some lastv),
             tail := l.tail, size := l.size - 1 } (y :: s2) := by
  have htail : l.tail = some lastv := by rw [h.tail_eq, hlastv]
  have hlmem : lastv ∈ m :: y :: s2 := mem_of_getLast?_eq hlastv
  have hlbound : lastv < l.heap.length := h.bounds lastv hlmem
  have hybound : y < l.heap.length := h.bounds y (by simp)
  set h2 := dSetPrev (dSetNext l.heap lastv (some y)) y (some lastv) with hh2
  have hlen2' : h2.length = l.heap.length := by
    rw [hh2, dSetPrev_length, dSetNext_length]
  have hnext_keep : ∀ i, i ≠ lastv → dNextF h2 i = dNextF l.heap i := by
    intro i hil
    rw [hh2, dNextF_dSetPrev, dNextF_dSetNext_ne hil]
  have hnext_last : dNextF h2 lastv = some y := by
    rw [hh2, dNextF_dSetPrev]
    exact dNextF_dSetNext_self hlbound _
  have hprev_keep : ∀ i, i ≠ y → dPrevF h2 i = dPrevF l.heap i := by
    intro i hiy
    rw [hh2, dPrevF_dSetPrev_ne hiy, dPrevF_dSetNext]
  have hprev_y : dPrevF h2 y = some lastv := by
    rw [hh2]
    exact dPrevF_dSetPrev_self (by rw [dSetNext_length]; exact hybound) _
  have hndtail : (y :: s2).Nodup := (List.nodup_cons.1 h.nodup).2
  have hlast_tail : (y :: s2).getLast? = some lastv := by
    rw [← List.getLast?_cons_cons (a := m), hlastv]
  refine ⟨?_, hndtail, ?_, ?_, ?_, ?_, ?_, ?_⟩
  · intro i hi
    rw [hlen2']
    exact h.bounds i (List.mem_cons_of_mem m hi)
  · show l.tail = _
    rw [htail, hlast_tail]
  · show l.size - 1 = _
    have := h.size_eq
    simp at this ⊢
    omega
  · refine nchain_congr_dropLast (NChain.tail h.links) ?_
    intro i hi
    exact (hnext_keep i (nodup_dropLast_ne_last hndtail hlast_tail i hi)).symm
  · intro i j hi hj
    rw [hlast_tail] at hi
    rcases Option.some.inj hi with rfl
    have hjy : j = y := by simpa using hj.symm
    subst hjy
    exact hnext_last
  · show NChain (dPrevF h2) (y :: s2).reverse
    have hplrev : NChain (dPrevF l.heap) ((y :: s2).reverse ++ [m]) := by
      have := h.plinks
      rw [show (m :: y :: s2).reverse = (y :: s2).reverse ++ [m] by simp] at this
      exact this
    have hrl : (y :: s2).reverse.getLast? = some y := by
      rw [List.getLast?_reverse]
      rfl
    refine nchain_congr_dropLast (List.chain'_append.1 hplrev).1 ?_
    intro i hi
    exact (hprev_keep i
      (nodup_dropLast_ne_last (List.nodup_reverse.2 hndtail) hrl i hi)).symm
  · intro i j hi hj
    have hiy : i = y := by simpa using hi.symm
    rw [hlast_tail] at hj
    rcases Option.some.inj hj with rfl
    rw [hiy]
    exact hprev_y

/-- Unlinking the tail of a doubly ring of two or more nodes. -/
theorem CDLL_unlink_last_core [Inhabited T] {l : CircularDoublyLinkedList T}
    {c1 : List Nat} {a b : Nat} (h : CDRepr l (c1 ++ [a, b])) {headv : Nat}
    (hheadv : (c1 ++ [a, b]).head? = some headv) :
    CDRepr { heap := dSetPrev (dSetNext l.heap a (some headv)) headv (some a),
             tail := some a, size := l.size - 1 } (c1 ++ [a]) := by
  have hhmem : headv ∈ c1 ++ [a, b] := by
    rcases hc1 : c1 with _ | ⟨z, zs⟩
    · rw [hc1] at hheadv
      rcases Option.some.inj hheadv with rfl
      simp
    · rw [hc1] at hheadv
      rcases Option.some.inj hheadv with rfl
      simp
  have hhbound : headv < l.heap.length := h.bounds headv hhmem
  have habound : a < l.heap.length := h.bounds a (by simp)
  have hrev : (c1 ++ [a, b]).reverse = b :: a :: c1.reverse := by simp
  have hpl : NChain (dPrevF l.heap) (b :: a :: c1.reverse) := by
    rw [← hrev]
    exact h.plinks
  have hnd1 : (c1 ++ [a]).Nodup := by
    have hnd0 : ((c1 ++ [a]) ++ [b]).Nodup := by
      rw [show (c1 ++ [a]) ++ [b] = c1 ++ [a, b] by simp]
      exact h.nodup
    exact (List.nodup_append.1 hnd0).1
  set h2 := dSetPrev (dSetNext l.heap a (some headv)) headv (some a) with hh2
  have hlen2' : h2.length = l.heap.length := by
    rw [hh2, dSetPrev_length, dSetNext_length]
  have hnext_keep : ∀ i, i ≠ a → dNextF h2 i = dNextF l.heap i := by
    intro i hia
    rw [hh2, dNextF_dSetPrev, dNextF_dSetNext_ne hia]
  have hnext_a : dNextF h2 a = some headv := by
    rw [hh2, dNextF_dSetPrev]
    exact dNextF_dSetNext_self habound _
  have hprev_keep : ∀ i, i ≠ headv → dPrevF h2 i = dPrevF l.heap i := by
    intro i hih
    rw [hh2, dPrevF_dSetPrev_ne hih, dPrevF_dSetNext]
  have hprev_h : dPrevF h2 headv = some a := by
    rw [hh2]
    exact dPrevF_dSetPrev_self (by rw [dSetNext_length]; exact hhbound) _
  have hane : ∀ i ∈ c1, i ≠ a := fun i hi he =>
    (List.disjoint_of_nodup_append hnd1) hi (by simp [he])
  have hchain1 : NChain (dNextF l.heap) (c1 ++ [a]) := by
    have hc0 : NChain (dNextF l.heap) ((c1 ++ [a]) ++ [b]) := by
      rw [show (c1 ++ [a]) ++ [b] = c1 ++ [a, b] by simp]
      exact h.links
    exact (List.chain'_append.1 hc0).1
  have hhead1 : (c1 ++ [a] : List Nat).head? = some headv := by
    rw [← head?_append_pair c1 a b]
    exact hheadv
  have hlast_rev : (a :: c1.reverse : List Nat).getLast? = some headv := by
    rw [show (a :: c1.reverse : List Nat) = (c1 ++ [a]).reverse by simp,
      List.getLast?_reverse, hhead1]
  refine ⟨?_, hnd1, ?_, ?_, ?_, ?_, ?_, ?_⟩
  · intro i hi
    rw [hlen2']
    refine h.bounds i ?_
    rw [show c1 ++ [a, b] = (c1 ++ [a]) ++ [b] by simp]
    exact List.mem_append_left [b] hi
  · rw [List.getLast?_concat]
  · show l.size - 1 = _
    have := h.size_eq
    simp at this ⊢
    omega
  · refine nchain_congr_dropLast hchain1 ?_
    rw [List.dropLast_concat]
    exact fun i hi => (hnext_keep i (hane i hi)).symm
  · intro i j hi hj
    rw [List.getLast?_concat] at hi
    rcases Option.some.inj hi with rfl
    rw [hhead1] at hj
    rcases Option.some.inj hj with rfl
    exact hnext_a
  · show NChain (dPrevF h2) (c1 ++ [a]).reverse
    rw [show (c1 ++ [a]).reverse = a :: c1.reverse by simp]
    refine nchain_congr_dropLast (NChain.tail hpl) ?_
    intro i hi
    have hine := nodup_dropLast_ne_last
      (show (a :: c1.reverse : List Nat).Nodup from by
        rw [show (a :: c1.reverse : List Nat) = (c1 ++ [a]).reverse by simp]
        exact List.nodup_reverse.2 hnd1) hlast_rev i hi
    exact (hprev_keep i hine).symm
  · intro i j hi hj
    rw [hhead1] at hi
    rcases Option.some.inj hi with rfl
    rw [List.getLast?_concat] at hj
    rcases Option.some.inj hj with rfl
    exact hprev_h

/-- Unlinking an interior node of a doubly ring: its neighbours link past it
in both directions and the tail reference is untouched. -/
theorem CDLL_unlink_mid_core [Inhabited T] {l : CircularDoublyLinkedList T}
    {s1 : List Nat} {a m y : Nat} {s2 : List Nat}
    (h : CDRepr l (s1 ++ a :: m :: y :: s2)) :
    CDRepr { heap := dSetPrev (dSetNext l.heap a (some y)) y (some a),
             tail := l.tail, size := l.size - 1 } (s1 ++ a :: y :: s2) := by
  have hdisj := List.disjoint_of_nodup_append h.nodup
  have hndtail : (a :: m :: y :: s2).Nodup := (List.nodup_append.1 h.nodup).2.1
  have hanot : a ∉ m :: y :: s2 := (List.nodup_cons.1 hndtail).1
  have hndm : (m :: y :: s2).Nodup := (List.nodup_cons.1 hndtail).2
  have hmnot : m ∉ y :: s2 := (List.nodup_cons.1 hndm).1
  have habound : a < l.heap.length := h.bounds a (by simp)
  have hybound : y < l.heap.length := h.bounds y (by simp)
  have haney : a ≠ y := fun he => hanot (by rw [he]; simp)
  have hchains := List.chain'_append.1 h.links
  have hcham : NChain (dNextF l.heap) (a :: m :: y :: s2) := hchains.2.1
  have hrevc : (s1 ++ a :: m :: y :: s2).reverse =
      (y :: s2).reverse ++ m :: a :: s1.reverse := by simp
  have hplc : NChain (dPrevF l.heap) ((y :: s2).reverse ++ m :: a :: s1.reverse) := by
    rw [← hrevc]
    exact h.plinks
  have hpchains := List.chain'_append.1 hplc
  set h2 := dSetPrev (dSetNext l.heap a (some y)) y (some a) with hh2
  have hlen2 : h2.length = l.heap.length := by
    rw [hh2, dSetPrev_length, dSetNext_length]
  have hnext_keep : ∀ i, i ≠ a → dNextF h2 i = dNextF l.heap i := by
    intro i hia
    rw [hh2, dNextF_dSetPrev, dNextF_dSetNext_ne hia]
  have hnext_a : dNextF h2 a = some y := by
    rw [hh2, dNextF_dSetPrev]
    exact dNextF_dSetNext_self habound _
  have hprev_keep : ∀ i, i ≠ y → dPrevF h2 i = dPrevF l.heap i := by
    intro i hiy
    rw [hh2, dPrevF_dSetPrev_ne hiy, dPrevF_dSetNext]
  have hprev_y : dPrevF h2 y = some a := by
    rw [hh2]
    exact dPrevF_dSetPrev_self (by rw [dSetNext_length]; exact hybound) _
  have hsub : List.Sublist (s1 ++ a :: y :: s2) (s1 ++ a :: m :: y :: s2) :=
    (List.append_sublist_append_left s1).2
      (List.Sublist.cons₂ a (List.sublist_cons_self m (y :: s2)))
  have hLc : (s1 ++ a :: m :: y :: s2).getLast? = (y :: s2).getLast? := by
    rw [List.getLast?_append_of_ne_nil _ (by simp), getLast?_cons_ne_nil a (by simp),
      getLast?_cons_ne_nil m (by simp)]
  have hLc2 : (s1 ++ a :: y :: s2).getLast? = (y :: s2).getLast? := by
    rw [List.getLast?_append_of_ne_nil _ (by simp), getLast?_cons_ne_nil a (by simp)]
  have hhead2 : (s1 ++ a :: y :: s2).head? = (s1 ++ a :: m :: y :: s2).head? :=
    head?_append_cons s1 a (y :: s2) (m :: y :: s2)
  refine ⟨?_, List.Sublist.nodup hsub h.nodup, ?_, ?_, ?_, ?_, ?_, ?_⟩
  · intro i hi
    rw [hlen2]
    exact h.bounds i (hsub.subset hi)
  · rw [h.tail_eq, hLc, hLc2]
  · have := h.size_eq
    simp at this ⊢
    omega
  · refine List.chain'_append.2 ⟨?_, ?_, ?_⟩
    · refine nchain_congr_dropLast hchains.1 ?_
      intro i hi
      refine (hnext_keep i ?_).symm
      intro he
      have hmem : a ∈ s1 := by rw [← he]; exact List.dropLast_subset s1 hi
      exact hdisj hmem (by simp)
    · refine nchain_cons_cons.2 ⟨hnext_a, ?_⟩
      refine nchain_congr_dropLast
        (nchain_cons_cons.1 (nchain_cons_cons.1 hcham).2).2 ?_
      intro i hi
      have himem : i ∈ y :: s2 := List.dropLast_subset _ hi
      refine (hnext_keep i ?_).symm
      intro he
      refine hanot ?_
      rw [← he]
      exact List.mem_cons_of_mem m himem
    · intro u hu w hw
      have huc1 : u ∈ s1 := mem_of_getLast?_eq hu
      have hwa : w = a := by simp at hw; omega
      have hune : u ≠ a := by
        intro he
        have hmem : a ∈ s1 := by rw [← he]; exact huc1
        exact hdisj hmem (by simp)
      rw [hnext_keep u hune, hwa]
      exact hchains.2.2 u hu a rfl
  · intro i j hi hj
    rw [hLc2] at hi
    have himem : i ∈ y :: s2 := mem_of_getLast?_eq hi
    have hine : i ≠ a := by
      intro he
      refine hanot ?_
      rw [← he]
      exact List.mem_cons_of_mem m himem
    rw [hnext_keep i hine]
    refine h.wrap i j ?_ ?_
    · rw [hLc]
      exact hi
    · rw [← hhead2]
      exact hj
  · show NChain (dPrevF h2) (s1 ++ a :: y :: s2).reverse
    rw [show (s1 ++ a :: y :: s2).reverse =
      (y :: s2).reverse ++ a :: s1.reverse by simp]
    refine List.chain'_append.2 ⟨?_, ?_, ?_⟩
    · refine nchain_congr_dropLast hpchains.1 ?_
      intro i hi
      have hiney : i ≠ y := by
        have hrl : (y :: s2).reverse.getLast? = some y := by
          rw [List.getLast?_reverse]
          rfl
        exact nodup_dropLast_ne_last (List.nodup_reverse.2
          (List.nodup_cons.1 hndm).2) hrl i hi
      exact (hprev_keep i hiney).symm
    · refine nchain_congr (nchain_cons_cons.1 hpchains.2.1).2 ?_
      intro i hi
      have hiney : i ≠ y := by
        rcases List.mem_cons.1 hi with rfl | hic1
        · exact haney
        · intro he
          refine hdisj (show y ∈ s1 from ?_) (by simp)
          rw [← he]
          simpa using hic1
      exact (hprev_keep i hiney).symm
    · intro u hu w hw
      have hul : u = y := by
        rw [List.getLast?_reverse] at hu
        simp at hu
        omega
      subst hul
      have hwa : w = a := by simp at hw; omega
      subst hwa
      exact hprev_y
  · intro i j hi hj
    rw [hhead2] at hi
    have hiney : i ≠ y := by
      have himem : i ∈ s1 ++ [a] := by
        rcases hc1 : s1 with _ | ⟨z, zs⟩
        · rw [hc1] at hi
          rcases Option.some.inj hi with rfl
          simp
        · rw [hc1] at hi
          rcases Option.some.inj hi with rfl
          simp
      intro he
      rcases List.mem_append.1 himem with hic1 | hia
      · exact hdisj hic1 (by rw [he]; simp)
      · simp at hia
        rw [hia] at he
        exact haney he
    rw [hprev_keep i hiney]
    refine h.pwrap i j hi ?_
    rw [hLc, ← hLc2]
    exact hj

/-- The counted doubly removal scan finds no match along a chain: it returns
the list unchanged. -/
theorem cdRemoveLoop_nomatch [Inhabited T] [DecidableEq T]
    {l : CircularDoublyLinkedList T} {value : T} :
    ∀ (s : List Nat), NChain (dNextF l.heap) s →
      (∀ i ∈ s, dValD l.heap i ≠ value) →
      cdRemoveLoop l value s.length s.head? = l := by
  intro s
  induction s with
  | nil => intro _ _; rfl
  | cons x s2 ih =>
    intro hch hval
    have hstep : cdRemoveLoop l value (x :: s2).length (x :: s2).head? =
        if dValD l.heap x = value then
          (if l.size = 1 then l.Clear
           else { heap := pSetPrevD (pSetNextD l.heap
                    (optNext (dPrevF l.heap) (some x)) (optNext (dNextF l.heap) (some x)))
                    (optNext (dNextF l.heap) (some x)) (optNext (dPrevF l.heap) (some x)),
                  tail := if (some x : Option Nat) = l.tail
                    then optNext (dPrevF l.heap) (some x) else l.tail,
                  size := l.size - 1 })
        else cdRemoveLoop l value s2.length (optNext (dNextF l.heap) (some x)) := rfl
    rw [hstep, if_neg (hval x (by simp))]
    cases s2 with
    | nil => rfl
    | cons y s3 =>
      have hxy : dNextF l.heap x = some y := (nchain_cons_cons.1 hch).1
      rw [show optNext (dNextF l.heap) (some x) = dNextF l.heap x from rfl, hxy]
      exact ih (NChain.tail hch) (fun i hi => hval i (List.mem_cons_of_mem x hi))

/-- The counted doubly removal scan hits its first match at `m` after
walking `s1`: the loop splices `m` out via its own prev/next pointers. -/
theorem cdRemoveLoop_match [Inhabited T] [DecidableEq T]
    {l : CircularDoublyLinkedList T} {value : T} :
    ∀ (s1 : List Nat) (m : Nat),
      NChain (dNextF l.heap) (s1 ++ [m]) →
      (∀ i ∈ s1, dValD l.heap i ≠ value) → dValD l.heap m = value →
      ∀ k, cdRemoveLoop l value (s1.length + 1 + k) ((s1 ++ [m]).head?) =
        (if l.size = 1 then l.Clear
         else { heap := pSetPrevD (pSetNextD l.heap (dPrevF l.heap m)
                  (dNextF l.heap m)) (dNextF l.heap m) (dPrevF l.heap m),
                tail := if (some m : Option Nat) = l.tail then dPrevF l.heap m
                  else l.tail,
                size := l.size - 1 }) := by
  intro s1
  induction s1 with
  | nil =>
    intro m _ _ hm k
    have hstep : cdRemoveLoop l value (k + 1) (some m) =
        if dValD l.heap m = value then
          (if l.size = 1 then l.Clear
           else { heap := pSetPrevD (pSetNextD l.heap
                    (optNext (dPrevF l.heap) (some m)) (optNext (dNextF l.heap) (some m)))
                    (optNext (dNextF l.heap) (some m)) (optNext (dPrevF l.heap) (some m)),
                  tail := if (some m : Option Nat) = l.tail
                    then optNext (dPrevF l.heap) (some m) else l.tail,
                  size := l.size - 1 })
        else cdRemoveLoop l value k (optNext (dNextF l.heap) (some m)) := rfl
    show cdRemoveLoop l value (0 + 1 + k) (some m) = _
    rw [show 0 + 1 + k = k + 1 by omega, hstep, if_pos hm]
    rfl
  | cons x s1b ih =>
    intro m hch hval hm k
    have hf : (x :: s1b).length + 1 + k = (s1b.length + 1 + k) + 1 := by
      simp
      omega
    rw [hf]
    have hstep : cdRemoveLoop l value ((s1b.length + 1 + k) + 1)
        (((x :: s1b) ++ [m]).head?) =
        if dValD l.heap x = value then
          (if l.size = 1 then l.Clear
           else { heap := pSetPrevD (pSetNextD l.heap
                    (optNext (dPrevF l.heap) (some x)) (optNext (dNextF l.heap) (some x)))
                    (optNext (dNextF l.heap) (some x)) (optNext (dPrevF l.heap) (some x)),
                  tail := if (some x : Option Nat) = l.tail
                    then optNext (dPrevF l.heap) (some x) else l.tail,
                  size := l.size - 1 })
        else cdRemoveLoop l value (s1b.length + 1 + k)
          (optNext (dNextF l.heap) (some x)) := rfl
    rw [hstep, if_neg (hval x (by simp))]
    have hhd : ∃ hd2, (s1b ++ [m]).head? = some hd2 := by
      cases s1b with
      | nil => exact ⟨m, rfl⟩
      | cons z zs => exact ⟨z, rfl⟩
    rcases hhd with ⟨hd2, hhd⟩
    have hxnext : dNextF l.heap x = some hd2 := nchain_head_link hch hhd
    rw [show optNext (dNextF l.heap) (some x) = dNextF l.heap x from rfl, hxnext, ← hhd]
    exact ih m (NChain.tail hch) (fun i hi => hval i (List.mem_cons_of_mem x hi)) hm k

/-- Remove of a value absent from the ring leaves the list untouched. -/
theorem CDLL_Remove_absent [Inhabited T] [DecidableEq T]
    {l : CircularDoublyLinkedList T} {c : List Nat} (h : CDRepr l c) {value : T}
    (hab : ∀ i ∈ c, dValD l.heap i ≠ value) : l.Remove value = l := by
  by_cases hz : l.size = 0
  · unfold CircularDoublyLinkedList.Remove
    rw [if_pos hz]
  · unfold CircularDoublyLinkedList.Remove
    rw [if_neg hz, h.cdSizeToNat, h.cdHeadEq]
    exact cdRemoveLoop_nomatch c h.links hab

/-- Remove preserves representability: the result ring is the original with
the first matching address (if any) deleted. -/
theorem CDLL_Remove_repr [Inhabited T] [DecidableEq T] {l : CircularDoublyLinkedList T}
    {c : List Nat} (h : CDRepr l c) (value : T) :
    ∃ c', CDRepr (l.Remove value) c' := by
  by_cases hz : l.size = 0
  · refine ⟨c, ?_⟩
    rw [show l.Remove value = l by
      unfold CircularDoublyLinkedList.Remove; rw [if_pos hz]]
    exact h
  rcases hfm : firstMatch (dValD l.heap) value c with _ | m
  · refine ⟨c, ?_⟩
    rw [CDLL_Remove_absent h (firstMatch_eq_none_iff.1 hfm)]
    exact h
  rcases firstMatch_eq_some hfm with ⟨s1, s2, hdecomp, hs1, hmval⟩
  subst hdecomp
  have hchain1 : NChain (dNextF l.heap) (s1 ++ [m]) := by
    have hassoc : s1 ++ m :: s2 = (s1 ++ [m]) ++ s2 := by simp
    have hc0 : NChain (dNextF l.heap) ((s1 ++ [m]) ++ s2) := by
      rw [← hassoc]
      exact h.links
    exact (List.chain'_append.1 hc0).1
  have hloop := cdRemoveLoop_match s1 m hchain1 hs1 hmval s2.length
  have hres : l.Remove value =
      (if l.size = 1 then l.Clear
       else { heap := pSetPrevD (pSetNextD l.heap (dPrevF l.heap m)
                (dNextF l.heap m)) (dNextF l.heap m) (dPrevF l.heap m),
              tail := if (some m : Option Nat) = l.tail then dPrevF l.heap m
                else l.tail,
              size := l.size - 1 }) := by
    unfold CircularDoublyLinkedList.Remove
    rw [if_neg hz, h.cdSizeToNat, h.cdHeadEq]
    rw [show (s1 ++ m :: s2).length = s1.length + 1 + s2.length by simp; omega]
    rw [head?_append_cons s1 m s2 []]
    exact hloop
  rw [hres]
  by_cases h1 : l.size = 1
  · rw [if_pos h1]
    exact ⟨[], CDLL_Clear_repr h⟩
  rw [if_neg h1]
  have hlen2 : 2 ≤ s1.length + 1 + s2.length := by
    have hse := h.size_eq
    simp at hse
    omega
  obtain ⟨lastv, hlastv⟩ : ∃ lv, (s1 ++ m :: s2).getLast? = some lv :=
    ⟨(s1 ++ m :: s2).getLast (by simp), List.getLast?_eq_getLast _ _⟩
  have htail : l.tail = some lastv := by rw [h.tail_eq, hlastv]
  rcases List.eq_nil_or_concat' s1 with hs1nil | ⟨s1', a, hs1c⟩
  · -- the match is the head node
    subst hs1nil
    simp only [List.nil_append] at h hlastv hfm
    rcases hs2c : s2 with _ | ⟨y, s2'⟩
    · rw [hs2c] at hlen2; simp at hlen2
    subst hs2c
    have hmy : dNextF l.heap m = some y := (nchain_cons_cons.1 h.links).1
    have hlast_tail : (y :: s2').getLast? = some lastv := by
      rw [← List.getLast?_cons_cons (a := m)]
      exact hlastv
    have hlvmem : lastv ∈ y :: s2' := mem_of_getLast?_eq hlast_tail
    have hmp : dPrevF l.heap m = some lastv := h.pwrap m lastv rfl hlastv
    have hmne : ¬((some m : Option Nat) = l.tail) := by
      rw [htail]
      intro he
      rcases Option.some.inj he with rfl
      exact (List.nodup_cons.1 h.nodup).1 hlvmem
    rw [if_neg hmne, hmy, hmp]
    refine ⟨y :: s2', ?_⟩
    exact CDLL_unlink_head_core h hlastv
  · -- the match comes after at least one node; `a` is its predecessor
    subst hs1c
    rcases hs2c : s2 with _ | ⟨y, s2'⟩
    · -- the match is the tail node
      subst hs2c
      have hceq : (s1' ++ [a]) ++ m :: [] = s1' ++ [a, m] := by simp
      rw [hceq] at h hlastv
      have hlastm : (s1' ++ [a, m] : List Nat).getLast? = some m := by
        rw [show (s1' ++ [a, m] : List Nat) = (s1' ++ [a]) ++ [m] by simp,
          List.getLast?_concat]
      have hlvm : lastv = m := by
        rw [hlastm] at hlastv
        exact (Option.some.inj hlastv).symm
      have hguard : (some m : Option Nat) = l.tail := by rw [htail, hlvm]
      rw [if_pos hguard]
      obtain ⟨headv, hheadv⟩ : ∃ hv, (s1' ++ [a, m] : List Nat).head? = some hv := by
        rcases s1' with _ | ⟨z, zs⟩
        · exact ⟨a, rfl⟩
        · exact ⟨z, rfl⟩
      have hmw : dNextF l.heap m = some headv := h.wrap m headv hlastm hheadv
      have hrevm : (s1' ++ [a, m]).reverse = m :: a :: s1'.reverse := by simp
      have hplm : NChain (dPrevF l.heap) (m :: a :: s1'.reverse) := by
        rw [← hrevm]
        exact h.plinks
      have hma : dPrevF l.heap m = some a := (nchain_cons_cons.1 hplm).1
      rw [hmw, hma]
      refine ⟨s1' ++ [a], ?_⟩
      exact CDLL_unlink_last_core h hheadv
    · -- the match is interior
      subst hs2c
      have hceq : (s1' ++ [a]) ++ m :: y :: s2' = s1' ++ a :: m :: y :: s2' := by simp
      rw [hceq] at h hlastv
      have hLc : (s1' ++ a :: m :: y :: s2' : List Nat).getLast? =
          (y :: s2').getLast? := by
        rw [List.getLast?_append_of_ne_nil _ (by simp),
          getLast?_cons_ne_nil a (by simp), getLast?_cons_ne_nil m (by simp)]
      have hlast_tail : (y :: s2').getLast? = some lastv := by
        rw [← hLc, hlastv]
      have hlvmem : lastv ∈ y :: s2' := mem_of_getLast?_eq hlast_tail
      have hndtail : (a :: m :: y :: s2' : List Nat).Nodup :=
        (List.nodup_append.1 h.nodup).2.1
      have hmnot : m ∉ y :: s2' := (List.nodup_cons.1 (List.nodup_cons.1 hndtail).2).1
      have hmne : ¬((some m : Option Nat) = l.tail) := by
        rw [htail]
        intro he
        rcases Option.some.inj he with rfl
        exact hmnot hlvmem
      rw [if_neg hmne]
      have hmy : dNextF l.heap m = some y := by
        have hch := List.chain'_append.1 h.links
        exact (nchain_cons_cons.1 (nchain_cons_cons.1 hch.2.1).2).1
      have hrevc : (s1' ++ a :: m :: y :: s2').reverse =
          (y :: s2').reverse ++ m :: a :: s1'.reverse := by simp
      have hplc : NChain (dPrevF l.heap)
          ((y :: s2').reverse ++ m :: a :: s1'.reverse) := by
        rw [← hrevc]
        exact h.plinks
      have hma : dPrevF l.heap m = some a :=
        (nchain_cons_cons.1 (List.chain'_append.1 hplc).2.1).1
      rw [hmy, hma]
      refine ⟨s1' ++ a :: y :: s2', ?_⟩
      exact CDLL_unlink_mid_core h

/-- InsertAt keeps the doubly ring well formed in every branch. -/
theorem CDLL_InsertAt_repr [Inhabited T] {l : CircularDoublyLinkedList T} {c : List Nat}
    (h : CDRepr l c) (index : Int) (v : T) :
    ∃ c', CDRepr ((l.InsertAt index v).2) c' := by
  by_cases hoob : index < 0 ∨ index > l.size
  · refine ⟨c, ?_⟩
    have hres : (l.InsertAt index v).2 = l := by
      unfold CircularDoublyLinkedList.InsertAt
      rw [if_pos hoob]
    rw [hres]
    exact h
  by_cases h0 : index = 0
  · refine ⟨l.heap.length :: c, ?_⟩
    have hres : (l.InsertAt index v).2 = l.Prepend v := by
      unfold CircularDoublyLinkedList.InsertAt
      rw [if_neg hoob, if_pos h0]
    rw [hres]
    exact (CDLL_Prepend_repr h v).1
  by_cases hsz : index = l.size
  · refine ⟨c ++ [l.heap.length], ?_⟩
    have hres : (l.InsertAt index v).2 = l.Append v := by
      unfold CircularDoublyLinkedList.InsertAt
      rw [if_neg hoob, if_neg h0, if_pos hsz]
    rw [hres]
    exact (CDLL_Append_repr h v).1
  · -- interior splice
    push_neg at hoob
    have hik : (1 : Int) ≤ index := by omega
    have hilt : index < l.size := lt_of_le_of_ne hoob.2 hsz
    have hkbound : index.toNat < c.length := by
      have := h.size_eq
      omega
    have hkpos : 1 ≤ index.toNat := by omega
    rcases exists_split_at (show index.toNat - 1 < c.length by omega)
      with ⟨c1, a, c2', hdecomp, hc1len⟩
    have hc2ne : c2' ≠ [] := by
      intro hc2
      have hlen : c.length = c1.length + 1 := by rw [hdecomp, hc2]; simp
      have := h.size_eq
      omega
    rcases hc2e : c2' with _ | ⟨m, c2⟩
    · exact absurd hc2e hc2ne
    rw [hc2e] at hdecomp
    subst hdecomp
    set n := l.heap.length with hn
    have hbn : ∀ i ∈ c1 ++ a :: m :: c2, i < n := h.bounds
    have hnnotc : n ∉ c1 ++ a :: m :: c2 := fun hmem => lt_irrefl _ (hbn _ hmem)
    have hdisj := List.disjoint_of_nodup_append h.nodup
    have hndtail : (a :: m :: c2).Nodup := (List.nodup_append.1 h.nodup).2.1
    have hanot : a ∉ m :: c2 := (List.nodup_cons.1 hndtail).1
    have hmnotc2 : m ∉ c2 := (List.nodup_cons.1 (List.nodup_cons.1 hndtail).2).1
    have habound : a < n := hbn a (by simp)
    have hmbound : m < n := hbn m (by simp)
    have hanem : a ≠ m := fun he => hanot (by rw [he]; simp)
    set hp0 := l.heap ++ [(⟨v, none, none⟩ : DNode T)] with hh0
    have hcur : iterN (dNextF l.heap) index.toNat l.Head = some m := by
      rw [h.cdHeadEq]
      have hsplit2 : c1 ++ a :: m :: c2 = (c1 ++ [a]) ++ m :: c2 := by simp
      have hlen1 : (c1 ++ [a]).length = index.toNat := by
        simp
        omega
      rw [nchain_iterN h.links _ hkbound, hsplit2, ← hlen1, get?_append_middle]
    have hrevc : (c1 ++ a :: m :: c2).reverse =
        (m :: c2).reverse ++ a :: c1.reverse := by simp
    have hplc : NChain (dPrevF l.heap) ((m :: c2).reverse ++ a :: c1.reverse) := by
      rw [← hrevc]
      exact h.plinks
    have hpchains := List.chain'_append.1 hplc
    have hpma : dPrevF l.heap m = some a := by
      refine hpchains.2.2 m ?_ a rfl
      rw [List.getLast?_reverse]
      rfl
    have hpma0 : dPrevF hp0 m = some a := by
      rw [hh0, dPrevF_append_lt hmbound, hpma]
    have hres : (l.InsertAt index v).2 =
        { heap := dSetPrev (dSetNext (dSetPrev (dSetNext hp0 a (some n)) n (some a))
            n (some m)) m (some n),
          tail := l.tail, size := l.size + 1 } := by
      unfold CircularDoublyLinkedList.InsertAt
      rw [if_neg (by omega), if_neg h0, if_neg hsz]
      dsimp only
      rw [← hh0, ← hn, hcur]
      rw [show optNext (dPrevF hp0) (some m) = dPrevF hp0 m from rfl, hpma0]
      rfl
    rw [hres]
    set H := dSetPrev (dSetNext (dSetPrev (dSetNext hp0 a (some n)) n (some a))
      n (some m)) m (some n) with hH
    have hlenH : H.length = n + 1 := by
      rw [hH, dSetPrev_length, dSetNext_length, dSetPrev_length, dSetNext_length,
        hh0]
      simp
    have hnext_keep : ∀ i, i ≠ a → i ≠ n → i ∈ c1 ++ a :: m :: c2 →
        dNextF H i = dNextF l.heap i := by
      intro i hia hin himem
      rw [hH, dNextF_dSetPrev, dNextF_dSetNext_ne hin, dNextF_dSetPrev,
        dNextF_dSetNext_ne hia, hh0]
      exact dNextF_append_lt (hbn i himem) _
    have hnext_a : dNextF H a = some n := by
      rw [hH, dNextF_dSetPrev, dNextF_dSetNext_ne (by omega), dNextF_dSetPrev]
      exact dNextF_dSetNext_self (by rw [hh0]; simp; omega) _
    have hnext_n : dNextF H n = some m := by
      rw [hH, dNextF_dSetPrev]
      refine dNextF_dSetNext_self ?_ _
      rw [dSetPrev_length, dSetNext_length, hh0]
      simp
    have hprev_keep : ∀ i, i ≠ n → i ≠ m → i ∈ c1 ++ a :: m :: c2 →
        dPrevF H i = dPrevF l.heap i := by
      intro i hin him himem
      rw [hH, dPrevF_dSetPrev_ne him, dPrevF_dSetNext, dPrevF_dSetPrev_ne hin,
        dPrevF_dSetNext, hh0]
      exact dPrevF_append_lt (hbn i himem) _
    have hprev_m : dPrevF H m = some n := by
      rw [hH]
      refine dPrevF_dSetPrev_self ?_ _
      rw [dSetNext_length, dSetPrev_length, dSetNext_length, hh0]
      simp
      omega
    have hprev_n : dPrevF H n = some a := by
      rw [hH, dPrevF_dSetPrev_ne (by omega), dPrevF_dSetNext]
      refine dPrevF_dSetPrev_self ?_ _
      rw [dSetNext_length, hh0]
      simp
    have hchains := List.chain'_append.1 h.links
    have hcham : NChain (dNextF l.heap) (a :: m :: c2) := hchains.2.1
    have hLc : (c1 ++ a :: m :: c2).getLast? = (m :: c2).getLast? := by
      rw [List.getLast?_append_of_ne_nil _ (by simp), getLast?_cons_ne_nil a (by simp)]
    have hLc2 : (c1 ++ a :: n :: m :: c2).getLast? = (m :: c2).getLast? := by
      rw [List.getLast?_append_of_ne_nil _ (by simp), getLast?_cons_ne_nil a (by simp),
        getLast?_cons_ne_nil _ (by simp)]
    have hhead2 : (c1 ++ a :: n :: m :: c2).head? = (c1 ++ a :: m :: c2).head? :=
      head?_append_cons c1 a (n :: m :: c2) (m :: c2)
    refine ⟨c1 ++ a :: n :: m :: c2, ?_, ?_, ?_, ?_, ?_, ?_, ?_, ?_⟩
    · intro i hi
      rw [hlenH]
      simp only [List.mem_append, List.mem_cons] at hi
      rcases hi with hi | hi | hi | hi
      · have := hbn i (by simp [hi]); omega
      · subst hi; omega
      · omega
      · have := hbn i (by simp [hi]); omega
    · rw [List.nodup_append]
      refine ⟨(List.nodup_append.1 h.nodup).1, ?_, ?_⟩
      · rw [List.nodup_cons]
        refine ⟨?_, ?_⟩
        · intro hmem
          rcases List.mem_cons.1 hmem with he | hmem2
          · omega
          · exact hanot hmem2
        · rw [List.nodup_cons]
          exact ⟨fun hmem => hnnotc (by simp [hmem]),
            (List.nodup_cons.1 hndtail).2⟩
      · intro i hi1 hi2
        simp only [List.mem_cons] at hi2
        rcases hi2 with rfl | rfl | hi2
        · exact hdisj hi1 (by simp)
        · exact hnnotc (by simp [hi1])
        · exact hdisj hi1 (by simp [hi2])
    · rw [h.tail_eq, hLc, ← hLc2]
    · have := h.size_eq
      simp at this ⊢
      omega
    · refine List.chain'_append.2 ⟨?_, ?_, ?_⟩
      · refine nchain_congr_dropLast hchains.1 ?_
        intro i hi
        have himem : i ∈ c1 := List.dropLast_subset c1 hi
        refine (hnext_keep i ?_ ?_ (by simp [himem])).symm
        · intro he
          have hmem2 : a ∈ c1 := by rw [← he]; exact himem
          exact hdisj hmem2 (by simp)
        · intro he
          refine hnnotc ?_
          rw [← he]
          simp [himem]
      · refine nchain_cons_cons.2 ⟨hnext_a, ?_⟩
        refine nchain_cons_cons.2 ⟨hnext_n, ?_⟩
        refine nchain_congr_dropLast (nchain_cons_cons.1 hcham).2 ?_
        intro i hi
        have himem : i ∈ m :: c2 := List.dropLast_subset _ hi
        refine (hnext_keep i ?_ ?_ (by simp [himem])).symm
        · intro he
          refine hanot ?_
          rw [← he]
          exact himem
        · intro he
          refine hnnotc ?_
          rw [← he]
          simp [himem]
      · intro u hu w hw
        have huc1 : u ∈ c1 := mem_of_getLast?_eq hu
        have hwa : w = a := by simp at hw; omega
        have hune : u ≠ a := by
          intro he
          have hmem2 : a ∈ c1 := by rw [← he]; exact huc1
          exact hdisj hmem2 (by simp)
        have hunn : u ≠ n := by
          intro he
          refine hnnotc ?_
          rw [← he]
          simp [huc1]
        rw [hnext_keep u hune hunn (by simp [huc1]), hwa]
        exact hchains.2.2 u hu a rfl
    · intro i j hi hj
      rw [hLc2] at hi
      have himem : i ∈ m :: c2 := mem_of_getLast?_eq hi
      have hine : i ≠ a := by
        intro he
        refine hanot ?_
        rw [← he]
        exact himem
      have hinn : i ≠ n := by
        intro he
        refine hnnotc ?_
        rw [← he]
        simp [himem]
      rw [hnext_keep i hine hinn (by simp [himem])]
      refine h.wrap i j ?_ ?_
      · rw [hLc]
        exact hi
      · rw [← hhead2]
        exact hj
    · show NChain (dPrevF H) (c1 ++ a :: n :: m :: c2).reverse
      rw [show (c1 ++ a :: n :: m :: c2).reverse =
        (m :: c2).reverse ++ n :: a :: c1.reverse by simp]
      refine List.chain'_append.2 ⟨?_, ?_, ?_⟩
      · refine nchain_congr_dropLast hpchains.1 ?_
        intro i hi
        have himem : i ∈ m :: c2 := by
          have hmem := List.dropLast_subset _ hi
          rw [List.mem_reverse] at hmem
          exact hmem
        have hinm : i ≠ m := by
          have hrl : (m :: c2).reverse.getLast? = some m := by
            rw [List.getLast?_reverse]
            rfl
          exact nodup_dropLast_ne_last (List.nodup_reverse.2
            (List.nodup_cons.1 hndtail).2) hrl i hi
        have hinn : i ≠ n := by
          intro he
          refine hnnotc ?_
          rw [← he]
          simp [himem]
        exact (hprev_keep i hinn hinm (by simp [himem])).symm
      · refine nchain_cons_cons.2 ⟨hprev_n, ?_⟩
        refine nchain_congr hpchains.2.1 ?_
        intro i hi
        have hinn : i ≠ n := by
          intro he
          rcases List.mem_cons.1 hi with rfl | hic1
          · refine hnnotc ?_
            rw [← he]
            simp
          · refine hnnotc ?_
            rw [← he]
            simp [List.mem_reverse.1 hic1]
        have hinm : i ≠ m := by
          intro he
          rcases List.mem_cons.1 hi with rfl | hic1
          · exact hanem he
          · exact hdisj (List.mem_reverse.1 hic1) (by rw [he]; simp)
        have himem2 : i ∈ c1 ++ a :: m :: c2 := by
          rcases List.mem_cons.1 hi with rfl | hic1
          · simp
          · simp [List.mem_reverse.1 hic1]
        exact (hprev_keep i hinn hinm himem2).symm
      · intro u hu w hw
        have hul : u = m := by
          rw [List.getLast?_reverse] at hu
          simp at hu
          omega
        subst hul
        have hwn : w = n := by simp at hw; omega
        subst hwn
        exact hprev_m
    · intro i j hi hj
      rw [hhead2] at hi
      have himem : i ∈ c1 ++ [a] := by
        rcases hc1 : c1 with _ | ⟨z, zs⟩
        · rw [hc1] at hi
          rcases Option.some.inj hi with rfl
          simp
        · rw [hc1] at hi
          rcases Option.some.inj hi with rfl
          simp
      have hinn : i ≠ n := by
        intro he
        rcases List.mem_append.1 himem with hic1 | hia
        · refine hnnotc ?_
          rw [← he]
          simp [hic1]
        · simp at hia
          omega
      have hinm : i ≠ m := by
        intro he
        rcases List.mem_append.1 himem with hic1 | hia
        · exact hdisj hic1 (by rw [he]; simp)
        · simp at hia
          rw [hia] at he
          exact hanem he
      rw [hprev_keep i hinn hinm (by
        rcases List.mem_append.1 himem with hic1 | hia
        · simp [hic1]
        · simp at hia
          simp [hia])]
      refine h.pwrap i j hi ?_
      rw [hLc, ← hLc2]
      exact hj

/-- Specification of the counted swap loop on a ring chain: run for exactly
the chain's length, it swaps every visited node's next and prev pointers and
leaves values and other nodes untouched. -/
theorem cdReverseLoop_spec [Inhabited T] :
    ∀ (c : List Nat) (h : DHeap T),
      NChain (dNextF h) c → c.Nodup → (∀ i ∈ c, i < h.length) →
      (cdReverseLoop h c.head? c.length).1.length = h.length ∧
      (∀ i, i ∉ c → dNextF (cdReverseLoop h c.head? c.length).1 i = dNextF h i) ∧
      (∀ i, i ∉ c → dPrevF (cdReverseLoop h c.head? c.length).1 i = dPrevF h i) ∧
      (∀ i, dValD (cdReverseLoop h c.head? c.length).1 i = dValD h i) ∧
      (∀ i ∈ c, dNextF (cdReverseLoop h c.head? c.length).1 i = dPrevF h i) ∧
      (∀ i ∈ c, dPrevF (cdReverseLoop h c.head? c.length).1 i = dNextF h i) := by
  intro c
  induction c with
  | nil =>
    intro h _ _ _
    refine ⟨rfl, fun i _ => rfl, fun i _ => rfl, fun i => rfl, ?_, ?_⟩
    · intro i hi
      simp at hi
    · intro i hi
      simp at hi
  | cons x c2 ih =>
    intro h hch hnd hbd
    have hxbound : x < h.length := hbd x (by simp)
    have hxnotc : x ∉ c2 := (List.nodup_cons.1 hnd).1
    have hstep : cdReverseLoop h (x :: c2).head? (x :: c2).length =
        cdReverseLoop (dSetPrev (dSetNext h x (dPrevF h x)) x (dNextF h x))
          (dNextF h x) c2.length := rfl
    set h1 := dSetPrev (dSetNext h x (dPrevF h x)) x (dNextF h x) with hh1
    have hlen1 : h1.length = h.length := by
      rw [hh1, dSetPrev_length, dSetNext_length]
    have hnext1_keep : ∀ i, i ≠ x → dNextF h1 i = dNextF h i := by
      intro i hix
      rw [hh1, dNextF_dSetPrev, dNextF_dSetNext_ne hix]
    have hprev1_keep : ∀ i, i ≠ x → dPrevF h1 i = dPrevF h i := by
      intro i hix
      rw [hh1, dPrevF_dSetPrev_ne hix, dPrevF_dSetNext]
    have hnext1_x : dNextF h1 x = dPrevF h x := by
      rw [hh1, dNextF_dSetPrev]
      exact dNextF_dSetNext_self hxbound _
    have hprev1_x : dPrevF h1 x = dNextF h x := by
      rw [hh1]
      exact dPrevF_dSetPrev_self (by rw [dSetNext_length]; exact hxbound) _
    have hval1 : ∀ i, dValD h1 i = dValD h i := by
      intro i
      rw [hh1, dValD_dSetPrev, dValD_dSetNext]
    cases c2 with
    | nil =>
      rw [hstep]
      have hval : cdReverseLoop h1 (dNextF h x) ([] : List Nat).length = (h1, dNextF h x) := rfl
      rw [hval]
      refine ⟨hlen1, ?_, ?_, hval1, ?_, ?_⟩
      · intro i hi
        exact hnext1_keep i (fun he => hi (by simp [he]))
      · intro i hi
        exact hprev1_keep i (fun he => hi (by simp [he]))
      · intro i hi
        have hix : i = x := by simpa using hi
        subst hix
        exact hnext1_x
      · intro i hi
        have hix : i = x := by simpa using hi
        subst hix
        exact hprev1_x
    | cons y c3 =>
      have hxy : dNextF h x = some y := (nchain_cons_cons.1 hch).1
      rw [hstep, hxy]
      have hch1 : NChain (dNextF h1) (y :: c3) :=
        nchain_congr (NChain.tail hch)
          (fun i hi => (hnext1_keep i
            (fun he => hxnotc (by rw [← he]; exact hi))).symm)
      have hbd1 : ∀ i ∈ y :: c3, i < h1.length := by
        intro i hi
        rw [hlen1]
        exact hbd i (List.mem_cons_of_mem x hi)
      have := ih h1 hch1 (List.nodup_cons.1 hnd).2 hbd1
      rw [show (some y : Option Nat) = (y :: c3).head? from rfl]
      rcases this with ⟨ihlen, ihkeep, ihpkeep, ihval, ihswap, ihpswap⟩
      refine ⟨?_, ?_, ?_, ?_, ?_, ?_⟩
      · rw [ihlen, hlen1]
      · intro i hi
        have hine : i ≠ x := fun he => hi (by simp [he])
        have hinc : i ∉ y :: c3 := fun hm => hi (by simp [hm])
        rw [ihkeep i hinc, hnext1_keep i hine]
      · intro i hi
        have hine : i ≠ x := fun he => hi (by simp [he])
        have hinc : i ∉ y :: c3 := fun hm => hi (by simp [hm])
        rw [ihpkeep i hinc, hprev1_keep i hine]
      · intro i
        rw [ihval i, hval1 i]
      · intro i hi
        rcases List.mem_cons.1 hi with rfl | hi2
        · rw [ihkeep i hxnotc, hnext1_x]
        · rw [ihswap i hi2, hprev1_keep i
            (fun he => hxnotc (by rw [← he]; exact hi2))]
      · intro i hi
        rcases List.mem_cons.1 hi with rfl | hi2
        · rw [ihpkeep i hxnotc, hprev1_x]
        · rw [ihpswap i hi2, hnext1_keep i
            (fun he => hxnotc (by rw [← he]; exact hi2))]

/-- Reverse keeps the doubly ring well formed with the reversed chain; node
values are untouched. -/
theorem CDLL_Reverse_repr [Inhabited T] {l : CircularDoublyLinkedList T} {c : List Nat}
    (h : CDRepr l c) :
    CDRepr l.Reverse c.reverse ∧ ∀ i, dValD l.Reverse.heap i = dValD l.heap i := by
  by_cases hz : l.size = 0 ∨ l.size = 1
  · have hres : l.Reverse = l := by
      unfold CircularDoublyLinkedList.Reverse
      rw [if_pos hz]
    rw [hres]
    have hcrev : c.reverse = c := by
      rcases hz with hz | hz
      · rw [h.cdEmptyIff.1 hz]
        rfl
      · have hlen : c.length = 1 := by
          have := h.size_eq
          omega
        rcases List.length_eq_one.1 hlen with ⟨a, rfl⟩
        rfl
    rw [hcrev]
    exact ⟨h, fun i => rfl⟩
  · have hz1 : ¬l.size = 0 := fun he => hz (Or.inl he)
    have hcne : c ≠ [] := fun hc => hz1 (h.cdEmptyIff.2 hc)
    have hres : l.Reverse =
        { heap := (cdReverseLoop l.heap c.head? c.length).1, tail := c.head?,
          size := l.size } := by
      unfold CircularDoublyLinkedList.Reverse
      rw [if_neg hz, h.cdHeadEq, h.cdSizeToNat]
    rw [hres]
    have hspec := cdReverseLoop_spec c l.heap h.links h.nodup h.bounds
    rcases hspec with ⟨hlen, hkeep, hpkeep, hval, hswap, hpswap⟩
    constructor
    · refine ⟨?_, by simpa using h.nodup, ?_, ?_, ?_, ?_, ?_, ?_⟩
      · intro i hi
        show i < (cdReverseLoop l.heap c.head? c.length).1.length
        rw [hlen]
        exact h.bounds i (by simpa using hi)
      · show c.head? = c.reverse.getLast?
        rw [List.getLast?_reverse]
      · show l.size = (c.reverse.length : Int)
        rw [h.size_eq]
        simp
      · refine nchain_congr h.plinks ?_
        intro i hi
        exact (hswap i (by simpa using hi)).symm
      · intro i j hi hj
        rw [List.getLast?_reverse] at hi
        rw [List.head?_reverse] at hj
        have himem : i ∈ c := by
          rcases hc : c with _ | ⟨z, zs⟩
          · exact absurd hc hcne
          · rw [hc] at hi
            rcases Option.some.inj hi with rfl
            exact List.mem_cons_self _ _
        rw [hswap i himem]
        exact h.pwrap i j hi hj
      · show NChain (dPrevF _) c.reverse.reverse
        rw [List.reverse_reverse]
        refine nchain_congr h.links ?_
        intro i hi
        exact (hpswap i hi).symm
      · intro i j hi hj
        rw [List.head?_reverse] at hi
        rw [List.getLast?_reverse] at hj
        have himem : i ∈ c := mem_of_getLast?_eq hi
        rw [hpswap i himem]
        exact h.wrap i j hi hj
    · intro i
      exact hval i

/-- Lists reachable from the empty circular doubly linked list by the public
mutating operations. -/
inductive CDReach [Inhabited T] [DecidableEq T] : CircularDoublyLinkedList T → Prop
  | new : CDReach CircularDoublyLinkedList.New
  | prepend {l : CircularDoublyLinkedList T} (v : T) : CDReach l → CDReach (l.Prepend v)
  | append {l : CircularDoublyLinkedList T} (v : T) : CDReach l → CDReach (l.Append v)
  | insertAt {l : CircularDoublyLinkedList T} (index : Int) (v : T) :
      CDReach l → CDReach ((l.InsertAt index v).2)
  | remove {l : CircularDoublyLinkedList T} (v : T) : CDReach l → CDReach (l.Remove v)
  | removeFirst {l : CircularDoublyLinkedList T} : CDReach l → CDReach l.RemoveFirst
  | removeLast {l : CircularDoublyLinkedList T} : CDReach l → CDReach l.RemoveLast
  | set {l : CircularDoublyLinkedList T} (index : Int) (v : T) :
      CDReach l → CDReach ((l.Set index v).2)
  | reverse {l : CircularDoublyLinkedList T} : CDReach l → CDReach l.Reverse
  | clear {l : CircularDoublyLinkedList T} : CDReach l → CDReach l.Clear

/-- Every reachable circular doubly linked list is well formed. -/
theorem CDReach_wf [Inhabited T] [DecidableEq T] {l : CircularDoublyLinkedList T}
    (h : CDReach l) : ∃ c, CDRepr l c := by
  induction h with
  | new => exact ⟨[], CDLL_New_repr⟩
  | prepend v _ ih => rcases ih with ⟨c, hc⟩; exact ⟨_, (CDLL_Prepend_repr hc v).1⟩
  | append v _ ih => rcases ih with ⟨c, hc⟩; exact ⟨_, (CDLL_Append_repr hc v).1⟩
  | insertAt index v _ ih => rcases ih with ⟨c, hc⟩; exact CDLL_InsertAt_repr hc index v
  | remove v _ ih => rcases ih with ⟨c, hc⟩; exact CDLL_Remove_repr hc v
  | removeFirst _ ih => rcases ih with ⟨c, hc⟩; exact ⟨_, CDLL_RemoveFirst_repr hc⟩
  | removeLast _ ih => rcases ih with ⟨c, hc⟩; exact ⟨_, CDLL_RemoveLast_repr hc⟩
  | set index v _ ih => rcases ih with ⟨c, hc⟩; exact ⟨_, CDLL_Set_repr hc index v⟩
  | reverse _ ih => rcases ih with ⟨c, hc⟩; exact ⟨_, (CDLL_Reverse_repr hc).1⟩
  | clear _ ih => rcases ih with ⟨c, hc⟩; exact ⟨_, CDLL_Clear_repr hc⟩

/-! ### Spec-modelled display format (for comparison with the String() code) -/

/-- Join strings with a separator, no trailing separator (spec-modelled). -/
def sepJoin (sep : String) : List String → String
  | [] => ""
  | [s] => s
  | s :: s2 :: rest => s ++ sep ++ sepJoin sep (s2 :: rest)

/-- The display format described by the spec: the container name, ": []" when
empty, otherwise ": " and each value wrapped in brackets joined by the
separator. -/
def displayFormat [ToString T] (name sep : String) (vals : List T) : String :=
  match vals with
  | [] => name ++ ": []"
  | v :: rest =>
    name ++ ": " ++ sepJoin sep ((v :: rest).map (fun x => "[" ++ toString x ++ "]"))

/-- The code's rendering of the value list agrees with the spec's join. -/
theorem bracketJoin_sepJoin [ToString T] (sep : String) : ∀ (vs : List T),
    bracketJoin sep vs = sepJoin sep (vs.map (fun v => "[" ++ toString v ++ "]")) := by
  intro vs
  induction vs with
  | nil => rfl
  | cons v rest ih =>
    cases rest with
    | nil => rfl
    | cons w rest2 =>
      show "[" ++ toString v ++ "]" ++ sep ++ bracketJoin sep (w :: rest2) = _
      rw [ih]
      rfl

/-! ### State-threading observers (frame effects) -/

/-- The nil-terminated search loop with the heap threaded through. -/
def findLoopLEff {H : Type} [DecidableEq T] (nfF : H → Nat → Option Nat)
    (vfF : H → Nat → T) (value : T) : H → Nat → Option Nat → Option Nat × H
  | h, 0, _ => (none, h)
  | h, fuel + 1, cur =>
    match cur with
    | none => (none, h)
    | some i =>
      if vfF h i = value then (some i, h)
      else findLoopLEff nfF vfF value h fuel (nfF h i)

theorem findLoopLEff_spec {H : Type} [DecidableEq T] (nfF : H → Nat → Option Nat)
    (vfF : H → Nat → T) (value : T) :
    ∀ (fuel : Nat) (h : H) (cur : Option Nat),
      findLoopLEff nfF vfF value h fuel cur =
        (findLoopL (nfF h) (vfF h) value fuel cur, h) := by
  intro fuel
  induction fuel with
  | zero => intro h cur; rfl
  | succ f ih =>
    intro h cur
    cases cur with
    | none => rfl
    | some i =>
      show (if vfF h i = value then (some i, h)
        else findLoopLEff nfF vfF value h f (nfF h i)) = _
      by_cases hv : vfF h i = value
      · rw [if_pos hv]
        show _ = (if vfF h i = value then some i else _, h)
        rw [if_pos hv]
      · rw [if_neg hv, ih h (nfF h i)]
        show _ = (if vfF h i = value then some i else _, h)
        rw [if_neg hv]

/-- The sentinel search loop with the heap threaded through. -/
def findLoopCEff {H : Type} [Inhabited T] [DecidableEq T] (nfF : H → Nat → Option Nat)
    (vfF : H → Nat → T) (value : T) (hd : Option Nat) :
    H → Nat → Option Nat → Option Nat × H
  | h, 0, _ => (none, h)
  | h, fuel + 1, cur =>
    if optVal (vfF h) cur = value then (cur, h)
    else
      let nxt := optNext (nfF h) cur
      if nxt = hd then (none, h) else findLoopCEff nfF vfF value hd h fuel nxt

theorem findLoopCEff_spec {H : Type} [Inhabited T] [DecidableEq T]
    (nfF : H → Nat → Option Nat) (vfF : H → Nat → T) (value : T) (hd : Option Nat) :
    ∀ (fuel : Nat) (h : H) (cur : Option Nat),
      findLoopCEff nfF vfF value hd h fuel cur =
        (findLoopC (nfF h) (vfF h) value hd fuel cur, h) := by
  intro fuel
  induction fuel with
  | zero => intro h cur; rfl
  | succ f ih =>
    intro h cur
    show (if optVal (vfF h) cur = value then (cur, h)
      else if optNext (nfF h) cur = hd then (none, h)
      else findLoopCEff nfF vfF value hd h f (optNext (nfF h) cur)) = _
    by_cases hv : optVal (vfF h) cur = value
    · rw [if_pos hv]
      show _ = (if optVal (vfF h) cur = value then cur else _, h)
      rw [if_pos hv]
    · rw [if_neg hv]
      by_cases hn : optNext (nfF h) cur = hd
      · rw [if_pos hn]
        show _ = (if optVal (vfF h) cur = value then cur
          else if optNext (nfF h) cur = hd then none else _, h)
        rw [if_neg hv, if_pos hn]
      · rw [if_neg hn, ih h (optNext (nfF h) cur)]
        show _ = (if optVal (vfF h) cur = value then cur
          else if optNext (nfF h) cur = hd then none else _, h)
        rw [if_neg hv, if_neg hn]

/-- The counted search loop with the heap threaded through. -/
def findLoopNEff {H : Type} [Inhabited T] [DecidableEq T] (nfF : H → Nat → Option Nat)
    (vfF : H → Nat → T) (value : T) : H → Nat → Option Nat → Option Nat × H
  | h, 0, _ => (none, h)
  | h, k + 1, cur =>
    if optVal (vfF h) cur = value then (cur, h)
    else findLoopNEff nfF vfF value h k (optNext (nfF h) cur)

theorem findLoopNEff_spec {H : Type} [Inhabited T] [DecidableEq T]
    (nfF : H → Nat → Option Nat) (vfF : H → Nat → T) (value : T) :
    ∀ (k : Nat) (h : H) (cur : Option Nat),
      findLoopNEff nfF vfF value h k cur =
        (findLoopN (nfF h) (vfF h) value k cur, h) := by
  intro k
  induction k with
  | zero => intro h cur; rfl
  | succ k2 ih =>
    intro h cur
    show (if optVal (vfF h) cur = value then (cur, h)
      else findLoopNEff nfF vfF value h k2 (optNext (nfF h) cur)) = _
    by_cases hv : optVal (vfF h) cur = value
    · rw [if_pos hv]
      show _ = (if optVal (vfF h) cur = value then cur else _, h)
      rw [if_pos hv]
    · rw [if_neg hv, ih h (optNext (nfF h) cur)]
      show _ = (if optVal (vfF h) cur = value then cur else _, h)
      rw [if_neg hv]

/-- The counted pointer walk with the heap threaded through. -/
def iterNEff {H : Type} (nfF : H → Nat → Option Nat) :
    H → Nat → Option Nat → Option Nat × H
  | h, 0, cur => (cur, h)
  | h, k + 1, cur => iterNEff nfF h k (optNext (nfF h) cur)

theorem iterNEff_spec {H : Type} (nfF : H → Nat → Option Nat) :
    ∀ (k : Nat) (h : H) (cur : Option Nat),
      iterNEff nfF h k cur = (iterN (nfF h) k cur, h) := by
  intro k
  induction k with
  | zero => intro h cur; rfl
  | succ k2 ih =>
    intro h cur
    show iterNEff nfF h k2 (optNext (nfF h) cur) = _
    rw [ih h (optNext (nfF h) cur)]
    rfl

/-- The nil-terminated collection loop with the heap threaded through. -/
def collectLEff {H : Type} [Inhabited T] (nfF : H → Nat → Option Nat)
    (vfF : H → Nat → T) : H → Nat → Option Nat → List T × H
  | h, 0, _ => ([], h)
  | h, fuel + 1, cur =>
    match cur with
    | none => ([], h)
    | some i =>
      let r := collectLEff nfF vfF h fuel (nfF h i)
      (vfF h i :: r.1, r.2)

theorem collectLEff_spec {H : Type} [Inhabited T] (nfF : H → Nat → Option Nat)
    (vfF : H → Nat → T) :
    ∀ (fuel : Nat) (h : H) (cur : Option Nat),
      collectLEff nfF vfF h fuel cur = (collectL (nfF h) (vfF h) fuel cur, h) := by
  intro fuel
  induction fuel with
  | zero => intro h cur; rfl
  | succ f ih =>
    intro h cur
    cases cur with
    | none => rfl
    | some i =>
      show (vfF h i :: (collectLEff nfF vfF h f (nfF h i)).1,
        (collectLEff nfF vfF h f (nfF h i)).2) = _
      rw [ih h (nfF h i)]
      rfl

/-- The counted collection loop with the heap threaded through. -/
def collectCEff {H : Type} [Inhabited T] (nfF : H → Nat → Option Nat)
    (vfF : H → Nat → T) : H → Nat → Option Nat → List T × H
  | h, 0, _ => ([], h)
  | h, k + 1, cur =>
    let r := collectCEff nfF vfF h k (optNext (nfF h) cur)
    (optVal (vfF h) cur :: r.1, r.2)

theorem collectCEff_spec {H : Type} [Inhabited T] (nfF : H → Nat → Option Nat)
    (vfF : H → Nat → T) :
    ∀ (k : Nat) (h : H) (cur : Option Nat),
      collectCEff nfF vfF h k cur = (collectC (nfF h) (vfF h) k cur, h) := by
  intro k
  induction k with
  | zero => intro h cur; rfl
  | succ k2 ih =>
    intro h cur
    show (optVal (vfF h) cur :: (collectCEff nfF vfF h k2 (optNext (nfF h) cur)).1,
      (collectCEff nfF vfF h k2 (optNext (nfF h) cur)).2) = _
    rw [ih h (optNext (nfF h) cur)]
    rfl

/-- The linear string loop with the heap threaded through. -/
def stringLoopLEff {H : Type} [Inhabited T] [ToString T] (nfF : H → Nat → Option Nat)
    (vfF : H → Nat → T) (sep : String) : H → Nat → Option Nat → String × H
  | h, 0, _ => ("", h)
  | h, fuel + 1, cur =>
    match optNext (nfF h) cur with
    | none => ("[" ++ toString (optVal (vfF h) cur) ++ "]", h)
    | some j =>
      let r := stringLoopLEff nfF vfF sep h fuel (some j)
      ("[" ++ toString (optVal (vfF h) cur) ++ "]" ++ sep ++ r.1, r.2)

theorem stringLoopLEff_spec {H : Type} [Inhabited T] [ToString T]
    (nfF : H → Nat → Option Nat) (vfF : H → Nat → T) (sep : String) :
    ∀ (fuel : Nat) (h : H) (cur : Option Nat),
      stringLoopLEff nfF vfF sep h fuel cur =
        (stringLoopL (nfF h) (vfF h) sep fuel cur, h) := by
  intro fuel
  induction fuel with
  | zero => intro h cur; rfl
  | succ f ih =>
    intro h cur
    have hstepE : stringLoopLEff nfF vfF sep h (f + 1) cur =
        (match optNext (nfF h) cur with
          | none => ("[" ++ toString (optVal (vfF h) cur) ++ "]", h)
          | some j =>
            ("[" ++ toString (optVal (vfF h) cur) ++ "]" ++ sep ++
              (stringLoopLEff nfF vfF sep h f (some j)).1,
              (stringLoopLEff nfF vfF sep h f (some j)).2)) := rfl
    have hstepP : stringLoopL (nfF h) (vfF h) sep (f + 1) cur =
        "[" ++ toString (optVal (vfF h) cur) ++ "]" ++
          match optNext (nfF h) cur with
          | none => ""
          | some j => sep ++ stringLoopL (nfF h) (vfF h) sep f (some j) := rfl
    rw [hstepE, hstepP]
    cases hn : optNext (nfF h) cur with
    | none =>
      rw [show ("[" ++ toString (optVal (vfF h) cur) ++ "]" ++ "" : String) =
        "[" ++ toString (optVal (vfF h) cur) ++ "]" from String.append_empty _]
    | some j =>
      show ("[" ++ toString (optVal (vfF h) cur) ++ "]" ++ sep ++
        (stringLoopLEff nfF vfF sep h f (some j)).1,
        (stringLoopLEff nfF vfF sep h f (some j)).2) = _
      rw [ih h (some j)]
      rw [String.append_assoc]

/-- The circular string loop with the heap threaded through. -/
def stringLoopCEff {H : Type} [Inhabited T] [ToString T] (nfF : H → Nat → Option Nat)
    (vfF : H → Nat → T) (sep : String) : H → Nat → Option Nat → String × H
  | h, 0, _ => ("", h)
  | h, 1, cur => ("[" ++ toString (optVal (vfF h) cur) ++ "]", h)
  | h, k + 2, cur =>
    let r := stringLoopCEff nfF vfF sep h (k + 1) (optNext (nfF h) cur)
    ("[" ++ toString (optVal (vfF h) cur) ++ "]" ++ sep ++ r.1, r.2)

theorem stringLoopCEff_spec {H : Type} [Inhabited T] [ToString T]
    (nfF : H → Nat → Option Nat) (vfF : H → Nat → T) (sep : String) :
    ∀ (k : Nat) (h : H) (cur : Option Nat),
      stringLoopCEff nfF vfF sep h k cur =
        (stringLoopC (nfF h) (vfF h) sep k cur, h) := by
  intro k
  induction k with
  | zero => intro h cur; rfl
  | succ k2 ih =>
    intro h cur
    cases k2 with
    | zero => rfl
    | succ k3 =>
      show ("[" ++ toString (optVal (vfF h) cur) ++ "]" ++ sep ++
        (stringLoopCEff nfF vfF sep h (k3 + 1) (optNext (nfF h) cur)).1,
        (stringLoopCEff nfF vfF sep h (k3 + 1) (optNext (nfF h) cur)).2) = _
      rw [ih h (optNext (nfF h) cur)]
      rfl

/-- Find with the heap threaded through (the method mutates nothing). -/
def SinglyLinkedList.FindEff [Inhabited T] [DecidableEq T] (l : SinglyLinkedList T)
    (value : T) : Option Nat × SinglyLinkedList T :=
  let r := findLoopLEff sNextF sValD value l.heap (l.heap.length + 1) l.head
  (r.1, { l with heap := r.2 })

/-- Contains with the heap threaded through. -/
def SinglyLinkedList.ContainsEff [Inhabited T] [DecidableEq T] (l : SinglyLinkedList T)
    (value : T) : Bool × SinglyLinkedList T :=
  let r := l.FindEff value
  (r.1.isSome, r.2)

/-- Get with the heap threaded through. -/
def SinglyLinkedList.GetEff (l : SinglyLinkedList T) (index : Int) :
    (Option String × Option Nat) × SinglyLinkedList T :=
  if index < 0 ∨ index ≥ l.size then
    ((some ("index " ++ toString index ++ " out of bounds"), none), l)
  else
    let r := iterNEff sNextF l.heap index.toNat l.head
    ((none, r.1), { l with heap := r.2 })

/-- The ForEach visit trace with the heap threaded through. -/
def SinglyLinkedList.ForEachSeqEff [Inhabited T] (l : SinglyLinkedList T) :
    List T × SinglyLinkedList T :=
  let r := collectLEff sNextF sValD l.heap (l.heap.length + 1) l.head
  (r.1, { l with heap := r.2 })

/-- String() with the heap threaded through. -/
def sllStringEff [Inhabited T] [ToString T] (l : SinglyLinkedList T) :
    String × SinglyLinkedList T :=
  if l.size = 0 then ("SinglyLinkedList: []", l)
  else
    let r := stringLoopLEff sNextF sValD " -> " l.heap (l.heap.length + 1) l.head
    ("SinglyLinkedList: " ++ r.1, { l with heap := r.2 })

/-- Find with the heap threaded through. -/
def CircularSinglyLinkedList.FindEff [Inhabited T] [DecidableEq T]
    (l : CircularSinglyLinkedList T) (value : T) :
    Option Nat × CircularSinglyLinkedList T :=
  if l.size = 0 then (none, l)
  else
    let r := findLoopCEff sNextF sValD value l.Head l.heap (l.heap.length + 1) l.Head
    (r.1, { l with heap := r.2 })

/-- Contains with the heap threaded through. -/
def CircularSinglyLinkedList.ContainsEff [Inhabited T] [DecidableEq T]
    (l : CircularSinglyLinkedList T) (value : T) :
    Bool × CircularSinglyLinkedList T :=
  let r := l.FindEff value
  (r.1.isSome, r.2)

/-- Get with the heap threaded through. -/
def CircularSinglyLinkedList.GetEff (l : CircularSinglyLinkedList T) (index : Int) :
    (Option String × Option Nat) × CircularSinglyLinkedList T :=
  if index < 0 ∨ index ≥ l.size then
    ((some ("index " ++ toString index ++ " out of bounds"), none), l)
  else
    let r := iterNEff sNextF l.heap index.toNat l.Head
    ((none, r.1), { l with heap := r.2 })

/-- The ForEach visit trace with the heap threaded through. -/
def CircularSinglyLinkedList.ForEachSeqEff [Inhabited T]
    (l : CircularSinglyLinkedList T) : List T × CircularSinglyLinkedList T :=
  if l.size = 0 then ([], l)
  else
    let r := collectCEff sNextF sValD l.heap l.size.toNat l.Head
    (r.1, { l with heap := r.2 })

/-- String() with the heap threaded through. -/
def csllStringEff [Inhabited T] [ToString T] (l : CircularSinglyLinkedList T) :
    String × CircularSinglyLinkedList T :=
  if l.size = 0 then ("CircularSinglyLinkedList: []", l)
  else
    let r := stringLoopCEff sNextF sValD " -> " l.heap l.size.toNat l.Head
    ("CircularSinglyLinkedList: " ++ r.1, { l with heap := r.2 })

/-- Find with the heap threaded through. -/
def DoublyLinkedList.FindEff [Inhabited T] [DecidableEq T] (l : DoublyLinkedList T)
    (value : T) : Option Nat × DoublyLinkedList T :=
  let r := findLoopLEff dNextF dValD value l.heap (l.heap.length + 1) l.head
  (r.1, { l with heap := r.2 })

/-- Contains with the heap threaded through. -/
def DoublyLinkedList.ContainsEff [Inhabited T] [DecidableEq T] (l : DoublyLinkedList T)
    (value : T) : Bool × DoublyLinkedList T :=
  let r := l.FindEff value
  (r.1.isSome, r.2)

/-- Get with the heap threaded through. -/
def DoublyLinkedList.GetEff (l : DoublyLinkedList T) (index : Int) :
    (Option String × Option Nat) × DoublyLinkedList T :=
  if index < 0 ∨ index ≥ l.size then
    ((some ("index " ++ toString index ++ " out of bounds"), none), l)
  else
    let r := iterNEff dNextF l.heap index.toNat l.head
    ((none, r.1), { l with heap := r.2 })

/-- The ForEach visit trace with the heap threaded through. -/
def DoublyLinkedList.ForEachSeqEff [Inhabited T] (l : DoublyLinkedList T) :
    List T × DoublyLinkedList T :=
  let r := collectLEff dNextF dValD l.heap (l.heap.length + 1) l.head
  (r.1, { l with heap := r.2 })

/-- ToSlice with the heap threaded through. -/
def DoublyLinkedList.ToSliceEff [Inhabited T] (l : DoublyLinkedList T) :
    List T × DoublyLinkedList T :=
  let r := collectLEff dNextF dValD l.heap (l.heap.length + 1) l.head
  (r.1, { l with heap := r.2 })

/-- String() with the heap threaded through. -/
def dllStringEff [Inhabited T] [ToString T] (l : DoublyLinkedList T) :
    String × DoublyLinkedList T :=
  if l.size = 0 then ("DoublyLinkedList: []", l)
  else
    let r := stringLoopLEff dNextF dValD " ↔ " l.heap (l.heap.length + 1) l.head
    ("DoublyLinkedList: " ++ r.1, { l with heap := r.2 })

/-- Find with the heap threaded through. -/
def CircularDoublyLinkedList.FindEff [Inhabited T] [DecidableEq T]
    (l : CircularDoublyLinkedList T) (value : T) :
    Option Nat × CircularDoublyLinkedList T :=
  if l.size = 0 then (none, l)
  else
    let r := findLoopNEff dNextF dValD value l.heap l.size.toNat l.Head
    (r.1, { l with heap := r.2 })

/-- Contains with the heap threaded through. -/
def CircularDoublyLinkedList.ContainsEff [Inhabited T] [DecidableEq T]
    (l : CircularDoublyLinkedList T) (value : T) :
    Bool × CircularDoublyLinkedList T :=
  let r := l.FindEff value
  (r.1.isSome, r.2)

/-- Get with the heap threaded through. -/
def CircularDoublyLinkedList.GetEff (l : CircularDoublyLinkedList T) (index : Int) :
    (Option String × Option Nat) × CircularDoublyLinkedList T :=
  if index < 0 ∨ index ≥ l.size then
    ((some ("index " ++ toString index ++ " out of bounds"), none), l)
  else
    let r := iterNEff dNextF l.heap index.toNat l.Head
    ((none, r.1), { l with heap := r.2 })

/-- The ForEach visit trace with the heap threaded through. -/
def CircularDoublyLinkedList.ForEachSeqEff [Inhabited T]
    (l : CircularDoublyLinkedList T) : List T × CircularDoublyLinkedList T :=
  if l.size = 0 then ([], l)
  else
    let r := collectCEff dNextF dValD l.heap l.size.toNat l.Head
    (r.1, { l with heap := r.2 })

/-- String() with the heap threaded through. -/
def cdllStringEff [Inhabited T] [ToString T] (l : CircularDoublyLinkedList T) :
    String × CircularDoublyLinkedList T :=
  if l.size = 0 then ("CircularDoublyLinkedList: []", l)
  else
    let r := stringLoopCEff dNextF dValD " <-> " l.heap l.size.toNat l.Head
    ("CircularDoublyLinkedList: " ++ r.1, { l with heap := r.2 })

/-! ### Shared helpers for the claim theorems -/

/-- A member of a chain is the last entry or has its chain successor right
after it. -/
theorem chain_next_cases {nf : Nat → Option Nat} :
    ∀ {c : List Nat}, NChain nf c → ∀ {a : Nat}, a ∈ c →
      c.getLast? = some a ∨ ∃ c1 b c2, c = c1 ++ a :: b :: c2 ∧ nf a = some b := by
  intro c
  induction c with
  | nil => intro _ a ha; simp at ha
  | cons x rest ih =>
    intro hch a ha
    cases rest with
    | nil =>
      left
      have hax : a = x := by simpa using ha
      rw [hax]
      simp
    | cons y rest2 =>
      rcases nchain_cons_cons.1 hch with ⟨hxy, hrest⟩
      rcases List.mem_cons.1 ha with rfl | ha2
      · right
        exact ⟨[], y, rest2, rfl, hxy⟩
      · rcases ih hrest ha2 with hl | ⟨c1, b, c2, heq, hnf⟩
        · left
          rw [List.getLast?_cons_cons]
          exact hl
        · right
          exact ⟨x :: c1, b, c2, by rw [heq]; rfl, hnf⟩

/-- A backward chain on the reversed list yields the back link of any
forward-adjacent pair. -/
theorem chain_prev_of_pair {pf : Nat → Option Nat} {c c1 c2 : List Nat} {a b : Nat}
    (hp : NChain pf c.reverse) (heq : c = c1 ++ a :: b :: c2) : pf b = some a := by
  have hinf : [b, a] <:+: c.reverse := by
    refine ⟨c2.reverse, c1.reverse, ?_⟩
    rw [heq]
    simp
  have hc2 : List.Chain' (fun i j => pf i = some j) [b, a] := hp.infix hinf
  exact (nchain_cons_cons.1 hc2).1

/-- A nil-terminated chain: the walk is alive for fewer than `|c|` steps and
hits nil at exactly `|c|` steps. -/
theorem chain_count_linear {nf : Nat → Option Nat} {c : List Nat}
    (hc : NChain nf c) (hlast : ∀ i, c.getLast? = some i → nf i = none) :
    iterN nf c.length c.head? = none ∧
      ∀ k, k < c.length → (iterN nf k c.head?).isSome := by
  constructor
  · rcases eq_or_ne c [] with rfl | hne
    · rfl
    · exact nchain_iterN_last hc none hlast hne
  · intro k hk
    rw [nchain_iterN hc k hk, List.get?_eq_get hk]
    rfl

/-- A closed ring chain: the walk first returns to the head after exactly
`|c|` steps. -/
theorem chain_count_circular {nf : Nat → Option Nat} {c : List Nat}
    (hc : NChain nf c) (hnd : c.Nodup)
    (hwrap : ∀ i j, c.getLast? = some i → c.head? = some j → nf i = some j) :
    iterN nf c.length c.head? = c.head? ∧
      ∀ k, 0 < k → k < c.length → iterN nf k c.head? ≠ c.head? := by
  constructor
  · rcases eq_or_ne c [] with rfl | hne
    · rfl
    · refine nchain_iterN_last hc c.head? ?_ hne
      intro i hi
      obtain ⟨x, hx⟩ : ∃ x, c.head? = some x := by
        cases c with
        | nil => exact absurd rfl hne
        | cons x c2 => exact ⟨x, rfl⟩
      rw [hx]
      exact hwrap i x hi hx
  · intro k hk0 hk
    have h0lt : 0 < c.length := by omega
    obtain ⟨x, hx⟩ : ∃ x, c.head? = some x := by
      cases c with
      | nil => simp at h0lt
      | cons x c2 => exact ⟨x, rfl⟩
    rw [nchain_iterN hc k hk, hx, List.get?_eq_get hk]
    intro he
    have hxz : c.get ⟨0, h0lt⟩ = x := by
      have h00 : c.get? 0 = some x := by
        rw [List.get?_zero]
        exact hx
      rw [List.get?_eq_get h0lt] at h00
      exact Option.some.inj h00
    have hgk : c.get ⟨k, hk⟩ = c.get ⟨0, h0lt⟩ := by
      rw [hxz]
      exact Option.some.inj he
    have := (List.Nodup.get_inj_iff hnd).1 hgk
    have hk00 : k = 0 := by
      have := Fin.mk.injEq k hk 0 h0lt ▸ congrArg Fin.val this
      simpa using this
    omega

/-- A nonempty well-formed circular singly ring is closed: the stored tail
links back to the computed head. -/
theorem csrepr_ring {l : CircularSinglyLinkedList T} {c : List Nat}
    (hc : CSRepr l c) (hne : c ≠ []) :
    ∃ t hd, l.Tail = some t ∧ l.Head = some hd ∧ sNextF l.heap t = some hd := by
  obtain ⟨t, ht⟩ : ∃ t, c.getLast? = some t :=
    ⟨c.getLast hne, List.getLast?_eq_getLast c hne⟩
  obtain ⟨hd, hh⟩ : ∃ hd, c.head? = some hd := by
    cases c with
    | nil => exact absurd rfl hne
    | cons x c2 => exact ⟨x, rfl⟩
  exact ⟨t, hd, hc.tail_eq.trans ht, hc.csHeadEq.trans hh, hc.wrap t hd ht hh⟩

/-- A nonempty well-formed circular doubly ring is closed in both
directions. -/
theorem cdrepr_ring {l : CircularDoublyLinkedList T} {c : List Nat}
    (hc : CDRepr l c) (hne : c ≠ []) :
    ∃ t hd, l.Tail = some t ∧ l.Head = some hd ∧ dNextF l.heap t = some hd ∧
      dPrevF l.heap hd = some t := by
  obtain ⟨t, ht⟩ : ∃ t, c.getLast? = some t :=
    ⟨c.getLast hne, List.getLast?_eq_getLast c hne⟩
  obtain ⟨hd, hh⟩ : ∃ hd, c.head? = some hd := by
    cases c with
    | nil => exact absurd rfl hne
    | cons x c2 => exact ⟨x, rfl⟩
  exact ⟨t, hd, hc.tail_eq.trans ht, hc.cdHeadEq.trans hh, hc.wrap t hd ht hh,
    hc.pwrap hd t hh ht⟩

/-! ### Claim theorems -/

/-- C1: for both circular variants, every list reachable from the empty
list by the public operations with `size > 0` satisfies ring closure: the
tail node's next link is the head node, and for the circular doubly
variant additionally the head node's prev link is the tail node. -/
theorem claim_C1 {T : Type} [Inhabited T] [DecidableEq T] :
    (∀ l : CircularSinglyLinkedList T, CSReach l → 0 < l.size →
      ∃ t hd, l.Tail = some t ∧ l.Head = some hd ∧ sNextF l.heap t = some hd) ∧
    (∀ l : CircularDoublyLinkedList T, CDReach l → 0 < l.size →
      ∃ t hd, l.Tail = some t ∧ l.Head = some hd ∧ dNextF l.heap t = some hd ∧
        dPrevF l.heap hd = some t) := by
  constructor
  · intro l hr hpos
    obtain ⟨c, hc⟩ := CSReach_wf hr
    have hne : c ≠ [] := by
      intro hce
      rw [hc.csEmptyIff.2 hce] at hpos
      exact absurd hpos (lt_irrefl 0)
    exact csrepr_ring hc hne
  · intro l hr hpos
    obtain ⟨c, hc⟩ := CDReach_wf hr
    have hne : c ≠ [] := by
      intro hce
      rw [hc.cdEmptyIff.2 hce] at hpos
      exact absurd hpos (lt_irrefl 0)
    exact cdrepr_ring hc hne

/-- Witness for C1: the singleton ring made by one Prepend is closed onto
its only node in both variants. -/
theorem claim_C1_witness :
    sNextF ((CircularSinglyLinkedList.New (T := Int)).Prepend 5).heap 0 = some 0 ∧
    dNextF ((CircularDoublyLinkedList.New (T := Int)).Prepend 5).heap 0 = some 0 ∧
    dPrevF ((CircularDoublyLinkedList.New (T := Int)).Prepend 5).heap 0 = some 0 := by
  obtain ⟨t, hd, h1, h2, h3⟩ :=
    (claim_C1 (T := Int)).1 _ (CSReach.prepend 5 CSReach.new) (by decide)
  obtain ⟨t2, hd2, g1, g2, g3, g4⟩ :=
    (claim_C1 (T := Int)).2 _ (CDReach.prepend 5 CDReach.new) (by decide)
  have ht : t = 0 := by
    have h0 : ((CircularSinglyLinkedList.New (T := Int)).Prepend 5).Tail = some 0 := rfl
    exact Option.some.inj (h1.symm.trans h0)
  have hhd : hd = 0 := by
    have h0 : ((CircularSinglyLinkedList.New (T := Int)).Prepend 5).Head = some 0 := rfl
    exact Option.some.inj (h2.symm.trans h0)
  have ht2 : t2 = 0 := by
    have h0 : ((CircularDoublyLinkedList.New (T := Int)).Prepend 5).Tail = some 0 := rfl
    exact Option.some.inj (g1.symm.trans h0)
  have hhd2 : hd2 = 0 := by
    have h0 : ((CircularDoublyLinkedList.New (T := Int)).Prepend 5).Head = some 0 := rfl
    exact Option.some.inj (g2.symm.trans h0)
  rw [ht, hhd] at h3
  rw [ht2, hhd2] at g3 g4
  exact ⟨h3, g3, g4⟩

/-- C2: for both doubly variants, every reachable list satisfies prev/next
symmetry: its nodes form a well-formed chain, and for any two nodes of the
list with `a.next == b`, also `b.prev == a`. -/
theorem claim_C2 {T : Type} [Inhabited T] [DecidableEq T] :
    (∀ l : DoublyLinkedList T, DReach l → ∃ c, DRepr l c ∧
      ∀ a b, a ∈ c → b ∈ c → dNextF l.heap a = some b → dPrevF l.heap b = some a) ∧
    (∀ l : CircularDoublyLinkedList T, CDReach l → ∃ c, CDRepr l c ∧
      ∀ a b, a ∈ c → b ∈ c → dNextF l.heap a = some b → dPrevF l.heap b = some a) := by
  constructor
  · intro l hr
    obtain ⟨c, hc⟩ := DReach_wf hr
    refine ⟨c, hc, ?_⟩
    intro a b ha hb hnext
    rcases chain_next_cases hc.links ha with hlast | ⟨c1, b', c2, heq, hnf⟩
    · rw [hc.last_none a hlast] at hnext
      exact absurd hnext (by simp)
    · have hbb : b' = b := by
        rw [hnf] at hnext
        exact Option.some.inj hnext
      rw [← hbb]
      exact chain_prev_of_pair hc.plinks heq
  · intro l hr
    obtain ⟨c, hc⟩ := CDReach_wf hr
    refine ⟨c, hc, ?_⟩
    intro a b ha hb hnext
    rcases chain_next_cases hc.links ha with hlast | ⟨c1, b', c2, heq, hnf⟩
    · obtain ⟨hd, hh⟩ : ∃ hd, c.head? = some hd := by
        cases c with
        | nil => simp at ha
        | cons x c2 => exact ⟨x, rfl⟩
      have hwr := hc.wrap a hd hlast hh
      have hbd : hd = b := by
        rw [hwr] at hnext
        exact Option.some.inj hnext
      rw [← hbd]
      exact hc.pwrap hd a hh hlast
    · have hbb : b' = b := by
        rw [hnf] at hnext
        exact Option.some.inj hnext
      rw [← hbb]
      exact chain_prev_of_pair hc.plinks heq

/-- Witness for C2: in the two-element lists `[1, 2]` built by two
Prepends, the second node's prev points back at the head node. -/
theorem claim_C2_witness :
    dPrevF (((DoublyLinkedList.New (T := Int)).Prepend 2).Prepend 1).heap 0 = some 1 ∧
    dPrevF (((CircularDoublyLinkedList.New (T := Int)).Prepend 2).Prepend 1).heap 0 =
      some 1 := by
  constructor
  · obtain ⟨c, hrepr, hsym⟩ := (claim_C2 (T := Int)).1 _
      (DReach.prepend 1 (DReach.prepend 2 DReach.new))
    have hh : c.head? = some 1 := by
      have := hrepr.head_eq
      exact this.symm.trans (by rfl)
    have hl : c.getLast? = some 0 := by
      have := hrepr.tail_eq
      exact this.symm.trans (by rfl)
    refine hsym 1 0 ?_ ?_ (by decide)
    · exact List.mem_of_mem_head? hh
    · exact mem_of_getLast?_eq hl
  · obtain ⟨c, hrepr, hsym⟩ := (claim_C2 (T := Int)).2 _
      (CDReach.prepend 1 (CDReach.prepend 2 CDReach.new))
    have hh : c.head? = some 1 := by
      have := hrepr.cdHeadEq
      exact this.symm.trans (by rfl)
    have hl : c.getLast? = some 0 := by
      have := hrepr.tail_eq
      exact this.symm.trans (by rfl)
    refine hsym 1 0 ?_ ?_ (by decide)
    · exact List.mem_of_mem_head? hh
    · exact mem_of_getLast?_eq hl

/-- C3: in all four variants, Get and Set report out of bounds exactly when
`index < 0 ∨ index ≥ size`, InsertAt exactly when `index < 0 ∨ index > size`,
and an erroring Set or InsertAt returns the list unmodified. -/
theorem claim_C3 {T : Type} [Inhabited T] :
    (∀ (l : SinglyLinkedList T) (index : Int) (v : T),
      ((l.Get index).1.isSome ↔ index < 0 ∨ index ≥ l.size) ∧
      ((l.Set index v).1.isSome ↔ index < 0 ∨ index ≥ l.size) ∧
      ((l.InsertAt index v).1.isSome ↔ index < 0 ∨ index > l.size) ∧
      ((l.Set index v).1.isSome → (l.Set index v).2 = l) ∧
      ((l.InsertAt index v).1.isSome → (l.InsertAt index v).2 = l)) ∧
    (∀ (l : CircularSinglyLinkedList T) (index : Int) (v : T),
      ((l.Get index).1.isSome ↔ index < 0 ∨ index ≥ l.size) ∧
      ((l.Set index v).1.isSome ↔ index < 0 ∨ index ≥ l.size) ∧
      ((l.InsertAt index v).1.isSome ↔ index < 0 ∨ index > l.size) ∧
      ((l.Set index v).1.isSome → (l.Set index v).2 = l) ∧
      ((l.InsertAt index v).1.isSome → (l.InsertAt index v).2 = l)) ∧
    (∀ (l : DoublyLinkedList T) (index : Int) (v : T),
      ((l.Get index).1.isSome ↔ index < 0 ∨ index ≥ l.size) ∧
      ((l.Set index v).1.isSome ↔ index < 0 ∨ index ≥ l.size) ∧
      ((l.InsertAt index v).1.isSome ↔ index < 0 ∨ index > l.size) ∧
      ((l.Set index v).1.isSome → (l.Set index v).2 = l) ∧
      ((l.InsertAt index v).1.isSome → (l.InsertAt index v).2 = l)) ∧
    (∀ (l : CircularDoublyLinkedList T) (index : Int) (v : T),
      ((l.Get index).1.isSome ↔ index < 0 ∨ index ≥ l.size) ∧
      ((l.Set index v).1.isSome ↔ index < 0 ∨ index ≥ l.size) ∧
      ((l.InsertAt index v).1.isSome ↔ index < 0 ∨ index > l.size) ∧
      ((l.Set index v).1.isSome → (l.Set index v).2 = l) ∧
      ((l.InsertAt index v).1.isSome → (l.InsertAt index v).2 = l)) := by
  refine ⟨?_, ?_, ?_, ?_⟩
  · intro l index v
    refine ⟨?_, ?_, ?_, ?_, ?_⟩
    · by_cases h : index < 0 ∨ index ≥ l.size <;>
        simp [SinglyLinkedList.Get, h]
    · by_cases h : index < 0 ∨ index ≥ l.size <;>
        simp [SinglyLinkedList.Set, SinglyLinkedList.Get, h]
    · by_cases h : index < 0 ∨ index > l.size
      · simp [SinglyLinkedList.InsertAt, h]
      · have hnone : (l.InsertAt index v).1 = none := by
          unfold SinglyLinkedList.InsertAt
          rw [if_neg h]
          by_cases h0 : index = 0
          · rw [if_pos h0]
          · rw [if_neg h0]
            by_cases hs : index = l.size
            · rw [if_pos hs]
            · rw [if_neg hs]
        simp [hnone, h]
    · intro herr
      by_cases h : index < 0 ∨ index ≥ l.size
      · simp [SinglyLinkedList.Set, SinglyLinkedList.Get, h]
      · exfalso
        simp [SinglyLinkedList.Set, SinglyLinkedList.Get, h] at herr
    · intro herr
      by_cases h : index < 0 ∨ index > l.size
      · simp [SinglyLinkedList.InsertAt, h]
      · exfalso
        have hnone : (l.InsertAt index v).1 = none := by
          unfold SinglyLinkedList.InsertAt
          rw [if_neg h]
          by_cases h0 : index = 0
          · rw [if_pos h0]
          · rw [if_neg h0]
            by_cases hs : index = l.size
            · rw [if_pos hs]
            · rw [if_neg hs]
        rw [hnone] at herr
        simp at herr
  · intro l index v
    refine ⟨?_, ?_, ?_, ?_, ?_⟩
    · by_cases h : index < 0 ∨ index ≥ l.size <;>
        simp [CircularSinglyLinkedList.Get, h]
    · by_cases h : index < 0 ∨ index ≥ l.size <;>
        simp [CircularSinglyLinkedList.Set, CircularSinglyLinkedList.Get, h]
    · by_cases h : index < 0 ∨ index > l.size
      · simp [CircularSinglyLinkedList.InsertAt, h]
      · have hnone : (l.InsertAt index v).1 = none := by
          unfold CircularSinglyLinkedList.InsertAt
          rw [if_neg h]
          by_cases h0 : index = 0
          · rw [if_pos h0]
          · rw [if_neg h0]
            by_cases hs : index = l.size
            · rw [if_pos hs]
            · rw [if_neg hs]
        simp [hnone, h]
    · intro herr
      by_cases h : index < 0 ∨ index ≥ l.size
      · simp [CircularSinglyLinkedList.Set, CircularSinglyLinkedList.Get, h]
      · exfalso
        simp [CircularSinglyLinkedList.Set, CircularSinglyLinkedList.Get, h] at herr
    · intro herr
      by_cases h : index < 0 ∨ index > l.size
      · simp [CircularSinglyLinkedList.InsertAt, h]
      · exfalso
        have hnone : (l.InsertAt index v).1 = none := by
          unfold CircularSinglyLinkedList.InsertAt
          rw [if_neg h]
          by_cases h0 : index = 0
          · rw [if_pos h0]
          · rw [if_neg h0]
            by_cases hs : index = l.size
            · rw [if_pos hs]
            · rw [if_neg hs]
        rw [hnone] at herr
        simp at herr
  · intro l index v
    refine ⟨?_, ?_, ?_, ?_, ?_⟩
    · by_cases h : index < 0 ∨ index ≥ l.size <;>
        simp [DoublyLinkedList.Get, h]
    · by_cases h : index < 0 ∨ index ≥ l.size <;>
        simp [DoublyLinkedList.Set, DoublyLinkedList.Get, h]
    · by_cases h : index < 0 ∨ index > l.size
      · simp [DoublyLinkedList.InsertAt, h]
      · have hnone : (l.InsertAt index v).1 = none := by
          unfold DoublyLinkedList.InsertAt
          rw [if_neg h]
          by_cases h0 : index = 0
          · rw [if_pos h0]
          · rw [if_neg h0]
            by_cases hs : index = l.size
            · rw [if_pos hs]
            · rw [if_neg hs]
        simp [hnone, h]
    · intro herr
      by_cases h : index < 0 ∨ index ≥ l.size
      · simp [DoublyLinkedList.Set, DoublyLinkedList.Get, h]
      · exfalso
        simp [DoublyLinkedList.Set, DoublyLinkedList.Get, h] at herr
    · intro herr
      by_cases h : index < 0 ∨ index > l.size
      · simp [DoublyLinkedList.InsertAt, h]
      · exfalso
        have hnone : (l.InsertAt index v).1 = none := by
          unfold DoublyLinkedList.InsertAt
          rw [if_neg h]
          by_cases h0 : index = 0
          · rw [if_pos h0]
          · rw [if_neg h0]
            by_cases hs : index = l.size
            · rw [if_pos hs]
            · rw [if_neg hs]
        rw [hnone] at herr
        simp at herr
  · intro l index v
    refine ⟨?_, ?_, ?_, ?_, ?_⟩
    · by_cases h : index < 0 ∨ index ≥ l.size <;>
        simp [CircularDoublyLinkedList.Get, h]
    · by_cases h : index < 0 ∨ index ≥ l.size <;>
        simp [CircularDoublyLinkedList.Set, CircularDoublyLinkedList.Get, h]
    · by_cases h : index < 0 ∨ index > l.size
      · simp [CircularDoublyLinkedList.InsertAt, h]
      · have hnone : (l.InsertAt index v).1 = none := by
          unfold CircularDoublyLinkedList.InsertAt
          rw [if_neg h]
          by_cases h0 : index = 0
          · rw [if_pos h0]
          · rw [if_neg h0]
            by_cases hs : index = l.size
            · rw [if_pos hs]
            · rw [if_neg hs]
        simp [hnone, h]
    · intro herr
      by_cases h : index < 0 ∨ index ≥ l.size
      · simp [CircularDoublyLinkedList.Set, CircularDoublyLinkedList.Get, h]
      · exfalso
        simp [CircularDoublyLinkedList.Set, CircularDoublyLinkedList.Get, h] at herr
    · intro herr
      by_cases h : index < 0 ∨ index > l.size
      · simp [CircularDoublyLinkedList.InsertAt, h]
      · exfalso
        have hnone : (l.InsertAt index v).1 = none := by
          unfold CircularDoublyLinkedList.InsertAt
          rw [if_neg h]
          by_cases h0 : index = 0
          · rw [if_pos h0]
          · rw [if_neg h0]
            by_cases hs : index = l.size
            · rw [if_pos hs]
            · rw [if_neg hs]
        rw [hnone] at herr
        simp at herr

/-- Witness for C3: concrete erroring calls report the error and leave the
concrete list untouched. -/
theorem claim_C3_witness :
    ((SinglyLinkedList.New (T := Int)).Set 0 7).1.isSome ∧
    ((SinglyLinkedList.New (T := Int)).Set 0 7).2 = SinglyLinkedList.New ∧
    ((CircularSinglyLinkedList.New (T := Int)).InsertAt 1 7).1.isSome ∧
    ((CircularSinglyLinkedList.New (T := Int)).InsertAt 1 7).2 =
      CircularSinglyLinkedList.New ∧
    ((DoublyLinkedList.New (T := Int)).Get (-1)).1.isSome ∧
    ((CircularDoublyLinkedList.New (T := Int)).Set 2 7).2 =
      CircularDoublyLinkedList.New := by
  have h1 := (claim_C3 (T := Int)).1 SinglyLinkedList.New 0 7
  have h2 := (claim_C3 (T := Int)).2.1 CircularSinglyLinkedList.New 1 7
  have h3 := (claim_C3 (T := Int)).2.2.1 DoublyLinkedList.New (-1) 7
  have h4 := (claim_C3 (T := Int)).2.2.2 CircularDoublyLinkedList.New 2 7
  refine ⟨?_, ?_, ?_, ?_, ?_, ?_⟩
  · exact h1.2.1.mpr (by decide)
  · exact h1.2.2.2.1 (h1.2.1.mpr (by decide))
  · exact h2.2.2.1.mpr (by decide)
  · exact h2.2.2.2.2 (h2.2.2.1.mpr (by decide))
  · exact h3.1.mpr (by decide)
  · exact h4.2.2.2.1 (h4.2.1.mpr (by decide))

/-- C4: for every reachable list, `size` counts a full traversal from
head: the linear walks hit the nil link after exactly `size` steps and are
alive before, the circular walks first return to the head after exactly
`size` steps. -/
theorem claim_C4 {T : Type} [Inhabited T] [DecidableEq T] :
    (∀ l : SinglyLinkedList T, SReach l →
      iterN (sNextF l.heap) l.size.toNat l.head = none ∧
      ∀ k, k < l.size.toNat → (iterN (sNextF l.heap) k l.head).isSome) ∧
    (∀ l : CircularSinglyLinkedList T, CSReach l →
      iterN (sNextF l.heap) l.size.toNat l.Head = l.Head ∧
      ∀ k, 0 < k → k < l.size.toNat → iterN (sNextF l.heap) k l.Head ≠ l.Head) ∧
    (∀ l : DoublyLinkedList T, DReach l →
      iterN (dNextF l.heap) l.size.toNat l.head = none ∧
      ∀ k, k < l.size.toNat → (iterN (dNextF l.heap) k l.head).isSome) ∧
    (∀ l : CircularDoublyLinkedList T, CDReach l →
      iterN (dNextF l.heap) l.size.toNat l.Head = l.Head ∧
      ∀ k, 0 < k → k < l.size.toNat → iterN (dNextF l.heap) k l.Head ≠ l.Head) := by
  refine ⟨?_, ?_, ?_, ?_⟩
  · intro l hr
    obtain ⟨c, hc⟩ := SReach_wf hr
    rw [hc.sSizeToNat, hc.head_eq]
    exact chain_count_linear hc.links hc.last_none
  · intro l hr
    obtain ⟨c, hc⟩ := CSReach_wf hr
    rw [hc.csSizeToNat, hc.csHeadEq]
    exact chain_count_circular hc.links hc.nodup hc.wrap
  · intro l hr
    obtain ⟨c, hc⟩ := DReach_wf hr
    rw [hc.dSizeToNat, hc.head_eq]
    exact chain_count_linear hc.links hc.last_none
  · intro l hr
    obtain ⟨c, hc⟩ := CDReach_wf hr
    rw [hc.cdSizeToNat, hc.cdHeadEq]
    exact chain_count_circular hc.links hc.nodup hc.wrap

/-- Witness for C4: on singleton lists the linear walks hit nil after one
step and the circular walks return to the head after one step. -/
theorem claim_C4_witness :
    iterN (sNextF ((SinglyLinkedList.New (T := Int)).Prepend 3).heap)
      ((SinglyLinkedList.New (T := Int)).Prepend 3).size.toNat
      ((SinglyLinkedList.New (T := Int)).Prepend 3).head = none ∧
    iterN (sNextF ((CircularSinglyLinkedList.New (T := Int)).Prepend 3).heap)
      ((CircularSinglyLinkedList.New (T := Int)).Prepend 3).size.toNat
      ((CircularSinglyLinkedList.New (T := Int)).Prepend 3).Head =
      ((CircularSinglyLinkedList.New (T := Int)).Prepend 3).Head ∧
    iterN (dNextF ((DoublyLinkedList.New (T := Int)).Prepend 3).heap)
      ((DoublyLinkedList.New (T := Int)).Prepend 3).size.toNat
      ((DoublyLinkedList.New (T := Int)).Prepend 3).head = none ∧
    iterN (dNextF ((CircularDoublyLinkedList.New (T := Int)).Prepend 3).heap)
      ((CircularDoublyLinkedList.New (T := Int)).Prepend 3).size.toNat
      ((CircularDoublyLinkedList.New (T := Int)).Prepend 3).Head =
      ((CircularDoublyLinkedList.New (T := Int)).Prepend 3).Head :=
  ⟨((claim_C4 (T := Int)).1 _ (SReach.prepend 3 SReach.new)).1,
   ((claim_C4 (T := Int)).2.1 _ (CSReach.prepend 3 CSReach.new)).1,
   ((claim_C4 (T := Int)).2.2.1 _ (DReach.prepend 3 DReach.new)).1,
   ((claim_C4 (T := Int)).2.2.2 _ (CDReach.prepend 3 CDReach.new)).1⟩

/-- C5: on every reachable list of each variant, reversing twice restores
the head-to-tail sequence of values. -/
theorem claim_C5 {T : Type} [Inhabited T] [DecidableEq T] :
    (∀ l : SinglyLinkedList T, SReach l →
      l.Reverse.Reverse.ForEachSeq = l.ForEachSeq) ∧
    (∀ l : CircularSinglyLinkedList T, CSReach l →
      l.Reverse.Reverse.ForEachSeq = l.ForEachSeq) ∧
    (∀ l : DoublyLinkedList T, DReach l →
      l.Reverse.Reverse.ForEachSeq = l.ForEachSeq) ∧
    (∀ l : CircularDoublyLinkedList T, CDReach l →
      l.Reverse.Reverse.ForEachSeq = l.ForEachSeq) := by
  refine ⟨?_, ?_, ?_, ?_⟩
  · intro l hr
    obtain ⟨c, hc⟩ := SReach_wf hr
    obtain ⟨h1, hv1⟩ := SLL_Reverse_repr hc
    obtain ⟨h2, hv2⟩ := SLL_Reverse_repr h1
    have h2c : SRepr l.Reverse.Reverse c := by
      rw [← List.reverse_reverse c]
      exact h2
    rw [SLL_ForEachSeq_spec h2c, SLL_ForEachSeq_spec hc]
    have hfun : sValD l.Reverse.Reverse.heap = sValD l.heap :=
      funext fun i => (hv2 i).trans (hv1 i)
    rw [hfun]
  · intro l hr
    obtain ⟨c, hc⟩ := CSReach_wf hr
    obtain ⟨h1, hv1⟩ := CSLL_Reverse_repr hc
    obtain ⟨h2, hv2⟩ := CSLL_Reverse_repr h1
    have h2c : CSRepr l.Reverse.Reverse c := by
      rw [← List.reverse_reverse c]
      exact h2
    rw [CSLL_ForEachSeq_spec h2c, CSLL_ForEachSeq_spec hc]
    have hfun : sValD l.Reverse.Reverse.heap = sValD l.heap :=
      funext fun i => (hv2 i).trans (hv1 i)
    rw [hfun]
  · intro l hr
    obtain ⟨c, hc⟩ := DReach_wf hr
    obtain ⟨h1, hv1⟩ := DLL_Reverse_repr hc
    obtain ⟨h2, hv2⟩ := DLL_Reverse_repr h1
    have h2c : DRepr l.Reverse.Reverse c := by
      rw [← List.reverse_reverse c]
      exact h2
    rw [DLL_ForEachSeq_spec h2c, DLL_ForEachSeq_spec hc]
    have hfun : dValD l.Reverse.Reverse.heap = dValD l.heap :=
      funext fun i => (hv2 i).trans (hv1 i)
    rw [hfun]
  · intro l hr
    obtain ⟨c, hc⟩ := CDReach_wf hr
    obtain ⟨h1, hv1⟩ := CDLL_Reverse_repr hc
    obtain ⟨h2, hv2⟩ := CDLL_Reverse_repr h1
    have h2c : CDRepr l.Reverse.Reverse c := by
      rw [← List.reverse_reverse c]
      exact h2
    rw [CDLL_ForEachSeq_spec h2c, CDLL_ForEachSeq_spec hc]
    have hfun : dValD l.Reverse.Reverse.heap = dValD l.heap :=
      funext fun i => (hv2 i).trans (hv1 i)
    rw [hfun]

/-- Witness for C5: double reversal of the two-element list `[1, 2]`
restores its visit order in each variant. -/
theorem claim_C5_witness :
    (((DoublyLinkedList.New (T := Int)).Prepend 2).Prepend 1).Reverse.Reverse.ForEachSeq =
      (((DoublyLinkedList.New (T := Int)).Prepend 2).Prepend 1).ForEachSeq ∧
    (((SinglyLinkedList.New (T := Int)).Prepend 2).Prepend 1).Reverse.Reverse.ForEachSeq =
      (((SinglyLinkedList.New (T := Int)).Prepend 2).Prepend 1).ForEachSeq ∧
    (((CircularSinglyLinkedList.New (T := Int)).Prepend 2).Prepend
      1).Reverse.Reverse.ForEachSeq =
      (((CircularSinglyLinkedList.New (T := Int)).Prepend 2).Prepend 1).ForEachSeq ∧
    (((CircularDoublyLinkedList.New (T := Int)).Prepend 2).Prepend
      1).Reverse.Reverse.ForEachSeq =
      (((CircularDoublyLinkedList.New (T := Int)).Prepend 2).Prepend 1).ForEachSeq :=
  ⟨(claim_C5 (T := Int)).2.2.1 _ (DReach.prepend 1 (DReach.prepend 2 DReach.new)),
   (claim_C5 (T := Int)).1 _ (SReach.prepend 1 (SReach.prepend 2 SReach.new)),
   (claim_C5 (T := Int)).2.1 _ (CSReach.prepend 1 (CSReach.prepend 2 CSReach.new)),
   (claim_C5 (T := Int)).2.2.2 _ (CDReach.prepend 1 (CDReach.prepend 2 CDReach.new))⟩

/-- C6: on empty reachable lists every non-indexed operation is a silent
no-op (Find nil, Contains false, empty visit trace, unchanged or
still-empty list), and removing an absent value leaves the list
unchanged while Find stays nil. -/
theorem claim_C6 {T : Type} [Inhabited T] [DecidableEq T] :
    (∀ l : SinglyLinkedList T, SReach l → l.size = 0 →
      l.RemoveFirst = l ∧ l.RemoveLast = l ∧ (∀ v, l.Remove v = l) ∧
      (∀ v, l.Find v = none) ∧ (∀ v, l.Contains v = false) ∧
      l.Reverse = l ∧ l.ForEachSeq = [] ∧ l.Clear.size = 0 ∧ l.Clear.ForEachSeq = []) ∧
    (∀ l : CircularSinglyLinkedList T, CSReach l → l.size = 0 →
      l.RemoveFirst = l ∧ l.RemoveLast = l ∧ (∀ v, l.Remove v = l) ∧
      (∀ v, l.Find v = none) ∧ (∀ v, l.Contains v = false) ∧
      l.Reverse = l ∧ l.ForEachSeq = [] ∧ l.Clear.size = 0 ∧ l.Clear.ForEachSeq = []) ∧
    (∀ l : DoublyLinkedList T, DReach l → l.size = 0 →
      l.RemoveFirst = l ∧ l.RemoveLast = l ∧ (∀ v, l.Remove v = l) ∧
      (∀ v, l.Find v = none) ∧ (∀ v, l.Contains v = false) ∧
      l.Reverse = l ∧ l.ForEachSeq = [] ∧ l.Clear.size = 0 ∧ l.Clear.ForEachSeq = []) ∧
    (∀ l : CircularDoublyLinkedList T, CDReach l → l.size = 0 →
      l.RemoveFirst = l ∧ l.RemoveLast = l ∧ (∀ v, l.Remove v = l) ∧
      (∀ v, l.Find v = none) ∧ (∀ v, l.Contains v = false) ∧
      l.Reverse = l ∧ l.ForEachSeq = [] ∧ l.Clear.size = 0 ∧ l.Clear.ForEachSeq = []) ∧
    (∀ (l : SinglyLinkedList T) (v : T), SReach l → l.Contains v = false →
      l.Remove v = l ∧ l.Find v = none) ∧
    (∀ (l : CircularSinglyLinkedList T) (v : T), CSReach l → l.Contains v = false →
      l.Remove v = l ∧ l.Find v = none) ∧
    (∀ (l : DoublyLinkedList T) (v : T), DReach l → l.Contains v = false →
      l.Remove v = l ∧ l.Find v = none) ∧
    (∀ (l : CircularDoublyLinkedList T) (v : T), CDReach l → l.Contains v = false →
      l.Remove v = l ∧ l.Find v = none) := by
  have hfind_of_contains_s : ∀ (l : SinglyLinkedList T) (v : T),
      l.Contains v = false → l.Find v = none := by
    intro l v hco
    rcases hF : l.Find v with _ | m
    · rfl
    · exfalso
      unfold SinglyLinkedList.Contains at hco
      rw [hF] at hco
      simp at hco
  have hfind_of_contains_cs : ∀ (l : CircularSinglyLinkedList T) (v : T),
      l.Contains v = false → l.Find v = none := by
    intro l v hco
    rcases hF : l.Find v with _ | m
    · rfl
    · exfalso
      unfold CircularSinglyLinkedList.Contains at hco
      rw [hF] at hco
      simp at hco
  have hfind_of_contains_d : ∀ (l : DoublyLinkedList T) (v : T),
      l.Contains v = false → l.Find v = none := by
    intro l v hco
    rcases hF : l.Find v with _ | m
    · rfl
    · exfalso
      unfold DoublyLinkedList.Contains at hco
      rw [hF] at hco
      simp at hco
  have hfind_of_contains_cd : ∀ (l : CircularDoublyLinkedList T) (v : T),
      l.Contains v = false → l.Find v = none := by
    intro l v hco
    rcases hF : l.Find v with _ | m
    · rfl
    · exfalso
      unfold CircularDoublyLinkedList.Contains at hco
      rw [hF] at hco
      simp at hco
  refine ⟨?_, ?_, ?_, ?_, ?_, ?_, ?_, ?_⟩
  · intro l hr hz
    obtain ⟨c, hc⟩ := SReach_wf hr
    have hce : c = [] := hc.sEmptyIff.1 hz
    subst hce
    have hh : l.head = none := hc.head_eq.trans rfl
    have ht : l.tail = none := hc.tail_eq.trans rfl
    have hfind : ∀ v, l.Find v = none := by
      intro v
      rw [SLL_Find_spec hc]
      rfl
    refine ⟨?_, ?_, ?_, hfind, ?_, ?_, ?_, rfl, rfl⟩
    · unfold SinglyLinkedList.RemoveFirst
      rw [if_pos hz]
    · unfold SinglyLinkedList.RemoveLast
      rw [if_pos hz]
    · intro v
      unfold SinglyLinkedList.Remove
      rw [hfind v]
    · intro v
      unfold SinglyLinkedList.Contains
      rw [hfind v]
      rfl
    · rcases l with ⟨hp, hd, tl, sz⟩
      have hh2 : hd = none := hh
      have ht2 : tl = none := ht
      subst hh2
      subst ht2
      rfl
    · rw [SLL_ForEachSeq_spec hc]
      rfl
  · intro l hr hz
    have hfind : ∀ v, l.Find v = none := by
      intro v
      unfold CircularSinglyLinkedList.Find
      rw [if_pos hz]
    refine ⟨?_, ?_, ?_, hfind, ?_, ?_, ?_, rfl, rfl⟩
    · unfold CircularSinglyLinkedList.RemoveFirst
      rw [if_pos hz]
    · unfold CircularSinglyLinkedList.RemoveLast
      rw [if_pos hz]
    · intro v
      unfold CircularSinglyLinkedList.Remove
      rw [if_pos hz]
    · intro v
      unfold CircularSinglyLinkedList.Contains
      rw [hfind v]
      rfl
    · unfold CircularSinglyLinkedList.Reverse
      rw [if_pos (Or.inl hz)]
    · unfold CircularSinglyLinkedList.ForEachSeq
      rw [if_pos hz]
  · intro l hr hz
    obtain ⟨c, hc⟩ := DReach_wf hr
    have hce : c = [] := hc.dEmptyIff.1 hz
    subst hce
    have hh : l.head = none := hc.head_eq.trans rfl
    have ht : l.tail = none := hc.tail_eq.trans rfl
    have hfind : ∀ v, l.Find v = none := by
      intro v
      rw [DLL_Find_spec hc]
      rfl
    refine ⟨?_, ?_, ?_, hfind, ?_, ?_, ?_, rfl, rfl⟩
    · unfold DoublyLinkedList.RemoveFirst
      rw [if_pos hz]
    · unfold DoublyLinkedList.RemoveLast
      rw [if_pos hz]
    · intro v
      unfold DoublyLinkedList.Remove
      rw [hfind v]
    · intro v
      unfold DoublyLinkedList.Contains
      rw [hfind v]
      rfl
    · rcases l with ⟨hp, hd, tl, sz⟩
      have hh2 : hd = none := hh
      have ht2 : tl = none := ht
      subst hh2
      subst ht2
      rfl
    · rw [DLL_ForEachSeq_spec hc]
      rfl
  · intro l hr hz
    have hfind : ∀ v, l.Find v = none := by
      intro v
      unfold CircularDoublyLinkedList.Find
      rw [if_pos hz]
    refine ⟨?_, ?_, ?_, hfind, ?_, ?_, ?_, rfl, rfl⟩
    · unfold CircularDoublyLinkedList.RemoveFirst
      rw [if_pos hz]
    · unfold CircularDoublyLinkedList.RemoveLast
      rw [if_pos hz]
    · intro v
      unfold CircularDoublyLinkedList.Remove
      rw [if_pos hz]
    · intro v
      unfold CircularDoublyLinkedList.Contains
      rw [hfind v]
      rfl
    · unfold CircularDoublyLinkedList.Reverse
      rw [if_pos (Or.inl hz)]
    · unfold CircularDoublyLinkedList.ForEachSeq
      rw [if_pos hz]
  · intro l v hr hco
    have hf := hfind_of_contains_s l v hco
    refine ⟨?_, hf⟩
    unfold SinglyLinkedList.Remove
    rw [hf]
  · intro l v hr hco
    obtain ⟨c, hc⟩ := CSReach_wf hr
    have hf := hfind_of_contains_cs l v hco
    have hab : ∀ i ∈ c, sValD l.heap i ≠ v := by
      refine firstMatch_eq_none_iff.1 ?_
      rw [← CSLL_Find_spec hc]
      exact hf
    exact ⟨CSLL_Remove_absent hc hab, hf⟩
  · intro l v hr hco
    have hf := hfind_of_contains_d l v hco
    refine ⟨?_, hf⟩
    unfold DoublyLinkedList.Remove
    rw [hf]
  · intro l v hr hco
    obtain ⟨c, hc⟩ := CDReach_wf hr
    have hf := hfind_of_contains_cd l v hco
    have hab : ∀ i ∈ c, dValD l.heap i ≠ v := by
      refine firstMatch_eq_none_iff.1 ?_
      rw [← CDLL_Find_spec hc]
      exact hf
    exact ⟨CDLL_Remove_absent hc hab, hf⟩

/-- Witness for C6: on the concrete empty list every listed operation is a
no-op, and removing the absent value 9 from the singleton `[4]` changes
nothing. -/
theorem claim_C6_witness :
    (SinglyLinkedList.New (T := Int)).RemoveFirst = SinglyLinkedList.New ∧
    (SinglyLinkedList.New (T := Int)).Reverse = SinglyLinkedList.New ∧
    (SinglyLinkedList.New (T := Int)).Find 9 = none ∧
    (CircularSinglyLinkedList.New (T := Int)).Remove 9 = CircularSinglyLinkedList.New ∧
    (CircularSinglyLinkedList.New (T := Int)).ForEachSeq = [] ∧
    (DoublyLinkedList.New (T := Int)).RemoveLast = DoublyLinkedList.New ∧
    (DoublyLinkedList.New (T := Int)).Contains 9 = false ∧
    (CircularDoublyLinkedList.New (T := Int)).Reverse = CircularDoublyLinkedList.New ∧
    (CircularDoublyLinkedList.New (T := Int)).Clear.ForEachSeq = [] ∧
    ((SinglyLinkedList.New (T := Int)).Prepend 4).Remove 9 =
      (SinglyLinkedList.New (T := Int)).Prepend 4 ∧
    ((CircularDoublyLinkedList.New (T := Int)).Prepend 4).Remove 9 =
      (CircularDoublyLinkedList.New (T := Int)).Prepend 4 := by
  have h1 := (claim_C6 (T := Int)).1 _ SReach.new rfl
  have h2 := (claim_C6 (T := Int)).2.1 _ CSReach.new rfl
  have h3 := (claim_C6 (T := Int)).2.2.1 _ DReach.new rfl
  have h4 := (claim_C6 (T := Int)).2.2.2.1 _ CDReach.new rfl
  have h5 := (claim_C6 (T := Int)).2.2.2.2.1 ((SinglyLinkedList.New (T := Int)).Prepend 4)
    9 (SReach.prepend 4 SReach.new) (by decide)
  have h6 := (claim_C6 (T := Int)).2.2.2.2.2.2.2
    ((CircularDoublyLinkedList.New (T := Int)).Prepend 4) 9
    (CDReach.prepend 4 CDReach.new) (by decide)
  exact ⟨h1.1, h1.2.2.2.2.2.1, h1.2.2.2.1 9, h2.2.2.1 9, h2.2.2.2.2.2.2.1,
    h3.2.1, h3.2.2.2.2.1 9, h4.2.2.2.2.2.1, h4.2.2.2.2.2.2.2.2, h5.1, h6.1⟩

/-- Spec-modelled Append for the circular singly list: Prepend, then
advance the stored tail to the newly inserted node (which sits at arena
slot `l.heap.length`). -/
def csAppendSpec (l : CircularSinglyLinkedList T) (v : T) :
    CircularSinglyLinkedList T :=
  { l.Prepend v with tail := some l.heap.length }

/-- Spec-modelled Append for the circular doubly list: Prepend, then
advance the stored tail to the newly inserted node. -/
def cdAppendSpec (l : CircularDoublyLinkedList T) (v : T) :
    CircularDoublyLinkedList T :=
  { l.Prepend v with tail := some l.heap.length }

/-- C7: on every reachable circular list, Append equals Prepend followed by
advancing the tail to the new node; the visit sequence gains the value at
the end, the tail node holds the value, and the ring stays closed. -/
theorem claim_C7 {T : Type} [Inhabited T] [DecidableEq T] :
    (∀ (l : CircularSinglyLinkedList T) (v : T), CSReach l →
      l.Append v = csAppendSpec l v ∧
      (l.Append v).ForEachSeq = l.ForEachSeq ++ [v] ∧
      (∃ t, (l.Append v).Tail = some t ∧ sValD (l.Append v).heap t = v) ∧
      (∃ t hd, (l.Append v).Tail = some t ∧ (l.Append v).Head = some hd ∧
        sNextF (l.Append v).heap t = some hd)) ∧
    (∀ (l : CircularDoublyLinkedList T) (v : T), CDReach l →
      l.Append v = cdAppendSpec l v ∧
      (l.Append v).ForEachSeq = l.ForEachSeq ++ [v] ∧
      (∃ t, (l.Append v).Tail = some t ∧ dValD (l.Append v).heap t = v) ∧
      (∃ t hd, (l.Append v).Tail = some t ∧ (l.Append v).Head = some hd ∧
        dNextF (l.Append v).heap t = some hd)) := by
  constructor
  · intro l v hr
    obtain ⟨c, hc⟩ := CSReach_wf hr
    obtain ⟨ha, hmap⟩ := CSLL_Append_repr hc v
    refine ⟨?_, ?_, ?_, ?_⟩
    · obtain ⟨hp, hpv⟩ := CSLL_Prepend_repr hc v
      have hne : (l.heap.length :: c) ≠ [] := by simp
      obtain ⟨t, ht⟩ : ∃ t, (l.heap.length :: c).getLast? = some t :=
        ⟨_, List.getLast?_eq_getLast _ hne⟩
      have htl : (l.Prepend v).tail = some t := hp.tail_eq.trans ht
      have hw : sNextF (l.Prepend v).heap t = some l.heap.length := hp.wrap t _ ht rfl
      have key : optNext (sNextF (l.Prepend v).heap) (l.Prepend v).tail =
          some l.heap.length := by
        rw [htl]
        simpa [optNext] using hw
      unfold CircularSinglyLinkedList.Append csAppendSpec
      dsimp only
      rw [key]
    · rw [CSLL_ForEachSeq_spec ha, CSLL_ForEachSeq_spec hc, hmap]
    · have htl : (l.Append v).Tail = some l.heap.length := by
        show (l.Append v).tail = some l.heap.length
        rw [ha.tail_eq]
        simp
      refine ⟨l.heap.length, htl, ?_⟩
      have h1 : ((c ++ [l.heap.length]).map (sValD (l.Append v).heap)).getLast? =
          some (sValD (l.Append v).heap l.heap.length) := by
        rw [List.map_append]
        simp
      rw [hmap] at h1
      rw [List.getLast?_concat] at h1
      exact (Option.some.inj h1).symm
    · rcases csrepr_ring ha (by simp) with ⟨t, hd, h1, h2, h3⟩
      exact ⟨t, hd, h1, h2, h3⟩
  · intro l v hr
    obtain ⟨c, hc⟩ := CDReach_wf hr
    obtain ⟨ha, hmap⟩ := CDLL_Append_repr hc v
    refine ⟨?_, ?_, ?_, ?_⟩
    · obtain ⟨hp, hpv⟩ := CDLL_Prepend_repr hc v
      have hne : (l.heap.length :: c) ≠ [] := by simp
      obtain ⟨t, ht⟩ : ∃ t, (l.heap.length :: c).getLast? = some t :=
        ⟨_, List.getLast?_eq_getLast _ hne⟩
      have htl : (l.Prepend v).tail = some t := hp.tail_eq.trans ht
      have hw : dNextF (l.Prepend v).heap t = some l.heap.length := hp.wrap t _ ht rfl
      have key : optNext (dNextF (l.Prepend v).heap) (l.Prepend v).tail =
          some l.heap.length := by
        rw [htl]
        simpa [optNext] using hw
      unfold CircularDoublyLinkedList.Append cdAppendSpec
      dsimp only
      rw [key]
    · rw [CDLL_ForEachSeq_spec ha, CDLL_ForEachSeq_spec hc, hmap]
    · have htl : (l.Append v).Tail = some l.heap.length := by
        show (l.Append v).tail = some l.heap.length
        rw [ha.tail_eq]
        simp
      refine ⟨l.heap.length, htl, ?_⟩
      have h1 : ((c ++ [l.heap.length]).map (dValD (l.Append v).heap)).getLast? =
          some (dValD (l.Append v).heap l.heap.length) := by
        rw [List.map_append]
        simp
      rw [hmap] at h1
      rw [List.getLast?_concat] at h1
      exact (Option.some.inj h1).symm
    · rcases cdrepr_ring ha (by simp) with ⟨t, hd, h1, h2, h3, h4⟩
      exact ⟨t, hd, h1, h2, h3⟩

/-- Witness for C7: appending 2 to the singleton ring `[1]` is exactly the
prepend-then-advance-tail result, and the visit order gains the 2. -/
theorem claim_C7_witness :
    ((CircularSinglyLinkedList.New (T := Int)).Prepend 1).Append 2 =
      csAppendSpec ((CircularSinglyLinkedList.New (T := Int)).Prepend 1) 2 ∧
    (((CircularSinglyLinkedList.New (T := Int)).Prepend 1).Append 2).ForEachSeq =
      ((CircularSinglyLinkedList.New (T := Int)).Prepend 1).ForEachSeq ++ [2] ∧
    ((CircularDoublyLinkedList.New (T := Int)).Prepend 1).Append 2 =
      cdAppendSpec ((CircularDoublyLinkedList.New (T := Int)).Prepend 1) 2 ∧
    (((CircularDoublyLinkedList.New (T := Int)).Prepend 1).Append 2).ForEachSeq =
      ((CircularDoublyLinkedList.New (T := Int)).Prepend 1).ForEachSeq ++ [2] := by
  have h1 := (claim_C7 (T := Int)).1 ((CircularSinglyLinkedList.New (T := Int)).Prepend 1)
    2 (CSReach.prepend 1 CSReach.new)
  have h2 := (claim_C7 (T := Int)).2 ((CircularDoublyLinkedList.New (T := Int)).Prepend 1)
    2 (CDReach.prepend 1 CDReach.new)
  exact ⟨h1.1, h1.2.1, h2.1, h2.2.1⟩

/-- The code's conditional string rendering equals the spec's display
format on the same value list. -/
theorem string_display_bridge [Inhabited T] [ToString T] (name sep : String)
    (c : List Nat) (f : Nat → T) :
    (if c = [] then name ++ ": []" else name ++ ": " ++ bracketJoin sep (c.map f)) =
      displayFormat name sep (c.map f) := by
  by_cases hce : c = []
  · subst hce
    rw [if_pos rfl]
    rfl
  · rw [if_neg hce]
    rcases hm : c.map f with _ | ⟨v, rest⟩
    · exact absurd (List.map_eq_nil.1 hm) hce
    · show name ++ ": " ++ bracketJoin sep (v :: rest) =
        name ++ ": " ++ sepJoin sep ((v :: rest).map (fun x => "[" ++ toString x ++ "]"))
      rw [bracketJoin_sepJoin]

/-- C8: on every nonempty reachable circular list there is a visit chain
`c` of exactly `size` distinct nodes from the head such that walking `k`
links lands on the `k`-th entry, and ForEach, Find and String each scan
exactly this chain in order. -/
theorem claim_C8 {T : Type} [Inhabited T] [DecidableEq T] [ToString T] :
    (∀ l : CircularSinglyLinkedList T, CSReach l → 0 < l.size →
      ∃ c : List Nat, CSRepr l c ∧ c.Nodup ∧ (c.length : Int) = l.size ∧
        (∀ k, k < l.size.toNat → iterN (sNextF l.heap) k l.Head = c.get? k) ∧
        l.ForEachSeq = c.map (sValD l.heap) ∧
        (∀ v, l.Find v = firstMatch (sValD l.heap) v c) ∧
        csllString l = "CircularSinglyLinkedList: " ++
          bracketJoin " -> " (c.map (sValD l.heap))) ∧
    (∀ l : CircularDoublyLinkedList T, CDReach l → 0 < l.size →
      ∃ c : List Nat, CDRepr l c ∧ c.Nodup ∧ (c.length : Int) = l.size ∧
        (∀ k, k < l.size.toNat → iterN (dNextF l.heap) k l.Head = c.get? k) ∧
        l.ForEachSeq = c.map (dValD l.heap) ∧
        (∀ v, l.Find v = firstMatch (dValD l.heap) v c) ∧
        cdllString l = "CircularDoublyLinkedList: " ++
          bracketJoin " <-> " (c.map (dValD l.heap))) := by
  constructor
  · intro l hr hpos
    obtain ⟨c, hc⟩ := CSReach_wf hr
    have hne : c ≠ [] := by
      intro hce
      rw [hc.csEmptyIff.2 hce] at hpos
      exact absurd hpos (lt_irrefl 0)
    refine ⟨c, hc, hc.nodup, hc.size_eq.symm, ?_, CSLL_ForEachSeq_spec hc,
      fun v => CSLL_Find_spec hc v, ?_⟩
    · intro k hk
      rw [hc.csHeadEq]
      exact nchain_iterN hc.links k (hc.csSizeToNat ▸ hk)
    · rw [csllString_spec hc, if_neg hne]
  · intro l hr hpos
    obtain ⟨c, hc⟩ := CDReach_wf hr
    have hne : c ≠ [] := by
      intro hce
      rw [hc.cdEmptyIff.2 hce] at hpos
      exact absurd hpos (lt_irrefl 0)
    refine ⟨c, hc, hc.nodup, hc.size_eq.symm, ?_, CDLL_ForEachSeq_spec hc,
      fun v => CDLL_Find_spec hc v, ?_⟩
    · intro k hk
      rw [hc.cdHeadEq]
      exact nchain_iterN hc.links k (hc.cdSizeToNat ▸ hk)
    · rw [cdllString_spec hc, if_neg hne]

/-- Witness for C8: the singleton ring `[3]` is visited as exactly the one
value 3 in both circular variants. -/
theorem claim_C8_witness :
    ((CircularSinglyLinkedList.New (T := Int)).Prepend 3).ForEachSeq = [3] ∧
    ((CircularDoublyLinkedList.New (T := Int)).Prepend 3).ForEachSeq = [3] := by
  constructor
  · obtain ⟨c, hrepr, hnd, hlen, hiter, hfe, hfind, hstr⟩ :=
      (claim_C8 (T := Int)).1 _ (CSReach.prepend 3 CSReach.new) (by decide)
    have hlen1 : c.length = 1 := by
      have hsz : ((CircularSinglyLinkedList.New (T := Int)).Prepend 3).size = 1 := rfl
      rw [hsz] at hlen
      exact_mod_cast hlen
    obtain ⟨a, ha⟩ := List.length_eq_one.1 hlen1
    subst ha
    have hh : a = 0 := by
      have h1 := hrepr.csHeadEq
      have h2 : ((CircularSinglyLinkedList.New (T := Int)).Prepend 3).Head = some 0 := rfl
      exact Option.some.inj (h1.symm.trans h2)
    subst hh
    rw [hfe]
    rfl
  · obtain ⟨c, hrepr, hnd, hlen, hiter, hfe, hfind, hstr⟩ :=
      (claim_C8 (T := Int)).2 _ (CDReach.prepend 3 CDReach.new) (by decide)
    have hlen1 : c.length = 1 := by
      have hsz : ((CircularDoublyLinkedList.New (T := Int)).Prepend 3).size = 1 := rfl
      rw [hsz] at hlen
      exact_mod_cast hlen
    obtain ⟨a, ha⟩ := List.length_eq_one.1 hlen1
    subst ha
    have hh : a = 0 := by
      have h1 := hrepr.cdHeadEq
      have h2 : ((CircularDoublyLinkedList.New (T := Int)).Prepend 3).Head = some 0 := rfl
      exact Option.some.inj (h1.symm.trans h2)
    subst hh
    rw [hfe]
    rfl

/-- Counterexample for C8's stated stopping mechanism: on a ring state
whose stored `size` undercounts the linked nodes, the circular singly
Find still locates a value beyond the size-count window, so it stops by
the back-to-head sentinel, not by counting `size` iterations (the counted
scan `findLoopN`, which the circular doubly Find uses, returns nil
there). -/
theorem claim_C8_counterexample :
    CircularSinglyLinkedList.Find
      ({ heap := [⟨10, some 1⟩, ⟨20, some 0⟩], tail := some 0, size := 1 } :
        CircularSinglyLinkedList Int) 10 = some 0 ∧
    findLoopN (sNextF (T := Int) [⟨10, some 1⟩, ⟨20, some 0⟩])
      (sValD [⟨10, some 1⟩, ⟨20, some 0⟩]) 10 (1 : Int).toNat
      (CircularSinglyLinkedList.Head
        ({ heap := [⟨10, some 1⟩, ⟨20, some 0⟩], tail := some 0, size := 1 } :
          CircularSinglyLinkedList Int)) = none := by
  decide

/-- C9: on every reachable list, String() is exactly the spec's display:
the container name with ': []' when empty, otherwise the name, ': ' and
the bracketed values joined by the variant's separator with no trailing
separator. -/
theorem claim_C9 {T : Type} [Inhabited T] [DecidableEq T] [ToString T] :
    (∀ l : SinglyLinkedList T, SReach l →
      sllString l = displayFormat "SinglyLinkedList" " -> " l.ForEachSeq) ∧
    (∀ l : CircularSinglyLinkedList T, CSReach l →
      csllString l = displayFormat "CircularSinglyLinkedList" " -> " l.ForEachSeq) ∧
    (∀ l : DoublyLinkedList T, DReach l →
      dllString l = displayFormat "DoublyLinkedList" " ↔ " l.ForEachSeq) ∧
    (∀ l : CircularDoublyLinkedList T, CDReach l →
      cdllString l = displayFormat "CircularDoublyLinkedList" " <-> " l.ForEachSeq) := by
  refine ⟨?_, ?_, ?_, ?_⟩
  · intro l hr
    obtain ⟨c, hc⟩ := SReach_wf hr
    rw [sllString_spec hc, SLL_ForEachSeq_spec hc,
      ← string_display_bridge "SinglyLinkedList" " -> " c (sValD l.heap)]
    have h1 : ("SinglyLinkedList: []" : String) = "SinglyLinkedList" ++ ": []" := by
      decide
    have h2 : ("SinglyLinkedList: " : String) = "SinglyLinkedList" ++ ": " := by decide
    rw [h1, h2]
  · intro l hr
    obtain ⟨c, hc⟩ := CSReach_wf hr
    rw [csllString_spec hc, CSLL_ForEachSeq_spec hc,
      ← string_display_bridge "CircularSinglyLinkedList" " -> " c (sValD l.heap)]
    have h1 : ("CircularSinglyLinkedList: []" : String) =
        "CircularSinglyLinkedList" ++ ": []" := by decide
    have h2 : ("CircularSinglyLinkedList: " : String) =
        "CircularSinglyLinkedList" ++ ": " := by decide
    rw [h1, h2]
  · intro l hr
    obtain ⟨c, hc⟩ := DReach_wf hr
    rw [dllString_spec hc, DLL_ForEachSeq_spec hc,
      ← string_display_bridge "DoublyLinkedList" " ↔ " c (dValD l.heap)]
    have h1 : ("DoublyLinkedList: []" : String) = "DoublyLinkedList" ++ ": []" := by
      decide
    have h2 : ("DoublyLinkedList: " : String) = "DoublyLinkedList" ++ ": " := by decide
    rw [h1, h2]
  · intro l hr
    obtain ⟨c, hc⟩ := CDReach_wf hr
    rw [cdllString_spec hc, CDLL_ForEachSeq_spec hc,
      ← string_display_bridge "CircularDoublyLinkedList" " <-> " c (dValD l.heap)]
    have h1 : ("CircularDoublyLinkedList: []" : String) =
        "CircularDoublyLinkedList" ++ ": []" := by decide
    have h2 : ("CircularDoublyLinkedList: " : String) =
        "CircularDoublyLinkedList" ++ ": " := by decide
    rw [h1, h2]

/-- Witness for C9: the concrete singleton lists render in exactly the
display format of their variant. -/
theorem claim_C9_witness :
    sllString ((SinglyLinkedList.New (T := Int)).Prepend 3) =
      displayFormat "SinglyLinkedList" " -> "
        ((SinglyLinkedList.New (T := Int)).Prepend 3).ForEachSeq ∧
    csllString ((CircularSinglyLinkedList.New (T := Int)).Prepend 3) =
      displayFormat "CircularSinglyLinkedList" " -> "
        ((CircularSinglyLinkedList.New (T := Int)).Prepend 3).ForEachSeq ∧
    dllString ((DoublyLinkedList.New (T := Int)).Prepend 3) =
      displayFormat "DoublyLinkedList" " ↔ "
        ((DoublyLinkedList.New (T := Int)).Prepend 3).ForEachSeq ∧
    cdllString ((CircularDoublyLinkedList.New (T := Int)).Prepend 3) =
      displayFormat "CircularDoublyLinkedList" " <-> "
        ((CircularDoublyLinkedList.New (T := Int)).Prepend 3).ForEachSeq :=
  ⟨(claim_C9 (T := Int)).1 _ (SReach.prepend 3 SReach.new),
   (claim_C9 (T := Int)).2.1 _ (CSReach.prepend 3 CSReach.new),
   (claim_C9 (T := Int)).2.2.1 _ (DReach.prepend 3 DReach.new),
   (claim_C9 (T := Int)).2.2.2 _ (CDReach.prepend 3 CDReach.new)⟩

/-- C10: in all four variants the observers Find, Contains, Get, String,
ToSlice and the ForEach visit walk, run with the heap explicitly threaded
through every iteration, return the pure result and the very same list:
they mutate nothing. -/
theorem claim_C10 {T : Type} [Inhabited T] [DecidableEq T] [ToString T] :
    (∀ (l : SinglyLinkedList T) (v : T) (index : Int),
      l.FindEff v = (l.Find v, l) ∧
      l.ContainsEff v = (l.Contains v, l) ∧
      l.GetEff index = (l.Get index, l) ∧
      l.ForEachSeqEff = (l.ForEachSeq, l) ∧
      sllStringEff l = (sllString l, l)) ∧
    (∀ (l : CircularSinglyLinkedList T) (v : T) (index : Int),
      l.FindEff v = (l.Find v, l) ∧
      l.ContainsEff v = (l.Contains v, l) ∧
      l.GetEff index = (l.Get index, l) ∧
      l.ForEachSeqEff = (l.ForEachSeq, l) ∧
      csllStringEff l = (csllString l, l)) ∧
    (∀ (l : DoublyLinkedList T) (v : T) (index : Int),
      l.FindEff v = (l.Find v, l) ∧
      l.ContainsEff v = (l.Contains v, l) ∧
      l.GetEff index = (l.Get index, l) ∧
      l.ForEachSeqEff = (l.ForEachSeq, l) ∧
      l.ToSliceEff = (l.ToSlice, l) ∧
      dllStringEff l = (dllString l, l)) ∧
    (∀ (l : CircularDoublyLinkedList T) (v : T) (index : Int),
      l.FindEff v = (l.Find v, l) ∧
      l.ContainsEff v = (l.Contains v, l) ∧
      l.GetEff index = (l.Get index, l) ∧
      l.ForEachSeqEff = (l.ForEachSeq, l) ∧
      cdllStringEff l = (cdllString l, l)) := by
  refine ⟨?_, ?_, ?_, ?_⟩
  · intro l v index
    refine ⟨?_, ?_, ?_, ?_, ?_⟩
    · unfold SinglyLinkedList.FindEff
      rw [findLoopLEff_spec]
      rfl
    · unfold SinglyLinkedList.ContainsEff SinglyLinkedList.FindEff
      rw [findLoopLEff_spec]
      rfl
    · unfold SinglyLinkedList.GetEff SinglyLinkedList.Get
      by_cases h : index < 0 ∨ index ≥ l.size
      · rw [if_pos h, if_pos h]
      · rw [if_neg h, if_neg h, iterNEff_spec]
    · unfold SinglyLinkedList.ForEachSeqEff
      rw [collectLEff_spec]
      rfl
    · unfold sllStringEff sllString
      by_cases h : l.size = 0
      · rw [if_pos h, if_pos h]
      · rw [if_neg h, if_neg h, stringLoopLEff_spec]
  · intro l v index
    refine ⟨?_, ?_, ?_, ?_, ?_⟩
    · unfold CircularSinglyLinkedList.FindEff CircularSinglyLinkedList.Find
      by_cases h : l.size = 0
      · rw [if_pos h, if_pos h]
      · rw [if_neg h, if_neg h, findLoopCEff_spec]
    · unfold CircularSinglyLinkedList.ContainsEff CircularSinglyLinkedList.FindEff
        CircularSinglyLinkedList.Contains CircularSinglyLinkedList.Find
      by_cases h : l.size = 0
      · rw [if_pos h, if_pos h]
      · rw [if_neg h, if_neg h, findLoopCEff_spec]
    · unfold CircularSinglyLinkedList.GetEff CircularSinglyLinkedList.Get
      by_cases h : index < 0 ∨ index ≥ l.size
      · rw [if_pos h, if_pos h]
      · rw [if_neg h, if_neg h, iterNEff_spec]
    · unfold CircularSinglyLinkedList.ForEachSeqEff CircularSinglyLinkedList.ForEachSeq
      by_cases h : l.size = 0
      · rw [if_pos h, if_pos h]
      · rw [if_neg h, if_neg h, collectCEff_spec]
    · unfold csllStringEff csllString
      by_cases h : l.size = 0
      · rw [if_pos h, if_pos h]
      · rw [if_neg h, if_neg h, stringLoopCEff_spec]
  · intro l v index
    refine ⟨?_, ?_, ?_, ?_, ?_, ?_⟩
    · unfold DoublyLinkedList.FindEff
      rw [findLoopLEff_spec]
      rfl
    · unfold DoublyLinkedList.ContainsEff DoublyLinkedList.FindEff
      rw [findLoopLEff_spec]
      rfl
    · unfold DoublyLinkedList.GetEff DoublyLinkedList.Get
      by_cases h : index < 0 ∨ index ≥ l.size
      · rw [if_pos h, if_pos h]
      · rw [if_neg h, if_neg h, iterNEff_spec]
    · unfold DoublyLinkedList.ForEachSeqEff
      rw [collectLEff_spec]
      rfl
    · unfold DoublyLinkedList.ToSliceEff
      rw [collectLEff_spec]
      rfl
    · unfold dllStringEff dllString
      by_cases h : l.size = 0
      · rw [if_pos h, if_pos h]
      · rw [if_neg h, if_neg h, stringLoopLEff_spec]
  · intro l v index
    refine ⟨?_, ?_, ?_, ?_, ?_⟩
    · unfold CircularDoublyLinkedList.FindEff CircularDoublyLinkedList.Find
      by_cases h : l.size = 0
      · rw [if_pos h, if_pos h]
      · rw [if_neg h, if_neg h, findLoopNEff_spec]
    · unfold CircularDoublyLinkedList.ContainsEff CircularDoublyLinkedList.FindEff
        CircularDoublyLinkedList.Contains CircularDoublyLinkedList.Find
      by_cases h : l.size = 0
      · rw [if_pos h, if_pos h]
      · rw [if_neg h, if_neg h, findLoopNEff_spec]
    · unfold CircularDoublyLinkedList.GetEff CircularDoublyLinkedList.Get
      by_cases h : index < 0 ∨ index ≥ l.size
      · rw [if_pos h, if_pos h]
      · rw [if_neg h, if_neg h, iterNEff_spec]
    · unfold CircularDoublyLinkedList.ForEachSeqEff CircularDoublyLinkedList.ForEachSeq
      by_cases h : l.size = 0
      · rw [if_pos h, if_pos h]
      · rw [if_neg h, if_neg h, collectCEff_spec]
    · unfold cdllStringEff cdllString
      by_cases h : l.size = 0
      · rw [if_pos h, if_pos h]
      · rw [if_neg h, if_neg h, stringLoopCEff_spec]
